import Mathlib

/-!
# json-secure-logger: redacting serializer and bounded emitter

A shallow embedding of `src/json-secure-logger.js`.

* JavaScript strings are lists of UTF-16 code units (`JSString`), so `List.length`
  is the `length` property of the string and `List.take` is `substring(0, n)`.
* JavaScript values are the tree `JSVal`; objects list their own enumerable
  properties in the order `Object.keys` reports them.
* Numbers are the doubles of IEEE 754 (`JSNum`): `JSON.parse` rounds the decimal
  value of a number text to the nearest double, ties to even, and `JSON.stringify`
  writes the shortest decimal digits that read back as the same double, laid out
  as `Number.prototype.toString` lays them out. The sign of zero is not kept: the
  program cannot tell `-0` from `0`. `NaN` is no value of the model: neither a
  JSON text nor the program produces it from JSON values.
* The built-ins that the source calls (`JSON.stringify` with a replacer function,
  `JSON.parse`, `String.prototype.replace` with the source's regular expression,
  `match`, `startsWith`, `toLowerCase`, `Object.assign`, `Object.keys`,
  `Date.prototype.toISOString`) are modelled after ECMA-262.
* The clock and the identifier source are arguments: a call of `startInvocation`
  or `trackPoint` takes the time value of its `new Date()`, and `startInvocation`
  the string of its `shortUuid.generate()`.
* A message is a value: it shares no object with the emitter or with itself.
-/

namespace SecureLogger

set_option maxRecDepth 100000

/-! ## Strings -/

/-- A JavaScript string: its UTF-16 code units. -/
abbrev JSString := List Nat

/-- The code units of an ASCII literal. -/
def lit (s : String) : JSString := s.toList.map Char.toNat

/-- Lower-casing of one code unit on `A`-`Z`; every other unit is kept. Two ASCII
letters are equal under the `i` flag of a regular expression without the `u` flag
exactly when their images are equal, and a non-ASCII unit never equals an ASCII
one under that flag. -/
def asciiLower (c : Nat) : Nat := if 65 ≤ c ∧ c ≤ 90 then c + 32 else c

/-- The character class `[a-zA-Z0-9_-]` (the `i` flag adds nothing to it). -/
def isTokenChar (c : Nat) : Bool :=
  (97 ≤ c && c ≤ 122) || (65 ≤ c && c ≤ 90) || (48 ≤ c && c ≤ 57) || c == 95 || c == 45

/-- Whether `pat` occurs in `s` as a contiguous substring. -/
def containsSub (pat : JSString) : JSString → Bool
  | [] => pat.isPrefixOf []
  | c :: t => pat.isPrefixOf (c :: t) || containsSub pat t

/-- The test `s.match(/^pat/i)` for a lower-case ASCII `pat`. -/
def startsWithCI (pat s : JSString) : Bool := pat.isPrefixOf (s.map asciiLower)

/-- The test `s.match(/pat/i)` for a lower-case ASCII `pat`. -/
def containsCI (pat s : JSString) : Bool := containsSub pat (s.map asciiLower)

/-- The test `key.match(/authorization(?!result)/i)`: some position of the key
starts with `authorization` and does not go on with `result`. -/
def matchesAuthorization : JSString → Bool
  | [] => false
  | c :: t =>
    (startsWithCI (lit "authorization") (c :: t)
        && !startsWithCI (lit "result") ((c :: t).drop 13))
      || matchesAuthorization t

/-- The test `key.match(/(secret|signature)/i)`. -/
def matchesSecret (key : JSString) : Bool :=
  containsCI (lit "secret") key || containsCI (lit "signature") key

/-! ## The token pattern

`/(eyJ[a-zA-Z0-9_-]{5,}\.eyJ[a-zA-Z0-9_-]{5,})\.[a-zA-Z0-9_-]*/gi` -/

/-- One `eyJ[a-zA-Z0-9_-]{5,}` at the head of `s`, under the `i` flag: the segment
and what follows it. The quantifier is greedy and the pattern goes on with `\.`,
which is not in the class, so only the longest run can be followed by a match. -/
def matchSegment : JSString → Option (JSString × JSString)
  | e :: y :: j :: t =>
    if asciiLower e = 101 ∧ asciiLower y = 121 ∧ asciiLower j = 106
        ∧ 5 ≤ (t.takeWhile isTokenChar).length then
      some (e :: y :: j :: t.takeWhile isTokenChar, t.dropWhile isTokenChar)
    else none
  | _ => none

/-- A match of the whole pattern at the head of `s`: the first capture group
(header, dot, payload) and the text after the match. -/
def matchJwt (s : JSString) : Option (JSString × JSString) :=
  match matchSegment s with
  | some (h, 46 :: r1) =>
    match matchSegment r1 with
    | some (p, 46 :: r2) => some (h ++ 46 :: p, r2.dropWhile isTokenChar)
    | _ => none
  | _ => none

/-- The test `value.match(/(eyJ…\.eyJ…)\.[…]*/gi)`: the pattern matches somewhere. -/
def hasJwt : JSString → Bool
  | [] => false
  | c :: t => (matchJwt (c :: t)).isSome || hasJwt t

/-- The scan of `replace` with the `g` flag: at a match, the replacement
`p1 + ".<sig>"` is written and the scan goes on after the match; elsewhere one
code unit is copied. The first argument bounds the number of steps. -/
def replaceJwt : Nat → JSString → JSString
  | 0, _ => []
  | _ + 1, [] => []
  | n + 1, c :: t =>
    match matchJwt (c :: t) with
    | some (p1, rest) => p1 ++ lit ".<sig>" ++ replaceJwt n rest
    | none => c :: replaceJwt n t

/-- The source's `truncateToken`. Every step of the scan consumes at least one
code unit, so `length + 1` steps are enough. -/
def truncateToken (innerPayload : JSString) : JSString :=
  replaceJwt (innerPayload.length + 1) innerPayload

/-! ## Numbers -/

/-- Decimal digits of a natural number; the first argument bounds the number of
digits. -/
def natDigits : Nat → Nat → JSString
  | 0, _ => []
  | f + 1, n => if n < 10 then [48 + n] else natDigits f (n / 10) ++ [48 + n % 10]

/-- ToString of a non-negative integer below `10 ^ 21`. -/
def natToString (n : Nat) : JSString := natDigits (n + 1) n

/-- The number denoted by a string of decimal digits, if it is one. -/
def digitsValue : Nat → JSString → Option Nat
  | acc, [] => some acc
  | acc, c :: t => if 48 ≤ c ∧ c ≤ 57 then digitsValue (acc * 10 + (c - 48)) t else none

/-- Whether the code unit is a decimal digit. -/
def isDigit (c : Nat) : Bool := 48 ≤ c && c ≤ 57

/-- A Number other than `NaN`: the finite double `mant * 2 ^ expo` with its sign, or
an infinity. The mantissa of a finite value is odd, or it is zero with the sign
and the exponent of `+0`, so that equal values are equal terms. -/
inductive JSNum where
  | finite (neg : Bool) (mant : Nat) (expo : Int)
  | infinite (neg : Bool)
  deriving DecidableEq, Repr

/-- The number of binary digits of `n`; the first argument bounds it. -/
def binaryDigits : Nat → Nat → Nat
  | 0, _ => 0
  | f + 1, n => if n = 0 then 0 else binaryDigits f (n / 2) + 1

/-- The number of binary digits of `n`. -/
def binaryLength (n : Nat) : Nat := binaryDigits (n + 1) n

/-- Moves the factors of two of a mantissa into the exponent, at most as many as
the first argument. -/
def oddPart : Nat → Nat → Int → Nat × Int
  | 0, m, e => (m, e)
  | f + 1, m, e => if m % 2 = 0 ∧ m ≠ 0 then oddPart f (m / 2) (e + 1) else (m, e)

/-- The double nearest to `a / b`, ties to the even mantissa, with the sign `neg`
(the rounding of ECMA-262 6.1.6.1, roundTiesToEven of IEEE 754). `E` is the
exponent of the leading binary digit of `a / b`; the quotient is cut at 53 binary
digits, or at `2 ^ -1074` for a subnormal; a value that rounds to `2 ^ 1024` or
above is an infinity, one that rounds to nothing is zero. -/
def roundRatio (neg : Bool) (a b : Nat) : JSNum :=
  if a = 0 ∨ b = 0 then .finite false 0 0
  else
    let e0 : Int := (binaryLength a : Int) - (binaryLength b : Int)
    let E : Int := if b * 2 ^ e0.toNat ≤ a * 2 ^ (-e0).toNat then e0 else e0 - 1
    let sh : Int := max (E - 52) (-1074)
    let N := a * 2 ^ (-sh).toNat
    let D := b * 2 ^ sh.toNat
    let m := N / D
    let r := N % D
    let m1 := if D < 2 * r ∨ (2 * r = D ∧ m % 2 = 1) then m + 1 else m
    if m1 = 0 then .finite false 0 0
    else if (1024 : Int) < (binaryLength m1 : Int) + sh then .infinite neg
    else .finite neg (oddPart 64 m1 sh).1 (oddPart 64 m1 sh).2

/-- The double nearest to `s * 10 ^ p`. -/
def roundDecimal (neg : Bool) (s : Nat) (p : Int) : JSNum :=
  roundRatio neg (s * 10 ^ p.toNat) (10 ^ (-p).toNat)

/-- The Number of an integer: the double nearest to it. -/
def JSNum.ofInt : Int → JSNum
  | .ofNat n => roundRatio false n 1
  | .negSucc n => roundRatio true (n + 1) 1

/-- The least `j` from 1 on with `b ≤ a * 10 ^ j`; the first argument bounds the
search. -/
def scaleSteps : Nat → Nat → Nat → Nat
  | 0, _, _ => 1
  | f + 1, a, b => if b ≤ a * 10 then 1 else scaleSteps f (a * 10) b + 1

/-- The `n` with `10 ^ (n - 1) ≤ a / b < 10 ^ n`, for a double `a / b` above zero
(the least one is above `10 ^ -324`). -/
def decimalExponent (a b : Nat) : Int :=
  if b ≤ a then ((natToString (a / b)).length : Int) else 1 - (scaleSteps 400 a b : Int)

/-- The decimal `s * 10 ^ (n - k)` with `k` digits `s` to write for the double `x`
of value `a / b`, if there is one with this `k` (Number::toString, step 5 of
ECMA-262 6.1.6.1.20): of the two decimals with `k` digits that enclose `a / b`,
one that reads back as `x`, the nearer one if both do, the even one if they are
equally near. `n` is the decimal exponent of `a / b`; the upper decimal can be
`10 ^ n`, which has the digit `1` and the exponent `n + 1`. -/
def digitsAt (x : JSNum) (a b : Nat) (n : Int) (k : Nat) : Option (Nat × Int) :=
  let N := a * 10 ^ ((k : Int) - n).toNat
  let D := b * 10 ^ (n - (k : Int)).toNat
  let lo := N / D
  let r := N % D
  let pick : Nat → Nat × Int := fun s => if s = 10 ^ k then (10 ^ (k - 1), n + 1) else (s, n)
  let fits : Nat × Int → Bool :=
    fun c => roundDecimal false c.1 (c.2 - ((natToString c.1).length : Int)) == x
  if fits (pick lo) && fits (pick (lo + 1)) then
    some (pick (if 2 * r < D ∨ (2 * r = D ∧ lo % 2 = 0) then lo else lo + 1))
  else if fits (pick lo) then some (pick lo)
  else if fits (pick (lo + 1)) then some (pick (lo + 1))
  else none

/-- The result of `digitsAt` for the first `k` from the given one on that has one;
the first argument bounds the number of tries. -/
def digitsFrom (x : JSNum) (a b : Nat) (n : Int) : Nat → Nat → Option (Nat × Int)
  | 0, _ => none
  | f + 1, k =>
    match digitsAt x a b n k with
    | some r => some r
    | none => digitsFrom x a b n f (k + 1)

/-- The digits of the exact value of `mant * 2 ^ expo`, with its decimal
exponent. -/
def exactDigits (m : Nat) (e : Int) : Nat × Int :=
  (m * 2 ^ e.toNat * 5 ^ (-e).toNat,
    ((natToString (m * 2 ^ e.toNat * 5 ^ (-e).toNat)).length : Int) + min e 0)

/-- The digits `s` and the exponent `n` that Number::toString writes for the
double `mant * 2 ^ expo` above zero: as few digits as read back as the double.
Seventeen digits tell any two doubles apart, so the search ends there; the exact
digits stand behind it. -/
def shortestDigits (m : Nat) (e : Int) : Nat × Int :=
  (digitsFrom (.finite false m e) (m * 2 ^ e.toNat) (2 ^ (-e).toNat)
    (decimalExponent (m * 2 ^ e.toNat) (2 ^ (-e).toNat)) 17 1).getD (exactDigits m e)

/-- The text of the decimal `s * 10 ^ (n - k)` with the `k` digits `s`
(Number::toString, steps 6 to 10): plain digits up to `10 ^ 21`, a decimal point
down to `10 ^ -7`, and the exponent form outside. -/
def formatDecimal (s : Nat) (n : Int) : JSString :=
  if ((natToString s).length : Int) ≤ n ∧ n ≤ 21 then
    natToString s ++ List.replicate (n - ((natToString s).length : Int)).toNat 48
  else if 0 < n ∧ n ≤ 21 then
    (natToString s).take n.toNat ++ 46 :: (natToString s).drop n.toNat
  else if -6 < n ∧ n ≤ 0 then
    48 :: 46 :: (List.replicate (-n).toNat 48 ++ natToString s)
  else if (natToString s).length = 1 then
    natToString s ++ 101 :: (if n - 1 < 0 then 45 else 43) :: natToString (n - 1).natAbs
  else
    (natToString s).take 1 ++ 46 :: ((natToString s).drop 1
      ++ 101 :: (if n - 1 < 0 then 45 else 43) :: natToString (n - 1).natAbs)

/-- Number::toString in radix 10. -/
def numberToString : JSNum → JSString
  | .infinite neg => if neg then lit "-Infinity" else lit "Infinity"
  | .finite neg m e =>
    if m = 0 then [48]
    else
      (if neg then [45] else [])
        ++ formatDecimal (shortestDigits m e).1 (shortestDigits m e).2

/-- The text `JSON.stringify` writes for a Number: `null` for an infinity. -/
def numberText : JSNum → JSString
  | .infinite _ => lit "null"
  | .finite neg m e => numberToString (.finite neg m e)

/-- Whether the Number is in the form the model keeps: an infinity, the zero `+0`,
or a finite value that is the double nearest to the decimal of its own text.
Every double is (`valid_of_double`), and so is every value that the rounding
returns (`roundRatio_valid`). -/
def JSNum.valid : JSNum → Bool
  | .infinite _ => true
  | .finite neg m e =>
    if m = 0 then !neg && e == 0
    else roundDecimal neg (shortestDigits m e).1
      ((shortestDigits m e).2 - ((natToString (shortestDigits m e).1).length : Int))
        == .finite neg m e

/-- Whether the Number is finite. -/
def JSNum.isFinite : JSNum → Bool
  | .infinite _ => false
  | .finite _ _ _ => true

/-- ToBoolean of a Number. -/
def JSNum.truthy : JSNum → Bool
  | .infinite _ => true
  | .finite _ m _ => m != 0

/-! ## Values -/

/-- A JavaScript value as the logger meets it. -/
inductive JSVal where
  | undefined
  | null
  | bool (b : Bool)
  | num (n : JSNum)
  | str (s : JSString)
  | arr (xs : List JSVal)
  | obj (ps : List (JSString × JSVal))
  deriving Repr

/-- The own enumerable properties of an object, in `Object.keys` order. -/
abbrev Props := List (JSString × JSVal)

/-- ToBoolean. -/
def JSVal.truthy : JSVal → Bool
  | .undefined => false
  | .null => false
  | .bool b => b
  | .num n => n.truthy
  | .str s => !s.isEmpty
  | .arr _ => true
  | .obj _ => true

/-- The array index a property key denotes: a canonical numeric string below
`2^32 - 1`. -/
def arrayIndex (k : JSString) : Option Nat :=
  match k with
  | [] => none
  | _ :: _ =>
    match digitsValue 0 k with
    | some n => if natToString n = k ∧ n < 4294967295 then some n else none
    | none => none

/-- Where a new property goes: array indices come first in ascending order, the
other keys follow in creation order. -/
def insertProp (k : JSString) (v : JSVal) : Props → Props
  | [] => [(k, v)]
  | (k', v') :: ps =>
    match arrayIndex k, arrayIndex k' with
    | some i, some i' => if i < i' then (k, v) :: (k', v') :: ps else (k', v') :: insertProp k v ps
    | some _, none => (k, v) :: (k', v') :: ps
    | none, _ => (k', v') :: insertProp k v ps

/-- Replaces the value of an existing key, keeping its place. -/
def updateProp (k : JSString) (v : JSVal) : Props → Props
  | [] => []
  | (k', v') :: ps => if k' = k then (k', v) :: ps else (k', v') :: updateProp k v ps

/-- Whether the object has the own property `k`. -/
def hasProp (k : JSString) (ps : Props) : Bool := ps.any (fun kv => kv.1 == k)

/-- The assignment `o[k] = v` on an ordinary object. -/
def setProp (ps : Props) (k : JSString) (v : JSVal) : Props :=
  if hasProp k ps then updateProp k v ps else insertProp k v ps

/-- The read `o[k]` of an own property (`undefined` when absent). -/
def getProp (k : JSString) : Props → JSVal
  | [] => .undefined
  | (k', v') :: ps => if k' = k then v' else getProp k ps

/-- The elements of an array as properties keyed by their indices, from `i` on. -/
def indexProps : Nat → List JSVal → Props
  | _, [] => []
  | i, x :: xs => (natToString i, x) :: indexProps (i + 1) xs

/-! ## JSON text -/

/-- A hexadecimal digit, lower case. -/
def hexDigit (n : Nat) : Nat := if n < 10 then 48 + n else 87 + n

/-- The escape `\uXXXX` of a code unit. -/
def unicodeEscape (c : Nat) : JSString :=
  [92, 117, hexDigit (c / 4096 % 16), hexDigit (c / 256 % 16), hexDigit (c / 16 % 16),
    hexDigit (c % 16)]

/-- How QuoteJSONString writes one code unit that is not part of a surrogate
pair. -/
def escapeUnit (c : Nat) : JSString :=
  if c = 8 then [92, 98]
  else if c = 9 then [92, 116]
  else if c = 10 then [92, 110]
  else if c = 12 then [92, 102]
  else if c = 13 then [92, 114]
  else if c = 34 then [92, 34]
  else if c = 92 then [92, 92]
  else if c < 32 then unicodeEscape c
  else if 55296 ≤ c ∧ c ≤ 57343 then unicodeEscape c
  else [c]

/-- The body of QuoteJSONString: a leading surrogate followed by a trailing one is
a code point of its own and is copied, a lone surrogate is escaped. -/
def quoteUnits : JSString → JSString
  | [] => []
  | [c] => escapeUnit c
  | c :: d :: t =>
    if 55296 ≤ c ∧ c ≤ 56319 ∧ 56320 ≤ d ∧ d ≤ 57343 then c :: d :: quoteUnits t
    else escapeUnit c ++ quoteUnits (d :: t)

/-- QuoteJSONString. -/
def quote (s : JSString) : JSString := 34 :: quoteUnits s ++ [34]

/-- Joins the pieces with a separator. -/
def joinWith (sep : JSString) : List JSString → JSString
  | [] => []
  | [x] => x
  | x :: y :: t => x ++ sep ++ joinWith sep (y :: t)

/-- The text of an object or array from its written members (`open`/`close` are
the brackets): `{}` when there is none, else the members with the separators the
gap calls for. -/
def wrapMembers (gap stepback : JSString) (opening closing : Nat)
    (members : List JSString) : JSString :=
  match members with
  | [] => [opening, closing]
  | _ :: _ =>
    if gap = [] then opening :: joinWith [44] members ++ [closing]
    else
      opening :: 10 :: (stepback ++ gap) ++ joinWith (44 :: 10 :: (stepback ++ gap)) members
        ++ 10 :: stepback ++ [closing]

/-- All results when none is missing. -/
def allSome {α : Type} : List (Option α) → Option (List α)
  | [] => some []
  | none :: _ => none
  | some a :: t => (allSome t).map (fun l => a :: l)

/-- One member of an object: the quoted key, the colon (and a space when there is
a gap), the text of the value; nothing for a value that has no text. -/
def memberText (gap key : JSString) : Option JSString → Option JSString
  | none => none
  | some t => some (quote key ++ (if gap = [] then [58] else [58, 32]) ++ t)

/-- One element of an array: `null` stands for a value that has no text. -/
def elementText : Option JSString → JSString
  | none => lit "null"
  | some t => t

/-- SerializeJSONProperty of `JSON.stringify(value, rep, gap)`, with the value
already read from its holder under `key`. `rep` is the replacer function; its
result `none` and the outer `none` of this function mean that the step budget is
used up, the inner `none` is the `undefined` of a value that has no JSON text.
One unit of the budget is used per level of nesting. -/
def serializeProperty (rep : JSString → JSVal → Option JSVal) (gap : JSString) :
    Nat → JSString → JSString → JSVal → Option (Option JSString)
  | 0, _, _, _ => none
  | f + 1, indent, key, value =>
    match rep key value with
    | none => none
    | some .undefined => some none
    | some .null => some (some (lit "null"))
    | some (.bool true) => some (some (lit "true"))
    | some (.bool false) => some (some (lit "false"))
    | some (.num n) => some (some (numberText n))
    | some (.str s) => some (some (quote s))
    | some (.arr xs) =>
      (allSome ((indexProps 0 xs).map
          (fun kv => serializeProperty rep gap f (indent ++ gap) kv.1 kv.2))).map
        (fun rs => some (wrapMembers gap indent 91 93 (rs.map elementText)))
    | some (.obj ps) =>
      (allSome (ps.map
          (fun kv => (serializeProperty rep gap f (indent ++ gap) kv.1 kv.2).map
            (memberText gap kv.1)))).map
        (fun rs => some (wrapMembers gap indent 123 125 (rs.filterMap id)))

/-! ## JSON.parse -/

/-- JSON white space: tab, line feed, carriage return, space. -/
def isWs (c : Nat) : Bool := c == 9 || c == 10 || c == 13 || c == 32

/-- Drops leading white space. -/
def skipWs (s : JSString) : JSString := s.dropWhile isWs

/-- The value of a hexadecimal digit. -/
def hexValue (c : Nat) : Option Nat :=
  if 48 ≤ c ∧ c ≤ 57 then some (c - 48)
  else if 97 ≤ c ∧ c ≤ 102 then some (c - 87)
  else if 65 ≤ c ∧ c ≤ 70 then some (c - 55)
  else none

/-- The code unit of a one-letter escape. -/
def simpleEscape (c : Nat) : Option Nat :=
  if c = 34 then some 34
  else if c = 92 then some 92
  else if c = 47 then some 47
  else if c = 98 then some 8
  else if c = 102 then some 12
  else if c = 110 then some 10
  else if c = 114 then some 13
  else if c = 116 then some 9
  else none

/-- A JSON string after its opening quote: its code units and the text after the
closing quote. -/
def parseStringBody : JSString → Option (JSString × JSString)
  | [] => none
  | c :: t =>
    if c = 34 then some ([], t)
    else if c = 92 then
      match t with
      | [] => none
      | e :: t1 =>
        if e = 117 then
          match t1 with
          | a :: b :: c1 :: d :: t2 =>
            match hexValue a, hexValue b, hexValue c1, hexValue d with
            | some x3, some x2, some x1, some x0 =>
              (parseStringBody t2).map
                (fun r => ((x3 * 4096 + x2 * 256 + x1 * 16 + x0) :: r.1, r.2))
            | _, _, _, _ => none
          | _ => none
        else
          match simpleEscape e with
          | some u => (parseStringBody t1).map (fun r => (u :: r.1, r.2))
          | none => none
    else if c < 32 then none
    else (parseStringBody t).map (fun r => (c :: r.1, r.2))

/-- The integer part of a JSON number: `0`, or a digit from 1 to 9 followed by
digits; its digits and the text after them. -/
def parseIntegerPart (s : JSString) : Option (JSString × JSString) :=
  match s with
  | [] => none
  | c :: t =>
    if c = 48 then some ([48], t)
    else if 49 ≤ c ∧ c ≤ 57 then some (c :: t.takeWhile isDigit, t.dropWhile isDigit)
    else none

/-- The fraction of a JSON number, if the text goes on with one: a point and at
least one digit; its digits and the text after them. -/
def parseFraction (s : JSString) : Option (JSString × JSString) :=
  match s with
  | [] => some ([], [])
  | c :: t =>
    if c = 46 then
      if (t.takeWhile isDigit).isEmpty then none
      else some (t.takeWhile isDigit, t.dropWhile isDigit)
    else some ([], c :: t)

/-- The digits of an exponent, at least one, with the sign read before them. -/
def parseExponentDigits (neg : Bool) (s : JSString) : Option (Int × JSString) :=
  if (s.takeWhile isDigit).isEmpty then none
  else
    match digitsValue 0 (s.takeWhile isDigit) with
    | some n => some (if neg then -(n : Int) else (n : Int), s.dropWhile isDigit)
    | none => none

/-- The exponent of a JSON number, if the text goes on with one: `e` or `E`, a
sign or none, and digits; zero without one. -/
def parseExponent (s : JSString) : Option (Int × JSString) :=
  match s with
  | [] => some (0, [])
  | c :: t =>
    if c = 101 ∨ c = 69 then
      match t with
      | [] => none
      | d :: u =>
        if d = 43 then parseExponentDigits false u
        else if d = 45 then parseExponentDigits true u
        else parseExponentDigits false (d :: u)
    else some (0, c :: t)

/-- A JSON number after its sign: the double nearest to the decimal that its
digits, its fraction and its exponent denote. -/
def parseUnsigned (neg : Bool) (s : JSString) : Option (JSNum × JSString) :=
  match parseIntegerPart s with
  | none => none
  | some (ds, r1) =>
    match parseFraction r1 with
    | none => none
    | some (fs, r2) =>
      match parseExponent r2 with
      | none => none
      | some (e, r3) =>
        match digitsValue 0 (ds ++ fs) with
        | some v => some (roundDecimal neg v (e - (fs.length : Int)), r3)
        | none => none

/-- A JSON number at the head of the text and the text after it. -/
def parseNumber (s : JSString) : Option (JSNum × JSString) :=
  match s with
  | [] => none
  | c :: t => if c = 45 then parseUnsigned true t else parseUnsigned false (c :: t)

/-- Builds an object from its members in the order of the text: a repeated key
keeps its place and takes the later value. -/
def objectOfMembers (members : Props) : Props :=
  members.foldl (fun acc kv => setProp acc kv.1 kv.2) []

mutual
/-- One JSON value at the head of the text (after white space) and the text after
it. The first argument bounds the depth of the calls. -/
def parseValue : Nat → JSString → Option (JSVal × JSString)
  | 0, _ => none
  | f + 1, s =>
    match skipWs s with
    | [] => none
    | c :: t =>
      if c = 34 then (parseStringBody t).map (fun r => (JSVal.str r.1, r.2))
      else if c = 91 then
        if (skipWs t).head? = some 93 then some (JSVal.arr [], (skipWs t).tail)
        else (parseElements f t).map (fun r => (JSVal.arr r.1, r.2))
      else if c = 123 then
        if (skipWs t).head? = some 125 then some (JSVal.obj [], (skipWs t).tail)
        else (parseMembers f t).map (fun r => (JSVal.obj (objectOfMembers r.1), r.2))
      else if (lit "true").isPrefixOf (c :: t) then some (JSVal.bool true, (c :: t).drop 4)
      else if (lit "false").isPrefixOf (c :: t) then some (JSVal.bool false, (c :: t).drop 5)
      else if (lit "null").isPrefixOf (c :: t) then some (JSVal.null, (c :: t).drop 4)
      else (parseNumber (c :: t)).map (fun r => (JSVal.num r.1, r.2))
/-- The elements of an array up to and including its closing bracket. -/
def parseElements : Nat → JSString → Option (List JSVal × JSString)
  | 0, _ => none
  | f + 1, s =>
    match parseValue f s with
    | none => none
    | some (v, r) =>
      match skipWs r with
      | [] => none
      | c :: t =>
        if c = 44 then (parseElements f t).map (fun q => (v :: q.1, q.2))
        else if c = 93 then some ([v], t)
        else none
/-- The members of an object up to and including its closing brace. -/
def parseMembers : Nat → JSString → Option (Props × JSString)
  | 0, _ => none
  | f + 1, s =>
    match skipWs s with
    | [] => none
    | c :: t =>
      if c = 34 then
        match parseStringBody t with
        | none => none
        | some (k, r) =>
          match skipWs r with
          | [] => none
          | c2 :: t2 =>
            if c2 = 58 then
              match parseValue f t2 with
              | none => none
              | some (v, r2) =>
                match skipWs r2 with
                | [] => none
                | c3 :: t3 =>
                  if c3 = 44 then (parseMembers f t3).map (fun q => ((k, v) :: q.1, q.2))
                  else if c3 = 125 then some ([(k, v)], t3)
                  else none
            else none
      else none
end

/-- The built-in `JSON.parse`: `none` when it throws a SyntaxError. Each nested call
of the parser comes after at most one call that reads no code unit, so twice the
length of the text bounds the depth. -/
def jsonParse (text : JSString) : Option JSVal :=
  match parseValue (2 * text.length + 2) text with
  | some (v, r) => if skipWs r = [] then some v else none
  | none => none

/-! ## The replacer -/

/-- The read `uselessHeaders[name]` as a condition. The eight own keys hold `true`;
a read on an object literal also finds what the object inherits from
`Object.prototype`, and of the inherited names `constructor` and `__proto__` are
the ones a lower-cased name can be equal to; both hold an object, which is
truthy. -/
def uselessHeaders (name : JSString) : Bool :=
  [lit "accept-language", lit "content-length", lit "content-type", lit "x-forwarded-for",
    lit "x-forwarded-port", lit "x-forwarded-proto", lit "accept", lit "accept-encoding",
    lit "constructor", lit "__proto__"].contains name

/-- The keys and values `Object.keys(value)` and `value[h]` go through: the
properties of an object, the elements of an array under their indices. -/
def ownProps : JSVal → Props
  | .obj ps => ps
  | .arr xs => indexProps 0 xs
  | _ => []

/-- The object `newHeaders` of the headers rule. `toLowerCase` is taken on
`A`-`Z`: a name with any other letter that has a lower case still holds a code
unit outside ASCII or a `k` after it, and no name of the table does. -/
def newHeaders (value : JSVal) : Props :=
  (((ownProps value).map (fun kv => kv.1)).filter
      (fun h => !uselessHeaders (h.map asciiLower))).foldl
    (fun acc h => setProp acc h (getProp h (ownProps value))) []

/-- The condition of the authorization rule (source lines 13-14). -/
def authorizationRule (key : JSString) (value : JSVal) : Bool :=
  match value with
  | .str s =>
    !s.isEmpty && !key.isEmpty && (matchesAuthorization key || startsWithCI (lit "bearer") s)
      && !hasJwt s
  | _ => false

/-- The condition of the secret rule (source line 18). -/
def secretRule (key : JSString) (value : JSVal) : Bool :=
  !key.isEmpty && matchesSecret key && value.truthy

/-- The condition of the identity rule (source line 22). -/
def identityRule (key : JSString) (value : JSVal) : Bool :=
  match value with
  | .obj ps =>
    !key.isEmpty && containsSub (lit "identity") key && hasProp (lit "cognitoIdentityPoolId") ps
  | _ => false

/-- The condition of the headers rule (source line 26). -/
def headersRule (key : JSString) (value : JSVal) : Bool :=
  match value with
  | .obj _ => key = lit "headers"
  | .arr _ => key = lit "headers"
  | _ => false

/-- The condition of the document rule (source line 44). -/
def doctypeRule (value : JSVal) : Bool :=
  match value with
  | .str s => (lit "<!DOCTYPE html>").isPrefixOf s
  | _ => false

/-- The body rule (source lines 6-12): the parsed value of a string under the key
`body`, or the string itself when `JSON.parse` throws. -/
def bodyRule (key : JSString) (value : JSVal) : Option JSVal :=
  match value with
  | .str s =>
    if key = lit "body" then
      match jsonParse s with
      | some v => some v
      | none => some value
    else none
  | _ => none

/-- The value `JSON.parse(stringify(newHeaders, replacer))` from the text of the
inner serialization: `none` when there is no text or `JSON.parse` throws. -/
def parseHeaders : Option (Option JSString) → Option JSVal
  | some (some text) => jsonParse text
  | _ => none

/-- The body of the source's `replacer(key, value)`, rule by rule in the order of
the source; `headers` computes line 37-38 for the value. -/
def replacerWith (headers : JSVal → Option JSVal) (key : JSString) (value : JSVal) :
    Option JSVal :=
  match bodyRule key value with
  | some r => some r
  | none =>
    if authorizationRule key value then some (.str (lit "{AUTHORIZATION}"))
    else if secretRule key value then some (.str (lit "{SECRET}"))
    else if identityRule key value then some (.str (lit "{-}"))
    else if headersRule key value then headers value
    else if key = lit "multiValueHeaders" then some .undefined
    else if doctypeRule value then some (.str (lit "<HTML DOCUMENT></HTML>"))
    else some value

/-- The source's `replacer(key, value)`. The first argument bounds the nesting of
the headers rule, which runs the whole serialization inside the replacer; `none`
means that this bound is used up (or that the inner `JSON.parse` threw). -/
def replacer : Nat → JSString → JSVal → Option JSVal
  | 0 => replacerWith (fun _ => none)
  | m + 1 =>
    replacerWith (fun value =>
      parseHeaders (serializeProperty (replacer m) [] m [] [] (.obj (newHeaders value))))

/-- The call `stringify(value, replacer, spaces)` of json-stringify-safe on a value
without cycles, with a bound on the nesting. -/
def stringifyWith (budget : Nat) (value : JSVal) (gap : JSString) : Option (Option JSString) :=
  serializeProperty (replacer budget) gap budget [] [] value

mutual
/-- A bound on the nesting that the serialization of a value goes through: a
string that parses may be replaced by a tree as deep as it is long, and an object
may be walked twice by the headers rule. -/
def budget : JSVal → Nat
  | .str s => if (jsonParse s).isSome then s.length + 1 else 1
  | .arr xs => budgetList xs + 2
  | .obj ps => budgetProps ps + 2
  | _ => 1
/-- The largest bound among the elements. -/
def budgetList : List JSVal → Nat
  | [] => 0
  | x :: xs => max (budget x) (budgetList xs)
/-- The largest bound among the property values. -/
def budgetProps : Props → Nat
  | [] => 0
  | kv :: ps => max (budget kv.2) (budgetProps ps)
end

/-- The call `stringify(value, replacer, spaces)`: the outer `none` stands for a
serialization that does not finish, the inner one for the result `undefined`. -/
def stringify (value : JSVal) (gap : JSString) : Option (Option JSString) :=
  stringifyWith (budget value) value gap

/-! ## The emitter -/

/-- The state of a `RequestLogger`. `invocationId` is `null` (`none`) or the
string of the identifier source, `startTime` is `null` or a time in milliseconds,
`metadata` is the object held in `this.metadata`. -/
structure RequestLogger where
  invocationId : Option JSString
  logDebug : Bool
  startTime : Option Int
  metadata : Props

/-- What a call of `log` does. -/
inductive LogResult where
  /-- The message was refused: the text went to `console.error`, not to the sink. -/
  | rejected (diagnostic : JSString)
  /-- A debug message while debug logging is off: nothing is written. -/
  | suppressed
  /-- The sink was called once with this string. -/
  | emitted (line : JSString)
  /-- The call raised a TypeError. -/
  | threw
  /-- The serialization did not finish within its bound. -/
  | unfinished
  deriving Repr

/-- The value of `this.invocationId`. -/
def RequestLogger.idValue (self : RequestLogger) : JSVal :=
  match self.invocationId with
  | none => .null
  | some s => .str s

/-- The call `Object.assign(target, source)` on two objects. -/
def objectAssign (target source : Props) : Props :=
  source.foldl (fun acc kv => setProp acc kv.1 kv.2) target

/-- Lines 84-86: `if (!messageAsObject.level) messageAsObject.level = 'INFO'`. -/
def withLevel (ps : Props) : Props :=
  if (getProp (lit "level") ps).truthy then ps else setProp ps (lit "level") (.str (lit "INFO"))

/-- The comparison `level === 'DEBUG'`. -/
def isDebug : JSVal → Bool
  | .str s => s = lit "DEBUG"
  | _ => false

/-- The value `messageAsObject.invocationId = this.invocationId` leaves in the
named properties of the message, after the level default. -/
def stampedMessage (self : RequestLogger) (named : Props) : Props :=
  setProp (withLevel named) (lit "invocationId") self.idValue

/-- The object `payload` of line 93. -/
def buildPayload (self : RequestLogger) (version : JSString) (shownMessage : JSVal) : JSVal :=
  .obj [(lit "message", shownMessage),
    (lit "metadata", .obj (objectAssign [(lit "nodejs", .str version)] self.metadata))]

/-- The object `replacementPayload` of line 105; `keys` is `Object.keys(messageAsObject)`
and `compact` the text of `stringify(payload, replacer)`. -/
def buildReplacement (self : RequestLogger) (stamped : Props) (keys : List JSString)
    (compact : JSString) : JSVal :=
  .obj [(lit "invocationId", self.idValue),
    (lit "message", .obj
      [(lit "title", .str (lit "Payload too large")),
        (lit "level", .str (lit "ERROR")),
        (lit "originalInfo", .obj
          [(lit "level", getProp (lit "level") stamped),
            (lit "title", getProp (lit "title") stamped),
            (lit "fields", .arr (keys.map .str))]),
        (lit "truncatedPayload", .str ((truncateToken compact).take 40000))])]

/-- Lines 84-120 of `log`. `named` holds the properties of `messageAsObject` that
are read and written by name, `indices` its index keys and `shown` the value that
is serialized for it: for an object message the object itself, for an array
message the array, whose named properties `JSON.stringify` leaves out. A result
`undefined` of `stringify` would make `truncateToken` raise a TypeError, and one of
the second `stringify` would hand `undefined` to the sink; the payload and the
summary are objects, so neither occurs. -/
def logObject (self : RequestLogger) (version : JSString) (indices : List JSString)
    (shown : Props → JSVal) (named : Props) : LogResult :=
  if isDebug (getProp (lit "level") (withLevel named)) && !self.logDebug then .suppressed
  else
    match stringify (buildPayload self version (shown (stampedMessage self named))) (lit "  ") with
    | none => .unfinished
    | some none => .threw
    | some (some text) =>
      if 131072 ≤ (truncateToken text).length then
        match stringify (buildPayload self version (shown (stampedMessage self named))) [] with
        | none => .unfinished
        | some none => .threw
        | some (some compact) =>
          match stringify
              (buildReplacement self (stampedMessage self named)
                (indices ++ (stampedMessage self named).map (fun kv => kv.1)) compact)
              (lit "  ") with
          | none => .unfinished
          | some none => .emitted (lit "undefined")
          | some (some out) => .emitted out
      else .emitted (truncateToken text)

/-- The method `log(message)`; `version` is `process.version`. The body of a class
is strict code, so the assignment of `level` to a number or a boolean raises a
TypeError, as does `Object.keys(null)`. -/
def log (self : RequestLogger) (version : JSString) (message : JSVal) : LogResult :=
  match message with
  | .undefined => .rejected (lit "Empty message string.")
  | .str s =>
    if s.isEmpty then .rejected (lit "Empty message string.")
    else logObject self version [] .obj [(lit "title", .str s)]
  | .null => .threw
  | .obj ps =>
    if ps.isEmpty then .rejected (lit "Empty message object.")
    else logObject self version [] .obj ps
  | .arr xs =>
    if xs.isEmpty then .rejected (lit "Empty message object.")
    else logObject self version ((indexProps 0 xs).map (fun kv => kv.1)) (fun _ => .arr xs) []
  | .num _ => .threw
  | .bool _ => .threw

/-! ## The tree behind the text

`JSON.stringify` with a replacer writes the text of a tree that it never builds.
`redact` builds that tree and `render` writes a tree without a replacer, so that
the text of `serializeProperty` is the rendering of the redacted tree. -/

/-- The members of a value that the replacer returned, each treated by `go`: a
member without a value is left out of an object and is `null` in an array. An
infinity is written as `null`. -/
def descend (go : JSString → JSVal → Option (Option JSVal)) : JSVal → Option (Option JSVal)
  | .undefined => some none
  | .null => some (some .null)
  | .bool b => some (some (.bool b))
  | .num n => some (some (if n.isFinite then .num n else .null))
  | .str s => some (some (.str s))
  | .arr xs =>
    (allSome ((indexProps 0 xs).map (fun kv => go kv.1 kv.2))).map
      (fun rs => some (.arr (rs.map (fun r => r.getD .null))))
  | .obj ps =>
    (allSome (ps.map (fun kv => (go kv.1 kv.2).map (fun r => r.map (fun t => (kv.1, t)))))).map
      (fun rs => some (.obj (rs.filterMap id)))

/-- The value that `serializeProperty` writes under `key`: the replacer is applied,
then the members of the result are treated in turn. Same bounds and same `none` as
`serializeProperty`. -/
def redact (rep : JSString → JSVal → Option JSVal) : Nat → JSString → JSVal → Option (Option JSVal)
  | 0, _, _ => none
  | f + 1, key, value =>
    match rep key value with
    | none => none
    | some r => descend (redact rep f) r

/-- The colon of a member, with a space when there is a gap. -/
def colon (gap : JSString) : JSString := if gap = [] then [58] else [58, 32]

mutual
/-- The text `JSON.stringify(t, null, gap)` of a tree at the indentation `indent`. -/
def render (gap : JSString) : JSString → JSVal → JSString
  | _, .undefined => lit "null"
  | _, .null => lit "null"
  | _, .bool true => lit "true"
  | _, .bool false => lit "false"
  | _, .num n => numberText n
  | _, .str s => quote s
  | indent, .arr xs => wrapMembers gap indent 91 93 (renderList gap (indent ++ gap) xs)
  | indent, .obj ps => wrapMembers gap indent 123 125 (renderProps gap (indent ++ gap) ps)
/-- The texts of the elements of an array. -/
def renderList (gap : JSString) : JSString → List JSVal → List JSString
  | _, [] => []
  | indent, x :: xs => render gap indent x :: renderList gap indent xs
/-- The texts of the members of an object. -/
def renderProps (gap : JSString) : JSString → Props → List JSString
  | _, [] => []
  | indent, kv :: ps =>
    (quote kv.1 ++ colon gap ++ render gap indent kv.2) :: renderProps gap indent ps
end

/-- The order of two keys of an object: they differ, an array index comes before a
key that is none, and two array indices are in ascending order. -/
def keyBefore (a b : JSString) : Bool :=
  a != b &&
    match arrayIndex a, arrayIndex b with
    | some i, some j => i < j
    | some _, none => true
    | none, some _ => false
    | none, none => true

/-- The keys are in an order that `Object.keys` can report: no key twice, array
indices first and ascending. -/
def keysOrdered : List JSString → Bool
  | [] => true
  | k :: ks => ks.all (keyBefore k) && keysOrdered ks

mutual
/-- A value that can exist: the keys of every object are in `Object.keys` order and
every Number is in the form the model keeps. -/
def wellFormed : JSVal → Bool
  | .num n => n.valid
  | .arr xs => wellFormedList xs
  | .obj ps => keysOrdered (ps.map (fun kv => kv.1)) && wellFormedProps ps
  | _ => true
/-- All elements are well formed. -/
def wellFormedList : List JSVal → Bool
  | [] => true
  | x :: xs => wellFormed x && wellFormedList xs
/-- All property values are well formed. -/
def wellFormedProps : Props → Bool
  | [] => true
  | kv :: ps => wellFormed kv.2 && wellFormedProps ps
end

mutual
/-- No `undefined` and no infinity anywhere in the value: a tree that JSON text
denotes. -/
def defined : JSVal → Bool
  | .undefined => false
  | .num n => n.isFinite
  | .arr xs => definedList xs
  | .obj ps => definedProps ps
  | _ => true
/-- No `undefined` in the elements. -/
def definedList : List JSVal → Bool
  | [] => true
  | x :: xs => defined x && definedList xs
/-- No `undefined` in the property values. -/
def definedProps : Props → Bool
  | [] => true
  | kv :: ps => defined kv.2 && definedProps ps
end

mutual
/-- The depth of calls that the parser needs for the text of a tree. -/
def parseDepth : JSVal → Nat
  | .arr xs => parseDepthList xs + 1
  | .obj ps => parseDepthProps ps + 1
  | _ => 1
/-- The depth of calls for the elements of an array. -/
def parseDepthList : List JSVal → Nat
  | [] => 0
  | x :: xs => max (parseDepth x) (parseDepthList xs) + 1
/-- The depth of calls for the members of an object. -/
def parseDepthProps : Props → Nat
  | [] => 0
  | kv :: ps => max (parseDepth kv.2) (parseDepthProps ps) + 1
end

/-- All code units are JSON white space. -/
def allWs (s : JSString) : Bool := s.all isWs

/-- A segment of a token as the claims describe it: `eyJ` followed by at least five
characters of the class. -/
def IsSegment (h : JSString) : Prop :=
  ∃ t, h = lit "eyJ" ++ t ∧ 5 ≤ t.length ∧ ∀ c ∈ t, isTokenChar c = true

/-- The text of the members of an array or object after the opening bracket, up to
the closing one and the text after it: `w1` stands before every member and `w2`
before the closing bracket. -/
def membersText (w1 w2 : JSString) (closing : Nat) : List JSString → JSString → JSString
  | [], rest => w2 ++ closing :: rest
  | [x], rest => w1 ++ x ++ (w2 ++ closing :: rest)
  | x :: y :: t, rest => w1 ++ x ++ 44 :: membersText w1 w2 closing (y :: t) rest

/-- The white space before every member. -/
def gapBefore (gap stepback : JSString) : JSString :=
  if gap = [] then [] else 10 :: (stepback ++ gap)

/-- The white space before the closing bracket. -/
def gapAfter (gap stepback : JSString) : JSString :=
  if gap = [] then [] else 10 :: stepback

/-- The first code unit of a rendering opens a value. -/
def opensValue (c : Nat) : Prop :=
  (48 ≤ c ∧ c ≤ 57) ∨ c = 45 ∨ c = 34 ∨ c = 91 ∨ c = 123 ∨ c = 110 ∨ c = 116 ∨ c = 102

/-- The text after a value does not go on with a code unit that a number could go
on with: a digit, a point or the mark of an exponent. -/
def numberEnds (rest : JSString) : Prop :=
  ∀ c, rest.head? = some c → isDigit c = false ∧ c ≠ 46 ∧ c ≠ 101 ∧ c ≠ 69

/-- The three statements of the round trip at one depth of calls. -/
def RoundTripAt (gap : JSString) (f : Nat) : Prop :=
  (∀ t, parseDepth t ≤ f → defined t = true → wellFormed t = true →
    ∀ indent pre rest, allWs indent = true → allWs pre = true → numberEnds rest →
      parseValue f (pre ++ (render gap indent t ++ rest)) = some (t, rest))
  ∧ (∀ xs, xs ≠ [] → parseDepthList xs ≤ f → definedList xs = true → wellFormedList xs = true →
    ∀ indent w1 w2 rest, allWs indent = true → allWs w1 = true → allWs w2 = true →
      parseElements f (membersText w1 w2 93 (renderList gap indent xs) rest) = some (xs, rest))
  ∧ (∀ ps, ps ≠ [] → parseDepthProps ps ≤ f → definedProps ps = true → wellFormedProps ps = true →
    ∀ indent w1 w2 rest, allWs indent = true → allWs w1 = true → allWs w2 = true →
      parseMembers f (membersText w1 w2 125 (renderProps gap indent ps) rest) = some (ps, rest))

/-- A result of the redaction that is a tree of JSON text within a bound. -/
def Settled (out : Option JSVal) (bound : Nat) : Prop :=
  ∀ t, out = some t → defined t = true ∧ wellFormed t = true ∧ budget t ≤ bound

/-- The redaction of a value finishes within every bound that is at least the
budget of the value, and its result is a tree that needs no larger budget. -/
def Finishes (v : JSVal) : Prop :=
  ∀ (n f : Nat) (key : JSString), budget v ≤ n → budget v ≤ f →
    ∃ out, redact (replacer n) f key v = some out ∧ Settled out (budget v)

/-- The tree that the serialization of `value` under `key` writes, at the budget of
the value. -/
def redacted (key : JSString) (value : JSVal) : Option (Option JSVal) :=
  redact (replacer (budget value)) (budget value) key value

/-- Two decimal digits of a number. -/
def twoDigits (n : Nat) : JSString := [48 + n / 10 % 10, 48 + n % 10]

/-- Three decimal digits of a number. -/
def threeDigits (n : Nat) : JSString := [48 + n / 100 % 10, 48 + n / 10 % 10, 48 + n % 10]

/-- The year of `toISOString`: four digits from 0 to 9999, else a sign and six
digits. -/
def yearText (y : Int) : JSString :=
  if 0 ≤ y ∧ y ≤ 9999 then (48 + y.toNat / 1000 % 10) :: threeDigits y.toNat
  else (if y < 0 then 45 else 43)
    :: (48 + y.natAbs / 100000 % 10) :: (48 + y.natAbs / 10000 % 10)
    :: (48 + y.natAbs / 1000 % 10) :: threeDigits y.natAbs

/-- The year, the month and the day of a time value in milliseconds since the
epoch, in the proleptic Gregorian calendar. -/
def civilDate (t : Int) : Int × Nat × Nat :=
  let z := t / 86400000 + 719468
  let era := z / 146097
  let doe := (z % 146097).toNat
  let yoe := (doe + doe / 36524 - doe / 1460 - doe / 146096) / 365
  let doy := doe - (365 * yoe + yoe / 4 - yoe / 100)
  let mp := (5 * doy + 2) / 153
  let d := doy - (153 * mp + 2) / 5 + 1
  let m := if mp < 10 then mp + 3 else mp - 9
  ((yoe : Int) + era * 400 + (if m ≤ 2 then 1 else 0), m, d)

/-- The method `Date.prototype.toISOString` on a time value in milliseconds since
the epoch: `YYYY-MM-DDTHH:mm:ss.sssZ`. -/
def toISOString (t : Int) : JSString :=
  yearText (civilDate t).1 ++ 45 :: twoDigits (civilDate t).2.1
    ++ 45 :: twoDigits (civilDate t).2.2
    ++ 84 :: twoDigits ((t % 86400000).toNat / 3600000)
    ++ 58 :: twoDigits ((t % 86400000).toNat / 60000 % 60)
    ++ 58 :: twoDigits ((t % 86400000).toNat / 1000 % 60)
    ++ 46 :: threeDigits ((t % 86400000).toNat % 1000) ++ [90]

/-- The emitter that the constructor builds (source lines 51-57). -/
def RequestLogger.constructor : RequestLogger :=
  RequestLogger.mk none true none [(lit "tracking", .arr [])]

/-- The own enumerable properties that `Object.assign` copies from `metadata || {}`:
those of an object, the elements of an array and the characters of a string under
their indices, none of any other value. -/
def assignSource : JSVal → Props
  | .obj ps => ps
  | .arr xs => indexProps 0 xs
  | .str s => indexProps 0 (s.map (fun c => JSVal.str [c]))
  | _ => []

/-- The method `startInvocation(metadata)` (source lines 59-63); `id` is the result
of `shortUuid.generate()` and `now` the time value of `new Date()`. -/
def RequestLogger.startInvocation (self : RequestLogger) (id : JSString) (now : Int)
    (metadata : JSVal) : RequestLogger :=
  RequestLogger.mk (some id) self.logDebug (some now)
    (objectAssign [(lit "tracking", .arr [.obj [(lit "Start", .str (toISOString now))]])]
      (assignSource metadata))

/-- The method `trackPoint(pointName)` (source lines 65-67); `now` is the time value
of `new Date()`, and a `startTime` of `null` counts as 0 in the subtraction. The
result is `none` when `this.metadata.tracking` is not an array, where the call of
`push` raises a TypeError. -/
def RequestLogger.trackPoint (self : RequestLogger) (pointName : JSString) (now : Int) :
    Option RequestLogger :=
  match getProp (lit "tracking") self.metadata with
  | .arr xs =>
    some (RequestLogger.mk self.invocationId self.logDebug self.startTime
      (setProp self.metadata (lit "tracking")
        (.arr (xs ++ [.obj [(pointName, .num (JSNum.ofInt (now - self.startTime.getD 0)))]]))))
  | _ => none

/-- The emitter after a call of `log` and what the call did: `log` assigns to no
field of `this`. The message is a value of its own, it shares no object with the
emitter. -/
def logCall (self : RequestLogger) (version : JSString) (message : JSVal) :
    RequestLogger × LogResult :=
  (self, log self version message)

/-- A call of one of the three methods. -/
inductive Call where
  | startInvocation (id : JSString) (now : Int) (metadata : JSVal)
  | trackPoint (pointName : JSString) (now : Int)
  | log (message : JSVal)

/-- The emitter after a call; a call that raises an error leaves it as it was. -/
def RequestLogger.perform (self : RequestLogger) (version : JSString) : Call → RequestLogger
  | .startInvocation id now metadata => self.startInvocation id now metadata
  | .trackPoint pointName now => (self.trackPoint pointName now).getD self
  | .log message => (logCall self version message).1

/-- The emitter after a sequence of calls. -/
def RequestLogger.performAll (self : RequestLogger) (version : JSString) (calls : List Call) :
    RequestLogger :=
  calls.foldl (fun s c => s.perform version c) self

/-- The call is a `startInvocation`. -/
def Call.isStart : Call → Bool
  | .startInvocation _ _ _ => true
  | _ => false

/-- The metadata of a `startInvocation` call has no property `tracking`. -/
def Call.plainMetadata : Call → Bool
  | .startInvocation _ _ metadata => !hasProp (lit "tracking") (assignSource metadata)
  | _ => true

/-- The messages that `log` does not reject (source lines 72-82): a non-empty
string, an object or an array with a key. -/
def accepted : JSVal → Bool
  | .str s => !s.isEmpty
  | .obj ps => !ps.isEmpty
  | .arr xs => !xs.isEmpty
  | _ => false

/-- The properties of `messageAsObject` that are read and written by name: the
title for a string, the properties of an object, none for an array. -/
def namedProps : JSVal → Props
  | .str s => [(lit "title", .str s)]
  | .obj ps => ps
  | _ => []

/-- The index keys of `messageAsObject`: those of an array. -/
def indexKeys : JSVal → List JSString
  | .arr xs => (indexProps 0 xs).map (fun kv => kv.1)
  | _ => []

/-- The value that is serialized for `messageAsObject` when its named properties
are `named`. -/
def shownMessage : JSVal → Props → JSVal
  | .arr xs, _ => .arr xs
  | _, named => .obj named

/-- The object `payload` of line 93 for a message that is not rejected. -/
def logPayload (self : RequestLogger) (version : JSString) (message : JSVal) : JSVal :=
  buildPayload self version (shownMessage message (stampedMessage self (namedProps message)))

/-- The list `Object.keys(messageAsObject)` of line 113. -/
def messageKeys (self : RequestLogger) (message : JSVal) : List JSString :=
  indexKeys message ++ (stampedMessage self (namedProps message)).map (fun kv => kv.1)

/-- The entry that `trackPoint` appends for a point. -/
def trackEntry (start : Int) (point : JSString × Int) : JSVal :=
  .obj [(point.1, .num (JSNum.ofInt (point.2 - start)))]

/-- The emitter after the calls `trackPoint(label)` for the points in turn. -/
def trackPoints (self : RequestLogger) : List (JSString × Int) → Option RequestLogger
  | [] => some self
  | p :: ps => (self.trackPoint p.1 p.2).bind (fun s => trackPoints s ps)

/-- The exponent of the leading binary digit of `a / b`, as `roundRatio` finds
it. -/
def leadExp (a b : Nat) : Int :=
  if b * 2 ^ ((binaryLength a : Int) - (binaryLength b : Int)).toNat
      ≤ a * 2 ^ (-((binaryLength a : Int) - (binaryLength b : Int))).toNat
    then (binaryLength a : Int) - (binaryLength b : Int)
    else (binaryLength a : Int) - (binaryLength b : Int) - 1

/-- The quotient `a / (b * 2 ^ sh)` rounded to an integer, ties to even, as
`roundRatio` cuts it. -/
def cutMant (a b : Nat) (sh : Int) : Nat :=
  if b * 2 ^ sh.toNat < 2 * (a * 2 ^ (-sh).toNat % (b * 2 ^ sh.toNat))
      ∨ (2 * (a * 2 ^ (-sh).toNat % (b * 2 ^ sh.toNat)) = b * 2 ^ sh.toNat
        ∧ a * 2 ^ (-sh).toNat / (b * 2 ^ sh.toNat) % 2 = 1)
    then a * 2 ^ (-sh).toNat / (b * 2 ^ sh.toNat) + 1
    else a * 2 ^ (-sh).toNat / (b * 2 ^ sh.toNat)

/-- The tracking sequence begins with the start of the invocation. -/
def Tracked (self : RequestLogger) : Prop :=
  ∃ t rest, self.startTime = some t
    ∧ getProp (lit "tracking") self.metadata
      = .arr (.obj [(lit "Start", .str (toISOString t))] :: rest)

/-- The text `x` stands somewhere in the text `y`. -/
def Within (x y : JSString) : Prop := ∃ a b, y = a ++ x ++ b

/-- The tree of the summary that `log` writes in place of an oversized text: `idv`
is the identifier, `oi` the original information and `kept` the kept part of the
compact text. -/
def summaryTree (idv : JSVal) (oi : Props) (kept : JSString) : JSVal :=
  .obj [(lit "invocationId", idv),
    (lit "message", .obj [(lit "title", .str (lit "Payload too large")),
      (lit "level", .str (lit "ERROR")),
      (lit "originalInfo", .obj oi),
      (lit "truncatedPayload", .str kept)])]

/-- The text `stringify(payload, replacer, 2)` of line 102, before the
truncation. -/
def payloadText (self : RequestLogger) (version : JSString) (message : JSVal) : JSString :=
  match stringify (logPayload self version message) (lit "  ") with
  | some (some text) => text
  | _ => []

/-- The step of the parser inside a string on a code unit that does not close the
string: state 0 is between the characters, state 1 after a backslash, and the
states 2 to 5 before the last one to four digits of a `\u` escape. -/
def bodyStep (st c : Nat) : Option Nat :=
  match st with
  | 0 => if c = 92 then some 1 else if c < 32 then none else some 0
  | 1 => if c = 117 then some 5 else if (simpleEscape c).isSome then some 0 else none
  | k + 2 => if (hexValue c).isSome then some (if k = 0 then 0 else k + 1) else none

/-- The text after the quote that closes the string, when the parser reads a string
from the state `st` on. -/
def bodyEnd : Nat → JSString → Option JSString
  | _, [] => none
  | st, c :: t =>
    if st = 0 ∧ c = 34 then some t
    else
      match bodyStep st c with
      | some st' => bodyEnd st' t
      | none => none

/-- The state after the code units of `a`, none of which closes the string. -/
def bodyRun : Nat → JSString → Option Nat
  | st, [] => some st
  | st, c :: t =>
    if st = 0 ∧ c = 34 then none
    else
      match bodyStep st c with
      | some st' => bodyRun st' t
      | none => none

/-- The text does not go on with a character of the class. -/
def Barrier (r : JSString) : Prop := ∀ c, r.head? = some c → isTokenChar c = false

/-- The number of commas and opening brackets of a text. -/
def marks (s : JSString) : Nat := s.count 44 + s.count 91 + s.count 123

/-- Whether every match of the pattern of `truncateToken` that begins in a text
standing before `rest` either ends before `rest` begins, or keeps the whole text
from its beginning through `keep`. -/
def clearBefore (keep rest : JSString) : JSString → Bool
  | [] => true
  | c :: t =>
    (match matchJwt (c :: t ++ rest) with
      | some (p1, r) => decide (rest.length ≤ r.length) || p1 == c :: t ++ keep
      | none => true) && clearBefore keep rest t

/-- The string that the text of `s` denotes after the truncation: the code units
between the quotes of `JSON.stringify(s)` go through the truncation, and the
parser reads what it left. -/
def truncatedString (s : JSString) : JSString :=
  match parseStringBody (truncateToken (quoteUnits s) ++ [34]) with
  | some (d, _) => d
  | none => s

mutual
/-- The tree that the parser reads from the truncated text of a tree: every
string and every key is the truncated string, and an object is built from its
members in the order of the text. -/
def truncated : JSVal → JSVal
  | .undefined => .undefined
  | .null => .null
  | .bool b => .bool b
  | .num n => .num n
  | .str s => .str (truncatedString s)
  | .arr xs => .arr (truncatedList xs)
  | .obj ps => .obj (objectOfMembers (truncatedProps ps))
/-- The elements that the parser reads from the truncated text of an array. -/
def truncatedList : List JSVal → List JSVal
  | [] => []
  | x :: xs => truncated x :: truncatedList xs
/-- The members that the parser reads from the truncated text of an object. -/
def truncatedProps : Props → Props
  | [] => []
  | kv :: ps => (truncatedString kv.1, truncated kv.2) :: truncatedProps ps
end

/-- The text does not go on with a code unit of a token or a point. -/
def Stopped (rest : JSString) : Prop :=
  ∀ c, rest.head? = some c → isTokenChar c = false ∧ c ≠ 46

/-- The three statements of the round trip through the truncation at one depth of
calls. -/
def TruncTripAt (gap : JSString) (f : Nat) : Prop :=
  (∀ t, parseDepth t ≤ f → defined t = true → wellFormed t = true →
    ∀ indent pre rest, allWs indent = true → allWs pre = true → Stopped rest →
      parseValue f (pre ++ truncateToken (render gap indent t ++ rest))
        = some (truncated t, truncateToken rest))
  ∧ (∀ xs, xs ≠ [] → parseDepthList xs ≤ f → definedList xs = true → wellFormedList xs = true →
    ∀ indent w1 w2 rest, allWs indent = true → allWs w1 = true → allWs w2 = true →
      parseElements f (truncateToken (membersText w1 w2 93 (renderList gap indent xs) rest))
        = some (truncatedList xs, truncateToken rest))
  ∧ (∀ ps, ps ≠ [] → parseDepthProps ps ≤ f → definedProps ps = true → wellFormedProps ps = true →
    ∀ indent w1 w2 rest, allWs indent = true → allWs w1 = true → allWs w2 = true →
      parseMembers f (truncateToken (membersText w1 w2 125 (renderProps gap indent ps) rest))
        = some (truncatedProps ps, truncateToken rest))

/-! # Theorems -/

/-! ## Every rounded value is in the form the model keeps -/

theorem roundRatio_eq (neg : Bool) (a b : Nat) :
    roundRatio neg a b =
      if a = 0 ∨ b = 0 then .finite false 0 0
      else if cutMant a b (max (leadExp a b - 52) (-1074)) = 0 then .finite false 0 0
      else if (1024 : Int) < (binaryLength (cutMant a b (max (leadExp a b - 52) (-1074))) : Int)
          + max (leadExp a b - 52) (-1074) then .infinite neg
      else .finite neg
        (oddPart 64 (cutMant a b (max (leadExp a b - 52) (-1074)))
          (max (leadExp a b - 52) (-1074))).1
        (oddPart 64 (cutMant a b (max (leadExp a b - 52) (-1074)))
          (max (leadExp a b - 52) (-1074))).2 := by
  rfl

theorem binaryDigits_zero (f : Nat) : binaryDigits f 0 = 0 := by
  cases f <;> simp [binaryDigits]

theorem binaryDigits_spec : ∀ (f n : Nat), n < f → 0 < n →
    0 < binaryDigits f n ∧ 2 ^ (binaryDigits f n - 1) ≤ n ∧ n < 2 ^ binaryDigits f n := by
  intro f
  induction f with
  | zero => intro n h; omega
  | succ f ih =>
    intro n hn hp
    rw [binaryDigits, if_neg (by omega)]
    by_cases h2 : n / 2 = 0
    · rw [h2, binaryDigits_zero]
      have : n = 1 := by omega
      subst this
      simp
    · obtain ⟨d0, d1, d2⟩ := ih (n / 2) (by omega) (by omega)
      refine ⟨by omega, ?_, ?_⟩
      · simp only [Nat.add_sub_cancel]
        have : 2 ^ binaryDigits f (n / 2) = 2 * 2 ^ (binaryDigits f (n / 2) - 1) := by
          rw [← pow_succ']
          congr 1
          omega
        omega
      · rw [pow_succ]
        omega

theorem binaryLength_spec {n : Nat} (h : 0 < n) :
    0 < binaryLength n ∧ 2 ^ (binaryLength n - 1) ≤ n ∧ n < 2 ^ binaryLength n :=
  binaryDigits_spec (n + 1) n (by omega) h

theorem binaryLength_unique {n L : Nat} (hL : 0 < L) (h1 : 2 ^ (L - 1) ≤ n) (h2 : n < 2 ^ L) :
    binaryLength n = L := by
  have hn : 0 < n := lt_of_lt_of_le (by positivity) h1
  obtain ⟨d0, d1, d2⟩ := binaryLength_spec hn
  have a1 : L - 1 < binaryLength n := (Nat.pow_lt_pow_iff_right (by omega : 1 < 2)).1
    (lt_of_le_of_lt h1 d2)
  have a2 : binaryLength n - 1 < L := (Nat.pow_lt_pow_iff_right (by omega : 1 < 2)).1
    (lt_of_le_of_lt d1 h2)
  omega

theorem binaryLength_mul_pow {m : Nat} (hm : 0 < m) (j : Nat) :
    binaryLength (m * 2 ^ j) = binaryLength m + j := by
  obtain ⟨d0, d1, d2⟩ := binaryLength_spec hm
  apply binaryLength_unique (by omega)
  · have : binaryLength m + j - 1 = (binaryLength m - 1) + j := by omega
    rw [this, pow_add]
    exact Nat.mul_le_mul_right _ d1
  · rw [pow_add]
    exact Nat.mul_lt_mul_of_pos_right d2 (by positivity)

theorem binaryLength_le_of_lt {n L : Nat} (h : n < 2 ^ L) : binaryLength n ≤ L := by
  by_cases hn : n = 0
  · subst hn
    simp [binaryLength, binaryDigits]
  · obtain ⟨d0, d1, d2⟩ := binaryLength_spec (Nat.pos_of_ne_zero hn)
    have : binaryLength n - 1 < L := (Nat.pow_lt_pow_iff_right (by omega : 1 < 2)).1
      (lt_of_le_of_lt d1 h)
    omega

/-- What `oddPart` returns: the mantissa without `j` factors of two, which are in
the exponent; the mantissa is odd unless the steps ran out. -/
theorem oddPart_spec : ∀ (f m : Nat) (e : Int), 0 < m →
    ∃ j, j ≤ f ∧ m = (oddPart f m e).1 * 2 ^ j ∧ (oddPart f m e).2 = e + j
      ∧ ((oddPart f m e).1 % 2 = 1 ∨ j = f) := by
  intro f
  induction f with
  | zero => intro m e _; exact ⟨0, le_refl _, by simp [oddPart], by simp [oddPart], Or.inr rfl⟩
  | succ f ih =>
    intro m e hm
    rw [oddPart]
    by_cases h : m % 2 = 0 ∧ m ≠ 0
    · rw [if_pos h]
      obtain ⟨j, j1, j2, j3, j4⟩ := ih (m / 2) (e + 1) (by omega)
      refine ⟨j + 1, by omega, ?_, ?_, ?_⟩
      · rw [pow_succ, ← mul_assoc, ← j2]
        omega
      · rw [j3]; push_cast; ring
      · rcases j4 with j4 | j4
        · exact Or.inl j4
        · exact Or.inr (by omega)
    · rw [if_neg h]
      exact ⟨0, by omega, by simp, by simp, Or.inl (by omega)⟩

theorem two_zpow_eq (z : ℤ) :
    (2 : ℚ) ^ z = ((2 ^ z.toNat : ℕ) : ℚ) / ((2 ^ (-z).toNat : ℕ) : ℚ) := by
  rcases le_total 0 z with h | h
  · have e1 : (-z).toNat = 0 := by omega
    have e2 : (z.toNat : ℤ) = z := Int.toNat_of_nonneg h
    rw [e1]
    simp only [pow_zero, Nat.cast_one, div_one, Nat.cast_pow, Nat.cast_ofNat]
    rw [← zpow_natCast, e2]
  · have e1 : z.toNat = 0 := by omega
    have e2 : ((-z).toNat : ℤ) = -z := Int.toNat_of_nonneg (by omega)
    rw [e1]
    simp only [pow_zero, Nat.cast_one, Nat.cast_pow, Nat.cast_ofNat, one_div]
    rw [← zpow_natCast, e2, zpow_neg, inv_inv]

theorem two_zpow_pos (z : ℤ) : (0 : ℚ) < 2 ^ z := zpow_pos (by norm_num) z

theorem pow_toNat_pos (z : ℤ) : (0 : ℚ) < ((2 ^ z.toNat : ℕ) : ℚ) := by
  have : 0 < 2 ^ z.toNat := by positivity
  exact_mod_cast this

/-- The quotient that `roundRatio` divides out, as a rational number. -/
theorem ratio_shift (a b : Nat) (z : ℤ) :
    ((a * 2 ^ (-z).toNat : ℕ) : ℚ) / ((b * 2 ^ z.toNat : ℕ) : ℚ) = (a : ℚ) / b / 2 ^ z := by
  rw [two_zpow_eq z]
  have h1 := pow_toNat_pos z
  have h2 := pow_toNat_pos (-z)
  rw [Nat.cast_mul, Nat.cast_mul]
  by_cases hb : (b : ℚ) = 0
  · rw [hb]; simp
  · field_simp

theorem le_ratio_iff (a b : Nat) (z : ℤ) (hb : 0 < b) :
    b * 2 ^ z.toNat ≤ a * 2 ^ (-z).toNat ↔ (2 : ℚ) ^ z ≤ (a : ℚ) / b := by
  rw [two_zpow_eq z]
  have h2 := pow_toNat_pos (-z)
  have hb' : (0 : ℚ) < b := by exact_mod_cast hb
  rw [div_le_div_iff₀ h2 hb']
  constructor
  · intro h
    have : ((b * 2 ^ z.toNat : ℕ) : ℚ) ≤ ((a * 2 ^ (-z).toNat : ℕ) : ℚ) := by exact_mod_cast h
    rw [Nat.cast_mul, Nat.cast_mul] at this
    linarith
  · intro h
    have : ((b * 2 ^ z.toNat : ℕ) : ℚ) ≤ ((a * 2 ^ (-z).toNat : ℕ) : ℚ) := by
      rw [Nat.cast_mul, Nat.cast_mul]
      linarith
    exact_mod_cast this

theorem natCast_lt_two_zpow {n L : Nat} (h : n < 2 ^ L) : (n : ℚ) < (2 : ℚ) ^ (L : ℤ) := by
  rw [zpow_natCast]
  exact_mod_cast h

theorem two_zpow_le_natCast {n L : Nat} (hL : 0 < L) (h : 2 ^ (L - 1) ≤ n) :
    (2 : ℚ) ^ ((L : ℤ) - 1) ≤ (n : ℚ) := by
  have e : ((L : ℤ) - 1) = ((L - 1 : ℕ) : ℤ) := by omega
  rw [e, zpow_natCast]
  exact_mod_cast h

/-- The exponent that `roundRatio` finds is the exponent of the leading binary
digit. -/
theorem leadExp_spec {a b : Nat} (ha : 0 < a) (hb : 0 < b) :
    (2 : ℚ) ^ leadExp a b ≤ (a : ℚ) / b ∧ (a : ℚ) / b < 2 ^ (leadExp a b + 1) := by
  obtain ⟨a0, a1, a2⟩ := binaryLength_spec ha
  obtain ⟨b0, b1, b2⟩ := binaryLength_spec hb
  have hA1 := two_zpow_le_natCast a0 a1
  have hA2 := natCast_lt_two_zpow a2
  have hB1 := two_zpow_le_natCast b0 b1
  have hB2 := natCast_lt_two_zpow b2
  have hb' : (0 : ℚ) < b := by exact_mod_cast hb
  have two : (2 : ℚ) ≠ 0 := by norm_num
  have up : (a : ℚ) / b < 2 ^ ((binaryLength a : ℤ) - (binaryLength b : ℤ) + 1) := by
    rw [div_lt_iff₀ hb']
    have : (2 : ℚ) ^ ((binaryLength a : ℤ) - (binaryLength b : ℤ) + 1)
        * 2 ^ ((binaryLength b : ℤ) - 1) = 2 ^ (binaryLength a : ℤ) := by
      rw [← zpow_add₀ two]
      congr 1
      ring
    have h3 : (2 : ℚ) ^ ((binaryLength a : ℤ) - (binaryLength b : ℤ) + 1)
        * 2 ^ ((binaryLength b : ℤ) - 1)
        ≤ 2 ^ ((binaryLength a : ℤ) - (binaryLength b : ℤ) + 1) * b :=
      mul_le_mul_of_nonneg_left hB1 (le_of_lt (two_zpow_pos _))
    linarith
  have low : (2 : ℚ) ^ ((binaryLength a : ℤ) - (binaryLength b : ℤ) - 1) ≤ (a : ℚ) / b := by
    rw [le_div_iff₀ hb']
    have : (2 : ℚ) ^ ((binaryLength a : ℤ) - (binaryLength b : ℤ) - 1)
        * 2 ^ (binaryLength b : ℤ) = 2 ^ ((binaryLength a : ℤ) - 1) := by
      rw [← zpow_add₀ two]
      congr 1
      ring
    have h3 : (2 : ℚ) ^ ((binaryLength a : ℤ) - (binaryLength b : ℤ) - 1) * b
        ≤ 2 ^ ((binaryLength a : ℤ) - (binaryLength b : ℤ) - 1) * 2 ^ (binaryLength b : ℤ) :=
      mul_le_mul_of_nonneg_left (le_of_lt hB2) (le_of_lt (two_zpow_pos _))
    linarith
  unfold leadExp
  split
  · rename_i h
    exact ⟨(le_ratio_iff a b _ hb).1 h, up⟩
  · rename_i h
    refine ⟨low, ?_⟩
    have := mt (le_ratio_iff a b _ hb).2 h
    rw [sub_add_cancel]
    exact lt_of_not_le this

theorem lt_ratio_iff (a b : Nat) (z : ℤ) (hb : 0 < b) :
    a * 2 ^ (-z).toNat < b * 2 ^ z.toNat ↔ (a : ℚ) / b < (2 : ℚ) ^ z := by
  rw [← not_le, ← not_le, le_ratio_iff a b z hb]

theorem cutMant_le_succ (a b : Nat) (sh : Int) :
    cutMant a b sh ≤ a * 2 ^ (-sh).toNat / (b * 2 ^ sh.toNat) + 1 := by
  unfold cutMant
  split <;> omega

/-- The rounded quotient has at most 53 binary digits, or it is `2 ^ 53`. -/
theorem cutMant_le {a b : Nat} {sh : Int} (hb : 0 < b)
    (h : (a : ℚ) / b < 2 ^ (sh + 53)) : cutMant a b sh ≤ 2 ^ 53 := by
  have hD : 0 < b * 2 ^ sh.toNat := by positivity
  have hD' : (0 : ℚ) < ((b * 2 ^ sh.toNat : ℕ) : ℚ) := by exact_mod_cast hD
  have hq : ((a * 2 ^ (-sh).toNat : ℕ) : ℚ) / ((b * 2 ^ sh.toNat : ℕ) : ℚ) < 2 ^ 53 := by
    rw [ratio_shift, div_lt_iff₀ (two_zpow_pos _)]
    have : (2 : ℚ) ^ (sh + 53) = 2 ^ 53 * 2 ^ sh := by
      rw [zpow_add₀ (by norm_num), mul_comm]
      norm_cast
    rw [← this]
    exact h
  rw [div_lt_iff₀ hD'] at hq
  have hn : a * 2 ^ (-sh).toNat < 2 ^ 53 * (b * 2 ^ sh.toNat) := by exact_mod_cast hq
  have := (Nat.div_lt_iff_lt_mul hD).2 hn
  have := cutMant_le_succ a b sh
  omega

/-- A quotient that is an integer is cut to that integer. -/
theorem cutMant_exact {a b M : Nat} {sh : Int} (hb : 0 < b)
    (h : (a : ℚ) / b = M * 2 ^ sh) : cutMant a b sh = M := by
  have hD : 0 < b * 2 ^ sh.toNat := by positivity
  have hD' : (0 : ℚ) < ((b * 2 ^ sh.toNat : ℕ) : ℚ) := by exact_mod_cast hD
  have hq : ((a * 2 ^ (-sh).toNat : ℕ) : ℚ) / ((b * 2 ^ sh.toNat : ℕ) : ℚ) = M := by
    rw [ratio_shift, h, mul_div_assoc, div_self (ne_of_gt (two_zpow_pos _)), mul_one]
  rw [div_eq_iff (ne_of_gt hD')] at hq
  have hn : a * 2 ^ (-sh).toNat = M * (b * 2 ^ sh.toNat) := by exact_mod_cast hq
  unfold cutMant
  rw [hn, Nat.mul_mod_left, Nat.mul_div_cancel _ hD]
  rw [if_neg]
  rintro (h1 | ⟨h1, -⟩) <;> omega

theorem oddPart_pow {m : Nat} (hm : m % 2 = 1) : ∀ (k f : Nat) (e : Int), k < f →
    oddPart f (m * 2 ^ k) e = (m, e + k) := by
  intro k
  induction k with
  | zero =>
    intro f e hf
    obtain ⟨g, rfl⟩ : ∃ g, f = g + 1 := ⟨f - 1, by omega⟩
    rw [oddPart, pow_zero, mul_one, if_neg (by omega)]
    simp
  | succ k ih =>
    intro f e hf
    obtain ⟨g, rfl⟩ : ∃ g, f = g + 1 := ⟨f - 1, by omega⟩
    have hpos : 0 < m * 2 ^ (k + 1) := by
      have : 0 < m := by omega
      positivity
    have e1 : m * 2 ^ (k + 1) = (m * 2 ^ k) * 2 := by rw [pow_succ, mul_assoc]
    rw [oddPart, if_pos ⟨by omega, by omega⟩, e1, Nat.mul_div_cancel _ (by omega),
      ih g (e + 1) (by omega)]
    congr 1
    push_cast
    ring

/-- A double is the double nearest to itself. -/
theorem roundRatio_exact {neg : Bool} {a b m : Nat} {e : Int} (ha : 0 < a) (hb : 0 < b)
    (hq : (a : ℚ) / b = m * 2 ^ e) (hodd : m % 2 = 1) (hl : binaryLength m ≤ 53)
    (he : -1074 ≤ e) (hu : (binaryLength m : Int) + e ≤ 1024) :
    roundRatio neg a b = .finite neg m e := by
  have hm : 0 < m := by omega
  obtain ⟨m0, m1, m2⟩ := binaryLength_spec hm
  have hM1 := two_zpow_le_natCast m0 m1
  have hM2 := natCast_lt_two_zpow m2
  obtain ⟨s1, s2⟩ := leadExp_spec ha hb
  rw [hq] at s1 s2
  have two : (2 : ℚ) ≠ 0 := by norm_num
  have hE : leadExp a b = (binaryLength m : Int) - 1 + e := by
    have c1 : (2 : ℚ) ^ leadExp a b < 2 ^ ((binaryLength m : Int) + e) := by
      rw [zpow_add₀ two]
      exact lt_of_le_of_lt s1 (mul_lt_mul_of_pos_right hM2 (two_zpow_pos _))
    have c2 : (2 : ℚ) ^ ((binaryLength m : Int) - 1 + e) < 2 ^ (leadExp a b + 1) := by
      rw [zpow_add₀ two]
      exact lt_of_le_of_lt (mul_le_mul_of_nonneg_right hM1 (le_of_lt (two_zpow_pos _))) s2
    have d1 := (zpow_lt_zpow_iff_right₀ (by norm_num : (1 : ℚ) < 2)).1 c1
    have d2 := (zpow_lt_zpow_iff_right₀ (by norm_num : (1 : ℚ) < 2)).1 c2
    omega
  obtain ⟨k, hk⟩ : ∃ k : Nat, e = max (leadExp a b - 52) (-1074) + k :=
    ⟨(e - max (leadExp a b - 52) (-1074)).toNat, by omega⟩
  have hk52 : k ≤ 52 := by omega
  have hcut : cutMant a b (max (leadExp a b - 52) (-1074)) = m * 2 ^ k := by
    apply cutMant_exact hb
    rw [hq]
    conv_lhs => rw [hk]
    rw [add_comm, zpow_add₀ two, zpow_natCast]
    push_cast
    ring
  rw [roundRatio_eq, if_neg (by omega), hcut, if_neg (by positivity),
    binaryLength_mul_pow hm, if_neg (by push_cast; omega), oddPart_pow hodd k 64 _ (by omega)]
  simp only
  rw [← hk]

/-- The sign is set apart from the rounding. -/
theorem roundRatio_sign {neg : Bool} {a b m : Nat} {e : Int}
    (h : roundRatio false a b = .finite false m e) (hm : m ≠ 0) :
    roundRatio neg a b = .finite neg m e := by
  rw [roundRatio_eq] at h ⊢
  split at h
  · exact absurd (JSNum.finite.inj h).2.1.symm hm
  · split at h
    · exact absurd (JSNum.finite.inj h).2.1.symm hm
    · split at h
      · exact JSNum.noConfusion h
      · rename_i h1 h2 h3
        rw [if_neg h1, if_neg h2, if_neg h3]
        obtain ⟨-, e1, e2⟩ := JSNum.finite.inj h
        rw [e1, e2]

theorem pick_fits {α β : Type} (fits : β → Bool) (g : α → β) (x y : α) (P : Prop)
    [Decidable P] {c : β}
    (h : (if (fits (g x) && fits (g y)) = true then some (g (if P then x else y))
      else if fits (g x) = true then some (g x)
      else if fits (g y) = true then some (g y) else none) = some c) : fits c = true := by
  split at h
  · rename_i hf
    simp only [Bool.and_eq_true] at hf
    simp only [Option.some.injEq] at h
    subst h
    split
    · exact hf.1
    · exact hf.2
  · split at h
    · rename_i hf
      simp only [Option.some.injEq] at h
      subst h
      exact hf
    · split at h
      · rename_i hf
        simp only [Option.some.injEq] at h
        subst h
        exact hf
      · exact Option.noConfusion h

theorem digitsAt_fits {x : JSNum} {a b : Nat} {n : Int} {k : Nat} {c : Nat × Int}
    (h : digitsAt x a b n k = some c) :
    roundDecimal false c.1 (c.2 - ((natToString c.1).length : Int)) = x := by
  have := pick_fits
    (fun c : Nat × Int => roundDecimal false c.1 (c.2 - ((natToString c.1).length : Int)) == x)
    (fun s : Nat => if s = 10 ^ k then (10 ^ (k - 1), n + 1) else (s, n)) _ _ _ h
  simpa using this

theorem digitsFrom_fits {x : JSNum} {a b : Nat} {n : Int} : ∀ (f k : Nat) {c : Nat × Int},
    digitsFrom x a b n f k = some c →
    roundDecimal false c.1 (c.2 - ((natToString c.1).length : Int)) = x := by
  intro f
  induction f with
  | zero => intro k c h; simp [digitsFrom] at h
  | succ f ih =>
    intro k c h
    rw [digitsFrom] at h
    cases hd : digitsAt x a b n k with
    | some r =>
      rw [hd] at h
      simp only [Option.some.injEq] at h
      subst h
      exact digitsAt_fits hd
    | none =>
      rw [hd] at h
      exact ih _ h

/-- The exact digits of a double read back as the double. -/
theorem roundDecimal_exactDigits {neg : Bool} {m : Nat} {e : Int} (hodd : m % 2 = 1)
    (hl : binaryLength m ≤ 53) (he : -1074 ≤ e) (hu : (binaryLength m : Int) + e ≤ 1024) :
    roundDecimal neg (exactDigits m e).1
      ((exactDigits m e).2 - ((natToString (exactDigits m e).1).length : Int))
      = .finite neg m e := by
  have hm : 0 < m := by omega
  simp only [exactDigits, add_sub_cancel_left, roundDecimal]
  apply roundRatio_exact _ (by positivity) _ hodd hl he hu
  · positivity
  · rcases le_total 0 e with h | h
    · have e1 : (-e).toNat = 0 := by omega
      have e2 : (min e 0).toNat = 0 := by omega
      have e3 : (-(min e 0)).toNat = 0 := by omega
      have e4 : (e.toNat : ℤ) = e := Int.toNat_of_nonneg h
      rw [e1, e2, e3]
      simp only [pow_zero, mul_one, Nat.cast_one, div_one, Nat.cast_mul, Nat.cast_pow,
        Nat.cast_ofNat]
      rw [← zpow_natCast, e4]
    · have e1 : e.toNat = 0 := by omega
      have e2 : (min e 0).toNat = 0 := by omega
      have e3 : (-(min e 0)).toNat = (-e).toNat := by
        congr 1
        omega
      have e4 : (((-e).toNat : ℕ) : ℤ) = -e := Int.toNat_of_nonneg (by omega)
      rw [e1, e2, e3]
      simp only [pow_zero, mul_one, Nat.cast_mul, Nat.cast_pow, Nat.cast_ofNat]
      have e5 : (2 : ℚ) ^ e = 1 / 2 ^ (-e).toNat := by
        rw [← zpow_natCast, e4, zpow_neg]
        simp
      have e6 : (10 : ℚ) ^ (-e).toNat = 2 ^ (-e).toNat * 5 ^ (-e).toNat := by
        rw [← mul_pow]
        norm_num
      rw [e5, e6]
      field_simp
      ring

/-- Every double is in the form the model keeps: an odd mantissa below `2 ^ 53`
with an exponent from `-1074` on, below `2 ^ 1024`. -/
theorem valid_of_double {neg : Bool} {m : Nat} {e : Int} (hodd : m % 2 = 1)
    (hl : binaryLength m ≤ 53) (he : -1074 ≤ e) (hu : (binaryLength m : Int) + e ≤ 1024) :
    (JSNum.finite neg m e).valid = true := by
  have hm : m ≠ 0 := by omega
  simp only [JSNum.valid]
  rw [if_neg hm, beq_iff_eq]
  unfold shortestDigits
  cases hd : digitsFrom (.finite false m e) (m * 2 ^ e.toNat) (2 ^ (-e).toNat)
      (decimalExponent (m * 2 ^ e.toNat) (2 ^ (-e).toNat)) 17 1 with
  | some c =>
    simp only [Option.getD_some]
    have := digitsFrom_fits _ _ hd
    unfold roundDecimal at this ⊢
    exact roundRatio_sign this hm
  | none =>
    simp only [Option.getD_none]
    exact roundDecimal_exactDigits hodd hl he hu

/-- The double that a rounding returns is in the form the model keeps. -/
theorem roundRatio_valid (neg : Bool) (a b : Nat) : (roundRatio neg a b).valid = true := by
  rw [roundRatio_eq]
  split
  · rfl
  · rename_i h0
    have ha : 0 < a := by omega
    have hb : 0 < b := by omega
    split
    · rfl
    · rename_i h1
      split
      · rfl
      · rename_i h2
        obtain ⟨-, s2⟩ := leadExp_spec ha hb
        have hle : cutMant a b (max (leadExp a b - 52) (-1074)) ≤ 2 ^ 53 := by
          apply cutMant_le hb
          refine lt_of_lt_of_le s2 (zpow_le_zpow_right₀ (by norm_num) ?_)
          omega
        obtain ⟨j, j1, j2, j3, j4⟩ := oddPart_spec 64
          (cutMant a b (max (leadExp a b - 52) (-1074))) (max (leadExp a b - 52) (-1074))
          (by omega)
        have hsh : -1074 ≤ max (leadExp a b - 52) (-1074) := le_max_right _ _
        generalize cutMant a b (max (leadExp a b - 52) (-1074)) = m1 at *
        generalize max (leadExp a b - 52) (-1074) = sh at *
        generalize hm' : (oddPart 64 m1 sh).1 = m' at *
        generalize (oddPart 64 m1 sh).2 = e' at *
        have hpos : 0 < m' := by
          rcases Nat.eq_zero_or_pos m' with z | z
          · rw [z] at j2; omega
          · exact z
        have hodd : m' % 2 = 1 := by
          rcases j4 with j4 | j4
          · exact j4
          · exfalso
            rw [j4] at j2
            have : 2 ^ 64 ≤ m' * 2 ^ 64 := Nat.le_mul_of_pos_left _ hpos
            have : (2 : Nat) ^ 53 < 2 ^ 64 := by norm_num
            omega
        have hmle : m' ≤ m1 := by
          rw [j2]
          exact Nat.le_mul_of_pos_right _ (by positivity)
        have hlt : m' < 2 ^ 53 := by
          have : (2 : Nat) ^ 53 % 2 = 0 := by norm_num
          omega
        have hbl : binaryLength m1 = binaryLength m' + j := by
          rw [j2]
          exact binaryLength_mul_pow hpos j
        rw [hbl] at h2
        apply valid_of_double hodd (binaryLength_le_of_lt hlt)
        · omega
        · push_cast at h2
          omega

theorem roundDecimal_valid (neg : Bool) (s : Nat) (p : Int) :
    (roundDecimal neg s p).valid = true :=
  roundRatio_valid neg _ _

/-! ## The token scan -/

theorem matchSegment_spec {s seg r : JSString} (h : matchSegment s = some (seg, r)) :
    s = seg ++ r ∧ (∀ c ∈ seg.drop 3, isTokenChar c = true) ∧ 8 ≤ seg.length
      ∧ r = (s.drop 3).dropWhile isTokenChar ∧ seg = s.take 3 ++ (s.drop 3).takeWhile isTokenChar := by
  match s, h with
  | e :: y :: j :: t, h =>
    simp only [matchSegment] at h
    split at h
    · rename_i hc
      simp only [Option.some.injEq, Prod.mk.injEq] at h
      obtain ⟨rfl, rfl⟩ := h
      refine ⟨by simp, ?_, by simp; omega, by simp, by simp⟩
      intro c hc'
      simp only [List.drop_succ_cons, List.drop_zero] at hc'
      exact (List.mem_takeWhile_imp hc')
    · exact absurd h (by simp)
  | [], h => simp [matchSegment] at h
  | [_], h => simp [matchSegment] at h
  | [_, _], h => simp [matchSegment] at h

theorem matchSegment_lit {t rest : JSString} (ht : ∀ c ∈ t, isTokenChar c = true)
    (h5 : 5 ≤ t.length) (hr : ∀ c, rest.head? = some c → isTokenChar c = false) :
    matchSegment (lit "eyJ" ++ t ++ rest) = some (lit "eyJ" ++ t, rest) := by
  have e : lit "eyJ" = [101, 121, 74] := by decide
  have tw : (t ++ rest).takeWhile isTokenChar = t := by
    cases rest with
    | nil => simpa using ht
    | cons c r =>
      rw [List.takeWhile_append_of_pos ht]
      simp [List.takeWhile, hr c rfl]
  have dw : (t ++ rest).dropWhile isTokenChar = rest := by
    cases rest with
    | nil => simpa using ht
    | cons c r =>
      rw [List.dropWhile_append_of_pos ht]
      simp [List.dropWhile, hr c rfl]
  simp only [e, List.cons_append, List.nil_append, matchSegment, tw, dw]
  simp [asciiLower, h5]

theorem matchJwt_spec {s p1 rest : JSString} (h : matchJwt s = some (p1, rest)) :
    ∃ hd pl r1 r2, matchSegment s = some (hd, 46 :: r1) ∧ matchSegment r1 = some (pl, 46 :: r2)
      ∧ p1 = hd ++ 46 :: pl ∧ rest = r2.dropWhile isTokenChar := by
  unfold matchJwt at h
  split at h
  · rename_i hd r1 h1
    split at h
    · rename_i pl r2 h2
      simp only [Option.some.injEq, Prod.mk.injEq] at h
      exact ⟨hd, pl, r1, r2, h1, h2, h.1.symm, h.2.symm⟩
    · exact absurd h (by simp)
  · exact absurd h (by simp)

theorem dropWhile_length_le (p : Nat → Bool) (l : JSString) :
    (l.dropWhile p).length ≤ l.length := by
  induction l with
  | nil => simp
  | cons a l ih =>
    simp only [List.dropWhile]
    split
    · simp only [List.length_cons]; omega
    · simp

theorem matchJwt_rest_length {c : Nat} {t p1 rest : JSString}
    (h : matchJwt (c :: t) = some (p1, rest)) : rest.length ≤ t.length := by
  obtain ⟨hd, pl, r1, r2, h1, h2, -, rfl⟩ := matchJwt_spec h
  obtain ⟨e1, -, l1, -, -⟩ := matchSegment_spec h1
  obtain ⟨e2, -, l2, -, -⟩ := matchSegment_spec h2
  have := dropWhile_length_le isTokenChar r2
  have a1 := congrArg List.length e1
  have a2 := congrArg List.length e2
  simp only [List.length_cons, List.length_append] at a1 a2
  omega

theorem replaceJwt_fuel : ∀ (n m : Nat) (s : JSString), s.length < n → s.length < m →
    replaceJwt n s = replaceJwt m s := by
  intro n
  induction n with
  | zero => intro m s h; omega
  | succ n ih =>
    intro m s hn hm
    cases m with
    | zero => omega
    | succ m =>
      cases s with
      | nil => simp [replaceJwt]
      | cons c t =>
        simp only [replaceJwt]
        simp only [List.length_cons] at hn hm
        split
        · rename_i p1 rest hm'
          have := matchJwt_rest_length hm'
          rw [ih m rest (by omega) (by omega)]
        · rw [ih m t (by omega) (by omega)]

theorem truncateToken_nil : truncateToken [] = [] := by
  simp [truncateToken, replaceJwt]

theorem truncateToken_cons (c : Nat) (t : JSString) :
    truncateToken (c :: t) =
      match matchJwt (c :: t) with
      | some (p1, rest) => p1 ++ lit ".<sig>" ++ truncateToken rest
      | none => c :: truncateToken t := by
  simp only [truncateToken, List.length_cons, replaceJwt]
  cases hm : matchJwt (c :: t) with
  | none => rfl
  | some pr =>
    obtain ⟨p1, rest⟩ := pr
    have := matchJwt_rest_length hm
    simp only
    rw [replaceJwt_fuel (t.length + 1) (rest.length + 1) rest (by omega) (by omega)]

theorem truncateToken_match {s p1 rest : JSString} (h : matchJwt s = some (p1, rest)) :
    truncateToken s = p1 ++ lit ".<sig>" ++ truncateToken rest := by
  cases s with
  | nil => simp [matchJwt, matchSegment] at h
  | cons c t => rw [truncateToken_cons, h]

theorem truncateToken_skip {c : Nat} {t : JSString} (h : matchJwt (c :: t) = none) :
    truncateToken (c :: t) = c :: truncateToken t := by
  rw [truncateToken_cons, h]

theorem IsSegment.tokenChars {h : JSString} (hs : IsSegment h) : ∀ c ∈ h, isTokenChar c = true := by
  obtain ⟨t, rfl, -, ht⟩ := hs
  intro c hc
  rcases List.mem_append.1 hc with hc | hc
  · have e : lit "eyJ" = [101, 121, 74] := by decide
    rw [e] at hc
    simp only [List.mem_cons, List.mem_singleton, List.not_mem_nil, or_false] at hc
    rcases hc with rfl | rfl | rfl <;> decide
  · exact ht c hc

theorem matchSegment_segment {h rest : JSString} (hs : IsSegment h)
    (hr : ∀ c, rest.head? = some c → isTokenChar c = false) :
    matchSegment (h ++ rest) = some (h, rest) := by
  obtain ⟨t, rfl, h5, ht⟩ := hs
  exact matchSegment_lit ht h5 hr

theorem split_first_dot {a a' b b' : JSString} (ha : ∀ c ∈ a, c ≠ 46) (ha' : ∀ c ∈ a', c ≠ 46)
    (h : a ++ 46 :: b = a' ++ 46 :: b') : a = a' ∧ b = b' := by
  induction a generalizing a' with
  | nil =>
    cases a' with
    | nil => simpa using h
    | cons x xs =>
      simp only [List.nil_append, List.cons_append, List.cons.injEq] at h
      exact absurd h.1.symm (ha' x (by simp))
  | cons y ys ih =>
    cases a' with
    | nil =>
      simp only [List.nil_append, List.cons_append, List.cons.injEq] at h
      exact absurd h.1 (ha y (by simp))
    | cons x xs =>
      simp only [List.cons_append, List.cons.injEq] at h
      obtain ⟨rfl, h⟩ := h
      obtain ⟨rfl, rfl⟩ := ih (fun c hc => ha c (by simp [hc])) (fun c hc => ha' c (by simp [hc])) h
      exact ⟨rfl, rfl⟩

theorem tokenChar_ne_dot {c : Nat} (h : isTokenChar c = true) : c ≠ 46 := by
  rintro rfl
  exact absurd h (by decide)

theorem matchSegment_tokenChars {s seg r : JSString} (h : matchSegment s = some (seg, r)) :
    ∀ c ∈ seg, isTokenChar c = true := by
  match s, h with
  | e :: y :: j :: t, h =>
    simp only [matchSegment] at h
    split at h
    · rename_i hc
      simp only [Option.some.injEq, Prod.mk.injEq] at h
      obtain ⟨rfl, -⟩ := h
      have tok : ∀ x, (asciiLower x = 101 ∨ asciiLower x = 121 ∨ asciiLower x = 106) →
          isTokenChar x = true := by
        intro x hx
        unfold asciiLower at hx
        unfold isTokenChar
        split at hx <;> simp <;> omega
      intro c hc'
      simp only [List.mem_cons] at hc'
      rcases hc' with rfl | rfl | rfl | hc'
      · exact tok _ (Or.inl hc.1)
      · exact tok _ (Or.inr (Or.inl hc.2.1))
      · exact tok _ (Or.inr (Or.inr hc.2.2.1))
      · exact List.mem_takeWhile_imp hc'
    · exact absurd h (by simp)
  | [], h => simp [matchSegment] at h
  | [_], h => simp [matchSegment] at h
  | [_, _], h => simp [matchSegment] at h

theorem head_dot_not_token (r : JSString) :
    ∀ c, (46 :: r).head? = some c → isTokenChar c = false := by
  intro c hc
  simp only [List.head?_cons, Option.some.injEq] at hc
  subst hc
  decide

theorem matchJwt_token {h p sig post : JSString} (hh : IsSegment h) (hp : IsSegment p)
    (hs : ∀ c ∈ sig, isTokenChar c = true) :
    matchJwt (h ++ 46 :: (p ++ 46 :: (sig ++ post)))
      = some (h ++ 46 :: p, post.dropWhile isTokenChar) := by
  unfold matchJwt
  rw [matchSegment_segment hh (head_dot_not_token _)]
  simp only
  rw [matchSegment_segment hp (head_dot_not_token _)]
  simp only
  rw [List.dropWhile_append_of_pos hs]

theorem matchJwt_before_token {pre h p sig post p1 rest : JSString}
    (hpre : ∀ c ∈ pre, c ≠ 46) (hh : IsSegment h) (hp : IsSegment p)
    (hs : ∀ c ∈ sig, isTokenChar c = true)
    (hm : matchJwt (pre ++ (h ++ 46 :: (p ++ 46 :: (sig ++ post)))) = some (p1, rest)) :
    p1 = pre ++ (h ++ 46 :: p) ∧ rest = post.dropWhile isTokenChar := by
  obtain ⟨hd, pl, r1, r2, h1, h2, rfl, rfl⟩ := matchJwt_spec hm
  have e1 := (matchSegment_spec h1).1
  have t1 := matchSegment_tokenChars h1
  have d1 : ∀ c ∈ pre ++ h, c ≠ 46 := by
    intro c hc
    rcases List.mem_append.1 hc with hc | hc
    · exact hpre c hc
    · exact tokenChar_ne_dot (hh.tokenChars c hc)
  have e1' : (pre ++ h) ++ 46 :: (p ++ 46 :: (sig ++ post)) = hd ++ 46 :: r1 := by
    rw [← e1]; simp
  obtain ⟨rfl, rfl⟩ := split_first_dot (fun c hc => tokenChar_ne_dot (t1 c hc)) d1 e1'.symm
  rw [matchSegment_segment hp (head_dot_not_token _)] at h2
  simp only [Option.some.injEq, Prod.mk.injEq, List.cons.injEq, true_and] at h2
  obtain ⟨rfl, rfl⟩ := h2
  refine ⟨by simp, ?_⟩
  rw [List.dropWhile_append_of_pos hs]

theorem truncateToken_embedded (pre h p sig post : JSString)
    (hpre : ∀ c ∈ pre, c ≠ 46) (hh : IsSegment h) (hp : IsSegment p)
    (hs : ∀ c ∈ sig, isTokenChar c = true) :
    truncateToken (pre ++ (h ++ 46 :: (p ++ 46 :: (sig ++ post))))
      = pre ++ (h ++ 46 :: p) ++ lit ".<sig>" ++ truncateToken (post.dropWhile isTokenChar) := by
  induction pre with
  | nil =>
    simp only [List.nil_append]
    rw [truncateToken_match (matchJwt_token hh hp hs)]
  | cons c pre ih =>
    have hpre' : ∀ x ∈ pre, x ≠ 46 := fun x hx => hpre x (by simp [hx])
    cases hm : matchJwt (c :: pre ++ (h ++ 46 :: (p ++ 46 :: (sig ++ post)))) with
    | none =>
      rw [List.cons_append, truncateToken_skip (by simpa using hm), ih hpre']
      simp
    | some pr =>
      obtain ⟨p1, rest⟩ := pr
      obtain ⟨rfl, rfl⟩ := matchJwt_before_token hpre hh hp hs hm
      rw [truncateToken_match hm]

/-! ## The text is the rendering of the redacted tree -/

theorem allSome_map {α β : Type} (g : α → β) (l : List (Option α)) :
    allSome (l.map (Option.map g)) = (allSome l).map (List.map g) := by
  induction l with
  | nil => rfl
  | cons a l ih =>
    cases a with
    | none => rfl
    | some a =>
      simp only [List.map_cons, Option.map_some', allSome, ih]
      cases allSome l <;> rfl

theorem allSome_eq_some {α : Type} {l : List (Option α)} {r : List α} :
    allSome l = some r ↔ l = r.map some := by
  induction l generalizing r with
  | nil =>
    cases r <;> simp [allSome]
  | cons a l ih =>
    cases a with
    | none => cases r <;> simp [allSome]
    | some a =>
      cases r with
      | nil => simp [allSome]
      | cons b r =>
        simp only [allSome, Option.map_eq_some', List.cons.injEq, List.map_cons,
          Option.some.injEq]
        constructor
        · rintro ⟨r', h, rfl, rfl⟩
          exact ⟨rfl, ih.1 h⟩
        · rintro ⟨rfl, h⟩
          exact ⟨r, ih.2 h, rfl, rfl⟩

theorem renderList_eq_map (gap indent : JSString) (xs : List JSVal) :
    renderList gap indent xs = xs.map (render gap indent) := by
  induction xs with
  | nil => rfl
  | cons x xs ih => simp [renderList, ih]

theorem renderProps_eq_map (gap indent : JSString) (ps : Props) :
    renderProps gap indent ps
      = ps.map (fun kv => quote kv.1 ++ colon gap ++ render gap indent kv.2) := by
  induction ps with
  | nil => rfl
  | cons kv ps ih => simp [renderProps, ih]

theorem filterMap_id_map {α β : Type} (g : α → β) (l : List (Option α)) :
    (l.map (Option.map g)).filterMap id = (l.filterMap id).map g := by
  induction l with
  | nil => rfl
  | cons a l ih =>
    cases a with
    | none => simpa using ih
    | some a => simpa using ih

theorem serializeProperty_eq_render (rep : JSString → JSVal → Option JSVal) (gap : JSString) :
    ∀ (f : Nat) (indent key : JSString) (value : JSVal),
      serializeProperty rep gap f indent key value
        = (redact rep f key value).map (fun r => r.map (render gap indent)) := by
  intro f
  induction f with
  | zero => intro indent key value; rfl
  | succ f ih =>
    intro indent key value
    simp only [serializeProperty, redact]
    cases rep key value with
    | none => rfl
    | some r =>
      cases r with
      | undefined => rfl
      | null => rfl
      | bool b => cases b <;> rfl
      | num n => cases n <;> rfl
      | str s => rfl
      | arr xs =>
        simp only [ih, descend]
        have e : (indexProps 0 xs).map
              (fun kv => (redact rep f kv.1 kv.2).map (fun r => r.map (render gap (indent ++ gap))))
            = ((indexProps 0 xs).map (fun kv => redact rep f kv.1 kv.2)).map
                (Option.map (fun r => r.map (render gap (indent ++ gap)))) := by
          simp [List.map_map, Function.comp_def]
        rw [e, allSome_map]
        cases allSome ((indexProps 0 xs).map (fun kv => redact rep f kv.1 kv.2)) with
        | none => rfl
        | some rs =>
          simp only [Option.map_some', render, renderList_eq_map, List.map_map, Option.some.injEq]
          congr 2
          funext r
          cases r <;> rfl
      | obj ps =>
        simp only [ih, descend]
        have e : ps.map (fun kv =>
              ((redact rep f kv.1 kv.2).map (fun r => r.map (render gap (indent ++ gap)))).map
                (memberText gap kv.1))
            = (ps.map (fun kv =>
                (redact rep f kv.1 kv.2).map (fun r => r.map (fun t => (kv.1, t))))).map
                (Option.map (Option.map
                  (fun kt : JSString × JSVal =>
                    quote kt.1 ++ colon gap ++ render gap (indent ++ gap) kt.2))) := by
          simp only [List.map_map]
          apply List.map_congr_left
          intro kv _
          simp only [Function.comp_def]
          cases redact rep f kv.1 kv.2 with
          | none => rfl
          | some r => cases r <;> simp [memberText, colon]
        rw [e, allSome_map]
        cases allSome (ps.map (fun kv =>
            (redact rep f kv.1 kv.2).map (fun r => r.map (fun t => (kv.1, t))))) with
        | none => rfl
        | some rs =>
          simp only [Option.map_some', render, renderProps_eq_map, filterMap_id_map]

/-! ## Numbers and strings read back -/

theorem digitsValue_append (acc : Nat) (xs ys : JSString) :
    digitsValue acc (xs ++ ys) = (digitsValue acc xs).bind (fun a => digitsValue a ys) := by
  induction xs generalizing acc with
  | nil => rfl
  | cons c t ih =>
    simp only [List.cons_append, digitsValue]
    split
    · exact ih _
    · rfl

theorem digitsValue_natDigits : ∀ (f n : Nat), n < f → digitsValue 0 (natDigits f n) = some n := by
  intro f
  induction f with
  | zero => intro n h; omega
  | succ f ih =>
    intro n h
    simp only [natDigits]
    split
    · rename_i h10
      simp only [digitsValue]
      rw [if_pos (by omega)]
      congr 1
      omega
    · rename_i h10
      rw [digitsValue_append, ih (n / 10) (by omega)]
      simp only [Option.some_bind, digitsValue]
      rw [if_pos (by omega)]
      congr 1
      omega

theorem natDigits_digits : ∀ (f n : Nat), ∀ c ∈ natDigits f n, isDigit c = true := by
  intro f
  induction f with
  | zero => intro n c hc; simp [natDigits] at hc
  | succ f ih =>
    intro n c hc
    simp only [natDigits] at hc
    split at hc
    · simp only [List.mem_singleton] at hc
      subst hc
      simp [isDigit]; omega
    · rcases List.mem_append.1 hc with hc | hc
      · exact ih _ c hc
      · simp only [List.mem_singleton] at hc
        subst hc
        simp [isDigit]; omega

theorem natDigits_head : ∀ (f n : Nat), n < f →
    ∃ c t, natDigits f n = c :: t ∧ (n = 0 → c = 48 ∧ t = []) ∧ (0 < n → 49 ≤ c ∧ c ≤ 57) := by
  intro f
  induction f with
  | zero => intro n h; omega
  | succ f ih =>
    intro n h
    simp only [natDigits]
    split
    · exact ⟨48 + n, [], rfl, fun h0 => ⟨by omega, rfl⟩, fun _ => by omega⟩
    · obtain ⟨c, t, e, -, hp⟩ := ih (n / 10) (by omega)
      refine ⟨c, t ++ [48 + n % 10], by rw [e]; rfl, fun h0 => by omega, fun _ => hp (by omega)⟩

theorem natToString_head (n : Nat) :
    ∃ c t, natToString n = c :: t ∧ (n = 0 → c = 48 ∧ t = []) ∧ (0 < n → 49 ≤ c ∧ c ≤ 57) :=
  natDigits_head (n + 1) n (by omega)

theorem digitsValue_natToString (n : Nat) : digitsValue 0 (natToString n) = some n :=
  digitsValue_natDigits (n + 1) n (by omega)

theorem natToString_digits (n : Nat) : ∀ c ∈ natToString n, isDigit c = true :=
  natDigits_digits (n + 1) n

theorem arrayIndex_natToString {n : Nat} (h : n < 4294967295) :
    arrayIndex (natToString n) = some n := by
  obtain ⟨c, t, e, -, -⟩ := natToString_head n
  have d := digitsValue_natToString n
  rw [e] at d
  simp [arrayIndex, e, d, h]

theorem arrayIndex_eq_some {k : JSString} {n : Nat} (h : arrayIndex k = some n) :
    k = natToString n ∧ n < 4294967295 := by
  unfold arrayIndex at h
  split at h
  · exact absurd h (by simp)
  · split at h
    · split at h
      · rename_i hc
        simp only [Option.some.injEq] at h
        subst h
        exact ⟨hc.1.symm, hc.2⟩
      · exact absurd h (by simp)
    · exact absurd h (by simp)

theorem takeWhile_append_stop {p : Nat → Bool} {l rest : JSString} (hl : ∀ c ∈ l, p c = true)
    (hr : ∀ c, rest.head? = some c → p c = false) :
    (l ++ rest).takeWhile p = l ∧ (l ++ rest).dropWhile p = rest := by
  cases rest with
  | nil => simpa using hl
  | cons c r =>
    rw [List.takeWhile_append_of_pos hl, List.dropWhile_append_of_pos hl]
    simp [List.takeWhile, List.dropWhile, hr c rfl]

theorem digitsValue_zeros (acc j : Nat) :
    digitsValue acc (List.replicate j 48) = some (acc * 10 ^ j) := by
  induction j generalizing acc with
  | zero => simp [digitsValue]
  | succ j ih =>
    rw [List.replicate_succ, digitsValue, if_pos (by omega), ih]
    congr 1
    rw [pow_succ]
    ring

theorem parseIntegerPart_digits {c : Nat} {t X : JSString} (hc : 49 ≤ c ∧ c ≤ 57)
    (ht : ∀ x ∈ t, isDigit x = true) (hX : ∀ x, X.head? = some x → isDigit x = false) :
    parseIntegerPart (c :: t ++ X) = some (c :: t, X) := by
  obtain ⟨tw, dw⟩ := takeWhile_append_stop ht hX
  simp only [List.cons_append, parseIntegerPart]
  rw [if_neg (by omega), if_pos hc, tw, dw]

theorem parseFraction_digits {F X : JSString} (hF : F ≠ [])
    (hd : ∀ x ∈ F, isDigit x = true) (hX : ∀ x, X.head? = some x → isDigit x = false) :
    parseFraction (46 :: (F ++ X)) = some (F, X) := by
  obtain ⟨tw, dw⟩ := takeWhile_append_stop hd hX
  simp only [parseFraction]
  rw [if_pos trivial, tw, dw, if_neg (by simpa using hF)]

theorem parseFraction_none {X : JSString} (hX : ∀ x, X.head? = some x → x ≠ 46) :
    parseFraction X = some ([], X) := by
  cases X with
  | nil => rfl
  | cons c t =>
    simp only [parseFraction]
    rw [if_neg (hX c rfl)]

theorem parseExponent_none {X : JSString} (hX : ∀ x, X.head? = some x → x ≠ 101 ∧ x ≠ 69) :
    parseExponent X = some (0, X) := by
  cases X with
  | nil => rfl
  | cons c t =>
    simp only [parseExponent]
    rw [if_neg (by have := hX c rfl; omega)]

theorem parseExponentDigits_natToString (neg : Bool) (a : Nat) {X : JSString}
    (hX : ∀ x, X.head? = some x → isDigit x = false) :
    parseExponentDigits neg (natToString a ++ X)
      = some (if neg then -(a : Int) else (a : Int), X) := by
  obtain ⟨tw, dw⟩ := takeWhile_append_stop (natToString_digits a) hX
  obtain ⟨c, t, e, -, -⟩ := natToString_head a
  simp only [parseExponentDigits]
  rw [tw, dw, digitsValue_natToString, if_neg (by rw [e]; simp)]

/-- The exponent that `formatDecimal` writes reads back. -/
theorem parseExponent_written (z : Int) {X : JSString}
    (hX : ∀ x, X.head? = some x → isDigit x = false) :
    parseExponent (101 :: (if z < 0 then 45 else 43) :: (natToString z.natAbs ++ X))
      = some (z, X) := by
  simp only [parseExponent]
  rw [if_pos (Or.inl trivial)]
  by_cases hz : z < 0
  · rw [if_pos hz]
    simp only
    rw [if_neg (by decide), if_pos trivial, parseExponentDigits_natToString true _ hX]
    simp only [if_true, Option.some.injEq, Prod.mk.injEq, and_true]
    omega
  · rw [if_neg hz]
    simp only
    rw [if_pos trivial, parseExponentDigits_natToString false _ hX]
    simp only [Bool.false_eq_true, if_false, Option.some.injEq, Prod.mk.injEq, and_true]
    omega

theorem numberEnds_digit {X : JSString} (h : numberEnds X) :
    ∀ x, X.head? = some x → isDigit x = false := fun x hx => (h x hx).1

theorem numberEnds_point {X : JSString} (h : numberEnds X) :
    ∀ x, X.head? = some x → x ≠ 46 := fun x hx => (h x hx).2.1

theorem numberEnds_mark {X : JSString} (h : numberEnds X) :
    ∀ x, X.head? = some x → x ≠ 101 ∧ x ≠ 69 := fun x hx => (h x hx).2.2

theorem head_not_digit (c : Nat) (X : JSString) (h : isDigit c = false) :
    ∀ x, (c :: X).head? = some x → isDigit x = false := by
  intro x hx
  simp only [List.head?_cons, Option.some.injEq] at hx
  rw [← hx]; exact h

/-- The text of a decimal with digits above zero reads back as the double nearest
to the decimal. -/
theorem parseUnsigned_formatDecimal (neg : Bool) (s : Nat) (n : Int) (hs : 0 < s)
    (rest : JSString) (hr : numberEnds rest) :
    parseUnsigned neg (formatDecimal s n ++ rest)
      = some (roundDecimal neg s (n - ((natToString s).length : Int)), rest) := by
  obtain ⟨c, t, e, -, hp⟩ := natToString_head s
  have hc := hp hs
  have hd := natToString_digits s
  have dv := digitsValue_natToString s
  generalize hk : natToString s = ds at e hd dv ⊢
  subst e
  have ht : ∀ x ∈ t, isDigit x = true := fun x hx => hd x (List.mem_cons_of_mem _ hx)
  unfold formatDecimal
  rw [hk]
  simp only [List.length_cons]
  by_cases h1 : ((t.length + 1 : Nat) : Int) ≤ n ∧ n ≤ 21
  · rw [if_pos h1]
    have hz : ∀ x ∈ t ++ List.replicate (n - ((t.length + 1 : Nat) : Int)).toNat 48,
        isDigit x = true := by
      intro x hx
      rcases List.mem_append.1 hx with hx | hx
      · exact ht x hx
      · rw [List.eq_of_mem_replicate hx]; rfl
    unfold parseUnsigned
    rw [show (c :: t ++ List.replicate (n - ((t.length + 1 : Nat) : Int)).toNat 48) ++ rest
        = c :: (t ++ List.replicate (n - ((t.length + 1 : Nat) : Int)).toNat 48) ++ rest by simp,
      parseIntegerPart_digits hc hz (numberEnds_digit hr)]
    simp only
    rw [parseFraction_none (numberEnds_point hr)]
    simp only
    rw [parseExponent_none (numberEnds_mark hr)]
    simp only [List.append_nil]
    rw [show c :: (t ++ List.replicate (n - ((t.length + 1 : Nat) : Int)).toNat 48)
        = (c :: t) ++ List.replicate (n - ((t.length + 1 : Nat) : Int)).toNat 48 by simp,
      digitsValue_append, dv]
    simp only [Option.some_bind]
    rw [digitsValue_zeros]
    simp only
    have e1 : roundDecimal neg (s * 10 ^ (n - ((t.length + 1 : Nat) : Int)).toNat)
        (0 - (([] : JSString).length : Int))
        = roundDecimal neg s (n - ((t.length + 1 : Nat) : Int)) := by
      unfold roundDecimal
      have a1 : (-(n - ((t.length + 1 : Nat) : Int))).toNat = 0 := by omega
      rw [a1]
      simp
    rw [e1]
  rw [if_neg h1]
  by_cases h2 : 0 < n ∧ n ≤ 21
  · rw [if_pos h2]
    have hlt : n.toNat < t.length + 1 := by omega
    have hpos : 0 < n.toNat := by omega
    obtain ⟨j, hj⟩ : ∃ j, n.toNat = j + 1 := ⟨n.toNat - 1, by omega⟩
    rw [hj]
    simp only [List.take_succ_cons, List.drop_succ_cons]
    have hta : ∀ x ∈ t.take j, isDigit x = true := fun x hx => ht x (List.mem_of_mem_take hx)
    have hdr : ∀ x ∈ t.drop j, isDigit x = true := fun x hx => ht x (List.mem_of_mem_drop hx)
    have hne : t.drop j ≠ [] := by
      intro h0
      have := congrArg List.length h0
      simp only [List.length_drop, List.length_nil] at this
      omega
    unfold parseUnsigned
    rw [show (c :: t.take j ++ 46 :: t.drop j) ++ rest
        = c :: t.take j ++ (46 :: (t.drop j ++ rest)) by simp,
      parseIntegerPart_digits hc hta (head_not_digit 46 _ (by decide))]
    simp only
    rw [parseFraction_digits hne hdr (numberEnds_digit hr)]
    simp only
    rw [parseExponent_none (numberEnds_mark hr)]
    simp only
    rw [show c :: t.take j ++ t.drop j = c :: t by simp [List.take_append_drop], dv]
    simp only
    have e1 : (0 : Int) - ((t.drop j).length : Int) = n - ((t.length + 1 : Nat) : Int) := by
      simp only [List.length_drop]
      omega
    rw [e1]
  rw [if_neg h2]
  by_cases h3 : -6 < n ∧ n ≤ 0
  · rw [if_pos h3]
    have hz : ∀ x ∈ List.replicate (-n).toNat 48 ++ c :: t, isDigit x = true := by
      intro x hx
      rcases List.mem_append.1 hx with hx | hx
      · rw [List.eq_of_mem_replicate hx]; rfl
      · exact hd x hx
    unfold parseUnsigned
    rw [show (48 :: 46 :: (List.replicate (-n).toNat 48 ++ c :: t)) ++ rest
        = 48 :: (46 :: ((List.replicate (-n).toNat 48 ++ c :: t) ++ rest)) by simp]
    simp only [parseIntegerPart]
    rw [if_pos trivial]
    simp only
    rw [parseFraction_digits (by simp) hz (numberEnds_digit hr)]
    simp only
    rw [parseExponent_none (numberEnds_mark hr)]
    simp only
    rw [show [48] ++ (List.replicate (-n).toNat 48 ++ c :: t)
        = List.replicate ((-n).toNat + 1) 48 ++ c :: t by rw [List.replicate_succ]; simp,
      digitsValue_append, digitsValue_zeros]
    simp only [Nat.zero_mul, Option.some_bind, dv]
    have e1 : (0 : Int) - ((List.replicate (-n).toNat 48 ++ c :: t).length : Int)
        = n - ((t.length + 1 : Nat) : Int) := by
      simp only [List.length_append, List.length_replicate, List.length_cons]
      omega
    rw [e1]
  rw [if_neg h3]
  by_cases h4 : t.length + 1 = 1
  · rw [if_pos h4]
    have ht0 : t = [] := List.length_eq_zero.1 (by omega)
    subst ht0
    unfold parseUnsigned
    rw [show ([c] ++ 101 :: (if n - 1 < 0 then 45 else 43) :: natToString (n - 1).natAbs) ++ rest
        = c :: [] ++ (101 :: (if n - 1 < 0 then 45 else 43) :: (natToString (n - 1).natAbs ++ rest))
        by simp,
      parseIntegerPart_digits hc (by simp) (head_not_digit 101 _ (by decide))]
    simp only
    rw [parseFraction_none (by intro x hx; simp only [List.head?_cons, Option.some.injEq] at hx; omega)]
    simp only
    rw [parseExponent_written _ (numberEnds_digit hr)]
    simp only [List.append_nil, dv]
    have e1 : n - 1 - (([] : JSString).length : Int) = n - (([] : JSString).length + 1 : Nat) := by
      simp
    rw [e1]
  · rw [if_neg h4]
    have hne : t ≠ [] := by
      intro h0; subst h0; simp at h4
    simp only [List.take_succ_cons, List.take_zero, List.drop_succ_cons, List.drop_zero]
    unfold parseUnsigned
    rw [show ([c] ++ 46 :: (t ++ 101 :: (if n - 1 < 0 then 45 else 43)
          :: natToString (n - 1).natAbs)) ++ rest
        = c :: [] ++ (46 :: (t ++ (101 :: (if n - 1 < 0 then 45 else 43)
          :: (natToString (n - 1).natAbs ++ rest)))) by simp,
      parseIntegerPart_digits hc (by simp) (head_not_digit 46 _ (by decide))]
    simp only
    rw [parseFraction_digits hne ht (head_not_digit 101 _ (by decide))]
    simp only
    rw [parseExponent_written _ (numberEnds_digit hr)]
    simp only [List.singleton_append, dv]
    have e1 : n - 1 - (t.length : Int) = n - ((t.length + 1 : Nat) : Int) := by
      push_cast; ring
    rw [e1]

theorem formatDecimal_head (s : Nat) (n : Int) :
    ∃ c r, formatDecimal s n = c :: r ∧ 48 ≤ c ∧ c ≤ 57 := by
  obtain ⟨c, t, e, h0, hp⟩ := natToString_head s
  have hc : 48 ≤ c ∧ c ≤ 57 := by
    rcases Nat.eq_zero_or_pos s with h | h
    · rw [(h0 h).1]; omega
    · have := hp h; omega
  unfold formatDecimal
  rw [e]
  split
  · exact ⟨c, _, rfl, hc⟩
  split
  · rename_i h2
    obtain ⟨j, hj⟩ : ∃ j, n.toNat = j + 1 := ⟨n.toNat - 1, by omega⟩
    rw [hj]
    exact ⟨c, _, rfl, hc⟩
  split
  · exact ⟨48, _, rfl, by omega, by omega⟩
  split
  · exact ⟨c, _, rfl, hc⟩
  · exact ⟨c, _, rfl, hc⟩

theorem roundRatio_zero (neg : Bool) (b : Nat) : roundRatio neg 0 b = .finite false 0 0 := by
  simp [roundRatio]

theorem roundDecimal_zero (neg : Bool) (p : Int) : roundDecimal neg 0 p = .finite false 0 0 := by
  simp [roundDecimal, roundRatio_zero]

/-- The text of a finite Number reads back as the Number. -/
theorem parseNumber_numberText (x : JSNum) (hf : x.isFinite = true) (hv : x.valid = true)
    (rest : JSString) (hr : numberEnds rest) :
    parseNumber (numberText x ++ rest) = some (x, rest) := by
  cases x with
  | infinite neg => exact absurd hf (by simp [JSNum.isFinite])
  | finite neg m e =>
    simp only [numberText, numberToString]
    by_cases hm : m = 0
    · subst hm
      simp only [JSNum.valid, if_true, Bool.and_eq_true, Bool.not_eq_true', beq_iff_eq] at hv
      obtain ⟨rfl, rfl⟩ := hv
      rw [if_pos rfl]
      simp only [List.singleton_append, parseNumber]
      rw [if_neg (by decide)]
      unfold parseUnsigned
      simp only [parseIntegerPart]
      rw [if_pos trivial]
      simp only
      rw [parseFraction_none (numberEnds_point hr)]
      simp only
      rw [parseExponent_none (numberEnds_mark hr)]
      simp only [List.append_nil, digitsValue]
      rw [if_pos (by omega)]
      simp only [digitsValue, roundDecimal_zero]
      rfl
    · rw [if_neg hm]
      simp only [JSNum.valid, if_neg hm, beq_iff_eq] at hv
      have hs : 0 < (shortestDigits m e).1 := by
        rcases Nat.eq_zero_or_pos (shortestDigits m e).1 with h0 | h0
        · rw [h0, roundDecimal_zero] at hv
          simp only [JSNum.finite.injEq] at hv
          exact absurd hv.2.1.symm hm
        · exact h0
      have key := parseUnsigned_formatDecimal neg _ (shortestDigits m e).2 hs rest hr
      rw [hv] at key
      cases neg with
      | true =>
        simp only [if_true, List.singleton_append, List.cons_append, parseNumber]
        exact key
      | false =>
        obtain ⟨c, r, ef, hc⟩ := formatDecimal_head (shortestDigits m e).1 (shortestDigits m e).2
        simp only [Bool.false_eq_true, if_false, List.nil_append]
        rw [ef] at key ⊢
        simp only [List.cons_append, parseNumber]
        rw [if_neg (by omega)]
        exact key

/-- The text of a Number starts with a digit, with the sign or with the `n` of
`null`. -/
theorem numberText_head (x : JSNum) :
    ∃ c r, numberText x = c :: r ∧ ((48 ≤ c ∧ c ≤ 57) ∨ c = 45 ∨ c = 110) := by
  cases x with
  | infinite neg => exact ⟨110, lit "ull", rfl, Or.inr (Or.inr rfl)⟩
  | finite neg m e =>
    simp only [numberText, numberToString]
    split
    · exact ⟨48, [], rfl, Or.inl (by omega)⟩
    · cases neg with
      | true => exact ⟨45, _, rfl, Or.inr (Or.inl rfl)⟩
      | false =>
        obtain ⟨c, r, ef, hc⟩ := formatDecimal_head (shortestDigits m e).1 (shortestDigits m e).2
        exact ⟨c, r, by simp [ef], Or.inl hc⟩

theorem parseStringBody_cons (c : Nat) (t : JSString) : parseStringBody (c :: t) =
    if c = 34 then some ([], t)
    else if c = 92 then
      match t with
      | [] => none
      | e :: t1 =>
        if e = 117 then
          match t1 with
          | a :: b :: c1 :: d :: t2 =>
            match hexValue a, hexValue b, hexValue c1, hexValue d with
            | some x3, some x2, some x1, some x0 =>
              (parseStringBody t2).map
                (fun r => ((x3 * 4096 + x2 * 256 + x1 * 16 + x0) :: r.1, r.2))
            | _, _, _, _ => none
          | _ => none
        else
          match simpleEscape e with
          | some u => (parseStringBody t1).map (fun r => (u :: r.1, r.2))
          | none => none
    else if c < 32 then none
    else (parseStringBody t).map (fun r => (c :: r.1, r.2)) := by
  rw [parseStringBody.eq_def]
  rfl

theorem hexValue_hexDigit {n : Nat} (h : n < 16) : hexValue (hexDigit n) = some n := by
  unfold hexDigit hexValue
  split
  · rw [if_pos (by omega)]; congr 1; omega
  · rw [if_neg (by omega), if_pos (by omega)]; congr 1; omega

theorem parseStringBody_unicodeEscape {c : Nat} (hc : c < 65536) (X : JSString) :
    parseStringBody (unicodeEscape c ++ X)
      = (parseStringBody X).map (fun r => (c :: r.1, r.2)) := by
  have e : c / 4096 % 16 * 4096 + c / 256 % 16 * 256 + c / 16 % 16 * 16 + c % 16 = c := by omega
  simp only [unicodeEscape, List.cons_append, List.nil_append]
  rw [parseStringBody_cons]
  simp only [hexValue_hexDigit (Nat.mod_lt _ (by decide : 0 < 16)), e]
  simp

theorem parseStringBody_escapeUnit (c : Nat) (X : JSString) :
    parseStringBody (escapeUnit c ++ X)
      = (parseStringBody X).map (fun r => (c :: r.1, r.2)) := by
  unfold escapeUnit
  split
  · subst c; simp [parseStringBody_cons, simpleEscape]
  split
  · subst c; simp [parseStringBody_cons, simpleEscape]
  split
  · subst c; simp [parseStringBody_cons, simpleEscape]
  split
  · subst c; simp [parseStringBody_cons, simpleEscape]
  split
  · subst c; simp [parseStringBody_cons, simpleEscape]
  split
  · subst c; simp [parseStringBody_cons, simpleEscape]
  split
  · subst c; simp [parseStringBody_cons, simpleEscape]
  split
  · exact parseStringBody_unicodeEscape (by omega) X
  split
  · exact parseStringBody_unicodeEscape (by omega) X
  · rename_i h1 h2 h3 h4 h5 h6 h7 h8 h9
    simp only [List.cons_append, List.nil_append]
    rw [parseStringBody_cons, if_neg h6, if_neg h7, if_neg h8]

theorem parseStringBody_copy {c : Nat} (h1 : c ≠ 34) (h2 : c ≠ 92) (h3 : ¬ c < 32) (X : JSString) :
    parseStringBody (c :: X) = (parseStringBody X).map (fun r => (c :: r.1, r.2)) := by
  rw [parseStringBody_cons, if_neg h1, if_neg h2, if_neg h3]

theorem parseStringBody_quoteUnits : ∀ (n : Nat) (s rest : JSString), s.length ≤ n →
    parseStringBody (quoteUnits s ++ 34 :: rest) = some (s, rest) := by
  intro n
  induction n with
  | zero =>
    intro s rest h
    have : s = [] := List.eq_nil_of_length_eq_zero (by omega)
    subst this
    simp [quoteUnits, parseStringBody_cons]
  | succ n ih =>
    intro s rest h
    match s, h with
    | [], _ => simp [quoteUnits, parseStringBody_cons]
    | [c], _ =>
      simp only [quoteUnits]
      rw [parseStringBody_escapeUnit]
      simp [parseStringBody_cons]
    | c :: d :: t, h =>
      simp only [List.length_cons] at h
      simp only [quoteUnits]
      split
      · rename_i hs
        simp only [List.cons_append]
        rw [parseStringBody_copy (by omega) (by omega) (by omega),
          parseStringBody_copy (by omega) (by omega) (by omega), ih t rest (by omega)]
        rfl
      · rw [List.append_assoc, parseStringBody_escapeUnit, ih (d :: t) rest (by simp; omega)]
        rfl

theorem parseStringBody_quote (s rest : JSString) :
    parseStringBody (quoteUnits s ++ 34 :: rest) = some (s, rest) :=
  parseStringBody_quoteUnits s.length s rest (le_refl _)

/-! ## Property order -/

theorem keysOrdered_iff (ks : List JSString) :
    keysOrdered ks = true ↔ ks.Pairwise (fun a b => keyBefore a b = true) := by
  induction ks with
  | nil => simp [keysOrdered]
  | cons k ks ih =>
    simp only [keysOrdered, Bool.and_eq_true, List.all_eq_true, List.pairwise_cons, ih]

theorem keyBefore_ne {a b : JSString} (h : keyBefore a b = true) : a ≠ b := by
  unfold keyBefore at h
  simp only [Bool.and_eq_true, bne_iff_ne, ne_eq] at h
  exact h.1

theorem arrayIndex_inj {a b : JSString} {i : Nat} (ha : arrayIndex a = some i)
    (hb : arrayIndex b = some i) : a = b := by
  rw [(arrayIndex_eq_some ha).1, (arrayIndex_eq_some hb).1]

theorem keyBefore_iff (a b : JSString) :
    keyBefore a b = true ↔ a ≠ b ∧
      (∀ j, arrayIndex b = some j → ∃ i, arrayIndex a = some i ∧ i < j) := by
  unfold keyBefore
  simp only [Bool.and_eq_true, bne_iff_ne, ne_eq]
  cases ha : arrayIndex a <;> cases hb : arrayIndex b <;> simp

theorem hasProp_eq_false_iff (k : JSString) (ps : Props) :
    hasProp k ps = false ↔ ∀ kv ∈ ps, kv.1 ≠ k := by
  simp [hasProp]

theorem hasProp_iff (k : JSString) (ps : Props) :
    hasProp k ps = true ↔ k ∈ ps.map (fun kv => kv.1) := by
  simp only [hasProp, List.any_eq_true, beq_iff_eq, List.mem_map]

theorem updateProp_keys (k : JSString) (v : JSVal) (ps : Props) :
    (updateProp k v ps).map (fun kv => kv.1) = ps.map (fun kv => kv.1) := by
  induction ps with
  | nil => rfl
  | cons kv ps ih =>
    obtain ⟨k', v'⟩ := kv
    simp only [updateProp]
    split
    · simp
    · simp [ih]

theorem mem_insertProp_keys (k : JSString) (v : JSVal) (ps : Props) (x : JSString) :
    x ∈ (insertProp k v ps).map (fun kv => kv.1) ↔ x = k ∨ x ∈ ps.map (fun kv => kv.1) := by
  induction ps with
  | nil => simp [insertProp]
  | cons kv ps ih =>
    obtain ⟨k', v'⟩ := kv
    simp only [insertProp]
    split
    · split
      · simp
      · simp only [List.map_cons, List.mem_cons, ih]; tauto
    · simp
    · simp only [List.map_cons, List.mem_cons, ih]; tauto

theorem insertProp_append (k : JSString) (v : JSVal) (ps : Props)
    (h : ∀ x ∈ ps.map (fun kv => kv.1), keyBefore x k = true) :
    insertProp k v ps = ps ++ [(k, v)] := by
  induction ps with
  | nil => rfl
  | cons kv ps ih =>
    obtain ⟨k', v'⟩ := kv
    have hk := (keyBefore_iff k' k).1 (h k' (by simp))
    have ih' := ih (fun x hx => h x (by simp only [List.map_cons, List.mem_cons]; exact Or.inr hx))
    simp only [insertProp]
    split
    · rename_i i i' hi hi'
      obtain ⟨i2, e2, lt⟩ := hk.2 i hi
      rw [hi'] at e2
      simp only [Option.some.injEq] at e2
      subst e2
      rw [if_neg (by omega), ih']
      rfl
    · rename_i i hi hn
      obtain ⟨i2, e2, -⟩ := hk.2 i hi
      rw [hn] at e2
      exact absurd e2 (by simp)
    · rw [ih']
      rfl

theorem setProp_append (ps : Props) (k : JSString) (v : JSVal)
    (h : ∀ x ∈ ps.map (fun kv => kv.1), keyBefore x k = true) :
    setProp ps k v = ps ++ [(k, v)] := by
  have hn : hasProp k ps = false := by
    rw [hasProp_eq_false_iff]
    intro kv hkv
    exact keyBefore_ne (h kv.1 (List.mem_map_of_mem _ hkv))
  simp only [setProp, hn, Bool.false_eq_true, if_false]
  exact insertProp_append k v ps h

theorem foldl_setProp_ordered (acc rest : Props)
    (h : keysOrdered ((acc ++ rest).map (fun kv => kv.1)) = true) :
    rest.foldl (fun a kv => setProp a kv.1 kv.2) acc = acc ++ rest := by
  induction rest generalizing acc with
  | nil => simp
  | cons kv rest ih =>
    simp only [List.foldl_cons]
    have hp := (keysOrdered_iff _).1 h
    simp only [List.map_append, List.map_cons, List.pairwise_append, List.pairwise_cons] at hp
    have e : setProp acc kv.1 kv.2 = acc ++ [kv] := by
      rw [setProp_append acc kv.1 kv.2 (fun x hx => hp.2.2 x hx kv.1 (by simp))]
    rw [e, ih (acc ++ [kv]) (by simpa using h)]
    simp

theorem objectOfMembers_ordered (ps : Props)
    (h : keysOrdered (ps.map (fun kv => kv.1)) = true) : objectOfMembers ps = ps := by
  have := foldl_setProp_ordered [] ps (by simpa using h)
  simpa [objectOfMembers] using this

theorem insertProp_ordered (k : JSString) (v : JSVal) (ps : Props)
    (ho : keysOrdered (ps.map (fun kv => kv.1)) = true)
    (hn : ∀ x ∈ ps.map (fun kv => kv.1), x ≠ k) :
    keysOrdered ((insertProp k v ps).map (fun kv => kv.1)) = true := by
  induction ps with
  | nil => simp [insertProp, keysOrdered]
  | cons kv ps ih =>
    obtain ⟨k', v'⟩ := kv
    rw [keysOrdered_iff] at ho ⊢
    simp only [List.map_cons, List.pairwise_cons] at ho
    have hne : k' ≠ k := hn k' (by simp)
    have ih' := (keysOrdered_iff _).1
      (ih ((keysOrdered_iff _).2 ho.2)
        (fun x hx => hn x (by simp only [List.map_cons, List.mem_cons]; exact Or.inr hx)))
    simp only [insertProp]
    split
    · rename_i i i' hi hi'
      split
      · rename_i lt
        simp only [List.map_cons, List.pairwise_cons]
        refine ⟨?_, ho⟩
        intro x hx
        rw [keyBefore_iff]
        refine ⟨fun e => ?_, ?_⟩
        · subst e
          rcases List.mem_cons.1 hx with e | e
          · exact hne e.symm
          · exact hn _ (by simp only [List.map_cons, List.mem_cons]; exact Or.inr e) rfl
        · intro j hj
          refine ⟨i, hi, ?_⟩
          rcases List.mem_cons.1 hx with e | e
          · subst e; rw [hi'] at hj; simp only [Option.some.injEq] at hj; omega
          · obtain ⟨i2, e2, lt2⟩ := ((keyBefore_iff k' x).1 (ho.1 x e)).2 j hj
            rw [hi'] at e2; simp only [Option.some.injEq] at e2; omega
      · rename_i nlt
        simp only [List.map_cons, List.pairwise_cons]
        refine ⟨?_, ih'⟩
        intro x hx
        rcases (mem_insertProp_keys k v ps x).1 hx with e | e
        · subst e
          rw [keyBefore_iff]
          refine ⟨hne, fun j hj => ⟨i', hi', ?_⟩⟩
          rw [hi] at hj; simp only [Option.some.injEq] at hj
          subst hj
          have : i ≠ i' := fun e => hne (arrayIndex_inj hi' (e ▸ hi))
          omega
        · exact ho.1 x e
    · rename_i i hi hn'
      simp only [List.map_cons, List.pairwise_cons]
      refine ⟨?_, ho⟩
      intro x hx
      rw [keyBefore_iff]
      refine ⟨fun e => ?_, ?_⟩
      · subst e
        rcases List.mem_cons.1 hx with e | e
        · exact hne e.symm
        · exact hn _ (by simp only [List.map_cons, List.mem_cons]; exact Or.inr e) rfl
      · intro j hj
        rcases List.mem_cons.1 hx with e | e
        · subst e; rw [hn'] at hj; exact absurd hj (by simp)
        · obtain ⟨i2, e2, -⟩ := ((keyBefore_iff k' x).1 (ho.1 x e)).2 j hj
          rw [hn'] at e2; exact absurd e2 (by simp)
    · rename_i hn'
      simp only [List.map_cons, List.pairwise_cons]
      refine ⟨?_, ih'⟩
      intro x hx
      rcases (mem_insertProp_keys k v ps x).1 hx with e | e
      · subst e
        rw [keyBefore_iff]
        refine ⟨hne, fun j hj => ?_⟩
        rw [hn'] at hj
        exact absurd hj (by simp)
      · exact ho.1 x e

theorem setProp_ordered (ps : Props) (k : JSString) (v : JSVal)
    (ho : keysOrdered (ps.map (fun kv => kv.1)) = true) :
    keysOrdered ((setProp ps k v).map (fun kv => kv.1)) = true := by
  unfold setProp
  split
  · rw [updateProp_keys]; exact ho
  · rename_i hn
    apply insertProp_ordered k v ps ho
    intro x hx e
    subst e
    exact hn ((hasProp_iff _ _).2 hx)

theorem foldl_setProp_keysOrdered (acc rest : Props)
    (h : keysOrdered (acc.map (fun kv => kv.1)) = true) :
    keysOrdered ((rest.foldl (fun a kv => setProp a kv.1 kv.2) acc).map (fun kv => kv.1)) = true := by
  induction rest generalizing acc with
  | nil => simpa using h
  | cons kv rest ih =>
    simp only [List.foldl_cons]
    exact ih _ (setProp_ordered acc kv.1 kv.2 h)

theorem objectOfMembers_keysOrdered (ps : Props) :
    keysOrdered ((objectOfMembers ps).map (fun kv => kv.1)) = true :=
  foldl_setProp_keysOrdered [] ps rfl

theorem objectAssign_keysOrdered (target source : Props)
    (h : keysOrdered (target.map (fun kv => kv.1)) = true) :
    keysOrdered ((objectAssign target source).map (fun kv => kv.1)) = true :=
  foldl_setProp_keysOrdered target source h

/-! ## The text of a tree parses back to the tree -/

theorem skipWs_append {pre X : JSString} (hpre : allWs pre = true)
    (hX : ∀ c, X.head? = some c → isWs c = false) : skipWs (pre ++ X) = X := by
  have hp : ∀ c ∈ pre, isWs c = true := by simpa [allWs] using hpre
  exact (takeWhile_append_stop hp hX).2

theorem skipWs_cons {c : Nat} (t : JSString) (hc : isWs c = false) : skipWs (c :: t) = c :: t := by
  simp [skipWs, List.dropWhile, hc]

theorem joinWith_membersText (w1 w2 : JSString) (closing : Nat) (ms : List JSString)
    (rest : JSString) (h : ms ≠ []) :
    w1 ++ joinWith (44 :: w1) ms ++ w2 ++ closing :: rest = membersText w1 w2 closing ms rest := by
  induction ms with
  | nil => exact absurd rfl h
  | cons x ms ih =>
    cases ms with
    | nil => simp [joinWith, membersText]
    | cons y t =>
      have := ih (by simp)
      simp only [joinWith, membersText, ← this]
      simp

theorem wrapMembers_append (gap stepback : JSString) (opening closing : Nat)
    (ms : List JSString) (rest : JSString) (h : ms ≠ []) :
    wrapMembers gap stepback opening closing ms ++ rest
      = opening :: membersText (gapBefore gap stepback) (gapAfter gap stepback) closing ms rest := by
  rw [← joinWith_membersText _ _ _ _ _ h]
  cases ms with
  | nil => exact absurd rfl h
  | cons x t =>
    simp only [wrapMembers, gapBefore, gapAfter]
    split <;> simp

theorem allWs_gapBefore {gap stepback : JSString} (hg : allWs gap = true)
    (hs : allWs stepback = true) : allWs (gapBefore gap stepback) = true := by
  unfold gapBefore
  split
  · rfl
  · simp only [allWs, List.all_cons, List.all_append, Bool.and_eq_true] at *
    exact ⟨by decide, hs, hg⟩

theorem allWs_gapAfter {gap stepback : JSString}
    (hs : allWs stepback = true) : allWs (gapAfter gap stepback) = true := by
  unfold gapAfter
  split
  · rfl
  · simp only [allWs, List.all_cons, Bool.and_eq_true] at *
    exact ⟨by decide, hs⟩

theorem allWs_append {a b : JSString} (ha : allWs a = true) (hb : allWs b = true) :
    allWs (a ++ b) = true := by
  simp only [allWs, List.all_append, Bool.and_eq_true] at *
  exact ⟨ha, hb⟩

theorem lit_null : lit "null" = [110, 117, 108, 108] := by decide

theorem lit_true : lit "true" = [116, 114, 117, 101] := by decide

theorem lit_false : lit "false" = [102, 97, 108, 115, 101] := by decide

theorem wrapMembers_head (gap stepback : JSString) (opening closing : Nat)
    (ms : List JSString) :
    ∃ r, wrapMembers gap stepback opening closing ms = opening :: r := by
  cases ms with
  | nil => exact ⟨_, rfl⟩
  | cons x t =>
    simp only [wrapMembers]
    split
    · exact ⟨_, rfl⟩
    · exact ⟨_, rfl⟩

theorem render_head (gap indent : JSString) (t : JSVal) :
    ∃ c r, render gap indent t = c :: r ∧ opensValue c := by
  cases t with
  | undefined => exact ⟨110, _, by rw [render, lit_null], by simp [opensValue]⟩
  | null => exact ⟨110, _, by rw [render, lit_null], by simp [opensValue]⟩
  | bool b =>
    cases b
    · exact ⟨102, _, by rw [render, lit_false], by simp [opensValue]⟩
    · exact ⟨116, _, by rw [render, lit_true], by simp [opensValue]⟩
  | num n =>
    obtain ⟨c, r, e, h⟩ := numberText_head n
    refine ⟨c, r, by rw [render, e], ?_⟩
    rcases h with h | h | h
    · exact Or.inl h
    · exact Or.inr (Or.inl h)
    · exact Or.inr (Or.inr (Or.inr (Or.inr (Or.inr (Or.inl h)))))
  | str s => exact ⟨34, _, by rw [render]; rfl, by simp [opensValue]⟩
  | arr xs =>
    obtain ⟨r, e⟩ := wrapMembers_head gap indent 91 93 (renderList gap (indent ++ gap) xs)
    exact ⟨91, r, by rw [render, e], by simp [opensValue]⟩
  | obj ps =>
    obtain ⟨r, e⟩ := wrapMembers_head gap indent 123 125 (renderProps gap (indent ++ gap) ps)
    exact ⟨123, r, by rw [render, e], by simp [opensValue]⟩

theorem opensValue_notWs {c : Nat} (h : opensValue c) : isWs c = false := by
  unfold opensValue at h
  simp only [isWs, Bool.or_eq_false_iff, beq_eq_false_iff_ne, ne_eq]
  omega

theorem render_append_head (gap indent : JSString) (t : JSVal) (rest : JSString) :
    ∃ c r, render gap indent t ++ rest = c :: r ∧ opensValue c := by
  obtain ⟨c, r, e, h⟩ := render_head gap indent t
  exact ⟨c, r ++ rest, by rw [e]; rfl, h⟩

theorem skipWs_render {pre : JSString} (hpre : allWs pre = true) (gap indent : JSString)
    (t : JSVal) (rest : JSString) :
    skipWs (pre ++ (render gap indent t ++ rest)) = render gap indent t ++ rest := by
  apply skipWs_append hpre
  obtain ⟨c, r, e, h⟩ := render_append_head gap indent t rest
  intro c' hc'
  rw [e] at hc'
  simp only [List.head?_cons, Option.some.injEq] at hc'
  subst hc'
  exact opensValue_notWs h

theorem numberEnds_ws {w : JSString} (hw : allWs w = true) {c : Nat}
    (hc : isDigit c = false ∧ c ≠ 46 ∧ c ≠ 101 ∧ c ≠ 69)
    (rest : JSString) : numberEnds (w ++ c :: rest) := by
  intro x hx
  cases w with
  | nil =>
    simp only [List.nil_append, List.head?_cons, Option.some.injEq] at hx
    subst hx; exact hc
  | cons a w =>
    simp only [List.cons_append, List.head?_cons, Option.some.injEq] at hx
    subst hx
    simp only [allWs, List.all_cons, Bool.and_eq_true] at hw
    have := hw.1
    simp only [isWs, Bool.or_eq_true, beq_iff_eq] at this
    simp only [isDigit, Bool.and_eq_false_imp, decide_eq_true_eq, decide_eq_false_iff_not]
    omega

theorem numberEnds_cons {c : Nat} (hc : isDigit c = false ∧ c ≠ 46 ∧ c ≠ 101 ∧ c ≠ 69)
    (rest : JSString) : numberEnds (c :: rest) := by
  intro x hx
  simp only [List.head?_cons, Option.some.injEq] at hx
  subst hx; exact hc

theorem parseValue_num (f : Nat) (n : JSNum) (hf : n.isFinite = true) (hv : n.valid = true)
    (rest : JSString) (hr : numberEnds rest) :
    (match numberText n ++ rest with
      | [] => none
      | c :: t =>
        if c = 34 then (parseStringBody t).map (fun r => (JSVal.str r.1, r.2))
        else if c = 91 then
          if (skipWs t).head? = some 93 then some (JSVal.arr [], (skipWs t).tail)
          else (parseElements f t).map (fun r => (JSVal.arr r.1, r.2))
        else if c = 123 then
          if (skipWs t).head? = some 125 then some (JSVal.obj [], (skipWs t).tail)
          else (parseMembers f t).map (fun r => (JSVal.obj (objectOfMembers r.1), r.2))
        else if (lit "true").isPrefixOf (c :: t) then some (JSVal.bool true, (c :: t).drop 4)
        else if (lit "false").isPrefixOf (c :: t) then some (JSVal.bool false, (c :: t).drop 5)
        else if (lit "null").isPrefixOf (c :: t) then some (JSVal.null, (c :: t).drop 4)
        else (parseNumber (c :: t)).map (fun r => (JSVal.num r.1, r.2)))
      = some (JSVal.num n, rest) := by
  have hp := parseNumber_numberText n hf hv rest hr
  obtain ⟨c, t, e, hc⟩ := numberText_head n
  have hc2 : (48 ≤ c ∧ c ≤ 57) ∨ c = 45 := by
    rcases hc with h | h | h
    · exact Or.inl h
    · exact Or.inr h
    · exfalso
      cases n with
      | infinite neg => exact absurd hf (by simp [JSNum.isFinite])
      | finite neg m x =>
        simp only [numberText, numberToString] at e
        split at e
        · simp only [List.cons.injEq] at e; omega
        · cases neg with
          | true =>
            simp only [if_true, List.singleton_append, List.cons.injEq] at e; omega
          | false =>
            obtain ⟨c2, r2, ef, hc2⟩ := formatDecimal_head (shortestDigits m x).1
              (shortestDigits m x).2
            rw [ef] at e
            simp only [Bool.false_eq_true, if_false, List.nil_append, List.cons.injEq] at e
            omega
  rw [e] at hp ⊢
  simp only [List.cons_append] at hp ⊢
  rw [if_neg (by omega), if_neg (by omega), if_neg (by omega)]
  have h1 : (lit "true").isPrefixOf (c :: (t ++ rest)) = false := by
    rw [lit_true]; simp [List.isPrefixOf]; omega
  have h2 : (lit "false").isPrefixOf (c :: (t ++ rest)) = false := by
    rw [lit_false]; simp [List.isPrefixOf]; omega
  have h3 : (lit "null").isPrefixOf (c :: (t ++ rest)) = false := by
    rw [lit_null]; simp [List.isPrefixOf]; omega
  simp only [h1, h2, h3, Bool.false_eq_true, if_false]
  rw [hp]
  rfl

theorem renderList_ne_nil (gap indent : JSString) {xs : List JSVal} (h : xs ≠ []) :
    renderList gap indent xs ≠ [] := by
  cases xs with
  | nil => exact absurd rfl h
  | cons x t => simp [renderList]

theorem renderProps_ne_nil (gap indent : JSString) {ps : Props} (h : ps ≠ []) :
    renderProps gap indent ps ≠ [] := by
  cases ps with
  | nil => exact absurd rfl h
  | cons x t => simp [renderProps]

theorem allWs_colon_tail (gap : JSString) :
    ∃ w, colon gap = 58 :: w ∧ allWs w = true := by
  unfold colon
  split
  · exact ⟨[], rfl, rfl⟩
  · exact ⟨[32], rfl, by decide⟩

theorem roundTrip_zero (gap : JSString) : RoundTripAt gap 0 := by
  refine ⟨?_, ?_, ?_⟩
  · intro t h
    cases t <;> simp [parseDepth] at h
  · intro xs hx h
    cases xs with
    | nil => exact absurd rfl hx
    | cons x t => simp [parseDepthList] at h
  · intro ps hx h
    cases ps with
    | nil => exact absurd rfl hx
    | cons x t => simp [parseDepthProps] at h

theorem roundTrip_value (gap : JSString) (hg : allWs gap = true) (f : Nat)
    (ih : RoundTripAt gap f) (t : JSVal) (hd : parseDepth t ≤ f + 1) (hdef : defined t = true)
    (hwf : wellFormed t = true) (indent pre rest : JSString) (hi : allWs indent = true)
    (hpre : allWs pre = true) (hr : numberEnds rest) :
    parseValue (f + 1) (pre ++ (render gap indent t ++ rest)) = some (t, rest) := by
  rw [parseValue, skipWs_render hpre]
  cases t with
  | undefined => simp [defined] at hdef
  | null => simp [render, lit_null, lit_true, lit_false]
  | bool b => cases b <;> simp [render, lit_null, lit_true, lit_false]
  | num n =>
    rw [render]
    exact parseValue_num f n (by simpa [defined] using hdef) (by simpa [wellFormed] using hwf)
      rest hr
  | str s =>
    simp only [render, quote, List.cons_append, List.append_assoc, List.singleton_append,
      List.nil_append, ↓reduceIte]
    rw [parseStringBody_quote]
    rfl
  | arr xs =>
    simp only [defined, wellFormed, Bool.and_eq_true, parseDepth] at hdef hwf hd
    rw [render]
    cases hx : xs with
    | nil =>
      simp [renderList, wrapMembers, skipWs, isWs]
    | cons x xs' =>
      rw [← hx]
      have hne : xs ≠ [] := by rw [hx]; simp
      rw [wrapMembers_append _ _ _ _ _ _ (renderList_ne_nil gap _ hne)]
      simp only [Nat.reduceEqDiff, ↓reduceIte]
      have hm := ih.2.1 xs hne (by omega) hdef hwf (indent ++ gap)
        (gapBefore gap indent) (gapAfter gap indent) rest (allWs_append hi hg)
        (allWs_gapBefore hg hi) (allWs_gapAfter hi)
      have hhead : (skipWs (membersText (gapBefore gap indent) (gapAfter gap indent) 93
          (renderList gap (indent ++ gap) xs) rest)).head? ≠ some 93 := by
        rw [hx]
        obtain ⟨c, r, e, ho⟩ := render_head gap (indent ++ gap) x
        cases xs' with
        | nil =>
          simp only [renderList, membersText, List.append_assoc]
          rw [skipWs_append (allWs_gapBefore hg hi)]
          · rw [e]; simp only [List.cons_append, List.head?_cons, ne_eq, Option.some.injEq]
            unfold opensValue at ho; omega
          · intro c' hc'
            rw [e] at hc'
            simp only [List.cons_append, List.head?_cons, Option.some.injEq] at hc'
            subst hc'; exact opensValue_notWs ho
        | cons y t =>
          simp only [renderList, membersText, List.append_assoc]
          rw [skipWs_append (allWs_gapBefore hg hi)]
          · rw [e]; simp only [List.cons_append, List.head?_cons, ne_eq, Option.some.injEq]
            unfold opensValue at ho; omega
          · intro c' hc'
            rw [e] at hc'
            simp only [List.cons_append, List.head?_cons, Option.some.injEq] at hc'
            subst hc'; exact opensValue_notWs ho
      rw [if_neg hhead, hm]
      rfl
  | obj ps =>
    simp only [defined, wellFormed, Bool.and_eq_true, parseDepth] at hdef hwf hd
    rw [render]
    cases hx : ps with
    | nil =>
      simp [renderProps, wrapMembers, skipWs, isWs]
    | cons x ps' =>
      rw [← hx]
      have hne : ps ≠ [] := by rw [hx]; simp
      rw [wrapMembers_append _ _ _ _ _ _ (renderProps_ne_nil gap _ hne)]
      simp only [Nat.reduceEqDiff, ↓reduceIte]
      have hm := ih.2.2 ps hne (by omega) hdef hwf.2 (indent ++ gap)
        (gapBefore gap indent) (gapAfter gap indent) rest (allWs_append hi hg)
        (allWs_gapBefore hg hi) (allWs_gapAfter hi)
      have hhead : (skipWs (membersText (gapBefore gap indent) (gapAfter gap indent) 125
          (renderProps gap (indent ++ gap) ps) rest)).head? ≠ some 125 := by
        rw [hx]
        cases ps' with
        | nil =>
          simp only [renderProps, membersText, List.append_assoc, quote, List.cons_append]
          rw [skipWs_append (allWs_gapBefore hg hi)]
          · simp
          · intro c' hc'
            simp only [List.head?_cons, Option.some.injEq] at hc'
            subst hc'; decide
        | cons y t =>
          simp only [renderProps, membersText, List.append_assoc, quote, List.cons_append]
          rw [skipWs_append (allWs_gapBefore hg hi)]
          · simp
          · intro c' hc'
            simp only [List.head?_cons, Option.some.injEq] at hc'
            subst hc'; decide
      rw [if_neg hhead, hm]
      simp only [Option.map_some', objectOfMembers_ordered ps hwf.1]

theorem head_notWs_cons {c : Nat} (h : isWs c = false) (t : JSString) :
    ∀ x, (c :: t).head? = some x → isWs x = false := by
  intro x hx
  simp only [List.head?_cons, Option.some.injEq] at hx
  subst hx; exact h

theorem roundTrip_elements (gap : JSString) (f : Nat)
    (ih : RoundTripAt gap f) (xs : List JSVal) (hne : xs ≠ []) (hd : parseDepthList xs ≤ f + 1)
    (hdef : definedList xs = true) (hwf : wellFormedList xs = true)
    (indent w1 w2 rest : JSString) (hi : allWs indent = true) (h1 : allWs w1 = true)
    (h2 : allWs w2 = true) :
    parseElements (f + 1) (membersText w1 w2 93 (renderList gap indent xs) rest)
      = some (xs, rest) := by
  rw [parseElements]
  match xs, hne with
  | [x], _ =>
    simp only [parseDepthList, definedList, wellFormedList, Bool.and_eq_true] at hd hdef hwf
    simp only [renderList, membersText]
    rw [List.append_assoc, ih.1 x (by omega) hdef.1 hwf.1 indent w1 _ hi h1
      (numberEnds_ws h2 (by decide) rest)]
    simp only
    rw [skipWs_append h2 (head_notWs_cons (by decide) _)]
    simp
  | x :: y :: t, _ =>
    simp only [parseDepthList, definedList, wellFormedList, Bool.and_eq_true] at hd hdef hwf
    simp only [renderList, membersText]
    rw [List.append_assoc, ih.1 x (by omega) hdef.1 hwf.1 indent w1 _ hi h1
      (numberEnds_cons (by decide) _)]
    simp only
    rw [skipWs_cons _ (by decide)]
    simp only [↓reduceIte]
    have := ih.2.1 (y :: t) (by simp) (by simp only [parseDepthList]; omega)
      (by simp only [definedList, Bool.and_eq_true]; exact hdef.2)
      (by simp only [wellFormedList, Bool.and_eq_true]; exact hwf.2) indent w1 w2 rest hi h1 h2
    simp only [renderList] at this
    rw [this]
    rfl

theorem roundTrip_members (gap : JSString) (f : Nat)
    (ih : RoundTripAt gap f) (ps : Props) (hne : ps ≠ []) (hd : parseDepthProps ps ≤ f + 1)
    (hdef : definedProps ps = true) (hwf : wellFormedProps ps = true)
    (indent w1 w2 rest : JSString) (hi : allWs indent = true) (h1 : allWs w1 = true)
    (h2 : allWs w2 = true) :
    parseMembers (f + 1) (membersText w1 w2 125 (renderProps gap indent ps) rest)
      = some (ps, rest) := by
  rw [parseMembers]
  obtain ⟨w, ew, hw⟩ := allWs_colon_tail gap
  match ps, hne with
  | [kv], _ =>
    simp only [parseDepthProps, definedProps, wellFormedProps, Bool.and_eq_true] at hd hdef hwf
    simp only [renderProps, membersText, quote, List.cons_append, List.append_assoc, ew]
    rw [skipWs_append h1 (head_notWs_cons (by decide) _)]
    simp only [↓reduceIte, List.nil_append]
    rw [parseStringBody_quote]
    simp only
    rw [skipWs_cons _ (by decide)]
    simp only [↓reduceIte]
    rw [ih.1 kv.2 (by omega) hdef.1 hwf.1 indent w _ hi hw
      (numberEnds_ws h2 (by decide) rest)]
    simp only
    rw [skipWs_append h2 (head_notWs_cons (by decide) _)]
    simp
  | kv :: y :: t, _ =>
    simp only [parseDepthProps, definedProps, wellFormedProps, Bool.and_eq_true] at hd hdef hwf
    simp only [renderProps, membersText, quote, List.cons_append, List.append_assoc, ew]
    rw [skipWs_append h1 (head_notWs_cons (by decide) _)]
    simp only [↓reduceIte, List.nil_append]
    rw [parseStringBody_quote]
    simp only
    rw [skipWs_cons _ (by decide)]
    simp only [↓reduceIte]
    rw [ih.1 kv.2 (by omega) hdef.1 hwf.1 indent w _ hi hw
      (numberEnds_cons (by decide) _)]
    simp only
    rw [skipWs_cons _ (by decide)]
    simp only [↓reduceIte]
    have := ih.2.2 (y :: t) (by simp) (by simp only [parseDepthProps]; omega)
      (by simp only [definedProps, Bool.and_eq_true]; exact hdef.2)
      (by simp only [wellFormedProps, Bool.and_eq_true]; exact hwf.2) indent w1 w2 rest hi h1 h2
    simp only [renderProps, quote, List.cons_append, List.append_assoc, ew,
      List.nil_append] at this
    rw [this]
    rfl

theorem roundTrip (gap : JSString) (hg : allWs gap = true) : ∀ f, RoundTripAt gap f := by
  intro f
  induction f with
  | zero => exact roundTrip_zero gap
  | succ f ih =>
    exact ⟨fun t hd hdef hwf indent pre rest hi hpre hr =>
        roundTrip_value gap hg f ih t hd hdef hwf indent pre rest hi hpre hr,
      fun xs hne hd hdef hwf indent w1 w2 rest hi h1 h2 =>
        roundTrip_elements gap f ih xs hne hd hdef hwf indent w1 w2 rest hi h1 h2,
      fun ps hne hd hdef hwf indent w1 w2 rest hi h1 h2 =>
        roundTrip_members gap f ih ps hne hd hdef hwf indent w1 w2 rest hi h1 h2⟩

/-! ## `JSON.parse` of a rendering -/

theorem joinWith_length (sep : JSString) (hs : 1 ≤ sep.length) (ms : List JSString) :
    (ms.map (fun m => m.length + 1)).sum ≤ (joinWith sep ms).length + 1 := by
  induction ms with
  | nil => simp
  | cons x ms ih =>
    cases ms with
    | nil => simp [joinWith]
    | cons y t =>
      simp only [joinWith, List.map_cons, List.sum_cons, List.length_append] at ih ⊢
      omega

theorem wrapMembers_length (gap stepback : JSString) (opening closing : Nat)
    (ms : List JSString) :
    (ms.map (fun m => m.length + 1)).sum + 1 ≤ (wrapMembers gap stepback opening closing ms).length := by
  cases ms with
  | nil => simp [wrapMembers]
  | cons x t =>
    simp only [wrapMembers]
    split
    · have := joinWith_length [44] (by simp) (x :: t)
      simp only [List.length_cons, List.length_append, List.length_nil] at this ⊢
      omega
    · have := joinWith_length (44 :: 10 :: (stepback ++ gap)) (by simp) (x :: t)
      simp only [List.length_cons, List.length_append, List.length_nil] at this ⊢
      omega

theorem render_length_pos (gap indent : JSString) (t : JSVal) :
    1 ≤ (render gap indent t).length := by
  obtain ⟨c, r, e, -⟩ := render_head gap indent t
  rw [e]; simp

mutual
theorem parseDepth_le (gap : JSString) :
    ∀ (indent : JSString) (t : JSVal), parseDepth t ≤ 2 * (render gap indent t).length
  | indent, .undefined => by have := render_length_pos gap indent .undefined; simp only [parseDepth]; omega
  | indent, .null => by have := render_length_pos gap indent .null; simp only [parseDepth]; omega
  | indent, .bool b => by have := render_length_pos gap indent (.bool b); simp only [parseDepth]; omega
  | indent, .num n => by have := render_length_pos gap indent (.num n); simp only [parseDepth]; omega
  | indent, .str s => by have := render_length_pos gap indent (.str s); simp only [parseDepth]; omega
  | indent, .arr xs => by
    have h1 := parseDepthList_le gap (indent ++ gap) xs
    have h2 := wrapMembers_length gap indent 91 93 (renderList gap (indent ++ gap) xs)
    simp only [parseDepth, render]
    omega
  | indent, .obj ps => by
    have h1 := parseDepthProps_le gap (indent ++ gap) ps
    have h2 := wrapMembers_length gap indent 123 125 (renderProps gap (indent ++ gap) ps)
    simp only [parseDepth, render]
    omega
theorem parseDepthList_le (gap : JSString) :
    ∀ (indent : JSString) (xs : List JSVal),
      parseDepthList xs ≤ 2 * ((renderList gap indent xs).map (fun m => m.length + 1)).sum
  | _, [] => by simp [parseDepthList]
  | indent, x :: xs => by
    have h1 := parseDepth_le gap indent x
    have h2 := parseDepthList_le gap indent xs
    simp only [parseDepthList, renderList, List.map_cons, List.sum_cons]
    omega
theorem parseDepthProps_le (gap : JSString) :
    ∀ (indent : JSString) (ps : Props),
      parseDepthProps ps ≤ 2 * ((renderProps gap indent ps).map (fun m => m.length + 1)).sum
  | _, [] => by simp [parseDepthProps]
  | indent, kv :: ps => by
    have h1 := parseDepth_le gap indent kv.2
    have h2 := parseDepthProps_le gap indent ps
    simp only [parseDepthProps, renderProps, List.map_cons, List.sum_cons, List.length_append]
    omega
end

theorem parseValue_mono_aux : ∀ (f : Nat),
    (∀ s r, parseValue f s = some r → parseValue (f + 1) s = some r)
    ∧ (∀ s r, parseElements f s = some r → parseElements (f + 1) s = some r)
    ∧ (∀ s r, parseMembers f s = some r → parseMembers (f + 1) s = some r) := by
  intro f
  induction f with
  | zero =>
    refine ⟨?_, ?_, ?_⟩ <;> intro s r h
    · simp [parseValue] at h
    · simp [parseElements] at h
    · simp [parseMembers] at h
  | succ f ih =>
    obtain ⟨ihv, ihe, ihm⟩ := ih
    refine ⟨?_, ?_, ?_⟩
    · intro s r h
      rw [parseValue] at h ⊢
      cases hs : skipWs s with
      | nil => rw [hs] at h; exact absurd h (by simp)
      | cons c t =>
        rw [hs] at h
        simp only at h ⊢
        by_cases h34 : c = 34
        · rw [if_pos h34] at h ⊢; exact h
        rw [if_neg h34] at h ⊢
        by_cases h91 : c = 91
        · rw [if_pos h91] at h ⊢
          split at h
          · rename_i hh; rw [if_pos hh]; exact h
          · rename_i hh; rw [if_neg hh]
            cases he : parseElements f t with
            | none => rw [he] at h; exact absurd h (by simp)
            | some q => rw [he] at h; rw [ihe t q he]; exact h
        rw [if_neg h91] at h ⊢
        by_cases h123 : c = 123
        · rw [if_pos h123] at h ⊢
          split at h
          · rename_i hh; rw [if_pos hh]; exact h
          · rename_i hh; rw [if_neg hh]
            cases he : parseMembers f t with
            | none => rw [he] at h; exact absurd h (by simp)
            | some q => rw [he] at h; rw [ihm t q he]; exact h
        rw [if_neg h123] at h ⊢
        exact h
    · intro s r h
      rw [parseElements] at h ⊢
      cases hv : parseValue f s with
      | none => rw [hv] at h; exact absurd h (by simp)
      | some q =>
        obtain ⟨v, r1⟩ := q
        rw [hv] at h
        rw [ihv s _ hv]
        simp only at h ⊢
        cases hs : skipWs r1 with
        | nil => rw [hs] at h; exact absurd h (by simp)
        | cons c t =>
          rw [hs] at h
          simp only at h ⊢
          by_cases h44 : c = 44
          · rw [if_pos h44] at h ⊢
            cases he : parseElements f t with
            | none => rw [he] at h; exact absurd h (by simp)
            | some q => rw [he] at h; rw [ihe t q he]; exact h
          · rw [if_neg h44] at h ⊢; exact h
    · intro s r h
      rw [parseMembers] at h ⊢
      cases hs : skipWs s with
      | nil => rw [hs] at h; exact absurd h (by simp)
      | cons c t =>
        rw [hs] at h
        simp only at h ⊢
        by_cases h34 : c = 34
        · rw [if_pos h34] at h ⊢
          cases hk : parseStringBody t with
          | none => rw [hk] at h; exact absurd h (by simp)
          | some kr =>
            obtain ⟨k, r1⟩ := kr
            rw [hk] at h
            simp only at h ⊢
            cases hs2 : skipWs r1 with
            | nil => rw [hs2] at h; exact absurd h (by simp)
            | cons c2 t2 =>
              rw [hs2] at h
              simp only at h ⊢
              by_cases h58 : c2 = 58
              · rw [if_pos h58] at h ⊢
                cases hv : parseValue f t2 with
                | none => rw [hv] at h; exact absurd h (by simp)
                | some q =>
                  obtain ⟨v, r2⟩ := q
                  rw [hv] at h
                  rw [ihv t2 _ hv]
                  simp only at h ⊢
                  cases hs3 : skipWs r2 with
                  | nil => rw [hs3] at h; exact absurd h (by simp)
                  | cons c3 t3 =>
                    rw [hs3] at h
                    simp only at h ⊢
                    by_cases h44 : c3 = 44
                    · rw [if_pos h44] at h ⊢
                      cases he : parseMembers f t3 with
                      | none => rw [he] at h; exact absurd h (by simp)
                      | some q => rw [he] at h; rw [ihm t3 q he]; exact h
                    · rw [if_neg h44] at h ⊢; exact h
              · rw [if_neg h58] at h; exact absurd h (by simp)
        · rw [if_neg h34] at h; exact absurd h (by simp)

theorem parseValue_mono {f g : Nat} (hfg : f ≤ g) {s : JSString} {r : JSVal × JSString}
    (h : parseValue f s = some r) : parseValue g s = some r := by
  induction hfg with
  | refl => exact h
  | step _ ih => exact (parseValue_mono_aux _).1 s r ih

theorem jsonParse_render (gap : JSString) (hg : allWs gap = true) (t : JSVal)
    (hdef : defined t = true) (hwf : wellFormed t = true) :
    jsonParse (render gap [] t) = some t := by
  have h := (roundTrip gap hg (parseDepth t)).1 t (le_refl _) hdef hwf [] [] [] rfl rfl
    (by intro c hc; simp at hc)
  simp only [List.nil_append, List.append_nil] at h
  have hle := parseDepth_le gap [] t
  have := parseValue_mono (g := 2 * (render gap [] t).length + 2) (by omega) h
  simp [jsonParse, this, skipWs]

/-! ## What the parser returns -/

theorem skipWs_length (s : JSString) : (skipWs s).length ≤ s.length :=
  dropWhile_length_le isWs s

theorem parseStringBody_length : ∀ (n : Nat) (s str r : JSString), s.length ≤ n →
    parseStringBody s = some (str, r) → str.length + 1 + r.length ≤ s.length := by
  intro n
  induction n with
  | zero =>
    intro s str r hl h
    have : s = [] := List.eq_nil_of_length_eq_zero (by omega)
    subst this
    simp [parseStringBody] at h
  | succ n ih =>
    intro s str r hl h
    cases s with
    | nil => simp [parseStringBody] at h
    | cons c t =>
      rw [parseStringBody_cons] at h
      simp only [List.length_cons] at hl ⊢
      split at h
      · simp only [Option.some.injEq, Prod.mk.injEq] at h
        obtain ⟨rfl, rfl⟩ := h
        simp only [List.length_nil]
        omega
      split at h
      · split at h
        · exact absurd h (by simp)
        · rename_i e t1
          simp only [List.length_cons] at hl ⊢
          split at h
          · split at h
            · rename_i a b c1 d t2
              split at h
              · cases hp : parseStringBody t2 with
                | none => rw [hp] at h; exact absurd h (by simp)
                | some q =>
                  obtain ⟨s', r'⟩ := q
                  rw [hp] at h
                  simp only [Option.map_some', Option.some.injEq, Prod.mk.injEq] at h
                  obtain ⟨rfl, rfl⟩ := h
                  have := ih t2 s' r' (by simp only [List.length_cons] at hl; omega) hp
                  simp only [List.length_cons]
                  omega
              · exact absurd h (by simp)
            · exact absurd h (by simp)
          · split at h
            · cases hp : parseStringBody t1 with
              | none => rw [hp] at h; exact absurd h (by simp)
              | some q =>
                obtain ⟨s', r'⟩ := q
                rw [hp] at h
                simp only [Option.map_some', Option.some.injEq, Prod.mk.injEq] at h
                obtain ⟨rfl, rfl⟩ := h
                have := ih t1 s' r' (by omega) hp
                simp only [List.length_cons]
                omega
            · exact absurd h (by simp)
      split at h
      · exact absurd h (by simp)
      · cases hp : parseStringBody t with
        | none => rw [hp] at h; exact absurd h (by simp)
        | some q =>
          obtain ⟨s', r'⟩ := q
          rw [hp] at h
          simp only [Option.map_some', Option.some.injEq, Prod.mk.injEq] at h
          obtain ⟨rfl, rfl⟩ := h
          have := ih t s' r' (by omega) hp
          simp only [List.length_cons]
          omega

theorem parseIntegerPart_length {s ds r : JSString} (h : parseIntegerPart s = some (ds, r)) :
    r.length + 1 ≤ s.length := by
  unfold parseIntegerPart at h
  split at h
  · exact absurd h (by simp)
  · rename_i c t
    split at h
    · simp only [Option.some.injEq, Prod.mk.injEq] at h
      obtain ⟨-, rfl⟩ := h
      simp
    · split at h
      · simp only [Option.some.injEq, Prod.mk.injEq] at h
        obtain ⟨-, rfl⟩ := h
        have := dropWhile_length_le isDigit t
        simp only [List.length_cons]
        omega
      · exact absurd h (by simp)

theorem parseFraction_length {s fs r : JSString} (h : parseFraction s = some (fs, r)) :
    r.length ≤ s.length := by
  unfold parseFraction at h
  split at h
  · simp only [Option.some.injEq, Prod.mk.injEq] at h
    obtain ⟨-, rfl⟩ := h
    simp
  · rename_i c t
    split at h
    · split at h
      · exact absurd h (by simp)
      · simp only [Option.some.injEq, Prod.mk.injEq] at h
        obtain ⟨-, rfl⟩ := h
        have := dropWhile_length_le isDigit t
        simp only [List.length_cons]
        omega
    · simp only [Option.some.injEq, Prod.mk.injEq] at h
      obtain ⟨-, rfl⟩ := h
      simp

theorem parseExponentDigits_length {neg : Bool} {s r : JSString} {e : Int}
    (h : parseExponentDigits neg s = some (e, r)) : r.length ≤ s.length := by
  unfold parseExponentDigits at h
  split at h
  · exact absurd h (by simp)
  · split at h
    · simp only [Option.some.injEq, Prod.mk.injEq] at h
      obtain ⟨-, rfl⟩ := h
      exact dropWhile_length_le isDigit s
    · exact absurd h (by simp)

theorem parseExponent_length {s r : JSString} {e : Int} (h : parseExponent s = some (e, r)) :
    r.length ≤ s.length := by
  unfold parseExponent at h
  split at h
  · simp only [Option.some.injEq, Prod.mk.injEq] at h
    obtain ⟨-, rfl⟩ := h
    simp
  · rename_i c t
    split at h
    · split at h
      · exact absurd h (by simp)
      · rename_i d u
        split at h
        · have := parseExponentDigits_length h
          simp only [List.length_cons]; omega
        · split at h
          · have := parseExponentDigits_length h
            simp only [List.length_cons]; omega
          · have := parseExponentDigits_length h
            simp only [List.length_cons] at this ⊢; omega
    · simp only [Option.some.injEq, Prod.mk.injEq] at h
      obtain ⟨-, rfl⟩ := h
      simp

theorem parseUnsigned_result {neg : Bool} {s r : JSString} {x : JSNum}
    (h : parseUnsigned neg s = some (x, r)) : r.length + 1 ≤ s.length ∧ x.valid = true := by
  unfold parseUnsigned at h
  cases h1 : parseIntegerPart s with
  | none => rw [h1] at h; exact absurd h (by simp)
  | some q1 =>
    obtain ⟨ds, r1⟩ := q1
    rw [h1] at h
    simp only at h
    cases h2 : parseFraction r1 with
    | none => rw [h2] at h; exact absurd h (by simp)
    | some q2 =>
      obtain ⟨fs, r2⟩ := q2
      rw [h2] at h
      simp only at h
      cases h3 : parseExponent r2 with
      | none => rw [h3] at h; exact absurd h (by simp)
      | some q3 =>
        obtain ⟨e, r3⟩ := q3
        rw [h3] at h
        simp only at h
        cases h4 : digitsValue 0 (ds ++ fs) with
        | none => rw [h4] at h; exact absurd h (by simp)
        | some v =>
          rw [h4] at h
          simp only [Option.some.injEq, Prod.mk.injEq] at h
          obtain ⟨rfl, rfl⟩ := h
          have a1 := parseIntegerPart_length h1
          have a2 := parseFraction_length h2
          have a3 := parseExponent_length h3
          exact ⟨by omega, roundDecimal_valid _ _ _⟩

theorem parseNumber_result {s r : JSString} {x : JSNum} (h : parseNumber s = some (x, r)) :
    r.length + 1 ≤ s.length ∧ x.valid = true := by
  unfold parseNumber at h
  split at h
  · exact absurd h (by simp)
  · rename_i c t
    split at h
    · have := parseUnsigned_result h
      simp only [List.length_cons]
      exact ⟨by omega, this.2⟩
    · exact parseUnsigned_result h

theorem budget_str_le (s : JSString) : budget (.str s) ≤ s.length + 1 := by
  simp only [budget]
  split <;> omega

theorem budget_pos (t : JSVal) : 1 ≤ budget t := by
  cases t <;> simp only [budget] <;> first | omega | (split <;> omega)

theorem budgetProps_le_iff (ps : Props) (b : Nat) :
    budgetProps ps ≤ b ↔ ∀ kv ∈ ps, budget kv.2 ≤ b := by
  induction ps with
  | nil => simp [budgetProps]
  | cons kv ps ih => simp only [budgetProps, max_le_iff, ih, List.mem_cons, forall_eq_or_imp]

theorem budgetList_le_iff (xs : List JSVal) (b : Nat) :
    budgetList xs ≤ b ↔ ∀ x ∈ xs, budget x ≤ b := by
  induction xs with
  | nil => simp [budgetList]
  | cons x xs ih => simp only [budgetList, max_le_iff, ih, List.mem_cons, forall_eq_or_imp]

theorem definedProps_iff (ps : Props) :
    definedProps ps = true ↔ ∀ kv ∈ ps, defined kv.2 = true := by
  induction ps with
  | nil => simp [definedProps]
  | cons kv ps ih =>
    simp only [definedProps, Bool.and_eq_true, ih, List.mem_cons, forall_eq_or_imp]

theorem definedList_iff (xs : List JSVal) :
    definedList xs = true ↔ ∀ x ∈ xs, defined x = true := by
  induction xs with
  | nil => simp [definedList]
  | cons x xs ih =>
    simp only [definedList, Bool.and_eq_true, ih, List.mem_cons, forall_eq_or_imp]

theorem wellFormedProps_iff (ps : Props) :
    wellFormedProps ps = true ↔ ∀ kv ∈ ps, wellFormed kv.2 = true := by
  induction ps with
  | nil => simp [wellFormedProps]
  | cons kv ps ih =>
    simp only [wellFormedProps, Bool.and_eq_true, ih, List.mem_cons, forall_eq_or_imp]

theorem wellFormedList_iff (xs : List JSVal) :
    wellFormedList xs = true ↔ ∀ x ∈ xs, wellFormed x = true := by
  induction xs with
  | nil => simp [wellFormedList]
  | cons x xs ih =>
    simp only [wellFormedList, Bool.and_eq_true, ih, List.mem_cons, forall_eq_or_imp]

theorem mem_updateProp {k : JSString} {v : JSVal} {ps : Props} {kv : JSString × JSVal}
    (h : kv ∈ updateProp k v ps) : kv.2 = v ∨ kv ∈ ps := by
  induction ps with
  | nil => simp [updateProp] at h
  | cons p ps ih =>
    obtain ⟨k', v'⟩ := p
    simp only [updateProp] at h
    split at h
    · rcases List.mem_cons.1 h with e | e
      · subst e; exact Or.inl rfl
      · exact Or.inr (List.mem_cons_of_mem _ e)
    · rcases List.mem_cons.1 h with e | e
      · subst e; exact Or.inr (List.mem_cons_self _ _)
      · rcases ih e with e' | e'
        · exact Or.inl e'
        · exact Or.inr (List.mem_cons_of_mem _ e')

theorem mem_insertProp {k : JSString} {v : JSVal} {ps : Props} {kv : JSString × JSVal} :
    kv ∈ insertProp k v ps ↔ kv = (k, v) ∨ kv ∈ ps := by
  induction ps with
  | nil => simp [insertProp]
  | cons p ps ih =>
    obtain ⟨k', v'⟩ := p
    simp only [insertProp]
    split
    · split
      · simp
      · simp only [List.mem_cons, ih]; tauto
    · simp
    · simp only [List.mem_cons, ih]; tauto

theorem mem_setProp {k : JSString} {v : JSVal} {ps : Props} {kv : JSString × JSVal}
    (h : kv ∈ setProp ps k v) : kv.2 = v ∨ kv ∈ ps := by
  unfold setProp at h
  split at h
  · exact mem_updateProp h
  · rcases mem_insertProp.1 h with e | e
    · subst e; exact Or.inl rfl
    · exact Or.inr e

theorem foldl_setProp_values (P : JSVal → Prop) (acc rest : Props)
    (ha : ∀ kv ∈ acc, P kv.2) (hr : ∀ kv ∈ rest, P kv.2) :
    ∀ kv ∈ rest.foldl (fun a kv => setProp a kv.1 kv.2) acc, P kv.2 := by
  induction rest generalizing acc with
  | nil => simpa using ha
  | cons p rest ih =>
    simp only [List.foldl_cons]
    apply ih
    · intro kv hkv
      rcases mem_setProp hkv with e | e
      · rw [e]; exact hr p (List.mem_cons_self _ _)
      · exact ha kv e
    · intro kv hkv
      exact hr kv (List.mem_cons_of_mem _ hkv)

theorem objectOfMembers_values (P : JSVal → Prop) (ps : Props) (h : ∀ kv ∈ ps, P kv.2) :
    ∀ kv ∈ objectOfMembers ps, P kv.2 :=
  foldl_setProp_values P [] ps (by simp) h

theorem parsed_aux : ∀ (f : Nat),
    (∀ s t r, parseValue f s = some (t, r) →
      budget t + r.length ≤ s.length ∧ t ≠ .undefined ∧ wellFormed t = true)
    ∧ (∀ s xs r, parseElements f s = some (xs, r) →
      budgetList xs + 1 + r.length ≤ s.length ∧ True ∧ wellFormedList xs = true)
    ∧ (∀ s ps r, parseMembers f s = some (ps, r) →
      budgetProps ps + 1 + r.length ≤ s.length ∧ True
        ∧ wellFormedProps ps = true) := by
  intro f
  induction f with
  | zero =>
    refine ⟨?_, ?_, ?_⟩ <;> intro s t r h
    · simp [parseValue] at h
    · simp [parseElements] at h
    · simp [parseMembers] at h
  | succ f ih =>
    obtain ⟨ihv, ihe, ihm⟩ := ih
    refine ⟨?_, ?_, ?_⟩
    · intro s t r h
      rw [parseValue] at h
      have hsl := skipWs_length s
      cases hs : skipWs s with
      | nil => rw [hs] at h; exact absurd h (by simp)
      | cons c u =>
        rw [hs] at h hsl
        simp only [List.length_cons] at hsl
        simp only at h
        by_cases h34 : c = 34
        · rw [if_pos h34] at h
          cases hp : parseStringBody u with
          | none => rw [hp] at h; exact absurd h (by simp)
          | some q =>
            obtain ⟨s', r'⟩ := q
            rw [hp] at h
            simp only [Option.map_some', Option.some.injEq, Prod.mk.injEq] at h
            obtain ⟨rfl, rfl⟩ := h
            have := parseStringBody_length u.length u s' r' (le_refl _) hp
            have := budget_str_le s'
            exact ⟨by omega, by simp, rfl⟩
        rw [if_neg h34] at h
        by_cases h91 : c = 91
        · rw [if_pos h91] at h
          split at h
          · rename_i hh
            simp only [Option.some.injEq, Prod.mk.injEq] at h
            obtain ⟨rfl, rfl⟩ := h
            have h1 := skipWs_length u
            cases hu : skipWs u with
            | nil => rw [hu] at hh; exact absurd hh (by simp)
            | cons a b =>
              rw [hu] at h1
              simp only [List.length_cons] at h1
              refine ⟨?_, by simp, rfl⟩
              simp only [budget, budgetList, List.tail_cons]
              omega
          · cases he : parseElements f u with
            | none => rw [he] at h; exact absurd h (by simp)
            | some q =>
              obtain ⟨xs, r'⟩ := q
              rw [he] at h
              simp only [Option.map_some', Option.some.injEq, Prod.mk.injEq] at h
              obtain ⟨rfl, rfl⟩ := h
              obtain ⟨a1, a2, a3⟩ := ihe u xs r' he
              refine ⟨?_, ?_, ?_⟩
              · simp only [budget]; omega
              · simp
              · simpa [wellFormed] using a3
        rw [if_neg h91] at h
        by_cases h123 : c = 123
        · rw [if_pos h123] at h
          split at h
          · rename_i hh
            simp only [Option.some.injEq, Prod.mk.injEq] at h
            obtain ⟨rfl, rfl⟩ := h
            have h1 := skipWs_length u
            cases hu : skipWs u with
            | nil => rw [hu] at hh; exact absurd hh (by simp)
            | cons a b =>
              rw [hu] at h1
              simp only [List.length_cons] at h1
              refine ⟨?_, by simp, rfl⟩
              simp only [budget, budgetProps, List.tail_cons]
              omega
          · cases he : parseMembers f u with
            | none => rw [he] at h; exact absurd h (by simp)
            | some q =>
              obtain ⟨ps, r'⟩ := q
              rw [he] at h
              simp only [Option.map_some', Option.some.injEq, Prod.mk.injEq] at h
              obtain ⟨rfl, rfl⟩ := h
              obtain ⟨a1, a2, a3⟩ := ihm u ps r' he
              have b1 : budgetProps (objectOfMembers ps) ≤ budgetProps ps :=
                (budgetProps_le_iff _ _).2
                  (objectOfMembers_values (fun v => budget v ≤ budgetProps ps) ps
                    ((budgetProps_le_iff _ _).1 (le_refl _)))
              have b3 : wellFormedProps (objectOfMembers ps) = true :=
                (wellFormedProps_iff _).2
                  (objectOfMembers_values (fun v => wellFormed v = true) ps
                    ((wellFormedProps_iff _).1 a3))
              refine ⟨?_, ?_, ?_⟩
              · simp only [budget]; omega
              · simp
              · simp only [wellFormed, Bool.and_eq_true]
                exact ⟨objectOfMembers_keysOrdered ps, b3⟩
        rw [if_neg h123] at h
        split at h
        · simp only [Option.some.injEq, Prod.mk.injEq] at h
          obtain ⟨rfl, rfl⟩ := h
          refine ⟨?_, by simp, rfl⟩
          simp only [budget, List.length_drop, List.length_cons]
          omega
        split at h
        · simp only [Option.some.injEq, Prod.mk.injEq] at h
          obtain ⟨rfl, rfl⟩ := h
          refine ⟨?_, by simp, rfl⟩
          simp only [budget, List.length_drop, List.length_cons]
          omega
        split at h
        · simp only [Option.some.injEq, Prod.mk.injEq] at h
          obtain ⟨rfl, rfl⟩ := h
          refine ⟨?_, by simp, rfl⟩
          simp only [budget, List.length_drop, List.length_cons]
          omega
        cases hp : parseNumber (c :: u) with
        | none => rw [hp] at h; exact absurd h (by simp)
        | some q =>
          obtain ⟨n, r'⟩ := q
          rw [hp] at h
          simp only [Option.map_some', Option.some.injEq, Prod.mk.injEq] at h
          obtain ⟨rfl, rfl⟩ := h
          have := parseNumber_result hp
          simp only [List.length_cons] at this
          refine ⟨?_, by simp, ?_⟩
          · simp only [budget]
            omega
          · simpa [wellFormed] using this.2
    · intro s xs r h
      rw [parseElements] at h
      cases hv : parseValue f s with
      | none => rw [hv] at h; exact absurd h (by simp)
      | some q =>
        obtain ⟨v, r1⟩ := q
        rw [hv] at h
        obtain ⟨a1, a2, a3⟩ := ihv s v r1 hv
        simp only at h
        have hsl := skipWs_length r1
        cases hs : skipWs r1 with
        | nil => rw [hs] at h; exact absurd h (by simp)
        | cons c u =>
          rw [hs] at h hsl
          simp only [List.length_cons] at hsl
          simp only at h
          by_cases h44 : c = 44
          · rw [if_pos h44] at h
            cases he : parseElements f u with
            | none => rw [he] at h; exact absurd h (by simp)
            | some q =>
              obtain ⟨ys, r'⟩ := q
              rw [he] at h
              simp only [Option.map_some', Option.some.injEq, Prod.mk.injEq] at h
              obtain ⟨rfl, rfl⟩ := h
              obtain ⟨b1, b2, b3⟩ := ihe u ys r' he
              refine ⟨?_, ?_, ?_⟩
              · simp only [budgetList]
                rcases Nat.le_total (budget v) (budgetList ys) with hm | hm
                · rw [max_eq_right hm]; omega
                · rw [max_eq_left hm]; omega
              · trivial
              · simp only [wellFormedList, Bool.and_eq_true]; exact ⟨a3, b3⟩
          · rw [if_neg h44] at h
            split at h
            · simp only [Option.some.injEq, Prod.mk.injEq] at h
              obtain ⟨rfl, rfl⟩ := h
              refine ⟨?_, ?_, ?_⟩
              · simp only [budgetList, Nat.max_zero] ; omega
              · trivial
              · simp only [wellFormedList, Bool.and_eq_true]; exact ⟨a3, trivial⟩
            · exact absurd h (by simp)
    · intro s ps r h
      rw [parseMembers] at h
      have hsl := skipWs_length s
      cases hs : skipWs s with
      | nil => rw [hs] at h; exact absurd h (by simp)
      | cons c u =>
        rw [hs] at h hsl
        simp only [List.length_cons] at hsl
        simp only at h
        by_cases h34 : c = 34
        · rw [if_pos h34] at h
          cases hk : parseStringBody u with
          | none => rw [hk] at h; exact absurd h (by simp)
          | some kr =>
            obtain ⟨k, r1⟩ := kr
            rw [hk] at h
            have hkl := parseStringBody_length u.length u k r1 (le_refl _) hk
            simp only at h
            have hsl2 := skipWs_length r1
            cases hs2 : skipWs r1 with
            | nil => rw [hs2] at h; exact absurd h (by simp)
            | cons c2 t2 =>
              rw [hs2] at h hsl2
              simp only [List.length_cons] at hsl2
              simp only at h
              by_cases h58 : c2 = 58
              · rw [if_pos h58] at h
                cases hv : parseValue f t2 with
                | none => rw [hv] at h; exact absurd h (by simp)
                | some q =>
                  obtain ⟨v, r2⟩ := q
                  rw [hv] at h
                  obtain ⟨a1, a2, a3⟩ := ihv t2 v r2 hv
                  simp only at h
                  have hsl3 := skipWs_length r2
                  cases hs3 : skipWs r2 with
                  | nil => rw [hs3] at h; exact absurd h (by simp)
                  | cons c3 t3 =>
                    rw [hs3] at h hsl3
                    simp only [List.length_cons] at hsl3
                    simp only at h
                    by_cases h44 : c3 = 44
                    · rw [if_pos h44] at h
                      cases he : parseMembers f t3 with
                      | none => rw [he] at h; exact absurd h (by simp)
                      | some q =>
                        obtain ⟨ys, r'⟩ := q
                        rw [he] at h
                        simp only [Option.map_some', Option.some.injEq, Prod.mk.injEq] at h
                        obtain ⟨rfl, rfl⟩ := h
                        obtain ⟨b1, b2, b3⟩ := ihm t3 ys r' he
                        refine ⟨?_, ?_, ?_⟩
                        · simp only [budgetProps]
                          rcases Nat.le_total (budget v) (budgetProps ys) with hm | hm
                          · rw [max_eq_right hm]; omega
                          · rw [max_eq_left hm]; omega
                        · trivial
                        · simp only [wellFormedProps, Bool.and_eq_true]; exact ⟨a3, b3⟩
                    · rw [if_neg h44] at h
                      split at h
                      · simp only [Option.some.injEq, Prod.mk.injEq] at h
                        obtain ⟨rfl, rfl⟩ := h
                        refine ⟨?_, ?_, ?_⟩
                        · simp only [budgetProps, Nat.max_zero]; omega
                        · trivial
                        · simp only [wellFormedProps, Bool.and_eq_true]; exact ⟨a3, trivial⟩
                      · exact absurd h (by simp)
              · rw [if_neg h58] at h; exact absurd h (by simp)
        · rw [if_neg h34] at h; exact absurd h (by simp)

theorem jsonParse_result {s : JSString} {t : JSVal} (h : jsonParse s = some t) :
    budget t ≤ s.length ∧ t ≠ .undefined ∧ wellFormed t = true := by
  unfold jsonParse at h
  split at h
  · rename_i v r hv
    split at h
    · simp only [Option.some.injEq] at h
      subst h
      obtain ⟨a1, a2, a3⟩ := (parsed_aux _).1 s v r hv
      exact ⟨by omega, a2, a3⟩
    · exact absurd h (by simp)
  · exact absurd h (by simp)

/-! ## The serialization finishes -/

theorem settled_mono {out : Option JSVal} {a b : Nat} (h : Settled out a) (hab : a ≤ b) :
    Settled out b := by
  intro t ht
  obtain ⟨h1, h2, h3⟩ := h t ht
  exact ⟨h1, h2, by omega⟩

theorem elements_settled (go : JSString → JSVal → Option (Option JSVal)) (bound : Nat) :
    ∀ (xs : List JSVal) (i : Nat),
      (∀ x ∈ xs, budget x ≤ bound ∧ ∀ key, ∃ out, go key x = some out ∧ Settled out bound) →
      ∃ rs, allSome ((indexProps i xs).map (fun kv => go kv.1 kv.2)) = some rs
        ∧ ∀ y ∈ rs.map (fun r => r.getD .null),
            defined y = true ∧ wellFormed y = true ∧ budget y ≤ bound := by
  intro xs
  induction xs with
  | nil => intro i _; exact ⟨[], rfl, by simp⟩
  | cons x xs ih =>
    intro i h
    obtain ⟨hb, hx⟩ := h x (List.mem_cons_self _ _)
    obtain ⟨out, ho, hs⟩ := hx (natToString i)
    obtain ⟨rs, hrs, hall⟩ := ih (i + 1) (fun y hy => h y (List.mem_cons_of_mem _ hy))
    refine ⟨out :: rs, by simp [indexProps, allSome, ho, hrs], ?_⟩
    intro y hy
    simp only [List.map_cons, List.mem_cons] at hy
    rcases hy with e | e
    · subst e
      cases out with
      | none =>
        have := budget_pos x
        exact ⟨rfl, rfl, by simp only [Option.getD_none, budget]; omega⟩
      | some t => exact hs t rfl
    · exact hall y e

theorem members_settled (go : JSString → JSVal → Option (Option JSVal)) (bound : Nat) :
    ∀ (ps : Props),
      (∀ kv ∈ ps, ∃ out, go kv.1 kv.2 = some out ∧ Settled out bound) →
      ∃ rs, allSome (ps.map
            (fun kv => (go kv.1 kv.2).map (fun r => r.map (fun t => (kv.1, t))))) = some rs
        ∧ ((rs.filterMap id).map (fun kv => kv.1)).Sublist (ps.map (fun kv => kv.1))
        ∧ ∀ kt ∈ rs.filterMap id,
            defined kt.2 = true ∧ wellFormed kt.2 = true ∧ budget kt.2 ≤ bound := by
  intro ps
  induction ps with
  | nil => intro _; exact ⟨[], rfl, by simp, by simp⟩
  | cons kv ps ih =>
    intro h
    obtain ⟨out, ho, hs⟩ := h kv (List.mem_cons_self _ _)
    obtain ⟨rs, hrs, hsub, hall⟩ := ih (fun y hy => h y (List.mem_cons_of_mem _ hy))
    refine ⟨out.map (fun t => (kv.1, t)) :: rs, by simp [allSome, ho, hrs], ?_, ?_⟩
    · cases out with
      | none =>
        simp only [Option.map_none', List.filterMap_cons_none, List.map_cons]
        exact List.Sublist.cons _ hsub
      | some t =>
        simp only [Option.map_some', List.filterMap_cons_some, id, List.map_cons]
        exact List.Sublist.cons₂ _ hsub
    · intro kt hkt
      cases out with
      | none =>
        simp only [Option.map_none', List.filterMap_cons_none] at hkt
        exact hall kt hkt
      | some t =>
        rw [Option.map_some', List.filterMap_cons_some (by rfl)] at hkt
        rcases List.mem_cons.1 hkt with e | e
        · subst e; exact hs t rfl
        · exact hall kt e

theorem keysOrdered_sublist {ks ks' : List JSString} (h : ks'.Sublist ks)
    (ho : keysOrdered ks = true) : keysOrdered ks' = true :=
  (keysOrdered_iff _).2 (((keysOrdered_iff _).1 ho).sublist h)

theorem mem_indexProps {i : Nat} {xs : List JSVal} {kv : JSString × JSVal}
    (h : kv ∈ indexProps i xs) : kv.2 ∈ xs := by
  induction xs generalizing i with
  | nil => simp [indexProps] at h
  | cons x xs ih =>
    simp only [indexProps, List.mem_cons] at h
    rcases h with e | e
    · subst e; simp
    · exact List.mem_cons_of_mem _ (ih e)

/-- The members of a value treated by a redaction that finishes on each of them. -/
theorem descend_settled (go : JSString → JSVal → Option (Option JSVal)) (r : JSVal)
    (hwf : wellFormed r = true)
    (hc : ∀ c, (c ∈ (ownProps r).map (fun kv => kv.2)) →
      ∀ key, ∃ out, go key c = some out ∧ Settled out (budget c)) :
    ∃ out, descend go r = some out ∧ Settled out (budget r) ∧ (r = .undefined ∨ out.isSome) := by
  cases r with
  | undefined => exact ⟨none, rfl, by intro t ht; simp at ht, Or.inl rfl⟩
  | null => exact ⟨some .null, rfl, by intro t ht; cases ht; exact ⟨rfl, rfl, le_refl _⟩, Or.inr rfl⟩
  | bool b =>
    exact ⟨some (.bool b), rfl, by intro t ht; cases ht; exact ⟨rfl, rfl, le_refl _⟩, Or.inr rfl⟩
  | num n =>
    cases n with
    | infinite neg =>
      exact ⟨some .null, rfl, by intro t ht; cases ht; exact ⟨rfl, rfl, le_refl _⟩, Or.inr rfl⟩
    | finite neg m e =>
      exact ⟨some (.num (.finite neg m e)), rfl,
        by intro t ht; cases ht; exact ⟨rfl, hwf, le_refl _⟩, Or.inr rfl⟩
  | str s =>
    exact ⟨some (.str s), rfl, by intro t ht; cases ht; exact ⟨rfl, rfl, le_refl _⟩, Or.inr rfl⟩
  | arr xs =>
    simp only [wellFormed] at hwf
    have hx : ∀ x ∈ xs, budget x ≤ budgetList xs
        ∧ ∀ key, ∃ out, go key x = some out ∧ Settled out (budgetList xs) := by
      intro x hx
      have hb := (budgetList_le_iff xs _).1 (le_refl _) x hx
      refine ⟨hb, fun key => ?_⟩
      have hm : x ∈ (ownProps (.arr xs)).map (fun kv => kv.2) := by
        simp only [ownProps, List.mem_map]
        clear hb hc hwf
        suffices ∀ i, ∃ a, a ∈ indexProps i xs ∧ a.2 = x from this 0
        induction xs with
        | nil => simp at hx
        | cons y ys ih =>
          intro i
          rcases List.mem_cons.1 hx with e | e
          · subst e; exact ⟨_, List.mem_cons_self _ _, rfl⟩
          · obtain ⟨a, ha, e'⟩ := ih e (i + 1)
            exact ⟨a, List.mem_cons_of_mem _ ha, e'⟩
      obtain ⟨out, ho, hs⟩ := hc x hm key
      exact ⟨out, ho, settled_mono hs hb⟩
    obtain ⟨rs, hrs, hall⟩ := elements_settled go (budgetList xs) xs 0 hx
    refine ⟨some (.arr (rs.map (fun r => r.getD .null))), by simp [descend, hrs], ?_, Or.inr rfl⟩
    intro t ht
    cases ht
    refine ⟨?_, ?_, ?_⟩
    · simp only [defined]; exact (definedList_iff _).2 (fun y hy => (hall y hy).1)
    · simp only [wellFormed]; exact (wellFormedList_iff _).2 (fun y hy => (hall y hy).2.1)
    · simp only [budget]
      have := (budgetList_le_iff _ (budgetList xs)).2 (fun y hy => (hall y hy).2.2)
      omega
  | obj ps =>
    simp only [wellFormed, Bool.and_eq_true] at hwf
    have hx : ∀ kv ∈ ps, ∃ out, go kv.1 kv.2 = some out ∧ Settled out (budgetProps ps) := by
      intro kv hkv
      have hb := (budgetProps_le_iff ps _).1 (le_refl _) kv hkv
      obtain ⟨out, ho, hs⟩ := hc kv.2 (by simp only [ownProps, List.mem_map]; exact ⟨kv, hkv, rfl⟩) kv.1
      exact ⟨out, ho, settled_mono hs hb⟩
    obtain ⟨rs, hrs, hsub, hall⟩ := members_settled go (budgetProps ps) ps hx
    refine ⟨some (.obj (rs.filterMap id)), by simp [descend, hrs], ?_, Or.inr rfl⟩
    intro t ht
    cases ht
    refine ⟨?_, ?_, ?_⟩
    · simp only [defined]; exact (definedProps_iff _).2 (fun y hy => (hall y hy).1)
    · simp only [wellFormed, Bool.and_eq_true]
      exact ⟨keysOrdered_sublist hsub hwf.1,
        (wellFormedProps_iff _).2 (fun y hy => (hall y hy).2.1)⟩
    · simp only [budget]
      have := (budgetProps_le_iff _ (budgetProps ps)).2 (fun y hy => (hall y hy).2.2)
      omega

theorem child_budget {r c : JSVal} (h : c ∈ (ownProps r).map (fun kv => kv.2)) :
    budget c + 2 ≤ budget r := by
  cases r with
  | arr xs =>
    simp only [ownProps, List.mem_map] at h
    obtain ⟨kv, hkv, rfl⟩ := h
    have := (budgetList_le_iff xs _).1 (le_refl _) kv.2 (mem_indexProps hkv)
    simp only [budget]; omega
  | obj ps =>
    simp only [ownProps, List.mem_map] at h
    obtain ⟨kv, hkv, rfl⟩ := h
    have := (budgetProps_le_iff ps _).1 (le_refl _) kv hkv
    simp only [budget]; omega
  | undefined => simp [ownProps] at h
  | null => simp [ownProps] at h
  | bool b => simp [ownProps] at h
  | num n => simp [ownProps] at h
  | str s => simp [ownProps] at h

theorem child_wellFormed {r c : JSVal} (hwf : wellFormed r = true)
    (h : c ∈ (ownProps r).map (fun kv => kv.2)) : wellFormed c = true := by
  cases r with
  | arr xs =>
    simp only [ownProps, List.mem_map] at h
    obtain ⟨kv, hkv, rfl⟩ := h
    simp only [wellFormed] at hwf
    exact (wellFormedList_iff xs).1 hwf kv.2 (mem_indexProps hkv)
  | obj ps =>
    simp only [ownProps, List.mem_map] at h
    obtain ⟨kv, hkv, rfl⟩ := h
    simp only [wellFormed, Bool.and_eq_true] at hwf
    exact (wellFormedProps_iff ps).1 hwf.2 kv hkv
  | undefined => simp [ownProps] at h
  | null => simp [ownProps] at h
  | bool b => simp [ownProps] at h
  | num n => simp [ownProps] at h
  | str s => simp [ownProps] at h

/-- The members of a value are redacted within the bounds when every smaller value
is. -/
theorem descend_children (b n f : Nat)
    (ih : ∀ v, budget v ≤ b → wellFormed v = true → Finishes v) (r : JSVal)
    (hwf : wellFormed r = true) (hb : budget r ≤ b + 2) (hn : budget r ≤ n + 2)
    (hf : budget r ≤ f + 2) :
    ∃ out, descend (redact (replacer n) f) r = some out ∧ Settled out (budget r)
      ∧ (r = .undefined ∨ out.isSome) := by
  apply descend_settled _ r hwf
  intro c hc key
  have h2 := child_budget hc
  exact ih c (by omega) (child_wellFormed hwf hc) n f key (by omega) (by omega)

theorem replacerWith_root (headers : JSVal → Option JSVal) (ps : Props) :
    replacerWith headers [] (.obj ps) = some (.obj ps) := by
  simp [replacerWith, bodyRule, authorizationRule, secretRule, identityRule, headersRule,
    doctypeRule, lit]

theorem replacer_root (n : Nat) (ps : Props) : replacer n [] (.obj ps) = some (.obj ps) := by
  cases n <;> rw [replacer] <;> exact replacerWith_root _ ps

theorem bodyRule_cases {key : JSString} {v r : JSVal} (h : bodyRule key v = some r) :
    ∃ s, v = .str s ∧ (r = v ∨ jsonParse s = some r) := by
  unfold bodyRule at h
  split at h
  · rename_i s
    split at h
    · split at h
      · rename_i t ht
        simp only [Option.some.injEq] at h
        subst h
        exact ⟨s, rfl, Or.inr ht⟩
      · simp only [Option.some.injEq] at h
        exact ⟨s, rfl, Or.inl h.symm⟩
    · exact absurd h (by simp)
  · exact absurd h (by simp)

theorem getProp_mem {h : JSString} {ps : Props} (hm : h ∈ ps.map (fun kv => kv.1)) :
    ∃ kv ∈ ps, getProp h ps = kv.2 := by
  induction ps with
  | nil => simp at hm
  | cons p ps ih =>
    obtain ⟨k, v⟩ := p
    simp only [getProp]
    split
    · exact ⟨(k, v), List.mem_cons_self _ _, rfl⟩
    · rename_i hne
      simp only [List.map_cons, List.mem_cons] at hm
      rcases hm with e | e
      · exact absurd e.symm hne
      · obtain ⟨kv, hkv, e'⟩ := ih e
        exact ⟨kv, List.mem_cons_of_mem _ hkv, e'⟩

theorem newHeaders_values (P : JSVal → Prop) (value : JSVal)
    (h : ∀ kv ∈ ownProps value, P kv.2) : ∀ kv ∈ newHeaders value, P kv.2 := by
  unfold newHeaders
  rw [← List.foldl_map (f := fun h => (h, getProp h (ownProps value)))
    (g := fun acc (kv : JSString × JSVal) => setProp acc kv.1 kv.2)]
  apply foldl_setProp_values P [] _ (by simp)
  intro kv hkv
  simp only [List.mem_map, List.mem_filter] at hkv
  obtain ⟨k, ⟨⟨p, hp, rfl⟩, -⟩, rfl⟩ := hkv
  obtain ⟨q, hq, e⟩ := getProp_mem (List.mem_map_of_mem (fun kv => kv.1) hp)
  simp only
  rw [e]
  exact h q hq

theorem newHeaders_keysOrdered (value : JSVal) :
    keysOrdered ((newHeaders value).map (fun kv => kv.1)) = true := by
  unfold newHeaders
  rw [← List.foldl_map (f := fun h => (h, getProp h (ownProps value)))
    (g := fun acc (kv : JSString × JSVal) => setProp acc kv.1 kv.2)]
  exact foldl_setProp_keysOrdered [] _ rfl

theorem descend_obj_shape {go : JSString → JSVal → Option (Option JSVal)} {ps : Props}
    {out : Option JSVal} (h : descend go (.obj ps) = some out) : ∃ qs, out = some (.obj qs) := by
  simp only [descend, Option.map_eq_some'] at h
  obtain ⟨rs, -, e⟩ := h
  exact ⟨_, e.symm⟩

theorem budget_const_authorization : budget (.str (lit "{AUTHORIZATION}")) = 1 := by decide

theorem budget_const_secret : budget (.str (lit "{SECRET}")) = 1 := by decide

theorem budget_const_identity : budget (.str (lit "{-}")) = 1 := by decide

theorem budget_const_document : budget (.str (lit "<HTML DOCUMENT></HTML>")) = 1 := by decide

theorem settled_const {s : JSString} (hs : budget (.str s) = 1) (v : JSVal) :
    Settled (some (.str s)) (budget v) := by
  intro t ht
  cases ht
  have := budget_pos v
  exact ⟨rfl, rfl, by omega⟩

theorem headersRule_cases {key : JSString} {v : JSVal} (h : headersRule key v = true) :
    key = lit "headers" ∧ ((∃ ps, v = .obj ps) ∨ (∃ xs, v = .arr xs)) := by
  unfold headersRule at h
  split at h
  · exact ⟨by simpa using h, Or.inl ⟨_, rfl⟩⟩
  · exact ⟨by simpa using h, Or.inr ⟨_, rfl⟩⟩
  · exact absurd h (by simp)

theorem ownProps_budget {v : JSVal} {kv : JSString × JSVal} (h : kv ∈ ownProps v) :
    budget kv.2 + 2 ≤ budget v :=
  child_budget (List.mem_map_of_mem (fun kv => kv.2) h)

theorem ownProps_wellFormed {v : JSVal} (hwf : wellFormed v = true) {kv : JSString × JSVal}
    (h : kv ∈ ownProps v) : wellFormed kv.2 = true :=
  child_wellFormed hwf (List.mem_map_of_mem (fun kv => kv.2) h)

/-- The value that the headers rule returns: the tree of the inner serialization. -/
theorem headers_value (b m : Nat) (ih : ∀ v, budget v ≤ b → wellFormed v = true → Finishes v)
    (v : JSVal) (hwf : wellFormed v = true) (hb : budget v ≤ b + 1) (hm : budget v ≤ m + 1)
    (h2 : 2 ≤ budget v) :
    ∃ t, parseHeaders (serializeProperty (replacer m) [] m [] [] (.obj (newHeaders v))) = some t
      ∧ defined t = true ∧ wellFormed t = true ∧ budget t ≤ budget v
      ∧ descend (redact (replacer m) (m - 1)) (.obj (newHeaders v)) = some (some t) := by
  have hvals := newHeaders_values (fun c => wellFormed c = true ∧ budget c + 2 ≤ budget v) v
    (fun kv hkv => ⟨ownProps_wellFormed hwf hkv, ownProps_budget hkv⟩)
  have hwfn : wellFormed (.obj (newHeaders v)) = true := by
    simp only [wellFormed, Bool.and_eq_true]
    exact ⟨newHeaders_keysOrdered v, (wellFormedProps_iff _).2 (fun kv hkv => (hvals kv hkv).1)⟩
  have hbn : budgetProps (newHeaders v) ≤ budget v - 2 :=
    (budgetProps_le_iff _ _).2 (fun kv hkv => by have := (hvals kv hkv).2; omega)
  have hle : budget (.obj (newHeaders v)) ≤ budget v := by simp only [budget]; omega
  obtain ⟨m', rfl⟩ : ∃ m', m = m' + 1 := ⟨m - 1, by omega⟩
  obtain ⟨out, ho, hs, _⟩ := descend_children b (m' + 1) m' ih (.obj (newHeaders v)) hwfn
    (by omega) (by omega) (by omega)
  obtain ⟨qs, rfl⟩ := descend_obj_shape ho
  obtain ⟨d1, d2, d3⟩ := hs _ rfl
  refine ⟨.obj qs, ?_, d1, d2, by omega, by simpa using ho⟩
  rw [serializeProperty_eq_render, redact, replacer_root]
  simp only [ho, Option.map_some', parseHeaders]
  exact jsonParse_render [] rfl _ d1 d2

theorem headersRule_budget {key : JSString} {v : JSVal} (h : headersRule key v = true) :
    2 ≤ budget v := by
  obtain ⟨-, ⟨ps, rfl⟩ | ⟨xs, rfl⟩⟩ := headersRule_cases h <;> simp [budget]

/-- What the replacer returns for a value of a budget that the bounds cover. -/
theorem replacer_result (b m : Nat) (ih : ∀ v, budget v ≤ b → wellFormed v = true → Finishes v)
    (key : JSString) (v : JSVal) (hwf : wellFormed v = true) (hb : budget v ≤ b + 1)
    (hm : budget v ≤ m + 1) :
    ∃ r, replacer (m + 1) key v = some r ∧ wellFormed r = true ∧ budget r ≤ budget v := by
  have hpos := budget_pos v
  rw [replacer]
  unfold replacerWith
  cases hbody : bodyRule key v with
  | some r =>
    simp only
    obtain ⟨s, rfl, hr | hr⟩ := bodyRule_cases hbody
    · subst hr
      exact ⟨_, rfl, rfl, le_refl _⟩
    · obtain ⟨r1, r2, r3⟩ := jsonParse_result hr
      have hbv : budget (.str s) = s.length + 1 := by simp [budget, hr]
      exact ⟨r, rfl, r3, by omega⟩
  | none =>
    simp only
    split
    · exact ⟨_, rfl, rfl, by rw [budget_const_authorization]; omega⟩
    split
    · exact ⟨_, rfl, rfl, by rw [budget_const_secret]; omega⟩
    split
    · exact ⟨_, rfl, rfl, by rw [budget_const_identity]; omega⟩
    split
    · rename_i hh
      obtain ⟨t, ht, d1, d2, d3, -⟩ := headers_value b m ih v hwf hb hm (headersRule_budget hh)
      exact ⟨t, ht, d2, d3⟩
    split
    · exact ⟨_, rfl, rfl, by simp only [budget]; omega⟩
    split
    · exact ⟨_, rfl, rfl, by rw [budget_const_document]; omega⟩
    · exact ⟨v, rfl, hwf, le_refl _⟩

theorem finishes_aux : ∀ (b : Nat) (v : JSVal), budget v ≤ b → wellFormed v = true → Finishes v := by
  intro b
  induction b with
  | zero =>
    intro v hb
    have := budget_pos v
    omega
  | succ b ih =>
    intro v hb hwf n f key hn hf
    have hpos := budget_pos v
    obtain ⟨m, rfl⟩ : ∃ m, n = m + 1 := ⟨n - 1, by omega⟩
    obtain ⟨f', rfl⟩ : ∃ f', f = f' + 1 := ⟨f - 1, by omega⟩
    obtain ⟨r, hr, rwf, rb⟩ := replacer_result b m ih key v hwf hb (by omega)
    rw [redact, hr]
    simp only
    obtain ⟨out, ho, hs, _⟩ := descend_children b (m + 1) f' ih r rwf
      (by omega) (by omega) (by omega)
    exact ⟨out, ho, settled_mono hs rb⟩

/-- The redaction of every well-formed value finishes within its budget. -/
theorem finishes (v : JSVal) (hwf : wellFormed v = true) : Finishes v :=
  finishes_aux (budget v) v (le_refl _) hwf

/-! ## The result does not depend on the bounds -/

theorem allSome_map_mono {α β : Type} {g g' : α → Option β} {l : List α} {rs : List β}
    (h : allSome (l.map g) = some rs) (hg : ∀ x ∈ l, ∀ o, g x = some o → g' x = some o) :
    allSome (l.map g') = some rs := by
  induction l generalizing rs with
  | nil => exact h
  | cons a l ih =>
    simp only [List.map_cons] at h ⊢
    cases ha : g a with
    | none => rw [ha] at h; simp [allSome] at h
    | some o =>
      rw [ha] at h
      rw [hg a (List.mem_cons_self _ _) o ha]
      simp only [allSome, Option.map_eq_some'] at h ⊢
      obtain ⟨rs', h1, h2⟩ := h
      exact ⟨rs', ih h1 (fun x hx => hg x (List.mem_cons_of_mem _ hx)), h2⟩

theorem descend_mono {go go' : JSString → JSVal → Option (Option JSVal)}
    (hg : ∀ k x o, go k x = some o → go' k x = some o) {r : JSVal} {out : Option JSVal}
    (h : descend go r = some out) : descend go' r = some out := by
  cases r with
  | undefined => exact h
  | null => exact h
  | bool b => exact h
  | num n => exact h
  | str s => exact h
  | arr xs =>
    simp only [descend, Option.map_eq_some'] at h ⊢
    obtain ⟨rs, h1, h2⟩ := h
    exact ⟨rs, allSome_map_mono h1 (fun kv _ o ho => hg kv.1 kv.2 o ho), h2⟩
  | obj ps =>
    simp only [descend, Option.map_eq_some'] at h ⊢
    obtain ⟨rs, h1, h2⟩ := h
    refine ⟨rs, allSome_map_mono h1 (fun kv _ o ho => ?_), h2⟩
    simp only [Option.map_eq_some'] at ho ⊢
    obtain ⟨a, ha, e⟩ := ho
    exact ⟨a, hg kv.1 kv.2 a ha, e⟩

theorem redact_mono {rep rep' : JSString → JSVal → Option JSVal}
    (hr : ∀ k x r, rep k x = some r → rep' k x = some r) :
    ∀ (f f' : Nat), f ≤ f' → ∀ k v out, redact rep f k v = some out →
      redact rep' f' k v = some out := by
  intro f
  induction f with
  | zero => intro f' _ k v out h; simp [redact] at h
  | succ f ih =>
    intro f' hf k v out h
    obtain ⟨g, rfl⟩ : ∃ g, f' = g + 1 := ⟨f' - 1, by omega⟩
    rw [redact] at h ⊢
    cases hrep : rep k v with
    | none => rw [hrep] at h; exact absurd h (by simp)
    | some r =>
      rw [hrep] at h
      rw [hr k v r hrep]
      exact descend_mono (fun k x o ho => ih g (by omega) k x o ho) h

theorem replacerWith_mono {H H' : JSVal → Option JSVal}
    (hH : ∀ x t, H x = some t → H' x = some t) {k : JSString} {v r : JSVal}
    (h : replacerWith H k v = some r) : replacerWith H' k v = some r := by
  unfold replacerWith at h ⊢
  cases hb : bodyRule k v with
  | some q => rw [hb] at h; exact h
  | none =>
    rw [hb] at h
    simp only at h ⊢
    split
    · rename_i c; rw [if_pos c] at h; exact h
    rename_i c1; rw [if_neg c1] at h
    split
    · rename_i c; rw [if_pos c] at h; exact h
    rename_i c2; rw [if_neg c2] at h
    split
    · rename_i c; rw [if_pos c] at h; exact h
    rename_i c3; rw [if_neg c3] at h
    split
    · rename_i c; rw [if_pos c] at h; exact hH _ _ h
    rename_i c4; rw [if_neg c4] at h
    exact h

theorem parseHeaders_eq_some {x : Option (Option JSString)} {t : JSVal}
    (h : parseHeaders x = some t) : ∃ text, x = some (some text) ∧ jsonParse text = some t := by
  unfold parseHeaders at h
  split at h
  · exact ⟨_, rfl, h⟩
  · exact absurd h (by simp)

theorem replacer_succ (m : Nat) : replacer (m + 1) = replacerWith (fun value =>
    parseHeaders (serializeProperty (replacer m) [] m [] [] (.obj (newHeaders value)))) := rfl

theorem replacer_zero : replacer 0 = replacerWith (fun _ => none) := rfl

theorem replacer_succ_mono : ∀ (n : Nat) (k : JSString) (v r : JSVal),
    replacer n k v = some r → replacer (n + 1) k v = some r := by
  intro n
  induction n with
  | zero =>
    intro k v r h
    rw [replacer_zero] at h
    rw [replacer_succ]
    exact replacerWith_mono (fun x t ht => absurd ht (by simp)) h
  | succ n ih =>
    intro k v r h
    rw [replacer_succ] at h
    rw [replacer_succ]
    refine replacerWith_mono (fun x t ht => ?_) h
    obtain ⟨text, h1, h2⟩ := parseHeaders_eq_some ht
    rw [serializeProperty_eq_render] at h1 ⊢
    simp only [Option.map_eq_some'] at h1
    obtain ⟨o, ho, a, rfl, rfl⟩ := h1
    rw [redact_mono ih n (n + 1) (by omega) _ _ _ ho]
    simp only [Option.map_some', parseHeaders, h2]

theorem replacer_mono {n n' : Nat} (hn : n ≤ n') {k : JSString} {v r : JSVal}
    (h : replacer n k v = some r) : replacer n' k v = some r := by
  induction hn with
  | refl => exact h
  | step _ ih => exact replacer_succ_mono _ _ _ _ ih

/-- The tree that the serialization of `value` under `key` writes. -/
theorem redact_eq_of_le {v : JSVal} (hwf : wellFormed v = true) {n f : Nat} (key : JSString)
    (hn : budget v ≤ n) (hf : budget v ≤ f) :
    redact (replacer n) f key v = redact (replacer (budget v)) (budget v) key v := by
  obtain ⟨out, ho, -⟩ := finishes v hwf (budget v) (budget v) key (le_refl _) (le_refl _)
  rw [ho]
  exact redact_mono (fun k x r hr => replacer_mono hn hr) _ _ hf _ _ _ ho

theorem replacer_eq_of_le {v r : JSVal} {key : JSString} {n n' : Nat}
    (h : replacer n key v = some r) (hn : n ≤ n') : replacer n' key v = some r :=
  replacer_mono hn h

/-! ## The redacted tree -/

theorem redact_eq_redacted {v : JSVal} (hwf : wellFormed v = true) {n f : Nat} (key : JSString)
    (hn : budget v ≤ n) (hf : budget v ≤ f) :
    redact (replacer n) f key v = redacted key v :=
  redact_eq_of_le hwf key hn hf

theorem redacted_settled {v : JSVal} (hwf : wellFormed v = true) (key : JSString) :
    ∃ out, redacted key v = some out ∧ Settled out (budget v) :=
  finishes v hwf (budget v) (budget v) key (le_refl _) (le_refl _)

theorem allSome_map_congr {α β : Type} {g q : α → Option β} {l : List α}
    (h : ∀ x ∈ l, g x = q x) : allSome (l.map g) = allSome (l.map q) := by
  rw [List.map_congr_left h]

theorem descend_congr {go go' : JSString → JSVal → Option (Option JSVal)} {r : JSVal}
    (h : ∀ kv ∈ ownProps r, go kv.1 kv.2 = go' kv.1 kv.2) : descend go r = descend go' r := by
  cases r with
  | undefined => rfl
  | null => rfl
  | bool b => rfl
  | num n => rfl
  | str s => rfl
  | arr xs =>
    simp only [descend]
    rw [allSome_map_congr (l := indexProps 0 xs) (q := fun kv => go' kv.1 kv.2)
      (fun kv hkv => h kv hkv)]
  | obj ps =>
    simp only [descend]
    rw [allSome_map_congr
      (q := fun kv => (go' kv.1 kv.2).map (fun r => r.map (fun t => (kv.1, t))))
      (fun kv hkv => by rw [h kv hkv])]

theorem replacer_at_budget {v r : JSVal} {key : JSString} {n : Nat} (hwf : wellFormed v = true)
    (h : replacer n key v = some r) :
    replacer (budget v) key v = some r ∧ wellFormed r = true ∧ budget r ≤ budget v := by
  have hpos := budget_pos v
  obtain ⟨m, hm⟩ : ∃ m, budget v = m + 1 := ⟨budget v - 1, by omega⟩
  obtain ⟨r', hr', w', b'⟩ := replacer_result (budget v) m (fun c _ hc => finishes c hc) key v hwf
    (by omega) (by omega)
  have e1 := replacer_mono (Nat.le_max_left n (m + 1)) h
  have e2 := replacer_mono (Nat.le_max_right n (m + 1)) hr'
  rw [e1] at e2
  simp only [Option.some.injEq] at e2
  subst e2
  refine ⟨?_, w', b'⟩
  rw [hm]
  exact hr'

/-- One step of the redaction: the replacer, then the members of its result. -/
theorem redacted_step {v r : JSVal} {key : JSString} {n : Nat} (hwf : wellFormed v = true)
    (h : replacer n key v = some r) : redacted key v = descend redacted r := by
  obtain ⟨hr, rwf, rb⟩ := replacer_at_budget hwf h
  have hpos := budget_pos v
  obtain ⟨m, hm⟩ : ∃ m, budget v = m + 1 := ⟨budget v - 1, by omega⟩
  unfold redacted
  rw [hm, redact]
  rw [hm] at hr
  rw [hr]
  simp only
  apply descend_congr
  intro kv hkv
  have hb := ownProps_budget hkv
  exact redact_eq_redacted (ownProps_wellFormed rwf hkv) kv.1 (by omega) (by omega)

theorem stringify_eq (v : JSVal) (gap : JSString) :
    stringify v gap = (redacted [] v).map (fun r => r.map (render gap [])) := by
  simp only [stringify, stringifyWith, serializeProperty_eq_render, redacted]

theorem serializeProperty_eq_redacted {v : JSVal} (hwf : wellFormed v = true) {n f : Nat}
    (gap indent key : JSString) (hn : budget v ≤ n) (hf : budget v ≤ f) :
    serializeProperty (replacer n) gap f indent key v
      = (redacted key v).map (fun r => r.map (render gap indent)) := by
  rw [serializeProperty_eq_render, redact_eq_redacted hwf key hn hf]

/-- The members of the tree that the members of an object are redacted to. -/
theorem descend_obj_members {go : JSString → JSVal → Option (Option JSVal)} {ps : Props}
    {out : Option JSVal} (h : descend go (.obj ps) = some out) :
    ∃ qs, out = some (.obj qs)
      ∧ (∀ k t, (k, t) ∈ qs ↔ ∃ v, (k, v) ∈ ps ∧ go k v = some (some t))
      ∧ (qs.map (fun kv => kv.1)).Sublist (ps.map (fun kv => kv.1)) := by
  simp only [descend, Option.map_eq_some'] at h
  obtain ⟨rs, hrs, rfl⟩ := h
  refine ⟨_, rfl, ?_, ?_⟩
  · induction ps generalizing rs with
    | nil =>
      simp only [List.map_nil, allSome, Option.some.injEq] at hrs
      subst hrs
      simp
    | cons p ps ih =>
      simp only [List.map_cons] at hrs
      cases hp : go p.1 p.2 with
      | none => rw [hp] at hrs; simp [allSome] at hrs
      | some o =>
        rw [hp] at hrs
        simp only [Option.map_some', allSome, Option.map_eq_some'] at hrs
        obtain ⟨rs', h1, rfl⟩ := hrs
        intro k t
        have := ih rs' h1 k t
        cases o with
        | none =>
          rw [Option.map_none', List.filterMap_cons_none (by rfl), this]
          constructor
          · rintro ⟨v, hv, e⟩; exact ⟨v, List.mem_cons_of_mem _ hv, e⟩
          · rintro ⟨v, hv, e⟩
            rcases List.mem_cons.1 hv with hv | hv
            · cases hv; rw [hp] at e; simp at e
            · exact ⟨v, hv, e⟩
        | some t0 =>
          rw [Option.map_some', List.filterMap_cons_some (by rfl), List.mem_cons, this]
          constructor
          · rintro (e | ⟨v, hv, e⟩)
            · cases e; exact ⟨p.2, List.mem_cons_self _ _, hp⟩
            · exact ⟨v, List.mem_cons_of_mem _ hv, e⟩
          · rintro ⟨v, hv, e⟩
            rcases List.mem_cons.1 hv with hv | hv
            · cases hv; rw [hp] at e; simp only [Option.some.injEq] at e; subst e; exact Or.inl rfl
            · exact Or.inr ⟨v, hv, e⟩
  · induction ps generalizing rs with
    | nil =>
      simp only [List.map_nil, allSome, Option.some.injEq] at hrs
      subst hrs
      simp
    | cons p ps ih =>
      simp only [List.map_cons] at hrs
      cases hp : go p.1 p.2 with
      | none => rw [hp] at hrs; simp [allSome] at hrs
      | some o =>
        rw [hp] at hrs
        simp only [Option.map_some', allSome, Option.map_eq_some'] at hrs
        obtain ⟨rs', h1, rfl⟩ := hrs
        cases o with
        | none =>
          rw [Option.map_none', List.filterMap_cons_none (by rfl)]
          simp only [List.map_cons]
          exact List.Sublist.cons _ (ih rs' h1)
        | some t0 =>
          rw [Option.map_some', List.filterMap_cons_some (by rfl)]
          simp only [List.map_cons]
          exact List.Sublist.cons₂ _ (ih rs' h1)

theorem getProp_of_mem {k : JSString} {t : JSVal} {qs : Props}
    (ho : keysOrdered (qs.map (fun kv => kv.1)) = true) (h : (k, t) ∈ qs) : getProp k qs = t := by
  induction qs with
  | nil => simp at h
  | cons p qs ih =>
    obtain ⟨k', v'⟩ := p
    rw [keysOrdered_iff] at ho
    simp only [List.map_cons, List.pairwise_cons] at ho
    simp only [getProp]
    rcases List.mem_cons.1 h with e | e
    · cases e; simp
    · have hne : k' ≠ k := keyBefore_ne (ho.1 k (List.mem_map_of_mem (fun kv => kv.1) e))
      rw [if_neg hne]
      exact ih ((keysOrdered_iff _).2 ho.2) e

theorem mem_of_getProp {k : JSString} {qs : Props} (h : hasProp k qs = true) :
    (k, getProp k qs) ∈ qs := by
  induction qs with
  | nil => simp [hasProp] at h
  | cons p qs ih =>
    obtain ⟨k', v'⟩ := p
    simp only [getProp]
    split
    · rename_i e; subst e; exact List.mem_cons_self _ _
    · rename_i hne
      apply List.mem_cons_of_mem
      apply ih
      simp only [hasProp, List.any_cons, Bool.or_eq_true, beq_iff_eq] at h ⊢
      rcases h with e | e
      · exact absurd e hne
      · exact e

/-! ## Objects at the root of a serialization -/

theorem wellFormed_obj {ps : Props} (h : wellFormed (.obj ps) = true) :
    keysOrdered (ps.map (fun kv => kv.1)) = true ∧ ∀ kv ∈ ps, wellFormed kv.2 = true := by
  simp only [wellFormed, Bool.and_eq_true] at h
  exact ⟨h.1, (wellFormedProps_iff ps).1 h.2⟩

/-- The serialization of an object that the replacer leaves in place: the text, the
tree that the text parses to, and the members of that tree. -/
theorem object_serialized {ps : Props} {key : JSString} {n : Nat}
    (hwf : wellFormed (.obj ps) = true) (hrep : replacer n key (.obj ps) = some (.obj ps)) :
    ∃ qs, redacted key (.obj ps) = some (some (.obj qs))
      ∧ defined (.obj qs) = true ∧ wellFormed (.obj qs) = true
      ∧ (∀ k t, (k, t) ∈ qs ↔ ∃ v, (k, v) ∈ ps ∧ redacted k v = some (some t))
      ∧ (qs.map (fun kv => kv.1)).Sublist (ps.map (fun kv => kv.1)) := by
  obtain ⟨out, ho, hs⟩ := redacted_settled hwf key
  have hstep := redacted_step hwf hrep
  rw [ho] at hstep
  obtain ⟨qs, rfl, hm, hsub⟩ := descend_obj_members hstep.symm
  obtain ⟨d1, d2, -⟩ := hs _ rfl
  exact ⟨qs, ho, d1, d2, hm, hsub⟩

/-- The text of an object at the root and the object that `JSON.parse` reads from
it. -/
theorem root_object {ps : Props} (hwf : wellFormed (.obj ps) = true) :
    ∃ qs, (∀ gap, stringify (.obj ps) gap = some (some (render gap [] (.obj qs))))
      ∧ (∀ gap, allWs gap = true → jsonParse (render gap [] (.obj qs)) = some (.obj qs))
      ∧ keysOrdered (qs.map (fun kv => kv.1)) = true
      ∧ (∀ k t, (k, t) ∈ qs ↔ ∃ v, (k, v) ∈ ps ∧ redacted k v = some (some t))
      ∧ redacted [] (.obj ps) = some (some (.obj qs)) := by
  obtain ⟨qs, h1, d1, d2, hm, -⟩ := object_serialized hwf (replacer_root 0 ps)
  refine ⟨qs, fun gap => ?_, fun gap hg => jsonParse_render gap hg _ d1 d2,
    (wellFormed_obj d2).1, hm, h1⟩
  rw [stringify_eq, h1]
  rfl

/-- The member that a property of a root object is written as. -/
theorem root_member {ps qs : Props}
    (hq : keysOrdered (qs.map (fun kv => kv.1)) = true)
    (hm : ∀ k t, (k, t) ∈ qs ↔ ∃ v, (k, v) ∈ ps ∧ redacted k v = some (some t))
    {k : JSString} {v t : JSVal} (hmem : (k, v) ∈ ps) (hr : redacted k v = some (some t)) :
    getProp k qs = t :=
  getProp_of_mem hq ((hm k t).2 ⟨v, hmem, hr⟩)

theorem redacted_of_replacer_str {k s : JSString} {v : JSVal} {n : Nat}
    (hwf : wellFormed v = true) (h : replacer n k v = some (.str s)) :
    redacted k v = some (some (.str s)) := by
  rw [redacted_step hwf h]; rfl

theorem redacted_of_replacer_undefined {k : JSString} {v : JSVal} {n : Nat}
    (hwf : wellFormed v = true) (h : replacer n k v = some .undefined) :
    redacted k v = some none := by
  rw [redacted_step hwf h]; rfl

theorem replacer_eq_replacerWith (n : Nat) : ∃ H, replacer n = replacerWith H := by
  cases n
  · exact ⟨_, replacer_zero⟩
  · exact ⟨_, replacer_succ _⟩

theorem bodyRule_none_of_ne {key : JSString} (h : key ≠ lit "body") (v : JSVal) :
    bodyRule key v = none := by
  unfold bodyRule
  split
  · rw [if_neg h]
  · rfl

theorem bodyRule_none_of_not_str {v : JSVal} (h : ∀ s, v ≠ .str s) (key : JSString) :
    bodyRule key v = none := by
  unfold bodyRule
  split
  · rename_i s; exact absurd rfl (h s)
  · rfl

/-- The authorization rule fires. -/
theorem replacer_authorization (n : Nat) {key : JSString} {v : JSVal} (hb : bodyRule key v = none)
    (ha : authorizationRule key v = true) :
    replacer n key v = some (.str (lit "{AUTHORIZATION}")) := by
  obtain ⟨H, e⟩ := replacer_eq_replacerWith n
  rw [e]
  simp [replacerWith, hb, ha]

/-- The secret rule fires. -/
theorem replacer_secret (n : Nat) {key : JSString} {v : JSVal} (hb : bodyRule key v = none)
    (ha : authorizationRule key v = false) (hs : secretRule key v = true) :
    replacer n key v = some (.str (lit "{SECRET}")) := by
  obtain ⟨H, e⟩ := replacer_eq_replacerWith n
  rw [e]
  simp [replacerWith, hb, ha, hs]

theorem headersRule_str (key s : JSString) : headersRule key (.str s) = false := rfl

theorem identityRule_str (key s : JSString) : identityRule key (.str s) = false := rfl

/-- The rule of the key `multiValueHeaders` fires. -/
theorem replacer_multiValueHeaders (n : Nat) {v : JSVal}
    (ha : authorizationRule (lit "multiValueHeaders") v = false) :
    replacer n (lit "multiValueHeaders") v = some .undefined := by
  obtain ⟨H, e⟩ := replacer_eq_replacerWith n
  rw [e]
  have hb : bodyRule (lit "multiValueHeaders") v = none := bodyRule_none_of_ne (by decide) v
  have hs : secretRule (lit "multiValueHeaders") v = false := by
    have : matchesSecret (lit "multiValueHeaders") = false := by decide
    simp [secretRule, this]
  have hi : identityRule (lit "multiValueHeaders") v = false := by
    unfold identityRule
    split
    · have : containsSub (lit "identity") (lit "multiValueHeaders") = false := by decide
      simp [this]
    · rfl
  have hh : headersRule (lit "multiValueHeaders") v = false := by
    have hne : lit "multiValueHeaders" ≠ lit "headers" := by decide
    unfold headersRule
    split <;> simp [hne]
  simp [replacerWith, hb, ha, hs, hi, hh]

/-- The document rule fires. -/
theorem replacer_doctype (n : Nat) {key s : JSString} (hb : key ≠ lit "body")
    (ha : authorizationRule key (.str s) = false) (hs : secretRule key (.str s) = false)
    (hm : key ≠ lit "multiValueHeaders") (hd : doctypeRule (.str s) = true) :
    replacer n key (.str s) = some (.str (lit "<HTML DOCUMENT></HTML>")) := by
  obtain ⟨H, e⟩ := replacer_eq_replacerWith n
  rw [e]
  simp [replacerWith, bodyRule_none_of_ne hb, ha, hs, identityRule_str, headersRule_str, hm, hd]

/-- No rule fires on a string. -/
theorem replacer_str_kept (n : Nat) {key s : JSString} (hb : key ≠ lit "body")
    (ha : authorizationRule key (.str s) = false) (hs : secretRule key (.str s) = false)
    (hm : key ≠ lit "multiValueHeaders") (hd : doctypeRule (.str s) = false) :
    replacer n key (.str s) = some (.str s) := by
  obtain ⟨H, e⟩ := replacer_eq_replacerWith n
  rw [e]
  simp [replacerWith, bodyRule_none_of_ne hb, ha, hs, identityRule_str, headersRule_str, hm, hd]

theorem matchesAuthorization_of_eq {key : JSString}
    (hk : key.map asciiLower = lit "authorization") : matchesAuthorization key = true := by
  have hl : key.length = 13 := by
    have := congrArg List.length hk
    simpa [lit] using this
  cases key with
  | nil => simp at hl
  | cons c t =>
    have hd : (c :: t).drop 13 = [] := List.drop_eq_nil_of_le (by omega)
    simp only [matchesAuthorization, startsWithCI, hk, hd, List.map_nil]
    have h1 : (lit "authorization").isPrefixOf (lit "authorization") = true := by decide
    have h2 : (lit "result").isPrefixOf ([] : JSString) = false := by decide
    simp [h1, h2]

/-! ## Claims on the rules of the replacer -/

/-- C3, as stated, fails: an empty string under the key `authorization` is written
as it is, not as `{AUTHORIZATION}`. -/
theorem authorization_empty_string_kept :
    stringify (.obj [(lit "authorization", .str [])]) []
        = some (some (lit "\x7b\"authorization\":\"\"\x7d"))
      ∧ jsonParse (lit "\x7b\"authorization\":\"\"\x7d")
        = some (.obj [(lit "authorization", .str [])]) :=
  ⟨by decide, rfl⟩

/-- C3, amended: in every object that has a key equal to `authorization` up to
case whose value is a non-empty string without a token-shaped substring, the value
written for that key is exactly `{AUTHORIZATION}`. -/
theorem authorization_value_redacted (ps : Props) (k s gap : JSString)
    (hg : allWs gap = true) (hwf : wellFormed (.obj ps) = true) (hmem : (k, .str s) ∈ ps)
    (hk : k.map asciiLower = lit "authorization") (hs : s ≠ []) (hj : hasJwt s = false) :
    ∃ text qs, stringify (.obj ps) gap = some (some text) ∧ jsonParse text = some (.obj qs)
      ∧ getProp k qs = .str (lit "{AUTHORIZATION}") := by
  obtain ⟨qs, h1, h2, h3, h4, -⟩ := root_object hwf
  refine ⟨_, qs, h1 gap, h2 gap hg, ?_⟩
  have hkb : k ≠ lit "body" := by
    rintro rfl
    exact absurd hk (by decide)
  have hkn : k ≠ [] := by
    rintro rfl
    exact absurd hk (by decide)
  have ha : authorizationRule k (.str s) = true := by
    simp [authorizationRule, matchesAuthorization_of_eq hk, hj, hs, hkn]
  exact root_member h3 h4 hmem
    (redacted_of_replacer_str ((wellFormed_obj hwf).2 _ hmem)
      (replacer_authorization 0 (bodyRule_none_of_ne hkb _) ha))

theorem authorization_value_redacted_witness :
    allWs [] = true
      ∧ wellFormed (.obj [(lit "Authorization", .str (lit "Basic abc"))]) = true
      ∧ (lit "Authorization", JSVal.str (lit "Basic abc"))
          ∈ [(lit "Authorization", JSVal.str (lit "Basic abc"))]
      ∧ (lit "Authorization").map asciiLower = lit "authorization"
      ∧ lit "Basic abc" ≠ [] ∧ hasJwt (lit "Basic abc") = false
      ∧ ∃ text qs, stringify (.obj [(lit "Authorization", .str (lit "Basic abc"))]) []
            = some (some text)
          ∧ jsonParse text = some (.obj qs)
          ∧ getProp (lit "Authorization") qs = .str (lit "{AUTHORIZATION}") :=
  ⟨by decide, by decide, List.mem_cons_self _ _, by decide, by decide, by decide,
    authorization_value_redacted _ _ _ _ (by decide) (by decide) (List.mem_cons_self _ _)
      (by decide) (by decide) (by decide)⟩

/-- C4, as stated, fails: under the key `secret` a value that starts with `bearer`
is written as `{AUTHORIZATION}`, not as `{SECRET}`. -/
theorem secret_bearer_value_is_authorization :
    stringify (.obj [(lit "secret", .str (lit "bearer x"))]) []
        = some (some (lit "\x7b\"secret\":\"\x7bAUTHORIZATION\x7d\"\x7d")) := by
  decide

/-- C4, amended: in every object that has a key containing `secret` or `signature`
up to case with a truthy value, the value written for that key is exactly
`{SECRET}` when the authorization rule, which comes first, does not fire on it,
and `{AUTHORIZATION}` when it does. -/
theorem secret_value_redacted (ps : Props) (k gap : JSString) (v : JSVal)
    (hg : allWs gap = true) (hwf : wellFormed (.obj ps) = true) (hmem : (k, v) ∈ ps)
    (hk : matchesSecret k = true) (hv : v.truthy = true) :
    ∃ text qs, stringify (.obj ps) gap = some (some text) ∧ jsonParse text = some (.obj qs)
      ∧ getProp k qs
        = .str (if authorizationRule k v then lit "{AUTHORIZATION}" else lit "{SECRET}") := by
  obtain ⟨qs, h1, h2, h3, h4, -⟩ := root_object hwf
  refine ⟨_, qs, h1 gap, h2 gap hg, ?_⟩
  have hkb : k ≠ lit "body" := by
    rintro rfl
    exact absurd hk (by decide)
  have hkn : k ≠ [] := by
    rintro rfl
    exact absurd hk (by decide)
  have hsr : secretRule k v = true := by simp [secretRule, hk, hv, hkn]
  cases ha : authorizationRule k v with
  | true =>
    exact root_member h3 h4 hmem
      (redacted_of_replacer_str ((wellFormed_obj hwf).2 _ hmem)
        (replacer_authorization 0 (bodyRule_none_of_ne hkb _) ha))
  | false =>
    exact root_member h3 h4 hmem
      (redacted_of_replacer_str ((wellFormed_obj hwf).2 _ hmem)
        (replacer_secret 0 (bodyRule_none_of_ne hkb _) ha hsr))

theorem secret_value_redacted_witness :
    allWs [] = true
      ∧ wellFormed (.obj [(lit "clientSecret", .num (.finite false 7 0))]) = true
      ∧ (lit "clientSecret", JSVal.num (.finite false 7 0))
        ∈ [(lit "clientSecret", JSVal.num (.finite false 7 0))]
      ∧ matchesSecret (lit "clientSecret") = true ∧ (JSVal.num (.finite false 7 0)).truthy = true
      ∧ ∃ text qs, stringify (.obj [(lit "clientSecret", .num (.finite false 7 0))]) []
            = some (some text)
          ∧ jsonParse text = some (.obj qs)
          ∧ getProp (lit "clientSecret") qs
            = .str (if authorizationRule (lit "clientSecret") (.num (.finite false 7 0))
                then lit "{AUTHORIZATION}" else lit "{SECRET}") :=
  ⟨by decide, by decide, List.mem_cons_self _ _, by decide, by decide,
    secret_value_redacted _ _ _ _ (by decide) (by decide) (List.mem_cons_self _ _)
      (by decide) (by decide)⟩

/-- C8, as stated, fails: a string that starts with `Bearer` under the key
`multiValueHeaders` is written as `{AUTHORIZATION}`, so the key stays in the
output. -/
theorem multiValueHeaders_bearer_kept :
    stringify (.obj [(lit "multiValueHeaders", .str (lit "Bearer abc"))]) []
        = some (some (lit "\x7b\"multiValueHeaders\":\"\x7bAUTHORIZATION\x7d\"\x7d")) := by
  decide

/-- C8, amended: the replacer returns no value for the key `multiValueHeaders`
unless the authorization rule fires on its value (a non-empty string that starts
with `bearer` up to case and holds no token-shaped substring), and an object with
such a key is written and read back without that key. -/
theorem multiValueHeaders_dropped (ps : Props) (gap : JSString) (v : JSVal)
    (hg : allWs gap = true) (hwf : wellFormed (.obj ps) = true)
    (hmem : (lit "multiValueHeaders", v) ∈ ps)
    (ha : authorizationRule (lit "multiValueHeaders") v = false) :
    (∀ n, replacer n (lit "multiValueHeaders") v = some .undefined)
      ∧ ∃ text qs, stringify (.obj ps) gap = some (some text) ∧ jsonParse text = some (.obj qs)
        ∧ hasProp (lit "multiValueHeaders") qs = false := by
  refine ⟨fun n => replacer_multiValueHeaders n ha, ?_⟩
  obtain ⟨qs, h1, h2, h3, h4, -⟩ := root_object hwf
  refine ⟨_, qs, h1 gap, h2 gap hg, ?_⟩
  cases hp : hasProp (lit "multiValueHeaders") qs with
  | false => rfl
  | true =>
    exfalso
    obtain ⟨v', hv', hr⟩ := (h4 _ _).1 (mem_of_getProp hp)
    have e1 := getProp_of_mem (wellFormed_obj hwf).1 hv'
    have e2 := getProp_of_mem (wellFormed_obj hwf).1 hmem
    rw [e1] at e2
    subst e2
    rw [redacted_of_replacer_undefined ((wellFormed_obj hwf).2 _ hmem)
      (replacer_multiValueHeaders 0 ha)] at hr
    exact absurd hr (by simp)

theorem multiValueHeaders_dropped_witness :
    allWs [] = true
      ∧ wellFormed (.obj [(lit "multiValueHeaders", .obj [(lit "a", .arr [.str (lit "b")])])])
          = true
      ∧ (lit "multiValueHeaders", JSVal.obj [(lit "a", .arr [.str (lit "b")])])
          ∈ [(lit "multiValueHeaders", JSVal.obj [(lit "a", .arr [.str (lit "b")])])]
      ∧ authorizationRule (lit "multiValueHeaders") (.obj [(lit "a", .arr [.str (lit "b")])])
          = false
      ∧ ((∀ n, replacer n (lit "multiValueHeaders") (.obj [(lit "a", .arr [.str (lit "b")])])
            = some .undefined)
        ∧ ∃ text qs,
          stringify (.obj [(lit "multiValueHeaders", .obj [(lit "a", .arr [.str (lit "b")])])]) []
            = some (some text)
          ∧ jsonParse text = some (.obj qs)
          ∧ hasProp (lit "multiValueHeaders") qs = false) :=
  ⟨by decide, by decide, List.mem_cons_self _ _, by decide,
    multiValueHeaders_dropped _ _ _ (by decide) (by decide) (List.mem_cons_self _ _)
      (by decide)⟩

/-- C9, as stated, fails: under the key `body` a string that starts with
`<!DOCTYPE html>` is no JSON text and is written unchanged. -/
theorem body_doctype_kept :
    stringify (.obj [(lit "body", .str (lit "<!DOCTYPE html><p>"))]) []
        = some (some (lit "\x7b\"body\":\"<!DOCTYPE html><p>\"\x7d")) := by
  decide

theorem doctype_not_bearer {s : JSString} (hd : (lit "<!DOCTYPE html>").isPrefixOf s = true) :
    startsWithCI (lit "bearer") s = false := by
  cases s with
  | nil => exact absurd hd (by decide)
  | cons c t =>
    have e : lit "<!DOCTYPE html>" = 60 :: (lit "!DOCTYPE html>") := by decide
    rw [e] at hd
    simp only [List.isPrefixOf, Bool.and_eq_true, beq_iff_eq] at hd
    obtain ⟨rfl, -⟩ := hd
    have e2 : lit "bearer" = 98 :: lit "earer" := by decide
    simp [startsWithCI, e2, List.isPrefixOf, asciiLower]

/-- C9, amended: for every key other than `body` and `multiValueHeaders` that
contains neither `secret` nor `signature` up to case, a string value that starts
with `<!DOCTYPE html>` is written as `<HTML DOCUMENT></HTML>`, provided the key does
not match `authorization` or the value holds a token-shaped substring. -/
theorem doctype_value_replaced (ps : Props) (k s gap : JSString)
    (hg : allWs gap = true) (hwf : wellFormed (.obj ps) = true) (hmem : (k, .str s) ∈ ps)
    (hd : (lit "<!DOCTYPE html>").isPrefixOf s = true)
    (hb : k ≠ lit "body") (hm : k ≠ lit "multiValueHeaders") (hsec : matchesSecret k = false)
    (ha : matchesAuthorization k = false ∨ hasJwt s = true) :
    ∃ text qs, stringify (.obj ps) gap = some (some text) ∧ jsonParse text = some (.obj qs)
      ∧ getProp k qs = .str (lit "<HTML DOCUMENT></HTML>") := by
  obtain ⟨qs, h1, h2, h3, h4, -⟩ := root_object hwf
  refine ⟨_, qs, h1 gap, h2 gap hg, ?_⟩
  have har : authorizationRule k (.str s) = false := by
    rcases ha with ha | ha
    · simp [authorizationRule, ha, doctype_not_bearer hd]
    · simp [authorizationRule, ha]
  have hsr : secretRule k (.str s) = false := by simp [secretRule, hsec]
  exact root_member h3 h4 hmem
    (redacted_of_replacer_str ((wellFormed_obj hwf).2 _ hmem)
      (replacer_doctype 0 hb har hsr hm (by simpa [doctypeRule] using hd)))

theorem doctype_value_replaced_witness :
    allWs [] = true
      ∧ wellFormed (.obj [(lit "page", .str (lit "<!DOCTYPE html><p>"))]) = true
      ∧ (lit "page", JSVal.str (lit "<!DOCTYPE html><p>"))
          ∈ [(lit "page", JSVal.str (lit "<!DOCTYPE html><p>"))]
      ∧ (lit "<!DOCTYPE html>").isPrefixOf (lit "<!DOCTYPE html><p>") = true
      ∧ lit "page" ≠ lit "body" ∧ lit "page" ≠ lit "multiValueHeaders"
      ∧ matchesSecret (lit "page") = false
      ∧ (matchesAuthorization (lit "page") = false ∨ hasJwt (lit "<!DOCTYPE html><p>") = true)
      ∧ ∃ text qs, stringify (.obj [(lit "page", .str (lit "<!DOCTYPE html><p>"))]) []
            = some (some text)
          ∧ jsonParse text = some (.obj qs)
          ∧ getProp (lit "page") qs = .str (lit "<HTML DOCUMENT></HTML>") :=
  ⟨by decide, by decide, List.mem_cons_self _ _, by decide, by decide, by decide, by decide,
    Or.inl (by decide),
    doctype_value_replaced _ _ _ _ (by decide) (by decide) (List.mem_cons_self _ _) (by decide)
      (by decide) (by decide) (by decide) (Or.inl (by decide))⟩

/-! ## The headers rule -/

theorem newHeaders_obj {hs : Props} (ho : keysOrdered (hs.map (fun kv => kv.1)) = true) :
    newHeaders (.obj hs) = hs.filter (fun kv => !uselessHeaders (kv.1.map asciiLower)) := by
  unfold newHeaders
  simp only [ownProps]
  have e1 : (hs.map (fun kv => kv.1)).filter (fun h => !uselessHeaders (h.map asciiLower))
      = (hs.filter (fun kv => !uselessHeaders (kv.1.map asciiLower))).map (fun kv => kv.1) := by
    rw [List.filter_map]
    rfl
  rw [e1, List.foldl_map]
  have e2 : ∀ (l : Props), (∀ kv ∈ l, kv ∈ hs) → ∀ acc,
      l.foldl (fun acc (kv : JSString × JSVal) => setProp acc kv.1 (getProp kv.1 hs)) acc
        = l.foldl (fun acc kv => setProp acc kv.1 kv.2) acc := by
    intro l
    induction l with
    | nil => intro _ _; rfl
    | cons p l ih =>
      intro hl acc
      simp only [List.foldl_cons]
      rw [getProp_of_mem ho (hl p (List.mem_cons_self _ _))]
      exact ih (fun kv hkv => hl kv (List.mem_cons_of_mem _ hkv)) _
  rw [e2 _ (fun kv hkv => (List.mem_filter.1 hkv).1)]
  apply foldl_setProp_ordered []
  simp only [List.nil_append]
  exact keysOrdered_sublist (List.Sublist.map _ (List.filter_sublist _)) ho

theorem descend_isSome {go : JSString → JSVal → Option (Option JSVal)} {r : JSVal}
    {out : Option JSVal} (h : descend go r = some out) (hr : r ≠ .undefined) :
    ∃ t, out = some t := by
  cases r with
  | undefined => exact absurd rfl hr
  | null => cases h; exact ⟨_, rfl⟩
  | bool b => cases h; exact ⟨_, rfl⟩
  | num n => cases h; exact ⟨_, rfl⟩
  | str s => cases h; exact ⟨_, rfl⟩
  | arr xs =>
    simp only [descend, Option.map_eq_some'] at h
    obtain ⟨rs, -, e⟩ := h
    exact ⟨_, e.symm⟩
  | obj ps =>
    simp only [descend, Option.map_eq_some'] at h
    obtain ⟨rs, -, e⟩ := h
    exact ⟨_, e.symm⟩

theorem defined_ne_undefined {t : JSVal} (h : defined t = true) : t ≠ .undefined := by
  rintro rfl
  exact absurd h (by simp [defined])

theorem replacer_ne_undefined {n : Nat} {k : JSString} {v r : JSVal}
    (h : replacer n k v = some r) (hk : k ≠ lit "multiValueHeaders") (hv : v ≠ .undefined) :
    r ≠ .undefined := by
  have key : ∀ H : JSVal → Option JSVal, (∀ x t, H x = some t → t ≠ .undefined) →
      replacerWith H k v = some r → r ≠ .undefined := by
    intro H hH h
    unfold replacerWith at h
    cases hb : bodyRule k v with
    | some q =>
      rw [hb] at h
      simp only [Option.some.injEq] at h
      subst h
      obtain ⟨s, rfl, e | e⟩ := bodyRule_cases hb
      · rw [e]; exact hv
      · exact (jsonParse_result e).2.1
    | none =>
      rw [hb] at h
      simp only at h
      split at h
      · cases h; simp
      split at h
      · cases h; simp
      split at h
      · cases h; simp
      split at h
      · exact hH _ _ h
      split at h
      · cases h; simp
      · cases h; exact hv
  cases n with
  | zero =>
    rw [replacer_zero] at h
    exact key _ (fun x t ht => absurd ht (by simp)) h
  | succ m =>
    rw [replacer_succ] at h
    refine key _ (fun x t ht => ?_) h
    obtain ⟨text, -, hp⟩ := parseHeaders_eq_some ht
    exact (jsonParse_result hp).2.1

/-- A value that is not `undefined` is written under every key other than
`multiValueHeaders`. -/
theorem redacted_isSome {k : JSString} {v : JSVal} (hwf : wellFormed v = true)
    (hk : k ≠ lit "multiValueHeaders") (hv : v ≠ .undefined) :
    ∃ t, redacted k v = some (some t) ∧ defined t = true ∧ wellFormed t = true := by
  have hpos := budget_pos v
  obtain ⟨m, hm⟩ : ∃ m, budget v = m + 1 := ⟨budget v - 1, by omega⟩
  obtain ⟨r, hr, -, -⟩ := replacer_result (budget v) m (fun c _ hc => finishes c hc) k v hwf
    (by omega) (by omega)
  obtain ⟨out, ho, hs⟩ := redacted_settled hwf k
  have hstep := redacted_step hwf hr
  rw [ho] at hstep
  obtain ⟨t, rfl⟩ := descend_isSome hstep.symm (replacer_ne_undefined hr hk hv)
  obtain ⟨d1, d2, -⟩ := hs t rfl
  exact ⟨t, ho, d1, d2⟩

theorem replacer_headers_obj (m : Nat) (hs : Props) :
    replacer (m + 1) (lit "headers") (.obj hs)
      = parseHeaders (serializeProperty (replacer m) [] m [] []
          (.obj (newHeaders (.obj hs)))) := by
  rw [replacer_succ]
  have h1 : matchesSecret (lit "headers") = false := by decide
  have h2 : containsSub (lit "identity") (lit "headers") = false := by decide
  simp [replacerWith, bodyRule, authorizationRule, secretRule, identityRule, headersRule, h1, h2]

/-- The object that an object under the key `headers` is written as: its members
are the members of the value whose names the table leaves, redacted twice. -/
theorem headers_redacted {hs : Props} (hwf : wellFormed (.obj hs) = true) :
    ∃ zs, redacted (lit "headers") (.obj hs) = some (some (.obj zs))
      ∧ ∀ k t2, (k, t2) ∈ zs ↔ ∃ v t1, (k, v) ∈ hs ∧ uselessHeaders (k.map asciiLower) = false
          ∧ redacted k v = some (some t1) ∧ redacted k t1 = some (some t2) := by
  have hb2 : 2 ≤ budget (.obj hs) := by simp [budget]
  obtain ⟨m, hm⟩ : ∃ m, budget (.obj hs) = m + 1 := ⟨budget (.obj hs) - 1, by omega⟩
  obtain ⟨t, ht, d1, d2, d3, hdesc⟩ := headers_value (budget (.obj hs)) m
    (fun c _ hc => finishes c hc) (.obj hs) hwf (by omega) (by omega) hb2
  obtain ⟨q1, hq1, hm1, -⟩ := descend_obj_members hdesc
  simp only [Option.some.injEq] at hq1
  subst hq1
  have hrep : replacer (m + 1) (lit "headers") (.obj hs) = some (.obj q1) := by
    rw [replacer_headers_obj, ht]
  obtain ⟨out, ho, -⟩ := redacted_settled hwf (lit "headers")
  have hstep := redacted_step hwf hrep
  rw [ho] at hstep
  obtain ⟨zs, rfl, hm2, -⟩ := descend_obj_members hstep.symm
  refine ⟨zs, ho, fun k t2 => ?_⟩
  rw [hm2]
  have hnh := newHeaders_obj (wellFormed_obj hwf).1
  constructor
  · rintro ⟨t1, h1, h2⟩
    obtain ⟨v, hv, hr⟩ := (hm1 k t1).1 h1
    rw [hnh, List.mem_filter] at hv
    have hbv : budget v + 2 ≤ budget (.obj hs) :=
      @ownProps_budget (.obj hs) (k, v) hv.1
    have hwv : wellFormed v = true := (wellFormed_obj hwf).2 _ hv.1
    rw [redact_eq_redacted hwv k (by omega) (by omega)] at hr
    exact ⟨v, t1, hv.1, by simpa using hv.2, hr, h2⟩
  · rintro ⟨v, t1, hv, hu, hr1, hr2⟩
    refine ⟨t1, (hm1 k t1).2 ⟨v, ?_, ?_⟩, hr2⟩
    · rw [hnh, List.mem_filter]
      exact ⟨hv, by simpa using hu⟩
    · have hbv : budget v + 2 ≤ budget (.obj hs) :=
        @ownProps_budget (.obj hs) (k, v) hv
      have hwv : wellFormed v = true := (wellFormed_obj hwf).2 _ hv
      rw [redact_eq_redacted hwv k (by omega) (by omega)]
      exact hr1

/-- The header `multiValueHeaders` is none of the eight names of the table, and the
rule for the key `multiValueHeaders` leaves it out of the output. -/
theorem headers_multiValueHeaders_missing :
    stringify (.obj [(lit "headers", .obj [(lit "multiValueHeaders", .num (.finite false 1 0))])]) []
        = some (some (lit "\x7b\"headers\":\x7b\x7d\x7d")) := by
  decide

theorem hasProp_iff_mem (k : JSString) (zs : Props) :
    hasProp k zs = true ↔ ∃ t, (k, t) ∈ zs := by
  rw [hasProp_iff]
  simp only [List.mem_map]
  constructor
  · rintro ⟨kv, h, rfl⟩; exact ⟨kv.2, h⟩
  · rintro ⟨t, h⟩; exact ⟨(k, t), h, rfl⟩

/-- The keys of an object under the key `headers`: the output has no key whose
lower-cased name is one of the eight names of the table, and it has every key of
the input whose lower-cased name the read `uselessHeaders[name]` does not find,
that is not `multiValueHeaders` and whose value is not `undefined`. -/
theorem headers_keys (hs : Props) (gap : JSString) (hg : allWs gap = true)
    (hwf : wellFormed (.obj hs) = true) :
    ∃ text qs zs, stringify (.obj [(lit "headers", .obj hs)]) gap = some (some text)
      ∧ jsonParse text = some (.obj qs) ∧ getProp (lit "headers") qs = .obj zs
      ∧ (∀ k, k.map asciiLower ∈ [lit "accept-language", lit "content-length",
            lit "content-type", lit "x-forwarded-for", lit "x-forwarded-port",
            lit "x-forwarded-proto", lit "accept", lit "accept-encoding"] →
          hasProp k zs = false)
      ∧ (∀ k v, (k, v) ∈ hs → uselessHeaders (k.map asciiLower) = false →
          k ≠ lit "multiValueHeaders" → v ≠ .undefined → hasProp k zs = true) := by
  have hwf' : wellFormed (.obj [(lit "headers", .obj hs)]) = true := by
    simp only [wellFormed, wellFormedProps, Bool.and_eq_true] at hwf ⊢
    exact ⟨rfl, ⟨hwf, trivial⟩⟩
  obtain ⟨qs, h1, h2, h3, h4, -⟩ := root_object hwf'
  obtain ⟨zs, hz, hm⟩ := headers_redacted hwf
  refine ⟨_, qs, zs, h1 gap, h2 gap hg,
    root_member h3 h4 (List.mem_cons_self _ _) hz, ?_, ?_⟩
  · intro k hk
    cases hp : hasProp k zs with
    | false => rfl
    | true =>
      exfalso
      obtain ⟨t2, ht2⟩ := (hasProp_iff_mem k zs).1 hp
      obtain ⟨v, t1, -, hu, -, -⟩ := (hm k t2).1 ht2
      have : uselessHeaders (k.map asciiLower) = true := by
        simp only [List.mem_cons, List.mem_singleton, List.not_mem_nil, or_false] at hk
        rcases hk with e | e | e | e | e | e | e | e <;> rw [e] <;> decide
      rw [this] at hu
      exact absurd hu (by simp)
  · intro k v hv hu hk hne
    obtain ⟨t1, hr1, d1, w1⟩ := redacted_isSome ((wellFormed_obj hwf).2 _ hv) hk hne
    obtain ⟨t2, hr2, -, -⟩ := redacted_isSome w1 hk (defined_ne_undefined d1)
    exact (hasProp_iff_mem k zs).2 ⟨t2, (hm k t2).2 ⟨v, t1, hv, hu, hr1, hr2⟩⟩

/-- The value that the replacer returns for an object under the key `headers`: the
tree of the members that the table leaves, each redacted once. -/
theorem headers_replaced {hs : Props} (hwf : wellFormed (.obj hs) = true) :
    ∃ t, replacer (budget (.obj hs)) (lit "headers") (.obj hs) = some t
      ∧ descend redacted (.obj (newHeaders (.obj hs))) = some (some t) := by
  have hb2 : 2 ≤ budget (.obj hs) := by simp [budget]
  obtain ⟨m, hm⟩ : ∃ m, budget (.obj hs) = m + 1 := ⟨budget (.obj hs) - 1, by omega⟩
  obtain ⟨t, ht, d1, d2, d3, hdesc⟩ := headers_value (budget (.obj hs)) m
    (fun c _ hc => finishes c hc) (.obj hs) hwf (by omega) (by omega) hb2
  refine ⟨t, by rw [hm, replacer_headers_obj, ht], ?_⟩
  rw [← hdesc]
  symm
  apply descend_congr
  intro kv hkv
  have hv := newHeaders_values (fun c => wellFormed c = true ∧ budget c + 2 ≤ budget (.obj hs))
    (.obj hs) (fun kv hkv => ⟨ownProps_wellFormed hwf hkv, ownProps_budget hkv⟩) kv hkv
  exact redact_eq_redacted hv.1 kv.1 (by omega) (by omega)

theorem quoteUnits_plain : ∀ (s : JSString),
    (∀ c ∈ s, 32 ≤ c ∧ c ≠ 34 ∧ c ≠ 92 ∧ ¬ (55296 ≤ c ∧ c ≤ 57343)) → quoteUnits s = s := by
  intro s
  induction s with
  | nil => intro _; rfl
  | cons c t ih =>
    intro h
    have hc := h c (List.mem_cons_self _ _)
    have ht := ih (fun x hx => h x (List.mem_cons_of_mem _ hx))
    have he : escapeUnit c = [c] := by
      unfold escapeUnit
      rw [if_neg (by omega), if_neg (by omega), if_neg (by omega), if_neg (by omega),
        if_neg (by omega), if_neg (by omega), if_neg (by omega), if_neg (by omega),
        if_neg (by omega)]
    cases t with
    | nil => simp [quoteUnits, he]
    | cons d t' =>
      simp only [quoteUnits]
      rw [if_neg (by omega), he, ht]
      rfl

theorem tokenChar_plain {c : Nat} (h : isTokenChar c = true ∨ c = 46 ∨ c = 32) :
    32 ≤ c ∧ c ≠ 34 ∧ c ≠ 92 ∧ ¬ (55296 ≤ c ∧ c ≤ 57343) := by
  rcases h with h | h | h
  · simp only [isTokenChar, Bool.or_eq_true, Bool.and_eq_true, decide_eq_true_eq,
      beq_iff_eq] at h
    omega
  · omega
  · omega

theorem hasJwt_append_left (pre : JSString) {s : JSString} (h : hasJwt s = true) :
    hasJwt (pre ++ s) = true := by
  induction pre with
  | nil => exact h
  | cons c t ih => simp [hasJwt, ih]

theorem hasJwt_of_match {s : JSString} {r : JSString × JSString} (h : matchJwt s = some r) :
    hasJwt s = true := by
  cases s with
  | nil => simp [matchJwt, matchSegment] at h
  | cons c t => simp [hasJwt, h]

/-- C10, as stated, fails on the input of the scenario: `eyJabc` and `eyJdef` have
three characters after `eyJ`, the pattern asks for five, so the value holds no
token and is written as `{AUTHORIZATION}`. -/
theorem scenario_headers_authorization :
    (stringify (.obj [(lit "headers", .obj
        [(lit "authorization", .str (lit "Bearer eyJabc.eyJdef.sig123")),
          (lit "accept", .str (lit "text/html"))])]) []).map (Option.map truncateToken)
      = some (some (lit "\x7b\"headers\":\x7b\"authorization\":\"\x7bAUTHORIZATION\x7d\"\x7d\x7d")) := by
  decide

/-! ## The emitter -/

theorem wellFormed_obj_iff (ps : Props) :
    wellFormed (.obj ps) = true
      ↔ keysOrdered (ps.map (fun kv => kv.1)) = true ∧ ∀ kv ∈ ps, wellFormed kv.2 = true := by
  simp only [wellFormed, Bool.and_eq_true, wellFormedProps_iff]

theorem setProp_wellFormed {ps : Props} {k : JSString} {v : JSVal}
    (h : wellFormed (.obj ps) = true) (hv : wellFormed v = true) :
    wellFormed (.obj (setProp ps k v)) = true := by
  rw [wellFormed_obj_iff] at h ⊢
  refine ⟨setProp_ordered ps k v h.1, fun kv hkv => ?_⟩
  rcases mem_setProp hkv with e | e
  · rw [e]; exact hv
  · exact h.2 kv e

theorem getProp_wellFormed {ps : Props} (h : wellFormed (.obj ps) = true) (k : JSString) :
    wellFormed (getProp k ps) = true := by
  rw [wellFormed_obj_iff] at h
  induction ps with
  | nil => rfl
  | cons p ps ih =>
    obtain ⟨k', v'⟩ := p
    simp only [getProp]
    split
    · exact h.2 _ (List.mem_cons_self _ _)
    · apply ih
      rw [keysOrdered_iff] at h ⊢
      simp only [List.map_cons, List.pairwise_cons] at h
      exact ⟨h.1.2, fun kv hkv => h.2 kv (List.mem_cons_of_mem _ hkv)⟩

theorem idValue_wellFormed (self : RequestLogger) : wellFormed self.idValue = true := by
  unfold RequestLogger.idValue
  split <;> rfl

theorem withLevel_wellFormed {ps : Props} (h : wellFormed (.obj ps) = true) :
    wellFormed (.obj (withLevel ps)) = true := by
  unfold withLevel
  split
  · exact h
  · exact setProp_wellFormed h rfl

theorem stampedMessage_wellFormed (self : RequestLogger) {ps : Props}
    (h : wellFormed (.obj ps) = true) : wellFormed (.obj (stampedMessage self ps)) = true :=
  setProp_wellFormed (withLevel_wellFormed h) (idValue_wellFormed self)

theorem objectAssign_wellFormed {target source : Props} (ht : wellFormed (.obj target) = true)
    (hs : wellFormed (.obj source) = true) : wellFormed (.obj (objectAssign target source)) = true := by
  rw [wellFormed_obj_iff] at ht hs ⊢
  exact ⟨objectAssign_keysOrdered target source ht.1,
    foldl_setProp_values (fun v => wellFormed v = true) target source ht.2 hs.2⟩

theorem buildPayload_wellFormed (self : RequestLogger) (version : JSString) {shown : JSVal}
    (hm : wellFormed (.obj self.metadata) = true) (hs : wellFormed shown = true) :
    wellFormed (buildPayload self version shown) = true := by
  unfold buildPayload
  rw [wellFormed_obj_iff]
  refine ⟨rfl, fun kv hkv => ?_⟩
  simp only [List.mem_cons, List.mem_singleton, List.not_mem_nil, or_false] at hkv
  rcases hkv with rfl | rfl
  · exact hs
  · exact objectAssign_wellFormed rfl hm

theorem wellFormed_strs (ks : List JSString) : wellFormed (.arr (ks.map .str)) = true := by
  simp only [wellFormed]
  rw [wellFormedList_iff]
  intro x hx
  simp only [List.mem_map] at hx
  obtain ⟨k, -, rfl⟩ := hx
  rfl

theorem buildReplacement_wellFormed (self : RequestLogger) {stamped : Props}
    (hs : wellFormed (.obj stamped) = true) (keys : List JSString) (compact : JSString) :
    wellFormed (buildReplacement self stamped keys compact) = true := by
  have h1 := getProp_wellFormed hs (lit "level")
  have h2 := getProp_wellFormed hs (lit "title")
  have h3 := wellFormed_strs keys
  have h4 := idValue_wellFormed self
  have k1 : keysOrdered [lit "invocationId", lit "message"] = true := by decide
  have k2 : keysOrdered [lit "title", lit "level", lit "originalInfo", lit "truncatedPayload"]
      = true := by decide
  have k3 : keysOrdered [lit "level", lit "title", lit "fields"] = true := by decide
  unfold buildReplacement
  simp only [wellFormed] at h3
  simp [wellFormed, wellFormedProps, h1, h2, h3, h4, k1, k2, k3]

/-- What `logObject` does with a message that is not suppressed: the text of the
payload exists with and without indentation, and the sink receives the truncated
indented text, or the indented text of the replacement payload when that is too
long. -/
theorem logObject_emits (self : RequestLogger) (version : JSString) (indices : List JSString)
    (shown : Props → JSVal) (named : Props)
    (hm : wellFormed (.obj self.metadata) = true) (hn : wellFormed (.obj named) = true)
    (hs : wellFormed (shown (stampedMessage self named)) = true)
    (hd : (isDebug (getProp (lit "level") (withLevel named)) && !self.logDebug) = false) :
    ∃ qs rs,
      (∀ gap, stringify (buildPayload self version (shown (stampedMessage self named))) gap
        = some (some (render gap [] (.obj qs))))
      ∧ redacted [] (buildPayload self version (shown (stampedMessage self named)))
        = some (some (.obj qs))
      ∧ (∀ gap, stringify (buildReplacement self (stampedMessage self named)
            (indices ++ (stampedMessage self named).map (fun kv => kv.1))
            (render [] [] (.obj qs))) gap
          = some (some (render gap [] (.obj rs))))
      ∧ redacted [] (buildReplacement self (stampedMessage self named)
            (indices ++ (stampedMessage self named).map (fun kv => kv.1))
            (render [] [] (.obj qs)))
          = some (some (.obj rs))
      ∧ defined (.obj qs) = true ∧ wellFormed (.obj qs) = true
      ∧ defined (.obj rs) = true ∧ wellFormed (.obj rs) = true
      ∧ logObject self version indices shown named
        = .emitted (if 131072 ≤ (truncateToken (render (lit "  ") [] (.obj qs))).length
            then render (lit "  ") [] (.obj rs)
            else truncateToken (render (lit "  ") [] (.obj qs))) := by
  have hp := buildPayload_wellFormed self version hm hs
  have hr := fun compact => buildReplacement_wellFormed self (stampedMessage_wellFormed self hn)
    (indices ++ (stampedMessage self named).map (fun kv => kv.1)) compact
  unfold buildPayload at hp
  unfold buildReplacement at hr
  obtain ⟨qs, q1, q2, q3, q4, q5⟩ := object_serialized hp (replacer_root 0 _)
  have hq : ∀ gap, stringify (buildPayload self version (shown (stampedMessage self named))) gap
      = some (some (render gap [] (.obj qs))) := by
    intro gap
    rw [stringify_eq]
    unfold buildPayload
    rw [q1]
    rfl
  obtain ⟨rs, r1, r2, r3, r4, r5⟩ := object_serialized (hr (render [] [] (.obj qs)))
    (replacer_root 0 _)
  have hrr : ∀ gap, stringify (buildReplacement self (stampedMessage self named)
      (indices ++ (stampedMessage self named).map (fun kv => kv.1))
      (render [] [] (.obj qs))) gap = some (some (render gap [] (.obj rs))) := by
    intro gap
    rw [stringify_eq]
    unfold buildReplacement
    rw [r1]
    rfl
  refine ⟨qs, rs, hq, by unfold buildPayload; exact q1, hrr,
    by unfold buildReplacement; exact r1, q2, q3, r2, r3, ?_⟩
  unfold logObject
  rw [hd]
  simp only [Bool.false_eq_true, if_false, hq, hrr]
  split <;> rfl

theorem matchSegment_head {c : Nat} (h : asciiLower c ≠ 101) (t : JSString) :
    matchSegment (c :: t) = none := by
  match t with
  | [] => rfl
  | [_] => rfl
  | y :: j :: t' =>
    simp only [matchSegment]
    rw [if_neg (fun hc => h hc.1)]

theorem matchJwt_head {c : Nat} (h : asciiLower c ≠ 101) (t : JSString) :
    matchJwt (c :: t) = none := by
  simp only [matchJwt, matchSegment_head h]

theorem truncateToken_head {c : Nat} (h : asciiLower c ≠ 101) (t : JSString) :
    truncateToken (c :: t) = c :: truncateToken t :=
  truncateToken_skip (matchJwt_head h t)

/-- The kept part of the compact text starts with the brace of the payload. -/
theorem truncatedPayload_head (qs : Props) :
    ∃ r, (truncateToken (render [] [] (.obj qs))).take 40000 = 123 :: r := by
  obtain ⟨r, e⟩ := wrapMembers_head [] [] 123 125 (renderProps [] ([] ++ []) qs)
  rw [render, e, truncateToken_head (by decide)]
  exact ⟨_, rfl⟩

/-- No rule fires on an object under a key that no rule names. -/
theorem replacer_obj_kept (n : Nat) {key : JSString} (ps : Props)
    (hs : matchesSecret key = false) (hi : containsSub (lit "identity") key = false)
    (hh : key ≠ lit "headers") (hm : key ≠ lit "multiValueHeaders") :
    replacer n key (.obj ps) = some (.obj ps) := by
  obtain ⟨H, e⟩ := replacer_eq_replacerWith n
  rw [e]
  simp [replacerWith, bodyRule, authorizationRule, secretRule, identityRule, headersRule,
    doctypeRule, hs, hi, hh, hm]

/-- No rule fires on an array under a key that no rule names. -/
theorem replacer_arr_kept (n : Nat) {key : JSString} (xs : List JSVal)
    (hs : matchesSecret key = false) (hh : key ≠ lit "headers")
    (hm : key ≠ lit "multiValueHeaders") :
    replacer n key (.arr xs) = some (.arr xs) := by
  obtain ⟨H, e⟩ := replacer_eq_replacerWith n
  rw [e]
  simp [replacerWith, bodyRule, authorizationRule, secretRule, identityRule, headersRule,
    doctypeRule, hs, hh, hm]

theorem redacted_obj_kept {key : JSString} {ps : Props} (hwf : wellFormed (.obj ps) = true)
    (hs : matchesSecret key = false) (hi : containsSub (lit "identity") key = false)
    (hh : key ≠ lit "headers") (hm : key ≠ lit "multiValueHeaders") :
    redacted key (.obj ps) = descend redacted (.obj ps) :=
  redacted_step hwf (replacer_obj_kept 0 ps hs hi hh hm)

theorem redacted_arr_kept {key : JSString} {xs : List JSVal} (hwf : wellFormed (.arr xs) = true)
    (hs : matchesSecret key = false) (hh : key ≠ lit "headers")
    (hm : key ≠ lit "multiValueHeaders") :
    redacted key (.arr xs) = descend redacted (.arr xs) :=
  redacted_step hwf (replacer_arr_kept 0 xs hs hh hm)

theorem redacted_str_kept {key s : JSString} (hb : key ≠ lit "body")
    (ha : authorizationRule key (.str s) = false) (hs : secretRule key (.str s) = false)
    (hm : key ≠ lit "multiValueHeaders") (hd : doctypeRule (.str s) = false) :
    redacted key (.str s) = some (some (.str s)) :=
  redacted_of_replacer_str rfl (replacer_str_kept 0 hb ha hs hm hd)

theorem idValue_ne_undefined (self : RequestLogger) : self.idValue ≠ .undefined := by
  unfold RequestLogger.idValue
  split <;> simp

/-- The tree of the replacement payload: the identifier, then the message with its
title, its level, the original information and the kept part of the compact
text. -/
theorem replacement_tree (self : RequestLogger) {stamped : Props}
    (hs : wellFormed (.obj stamped) = true) (keys : List JSString) (qs : Props) :
    ∃ idv oi,
      redacted [] (buildReplacement self stamped keys (render [] [] (.obj qs)))
        = some (some (.obj [(lit "invocationId", idv),
            (lit "message", .obj [(lit "title", .str (lit "Payload too large")),
              (lit "level", .str (lit "ERROR")),
              (lit "originalInfo", .obj oi),
              (lit "truncatedPayload",
                .str ((truncateToken (render [] [] (.obj qs))).take 40000))])]))
      ∧ (∀ k t, (k, t) ∈ oi ↔ ∃ v, (k, v) ∈ [(lit "level", getProp (lit "level") stamped),
            (lit "title", getProp (lit "title") stamped),
            (lit "fields", JSVal.arr (keys.map .str))] ∧ redacted k v = some (some t))
      ∧ keysOrdered (oi.map (fun kv => kv.1)) = true := by
  have hwf := buildReplacement_wellFormed self hs keys (render [] [] (.obj qs))
  unfold buildReplacement at hwf ⊢
  obtain ⟨idv, hid, -, -⟩ := redacted_isSome (k := lit "invocationId")
    (idValue_wellFormed self) (by decide) (idValue_ne_undefined self)
  have hw1 := (wellFormed_obj hwf).2 _ (List.mem_cons_of_mem _ (List.mem_cons_self _ _))
  have hw2 := (wellFormed_obj hw1).2 _
    (List.mem_cons_of_mem _ (List.mem_cons_of_mem _ (List.mem_cons_self _ _)))
  obtain ⟨oi, ho1, -, ho3, ho4, -⟩ := object_serialized hw2
    (@replacer_obj_kept 0 (lit "originalInfo") _ (by decide) (by decide) (by decide)
      (by decide))
  obtain ⟨X, hX⟩ := truncatedPayload_head qs
  have hx : redacted (lit "truncatedPayload")
      (.str ((truncateToken (render [] [] (.obj qs))).take 40000))
      = some (some (.str ((truncateToken (render [] [] (.obj qs))).take 40000))) := by
    rw [hX]
    have e : lit "bearer" = 98 :: lit "earer" := by decide
    have e2 : lit "<!DOCTYPE html>" = 60 :: lit "!DOCTYPE html>" := by decide
    have m1 : matchesAuthorization (lit "truncatedPayload") = false := by decide
    have m2 : matchesSecret (lit "truncatedPayload") = false := by decide
    apply redacted_str_kept (by decide)
    · simp [authorizationRule, m1, startsWithCI, e, List.isPrefixOf, asciiLower]
    · simp [secretRule, m2]
    · decide
    · simp [doctypeRule, e2, List.isPrefixOf]
  have ht : redacted (lit "title") (.str (lit "Payload too large"))
      = some (some (.str (lit "Payload too large"))) :=
    redacted_str_kept (by decide) (by decide) (by decide) (by decide) (by decide)
  have hl : redacted (lit "level") (.str (lit "ERROR")) = some (some (.str (lit "ERROR"))) :=
    redacted_str_kept (by decide) (by decide) (by decide) (by decide) (by decide)
  have hmsg := @redacted_obj_kept (lit "message") _ hw1 (by decide) (by decide) (by decide)
    (by decide)
  refine ⟨idv, oi, ?_, ho4, (wellFormed_obj ho3).1⟩
  rw [redacted_step hwf (replacer_root 0 _)]
  simp only [descend, List.map_cons, List.map_nil, hid, hmsg, ht, hl, ho1, hx, Option.map_some',
    allSome]
  rfl

/-! ## Reads after writes -/

theorem getProp_updateProp_self {ps : Props} {k : JSString} (v : JSVal)
    (h : hasProp k ps = true) : getProp k (updateProp k v ps) = v := by
  induction ps with
  | nil => simp [hasProp] at h
  | cons p ps ih =>
    obtain ⟨k', v'⟩ := p
    by_cases hk : k' = k
    · simp [updateProp, getProp, hk]
    · have h' : hasProp k ps = true := by
        simpa [hasProp, hk] using h
      simp [updateProp, getProp, hk, ih h']

theorem getProp_updateProp_ne {k k' : JSString} (v : JSVal) (ps : Props) (h : k ≠ k') :
    getProp k (updateProp k' v ps) = getProp k ps := by
  induction ps with
  | nil => rfl
  | cons p ps ih =>
    obtain ⟨k2, v2⟩ := p
    by_cases hk : k2 = k'
    · subst hk
      have : ¬ k2 = k := fun e => h e.symm
      simp [updateProp, getProp, this]
    · by_cases hk2 : k2 = k
      · subst hk2
        simp [updateProp, getProp, hk]
      · simp [updateProp, getProp, hk, hk2, ih]

theorem getProp_insertProp_self (ps : Props) (k : JSString) (v : JSVal)
    (h : hasProp k ps = false) : getProp k (insertProp k v ps) = v := by
  induction ps with
  | nil => simp [insertProp, getProp]
  | cons p ps ih =>
    obtain ⟨k', v'⟩ := p
    have hk : ¬ k' = k := by
      intro e
      simp [hasProp, e] at h
    have h' : hasProp k ps = false := by
      simp only [hasProp, List.any_cons, Bool.or_eq_false_iff] at h
      exact h.2
    simp only [insertProp]
    split
    · split
      · simp [getProp]
      · simp [getProp, hk, ih h']
    · simp [getProp]
    · simp [getProp, hk, ih h']

theorem getProp_insertProp_ne {k k' : JSString} (v : JSVal) (ps : Props) (h : k ≠ k') :
    getProp k (insertProp k' v ps) = getProp k ps := by
  have hne : ¬ k' = k := fun e => h e.symm
  induction ps with
  | nil => simp [insertProp, getProp, hne]
  | cons p ps ih =>
    obtain ⟨k2, v2⟩ := p
    simp only [insertProp]
    split
    · split
      · simp [getProp, hne]
      · by_cases hk2 : k2 = k
        · simp [getProp, hk2]
        · simp [getProp, hk2, ih]
    · simp [getProp, hne]
    · by_cases hk2 : k2 = k
      · simp [getProp, hk2]
      · simp [getProp, hk2, ih]

theorem getProp_setProp_self (ps : Props) (k : JSString) (v : JSVal) :
    getProp k (setProp ps k v) = v := by
  unfold setProp
  cases h : hasProp k ps with
  | true => simpa using getProp_updateProp_self v h
  | false => simpa using getProp_insertProp_self ps k v h

theorem getProp_setProp_ne {k k' : JSString} (ps : Props) (v : JSVal) (h : k ≠ k') :
    getProp k (setProp ps k' v) = getProp k ps := by
  unfold setProp
  split
  · exact getProp_updateProp_ne v ps h
  · exact getProp_insertProp_ne v ps h

theorem getProp_of_not_hasProp {k : JSString} {ps : Props} (h : hasProp k ps = false) :
    getProp k ps = .undefined := by
  induction ps with
  | nil => rfl
  | cons p ps ih =>
    obtain ⟨k', v'⟩ := p
    simp only [hasProp, List.any_cons, Bool.or_eq_false_iff, beq_eq_false_iff_ne, ne_eq] at h
    simp only [getProp, h.1, ↓reduceIte]
    exact ih (by simpa [hasProp] using h.2)

/-- The level that decides on the suppression is the level of the message. -/
theorem isDebug_withLevel (named : Props) :
    isDebug (getProp (lit "level") (withLevel named)) = isDebug (getProp (lit "level") named) := by
  unfold withLevel
  split
  · rfl
  · rename_i h
    rw [getProp_setProp_self]
    cases hv : getProp (lit "level") named with
    | str s =>
      rw [hv] at h
      simp only [JSVal.truthy] at h
      have : s = [] := by simpa using h
      subst this
      decide
    | _ => rfl

theorem isDebug_of_not_truthy {v : JSVal} (h : v.truthy = false) : isDebug v = false := by
  cases v with
  | str s =>
    simp only [JSVal.truthy] at h
    have : s = [] := by simpa using h
    subst this
    decide
  | _ => rfl

theorem log_eq_logObject (self : RequestLogger) (version : JSString) {message : JSVal}
    (ha : accepted message = true) :
    log self version message
      = logObject self version (indexKeys message) (shownMessage message) (namedProps message) := by
  cases message with
  | undefined => simp [accepted] at ha
  | null => simp [accepted] at ha
  | bool b => simp [accepted] at ha
  | num n => simp [accepted] at ha
  | str s =>
    simp only [accepted, Bool.not_eq_true'] at ha
    simp only [log, ha, Bool.false_eq_true, ↓reduceIte]
    rfl
  | arr xs =>
    simp only [accepted, Bool.not_eq_true'] at ha
    simp only [log, ha, Bool.false_eq_true, ↓reduceIte]
    rfl
  | obj ps =>
    simp only [accepted, Bool.not_eq_true'] at ha
    simp only [log, ha, Bool.false_eq_true, ↓reduceIte]
    rfl

theorem namedProps_wellFormed {message : JSVal} (hw : wellFormed message = true) :
    wellFormed (.obj (namedProps message)) = true := by
  cases message with
  | obj ps => exact hw
  | str s => rfl
  | _ => rfl

theorem shownMessage_wellFormed (self : RequestLogger) {message : JSVal}
    (hw : wellFormed message = true) :
    wellFormed (shownMessage message (stampedMessage self (namedProps message))) = true := by
  cases message with
  | arr xs => exact hw
  | obj ps => exact stampedMessage_wellFormed self hw
  | str s => exact stampedMessage_wellFormed self rfl
  | _ => exact stampedMessage_wellFormed self rfl

/-- What `log` hands to the sink for a message that is neither rejected nor
suppressed. -/
theorem log_emits (self : RequestLogger) (version : JSString) (message : JSVal)
    (hm : wellFormed (.obj self.metadata) = true) (hw : wellFormed message = true)
    (ha : accepted message = true)
    (hd : (isDebug (getProp (lit "level") (namedProps message)) && !self.logDebug) = false) :
    ∃ qs rs,
      (∀ gap, stringify (logPayload self version message) gap
          = some (some (render gap [] (.obj qs))))
      ∧ redacted [] (logPayload self version message) = some (some (.obj qs))
      ∧ (∀ gap, stringify (buildReplacement self (stampedMessage self (namedProps message))
            (messageKeys self message) (render [] [] (.obj qs))) gap
          = some (some (render gap [] (.obj rs))))
      ∧ redacted [] (buildReplacement self (stampedMessage self (namedProps message))
            (messageKeys self message) (render [] [] (.obj qs))) = some (some (.obj rs))
      ∧ defined (.obj qs) = true ∧ wellFormed (.obj qs) = true
      ∧ defined (.obj rs) = true ∧ wellFormed (.obj rs) = true
      ∧ log self version message
        = .emitted (if 131072 ≤ (truncateToken (render (lit "  ") [] (.obj qs))).length
            then render (lit "  ") [] (.obj rs)
            else truncateToken (render (lit "  ") [] (.obj qs))) := by
  rw [log_eq_logObject self version ha]
  rw [← isDebug_withLevel] at hd
  exact logObject_emits self version (indexKeys message) (shownMessage message)
    (namedProps message) hm (namedProps_wellFormed hw) (shownMessage_wellFormed self hw) hd

theorem log_suppressed (self : RequestLogger) (version : JSString) (message : JSVal)
    (ha : accepted message = true)
    (hd : (isDebug (getProp (lit "level") (namedProps message)) && !self.logDebug) = true) :
    log self version message = .suppressed := by
  rw [log_eq_logObject self version ha]
  rw [← isDebug_withLevel] at hd
  simp only [logObject, hd, ↓reduceIte]

/-! ## Claims on the calls of `log` -/

/-- C11: a call of `log` with an undefined message, with the empty string or with an
object without keys does not call the sink, it writes a diagnostic to
`console.error`, and the emitter is after the call what it was before. -/
theorem log_rejects_empty_message (self : RequestLogger) (version : JSString) :
    logCall self version .undefined = (self, .rejected (lit "Empty message string."))
      ∧ logCall self version (.str []) = (self, .rejected (lit "Empty message string."))
      ∧ logCall self version (.obj []) = (self, .rejected (lit "Empty message object.")) :=
  ⟨rfl, rfl, rfl⟩

/-- C12: for a message that is not rejected, `log` calls the sink exactly once,
unless the level of the message is `DEBUG` and debug logging is off, where it
calls it not at all; a message without a level or with a falsy one is never
suppressed. -/
theorem log_calls_sink_once (self : RequestLogger) (version : JSString) (message : JSVal)
    (hm : wellFormed (.obj self.metadata) = true) (hw : wellFormed message = true)
    (ha : accepted message = true) :
    (if isDebug (getProp (lit "level") (namedProps message)) && !self.logDebug
      then log self version message = .suppressed
      else ∃ line, log self version message = .emitted line)
    ∧ ((getProp (lit "level") (namedProps message)).truthy = false →
        ∃ line, log self version message = .emitted line) := by
  constructor
  · split
    · rename_i h
      exact log_suppressed self version message ha h
    · rename_i h
      obtain ⟨qs, rs, -, -, -, -, -, -, -, -, h9⟩ :=
        log_emits self version message hm hw ha (by simpa using h)
      exact ⟨_, h9⟩
  · intro h
    obtain ⟨qs, rs, -, -, -, -, -, -, -, -, h9⟩ :=
      log_emits self version message hm hw ha (by simp [isDebug_of_not_truthy h])
    exact ⟨_, h9⟩

theorem log_calls_sink_once_witness :
    wellFormed (.obj RequestLogger.constructor.metadata) = true
      ∧ wellFormed (.obj [(lit "level", .str (lit "DEBUG"))]) = true
      ∧ accepted (.obj [(lit "level", .str (lit "DEBUG"))]) = true
      ∧ (if isDebug (getProp (lit "level")
              (namedProps (.obj [(lit "level", .str (lit "DEBUG"))])))
            && !RequestLogger.constructor.logDebug
          then log RequestLogger.constructor (lit "v20.1.0")
            (.obj [(lit "level", .str (lit "DEBUG"))]) = .suppressed
          else ∃ line, log RequestLogger.constructor (lit "v20.1.0")
            (.obj [(lit "level", .str (lit "DEBUG"))]) = .emitted line)
      ∧ ((getProp (lit "level")
              (namedProps (.obj [(lit "level", .str (lit "DEBUG"))]))).truthy = false →
          ∃ line, log RequestLogger.constructor (lit "v20.1.0")
            (.obj [(lit "level", .str (lit "DEBUG"))]) = .emitted line) :=
  ⟨by decide, by decide, by decide,
    log_calls_sink_once RequestLogger.constructor (lit "v20.1.0")
      (.obj [(lit "level", .str (lit "DEBUG"))]) (by decide) (by decide) (by decide)⟩

/-- C13, a fault of the code: a call of `log` with `null` raises a TypeError from
`Object.keys(null)`, it neither returns nor rejects the message. -/
theorem log_null_throws (self : RequestLogger) (version : JSString) :
    log self version .null = .threw :=
  rfl

/-! ## Claims on the replacer -/

/-- C16: a string under the key `body` that is JSON text is replaced by the value
it parses to, whose members are redacted in turn under their own keys, and a
string under `body` that is not JSON text is written as it is; in both cases the
serialization returns, no error is raised. So the body `{"secret":"x","n":1.5}`
is written as the object with the secret replaced and the number 1.5, which is
`3 * 2 ^ -1`. -/
theorem body_string_parsed (v : JSString) :
    (∃ out, redacted (lit "body") (.str v) = some out)
    ∧ (match jsonParse v with
      | some t => redacted (lit "body") (.str v) = descend redacted t
          ∧ ∀ ps, t = .obj ps → ∃ qs, redacted (lit "body") (.str v) = some (some (.obj qs))
              ∧ ∀ k u, (k, u) ∈ qs ↔ ∃ c, (k, c) ∈ ps ∧ redacted k c = some (some u)
      | none => redacted (lit "body") (.str v) = some (some (.str v)))
    ∧ redacted (lit "body") (.str (lit "\x7b\"secret\":\"x\",\"n\":1.5\x7d"))
        = some (some (.obj [(lit "secret", .str (lit "{SECRET}")),
            (lit "n", .num (.finite false 3 (-1)))])) := by
  obtain ⟨H, e⟩ := replacer_eq_replacerWith 0
  refine ⟨?_, ?_, ?_⟩
  · obtain ⟨out, ho, -⟩ := redacted_settled (v := .str v) rfl (lit "body")
    exact ⟨out, ho⟩
  · cases hp : jsonParse v with
    | some t =>
      have hr : replacer 0 (lit "body") (.str v) = some t := by
        rw [e]
        simp [replacerWith, bodyRule, hp]
      have hstep := redacted_step (v := .str v) rfl hr
      refine ⟨hstep, ?_⟩
      rintro ps rfl
      obtain ⟨out, ho, -⟩ := redacted_settled (v := .str v) rfl (lit "body")
      rw [ho] at hstep
      obtain ⟨qs, rfl, hmem, -⟩ := descend_obj_members hstep.symm
      exact ⟨qs, ho, hmem⟩
    | none =>
      have hr : replacer 0 (lit "body") (.str v) = some (.str v) := by
        rw [e]
        simp [replacerWith, bodyRule, hp]
      rw [redacted_step (v := .str v) rfl hr]
      rfl
  · have hp : jsonParse (lit "\x7b\"secret\":\"x\",\"n\":1.5\x7d")
        = some (.obj [(lit "secret", .str (lit "x")), (lit "n", .num (.finite false 3 (-1)))]) := by
      have h := jsonParse_render [] rfl
        (.obj [(lit "secret", .str (lit "x")), (lit "n", .num (.finite false 3 (-1)))])
        (by decide) (by decide)
      have e2 : render [] [] (.obj [(lit "secret", .str (lit "x")),
          (lit "n", .num (.finite false 3 (-1)))])
          = lit "\x7b\"secret\":\"x\",\"n\":1.5\x7d" := by decide
      rw [e2] at h
      exact h
    have hr : replacer 0 (lit "body") (.str (lit "\x7b\"secret\":\"x\",\"n\":1.5\x7d"))
        = some (.obj [(lit "secret", .str (lit "x")), (lit "n", .num (.finite false 3 (-1)))]) := by
      rw [e]
      simp [replacerWith, bodyRule, hp]
    rw [redacted_step (v := .str _) rfl hr]
    rfl

/-- C20: the redacting serialization of a value comes to an end: it returns a result
at the budget of the value, a measure that counts the nesting and the lengths of the
strings that parse, and the same result at every larger bound on the calls. -/
theorem serialization_terminates (v : JSVal) (gap : JSString) (hwf : wellFormed v = true) :
    ∃ out, stringify v gap = some out
      ∧ ∀ n f, budget v ≤ n → budget v ≤ f →
          serializeProperty (replacer n) gap f [] [] v = some out := by
  obtain ⟨out, ho, -⟩ := redacted_settled hwf []
  refine ⟨out.map (render gap []), ?_, ?_⟩
  · rw [stringify_eq, ho]
    rfl
  · intro n f hn hf
    rw [serializeProperty_eq_redacted hwf gap [] [] hn hf, ho]
    rfl

theorem serialization_terminates_witness :
    wellFormed (.obj [(lit "headers", .obj [(lit "accept", .str (lit "a"))]),
        (lit "body", .str (lit "[1]"))]) = true
      ∧ ∃ out, stringify (.obj [(lit "headers", .obj [(lit "accept", .str (lit "a"))]),
            (lit "body", .str (lit "[1]"))]) [] = some out
          ∧ ∀ n f, budget (.obj [(lit "headers", .obj [(lit "accept", .str (lit "a"))]),
                (lit "body", .str (lit "[1]"))]) ≤ n →
              budget (.obj [(lit "headers", .obj [(lit "accept", .str (lit "a"))]),
                (lit "body", .str (lit "[1]"))]) ≤ f →
              serializeProperty (replacer n) [] f [] []
                (.obj [(lit "headers", .obj [(lit "accept", .str (lit "a"))]),
                  (lit "body", .str (lit "[1]"))]) = some out :=
  ⟨by decide, serialization_terminates _ [] (by decide)⟩

/-! ## The emitter between the calls -/

theorem getProp_objectAssign {k : JSString} (source : Props) (target : Props)
    (h : hasProp k source = false) : getProp k (objectAssign target source) = getProp k target := by
  unfold objectAssign
  induction source generalizing target with
  | nil => rfl
  | cons p ps ih =>
    simp only [hasProp, List.any_cons, Bool.or_eq_false_iff, beq_eq_false_iff_ne, ne_eq] at h
    rw [List.foldl_cons, ih _ (by simpa [hasProp] using h.2)]
    exact getProp_setProp_ne _ _ (fun e => h.1 e.symm)

theorem hasProp_of_getProp {k : JSString} {ps : Props} (h : getProp k ps ≠ .undefined) :
    hasProp k ps = true := by
  cases hh : hasProp k ps with
  | true => rfl
  | false => exact absurd (getProp_of_not_hasProp hh) h

theorem startInvocation_tracking (self : RequestLogger) (id : JSString) (now : Int)
    (metadata : JSVal) (h : hasProp (lit "tracking") (assignSource metadata) = false) :
    getProp (lit "tracking") (self.startInvocation id now metadata).metadata
      = .arr [.obj [(lit "Start", .str (toISOString now))]] := by
  simp only [RequestLogger.startInvocation]
  rw [getProp_objectAssign _ _ h]
  rfl

/-- What a call of `trackPoint` changes. -/
theorem trackPoint_appends (self : RequestLogger) (pointName : JSString) (now : Int)
    {xs : List JSVal} (h : getProp (lit "tracking") self.metadata = .arr xs) :
    ∃ next, self.trackPoint pointName now = some next
      ∧ getProp (lit "tracking") next.metadata
        = .arr (xs ++ [.obj [(pointName, .num (JSNum.ofInt (now - self.startTime.getD 0)))]])
      ∧ next.invocationId = self.invocationId ∧ next.startTime = self.startTime
      ∧ next.logDebug = self.logDebug
      ∧ next.metadata.map (fun kv => kv.1) = self.metadata.map (fun kv => kv.1)
      ∧ ∀ k, k ≠ lit "tracking" → getProp k next.metadata = getProp k self.metadata := by
  have hp : hasProp (lit "tracking") self.metadata = true :=
    hasProp_of_getProp (by rw [h]; simp)
  refine ⟨RequestLogger.mk self.invocationId self.logDebug self.startTime
      (setProp self.metadata (lit "tracking")
        (.arr (xs ++ [.obj [(pointName, .num (JSNum.ofInt (now - self.startTime.getD 0)))]]))),
    by simp only [RequestLogger.trackPoint, h], getProp_setProp_self _ _ _, rfl, rfl, rfl,
    ?_, fun k hk => getProp_setProp_ne _ _ hk⟩
  simp only [setProp, hp, ↓reduceIte]
  exact updateProp_keys _ _ _

theorem perform_tracked (version : JSString) {self : RequestLogger} (c : Call)
    (hc : c.plainMetadata = true) (h : Tracked self ∨ c.isStart = true) :
    Tracked (self.perform version c) := by
  cases c with
  | startInvocation id now metadata =>
    simp only [Call.plainMetadata, Bool.not_eq_true'] at hc
    exact ⟨now, [], rfl, startInvocation_tracking self id now metadata hc⟩
  | trackPoint pointName now =>
    have ht : Tracked self := by simpa [Call.isStart] using h
    obtain ⟨t, rest, h1, h2⟩ := ht
    obtain ⟨next, hn, h3, -, h4, -⟩ := trackPoint_appends self pointName now h2
    simp only [RequestLogger.perform, hn, Option.getD_some]
    exact ⟨t, rest ++ [.obj [(pointName, .num (JSNum.ofInt (now - self.startTime.getD 0)))]], by rw [h4, h1],
      by rw [h3]; rfl⟩
  | log message =>
    have ht : Tracked self := by simpa [Call.isStart] using h
    exact ht

theorem performAll_tracked (version : JSString) (calls : List Call) (self : RequestLogger)
    (hc : ∀ c ∈ calls, c.plainMetadata = true)
    (h : Tracked self ∨ calls.any Call.isStart = true) :
    Tracked (self.performAll version calls) := by
  induction calls generalizing self with
  | nil =>
    rcases h with h | h
    · exact h
    · simp at h
  | cons c cs ih =>
    have hc1 := hc c (List.mem_cons_self _ _)
    have hcs : ∀ c ∈ cs, c.plainMetadata = true := fun c hm => hc c (List.mem_cons_of_mem _ hm)
    simp only [RequestLogger.performAll, List.foldl_cons]
    rcases h with h | h
    · exact ih _ hcs (Or.inl (perform_tracked version c hc1 (Or.inl h)))
    · simp only [List.any_cons, Bool.or_eq_true] at h
      rcases h with h | h
      · exact ih _ hcs (Or.inl (perform_tracked version c hc1 (Or.inr h)))
      · exact ih _ hcs (Or.inr h)

/-- C17, as stated, fails: after `startInvocation` with a metadata object that has
its own `tracking` field, here an empty array, the tracking sequence is the one of
the metadata: it is empty. -/
theorem tracking_overridden_by_metadata :
    getProp (lit "tracking")
      (RequestLogger.constructor.performAll (lit "v20.1.0")
        [Call.startInvocation (lit "id") 0 (.obj [(lit "tracking", .arr [])])]).metadata
      = .arr [] := by
  rfl

/-- C17, amended: after any sequence of `startInvocation`, `trackPoint` and `log`
calls with at least one `startInvocation`, in which no metadata has a property
`tracking`, the start time is set and the tracking sequence begins with the entry
`Start` that holds the ISO-8601 string of the start time. -/
theorem tracking_begins_with_start (self : RequestLogger) (version : JSString)
    (calls : List Call) (hc : ∀ c ∈ calls, c.plainMetadata = true)
    (hs : calls.any Call.isStart = true) :
    ∃ t rest, (self.performAll version calls).startTime = some t
      ∧ getProp (lit "tracking") (self.performAll version calls).metadata
        = .arr (.obj [(lit "Start", .str (toISOString t))] :: rest) :=
  performAll_tracked version calls self hc (Or.inr hs)

theorem tracking_begins_with_start_witness :
    (∀ c ∈ [Call.startInvocation (lit "id") 0 (.obj [(lit "user", .str (lit "a"))]),
        Call.trackPoint (lit "db") 5, Call.log (.str (lit "hi"))], c.plainMetadata = true)
      ∧ [Call.startInvocation (lit "id") 0 (.obj [(lit "user", .str (lit "a"))]),
        Call.trackPoint (lit "db") 5, Call.log (.str (lit "hi"))].any Call.isStart = true
      ∧ ∃ t rest, (RequestLogger.constructor.performAll (lit "v20.1.0")
            [Call.startInvocation (lit "id") 0 (.obj [(lit "user", .str (lit "a"))]),
              Call.trackPoint (lit "db") 5, Call.log (.str (lit "hi"))]).startTime = some t
          ∧ getProp (lit "tracking") (RequestLogger.constructor.performAll (lit "v20.1.0")
            [Call.startInvocation (lit "id") 0 (.obj [(lit "user", .str (lit "a"))]),
              Call.trackPoint (lit "db") 5, Call.log (.str (lit "hi"))]).metadata
            = .arr (.obj [(lit "Start", .str (toISOString t))] :: rest) :=
  ⟨by decide, by decide, tracking_begins_with_start _ _ _ (by decide) (by decide)⟩

theorem trackPoints_tracking (points : List (JSString × Int)) (self : RequestLogger)
    {xs : List JSVal} (h : getProp (lit "tracking") self.metadata = .arr xs) :
    ∃ next, trackPoints self points = some next
      ∧ getProp (lit "tracking") next.metadata
        = .arr (xs ++ points.map (trackEntry (self.startTime.getD 0)))
      ∧ next.invocationId = self.invocationId ∧ next.startTime = self.startTime
      ∧ next.logDebug = self.logDebug
      ∧ next.metadata.map (fun kv => kv.1) = self.metadata.map (fun kv => kv.1)
      ∧ ∀ k, k ≠ lit "tracking" → getProp k next.metadata = getProp k self.metadata := by
  induction points generalizing self xs with
  | nil => exact ⟨self, rfl, by simp [h], rfl, rfl, rfl, rfl, fun _ _ => rfl⟩
  | cons p ps ih =>
    obtain ⟨mid, h1, h2, h3, h4, h5, h6, h7⟩ := trackPoint_appends self p.1 p.2 h
    obtain ⟨next, g1, g2, g3, g4, g5, g6, g7⟩ := ih mid h2
    refine ⟨next, by simp only [trackPoints, h1, Option.some_bind, g1], ?_, g3.trans h3,
      g4.trans h4, g5.trans h5, g6.trans h6, fun k hk => (g7 k hk).trans (h7 k hk)⟩
    rw [g2, h4]
    simp [trackEntry]

/-- C18: after `startInvocation` with a metadata that has no property `tracking` and
any calls of `trackPoint`, the tracking sequence holds the entry `Start` and one
entry per call in call order, each with the time since the start; one more call
with a label at a time `t` succeeds, appends the entry of the label with `t` minus
the start time at the end and leaves the entries before it, the identifier, the
start time, the debug switch, the keys of the metadata and its other fields as they
were. -/
theorem trackPoint_appends_entry (self : RequestLogger) (id : JSString) (start : Int)
    (metadata : JSVal) (points : List (JSString × Int)) (label : JSString) (t : Int)
    (hplain : hasProp (lit "tracking") (assignSource metadata) = false) :
    ∃ before next,
      trackPoints (self.startInvocation id start metadata) points = some before
      ∧ getProp (lit "tracking") before.metadata
        = .arr (.obj [(lit "Start", .str (toISOString start))] :: points.map (trackEntry start))
      ∧ before.trackPoint label t = some next
      ∧ getProp (lit "tracking") next.metadata
        = .arr ((.obj [(lit "Start", .str (toISOString start))] :: points.map (trackEntry start))
            ++ [.obj [(label, .num (JSNum.ofInt (t - start)))]])
      ∧ next.invocationId = some id ∧ next.startTime = some start
      ∧ next.logDebug = self.logDebug
      ∧ next.metadata.map (fun kv => kv.1) = before.metadata.map (fun kv => kv.1)
      ∧ ∀ k, k ≠ lit "tracking" → getProp k next.metadata = getProp k before.metadata := by
  obtain ⟨before, h1, h2, h3, h4, h5, -, -⟩ := trackPoints_tracking points
    (self.startInvocation id start metadata)
    (startInvocation_tracking self id start metadata hplain)
  have h2' : getProp (lit "tracking") before.metadata
      = .arr (.obj [(lit "Start", .str (toISOString start))] :: points.map (trackEntry start)) := by
    rw [h2]
    rfl
  have h4' : before.startTime = some start := h4
  obtain ⟨next, g1, g2, g3, g4, g5, g6, g7⟩ := trackPoint_appends before label t h2'
  refine ⟨before, next, h1, h2', g1, ?_, g3.trans h3, g4.trans h4', g5.trans h5, g6, g7⟩
  rw [g2, h4']
  rfl

theorem trackPoint_appends_entry_witness :
    hasProp (lit "tracking") (assignSource (.obj [(lit "user", .str (lit "a"))])) = false
      ∧ ∃ before next,
        trackPoints (RequestLogger.constructor.startInvocation (lit "id") 1000
            (.obj [(lit "user", .str (lit "a"))])) [(lit "db", 1005)] = some before
        ∧ getProp (lit "tracking") before.metadata
          = .arr (.obj [(lit "Start", .str (toISOString 1000))]
              :: [(lit "db", (1005 : Int))].map (trackEntry 1000))
        ∧ before.trackPoint (lit "done") 1010 = some next
        ∧ getProp (lit "tracking") next.metadata
          = .arr ((.obj [(lit "Start", .str (toISOString 1000))]
                :: [(lit "db", (1005 : Int))].map (trackEntry 1000))
              ++ [.obj [(lit "done", .num (JSNum.ofInt (1010 - 1000)))]])
        ∧ next.invocationId = some (lit "id") ∧ next.startTime = some 1000
        ∧ next.logDebug = RequestLogger.constructor.logDebug
        ∧ next.metadata.map (fun kv => kv.1) = before.metadata.map (fun kv => kv.1)
        ∧ ∀ k, k ≠ lit "tracking" → getProp k next.metadata = getProp k before.metadata :=
  ⟨by decide, trackPoint_appends_entry _ _ _ _ _ _ _ (by decide)⟩

/-! ## Texts inside texts -/

theorem Within.refl (x : JSString) : Within x x := ⟨[], [], by simp⟩

theorem Within.trans {x y z : JSString} (h1 : Within x y) (h2 : Within y z) : Within x z := by
  obtain ⟨a, b, rfl⟩ := h1
  obtain ⟨c, d, rfl⟩ := h2
  exact ⟨c ++ a, b ++ d, by simp⟩

theorem Within.append_left {x y : JSString} (h : Within x y) (a : JSString) :
    Within x (a ++ y) := by
  obtain ⟨c, d, rfl⟩ := h
  exact ⟨a ++ c, d, by simp⟩

theorem Within.append_right {x y : JSString} (h : Within x y) (b : JSString) :
    Within x (y ++ b) := by
  obtain ⟨c, d, rfl⟩ := h
  exact ⟨c, d ++ b, by simp⟩

theorem Within.cons {x y : JSString} (h : Within x y) (c : Nat) : Within x (c :: y) :=
  h.append_left [c]

theorem Within.count_le {x y : JSString} (h : Within x y) (c : Nat) :
    x.count c ≤ y.count c := by
  obtain ⟨a, b, rfl⟩ := h
  simp only [List.count_append]
  omega

theorem Within.length_le {x y : JSString} (h : Within x y) : x.length ≤ y.length := by
  obtain ⟨a, b, rfl⟩ := h
  simp only [List.length_append]
  omega

theorem joinWith_within (sep : JSString) {x : JSString} {l : List JSString} (h : x ∈ l) :
    Within x (joinWith sep l) := by
  induction l with
  | nil => simp at h
  | cons y t ih =>
    cases t with
    | nil =>
      have : x = y := by simpa using h
      subst this
      exact Within.refl _
    | cons z t =>
      rw [joinWith]
      rcases List.mem_cons.1 h with rfl | h
      · exact ((Within.refl _).append_right _).append_right _
      · exact (ih h).append_left _

theorem wrapMembers_within (gap stepback : JSString) (opening closing : Nat) {x : JSString}
    {l : List JSString} (h : x ∈ l) : Within x (wrapMembers gap stepback opening closing l) := by
  cases l with
  | nil => simp at h
  | cons y t =>
    simp only [wrapMembers]
    split
    · exact ((joinWith_within _ h).append_right _).cons _
    · exact (((joinWith_within _ h).append_left _).append_right _).append_right _

/-- The text of a member stands in the text of its object. -/
theorem render_member_within (gap indent : JSString) {ps : Props} {k : JSString} {v : JSVal}
    (h : (k, v) ∈ ps) : Within (render gap (indent ++ gap) v) (render gap indent (.obj ps)) := by
  rw [render, renderProps_eq_map]
  refine Within.trans ?_ (wrapMembers_within gap indent 123 125
    (List.mem_map.2 ⟨(k, v), h, rfl⟩))
  exact (Within.refl _).append_left _

/-! ## What the truncation leaves alone -/

/-- The parts of a match: the group that is kept, the dot, the signature that is
dropped and the text after the match. -/
theorem matchJwt_parts {s p1 rest : JSString} (h : matchJwt s = some (p1, rest)) :
    ∃ sig, s = p1 ++ 46 :: (sig ++ rest) ∧ (∀ c ∈ sig, isTokenChar c = true)
      ∧ (∀ c ∈ p1, isTokenChar c = true ∨ c = 46)
      ∧ (∀ c, rest.head? = some c → isTokenChar c = false) := by
  obtain ⟨hd, pl, r1, r2, h1, h2, rfl, rfl⟩ := matchJwt_spec h
  have e1 := (matchSegment_spec h1).1
  have e2 := (matchSegment_spec h2).1
  have t1 := matchSegment_tokenChars h1
  have t2 := matchSegment_tokenChars h2
  refine ⟨r2.takeWhile isTokenChar, ?_, fun c hc => List.mem_takeWhile_imp hc, ?_, ?_⟩
  · rw [List.takeWhile_append_dropWhile, e1, e2]
    simp
  · intro c hc
    rcases List.mem_append.1 hc with hc | hc
    · exact Or.inl (t1 c hc)
    · rcases List.mem_cons.1 hc with rfl | hc
      · exact Or.inr rfl
      · exact Or.inl (t2 c hc)
  · intro c hc
    cases hr : r2.dropWhile isTokenChar with
    | nil => rw [hr] at hc; simp at hc
    | cons d t =>
      rw [hr] at hc
      simp only [List.head?_cons, Option.some.injEq] at hc
      subst hc
      have := List.head_dropWhile_not isTokenChar r2 (by rw [hr]; simp)
      simpa [hr] using this

/-- The truncation neither drops nor adds a character that is outside the class and
none of `.`, `<` and `>`. -/
theorem truncateToken_count (c : Nat) (hc : isTokenChar c = false) (h1 : c ≠ 46) (h2 : c ≠ 60)
    (h3 : c ≠ 62) : ∀ (n : Nat) (s : JSString), s.length ≤ n →
      (truncateToken s).count c = s.count c := by
  intro n
  induction n with
  | zero =>
    intro s hs
    have : s = [] := List.length_eq_zero.1 (by omega)
    subst this
    rw [truncateToken_nil]
  | succ n ih =>
    intro s hs
    cases s with
    | nil => rw [truncateToken_nil]
    | cons d t =>
      cases hm : matchJwt (d :: t) with
      | none =>
        rw [truncateToken_skip hm, List.count_cons, List.count_cons,
          ih t (by simp only [List.length_cons] at hs; omega)]
      | some r =>
        obtain ⟨p1, rest⟩ := r
        have hl := matchJwt_rest_length hm
        obtain ⟨sig, e, hsig, -, -⟩ := matchJwt_parts hm
        rw [truncateToken_match hm, e]
        have hs0 : sig.count c = 0 := by
          rw [List.count_eq_zero]
          intro hmem
          rw [hsig c hmem] at hc
          exact absurd hc (by simp)
        have hl0 : (lit ".<sig>").count c = 0 := by
          rw [List.count_eq_zero]
          intro hmem
          have e6 : lit ".<sig>" = [46, 60, 115, 105, 103, 62] := by decide
          rw [e6] at hmem
          simp only [List.mem_cons, List.mem_singleton, List.not_mem_nil, or_false] at hmem
          rcases hmem with rfl | rfl | rfl | rfl | rfl | rfl
          · exact h1 rfl
          · exact h2 rfl
          · exact absurd hc (by decide)
          · exact absurd hc (by decide)
          · exact absurd hc (by decide)
          · exact h3 rfl
        have hr := ih rest (by simp only [List.length_cons] at hs; omega)
        have h46 : ¬ (46 = c) := fun e => h1 e.symm
        simp [List.count_append, List.count_cons, hs0, hl0, hr, h46]

theorem truncateToken_count_space (s : JSString) : (truncateToken s).count 32 = s.count 32 :=
  truncateToken_count 32 (by decide) (by decide) (by decide) (by decide) s.length s (le_refl _)

/-! ## The two texts of `log` -/

/-- The string that `log` hands to the sink for a message that is neither rejected
nor suppressed: the truncated text of the payload, or the text of the summary when
that text is too long. -/
theorem log_cases (self : RequestLogger) (version : JSString) (message : JSVal)
    (hm : wellFormed (.obj self.metadata) = true) (hw : wellFormed message = true)
    (ha : accepted message = true)
    (hd : (isDebug (getProp (lit "level") (namedProps message)) && !self.logDebug) = false) :
    ∃ qs idv oi,
      (∀ gap, stringify (logPayload self version message) gap
          = some (some (render gap [] (.obj qs))))
      ∧ redacted [] (logPayload self version message) = some (some (.obj qs))
      ∧ defined (.obj qs) = true ∧ wellFormed (.obj qs) = true
      ∧ (∀ k t, (k, t) ∈ oi ↔ ∃ v,
          (k, v) ∈ [(lit "level", getProp (lit "level") (stampedMessage self (namedProps message))),
            (lit "title", getProp (lit "title") (stampedMessage self (namedProps message))),
            (lit "fields", JSVal.arr ((messageKeys self message).map .str))]
          ∧ redacted k v = some (some t))
      ∧ keysOrdered (oi.map (fun kv => kv.1)) = true
      ∧ jsonParse (render (lit "  ") []
            (summaryTree idv oi ((truncateToken (render [] [] (.obj qs))).take 40000)))
          = some (summaryTree idv oi ((truncateToken (render [] [] (.obj qs))).take 40000))
      ∧ log self version message
        = .emitted (if 131072 ≤ (truncateToken (render (lit "  ") [] (.obj qs))).length
            then render (lit "  ") []
              (summaryTree idv oi ((truncateToken (render [] [] (.obj qs))).take 40000))
            else truncateToken (render (lit "  ") [] (.obj qs))) := by
  obtain ⟨qs, rs, h1, h2, h3, h4, h5, h6, h7, h8, h9⟩ := log_emits self version message hm hw ha hd
  obtain ⟨idv, oi, g1, g2, g3⟩ := replacement_tree self
    (stampedMessage_wellFormed self (namedProps_wellFormed hw)) (messageKeys self message) qs
  rw [h4] at g1
  have e : JSVal.obj rs
      = summaryTree idv oi ((truncateToken (render [] [] (.obj qs))).take 40000) :=
    Option.some.inj (Option.some.inj g1)
  rw [e] at h7 h8 h9
  exact ⟨qs, idv, oi, h1, h2, h5, h6, g2, g3, jsonParse_render (lit "  ") (by decide) _ h7 h8, h9⟩

/-- C6: when the truncated two-space text of the payload has 131072 code units or
more, the sink receives a text that parses to the summary: an object with the
identifier and a message whose title is `Payload too large`, whose level is `ERROR`
and whose `truncatedPayload` is the first 40000 code units at most of the truncated
compact text of the payload; when it is shorter, the sink receives that truncated
two-space text itself. -/
theorem oversized_payload_replaced (self : RequestLogger) (version : JSString) (message : JSVal)
    (hm : wellFormed (.obj self.metadata) = true) (hw : wellFormed message = true)
    (ha : accepted message = true)
    (hd : (isDebug (getProp (lit "level") (namedProps message)) && !self.logDebug) = false) :
    ∃ text compact,
      stringify (logPayload self version message) (lit "  ") = some (some text)
      ∧ stringify (logPayload self version message) [] = some (some compact)
      ∧ (131072 ≤ (truncateToken text).length →
          ∃ line idv oi kept rest,
            log self version message = .emitted line
            ∧ jsonParse line = some (.obj [(lit "invocationId", idv),
                (lit "message", .obj [(lit "title", .str (lit "Payload too large")),
                  (lit "level", .str (lit "ERROR")),
                  (lit "originalInfo", .obj oi),
                  (lit "truncatedPayload", .str kept)])])
            ∧ kept.length ≤ 40000 ∧ truncateToken compact = kept ++ rest)
      ∧ ((truncateToken text).length < 131072 →
          log self version message = .emitted (truncateToken text)) := by
  obtain ⟨qs, idv, oi, h1, -, -, -, -, -, h7, h8⟩ := log_cases self version message hm hw ha hd
  refine ⟨_, _, h1 _, h1 _, fun hl => ?_, fun hl => ?_⟩
  · rw [if_pos hl] at h8
    exact ⟨_, idv, oi, _, (truncateToken (render [] [] (.obj qs))).drop 40000, h8, h7,
      by simp, (List.take_append_drop _ _).symm⟩
  · rw [if_neg (by omega)] at h8
    exact h8

/-! ## A string message that is too long -/

theorem stampedMessage_title (self : RequestLogger) (s : JSString) :
    stampedMessage self (namedProps (.str s))
      = [(lit "title", .str s), (lit "level", .str (lit "INFO")),
          (lit "invocationId", self.idValue)] := by
  rfl

theorem messageKeys_title (self : RequestLogger) (s : JSString) :
    messageKeys self (.str s) = [lit "title", lit "level", lit "invocationId"] := by
  rfl

/-- The title of a string message stands in every text of the payload. -/
theorem title_within_payload (self : RequestLogger) (version s : JSString)
    (hm : wellFormed (.obj self.metadata) = true)
    (hk : redacted (lit "title") (.str s) = some (some (.str s))) {qs : Props}
    (hq : redacted [] (logPayload self version (.str s)) = some (some (.obj qs)))
    (gap : JSString) : Within (quote s) (render gap [] (.obj qs)) := by
  have hst : wellFormed (.obj (stampedMessage self (namedProps (.str s)))) = true :=
    stampedMessage_wellFormed self rfl
  have hwf : wellFormed (logPayload self version (.str s)) = true :=
    buildPayload_wellFormed self version hm hst
  unfold logPayload buildPayload at hq hwf
  rw [redacted_step hwf (replacer_root 0 _)] at hq
  obtain ⟨qs', e, hmem, -⟩ := descend_obj_members hq
  have e' : qs = qs' := by
    have := Option.some.inj e
    simpa using this
  subst e'
  obtain ⟨ms, h1, -, -, h4, -⟩ := @object_serialized _ (lit "message") _ hst
    (replacer_obj_kept 0 _ (by decide) (by decide) (by decide) (by decide))
  have m1 : (lit "message", JSVal.obj ms) ∈ qs :=
    (hmem _ _).2 ⟨_, List.mem_cons_self _ _, h1⟩
  have m2 : (lit "title", JSVal.str s) ∈ ms :=
    (h4 _ _).2 ⟨.str s, by rw [stampedMessage_title]; exact List.mem_cons_self _ _, hk⟩
  have w1 := render_member_within gap [] m1
  have w2 := render_member_within gap ([] ++ gap) m2
  exact Within.trans (by rw [render] at w2; exact w2) w1

theorem count_le_quote (s : JSString)
    (hp : ∀ c ∈ s, 32 ≤ c ∧ c ≠ 34 ∧ c ≠ 92 ∧ ¬ (55296 ≤ c ∧ c ≤ 57343)) (c : Nat) :
    s.count c ≤ (quote s).count c := by
  rw [quote, quoteUnits_plain s hp]
  exact Within.count_le ⟨[34], [34], by simp⟩ c

/-- A string message with 131072 spaces or more is replaced by the summary, whose
original information holds the title as it is and the keys of the message after
the level and the identifier were set. -/
theorem string_message_summary (self : RequestLogger) (version s : JSString)
    (hm : wellFormed (.obj self.metadata) = true) (hs : s ≠ [])
    (hp : ∀ c ∈ s, 32 ≤ c ∧ c ≠ 34 ∧ c ≠ 92 ∧ ¬ (55296 ≤ c ∧ c ≤ 57343))
    (hk : redacted (lit "title") (.str s) = some (some (.str s)))
    (hbig : 131072 ≤ s.count 32) :
    ∃ idv oi kept,
      log self version (.str s) = .emitted (render (lit "  ") [] (summaryTree idv oi kept))
      ∧ jsonParse (render (lit "  ") [] (summaryTree idv oi kept))
        = some (summaryTree idv oi kept)
      ∧ getProp (lit "title") oi = .str s
      ∧ getProp (lit "level") oi = .str (lit "INFO")
      ∧ getProp (lit "fields") oi
        = .arr [.str (lit "title"), .str (lit "level"), .str (lit "invocationId")]
      ∧ Within (quote s) (render (lit "  ") [] (summaryTree idv oi kept)) := by
  have ha : accepted (.str s) = true := by
    cases s with
    | nil => exact absurd rfl hs
    | cons c t => rfl
  obtain ⟨qs, idv, oi, h1, h2, -, -, h5, h6, h7, h8⟩ :=
    log_cases self version (.str s) hm rfl ha rfl
  have hw := title_within_payload self version s hm hk h2 (lit "  ")
  have hlen : 131072 ≤ (truncateToken (render (lit "  ") [] (.obj qs))).length := by
    have a1 := List.count_le_length 32 (truncateToken (render (lit "  ") [] (.obj qs)))
    have a2 := truncateToken_count_space (render (lit "  ") [] (.obj qs))
    have a3 := hw.count_le 32
    have a4 := count_le_quote s hp 32
    omega
  rw [if_pos hlen] at h8
  have gl : getProp (lit "level") (stampedMessage self (namedProps (.str s)))
      = .str (lit "INFO") := rfl
  have gt : getProp (lit "title") (stampedMessage self (namedProps (.str s))) = .str s := rfl
  rw [gl, gt, messageKeys_title] at h5
  have mt : (lit "title", JSVal.str s) ∈ oi :=
    (h5 _ _).2 ⟨.str s, List.mem_cons_of_mem _ (List.mem_cons_self _ _), hk⟩
  have ml : (lit "level", JSVal.str (lit "INFO")) ∈ oi :=
    (h5 _ _).2 ⟨.str (lit "INFO"), List.mem_cons_self _ _, rfl⟩
  have mf : (lit "fields",
      JSVal.arr [.str (lit "title"), .str (lit "level"), .str (lit "invocationId")]) ∈ oi :=
    (h5 _ _).2 ⟨.arr [.str (lit "title"), .str (lit "level"), .str (lit "invocationId")],
      List.mem_cons_of_mem _ (List.mem_cons_of_mem _ (List.mem_cons_self _ _)), rfl⟩
  refine ⟨idv, oi, _, h8, h7, getProp_of_mem h6 mt, getProp_of_mem h6 ml, getProp_of_mem h6 mf,
    ?_⟩
  have w1 := @render_member_within (lit "  ") []
    [(lit "invocationId", idv),
      (lit "message", .obj [(lit "title", .str (lit "Payload too large")),
        (lit "level", .str (lit "ERROR")),
        (lit "originalInfo", .obj oi),
        (lit "truncatedPayload",
          .str ((truncateToken (render [] [] (.obj qs))).take 40000))])] _ _
    (List.mem_cons_of_mem _ (List.mem_cons_self _ _))
  have w2 := @render_member_within (lit "  ") ([] ++ lit "  ")
    [(lit "title", .str (lit "Payload too large")),
        (lit "level", .str (lit "ERROR")),
        (lit "originalInfo", .obj oi),
        (lit "truncatedPayload",
          .str ((truncateToken (render [] [] (.obj qs))).take 40000))] _ _
    (List.mem_cons_of_mem _ (List.mem_cons_of_mem _ (List.mem_cons_self _ _)))
  have w3 := render_member_within (lit "  ") ([] ++ lit "  " ++ lit "  ") mt
  rw [render] at w3
  exact (w3.trans w2).trans w1

/-- No rule fires on a title that starts neither with a `b` nor with `<`. -/
theorem redacted_title_kept (c : Nat) (t : JSString) (h1 : asciiLower c ≠ 98) (h2 : c ≠ 60) :
    redacted (lit "title") (.str (c :: t)) = some (some (.str (c :: t))) := by
  have e : lit "bearer" = 98 :: lit "earer" := by decide
  have e2 : lit "<!DOCTYPE html>" = 60 :: lit "!DOCTYPE html>" := by decide
  have m1 : matchesAuthorization (lit "title") = false := by decide
  have m2 : matchesSecret (lit "title") = false := by decide
  have h1' : ¬ (98 = asciiLower c) := fun e => h1 e.symm
  have h2' : ¬ (60 = c) := fun e => h2 e.symm
  apply redacted_str_kept (by decide)
  · simp [authorizationRule, m1, startsWithCI, e, List.isPrefixOf, h1']
  · simp [secretRule, m2]
  · decide
  · simp [doctypeRule, e2, List.isPrefixOf, h2']

theorem spaces_plain (n : Nat) :
    ∀ c ∈ List.replicate n 32, 32 ≤ c ∧ c ≠ 34 ∧ c ≠ 92 ∧ ¬ (55296 ≤ c ∧ c ≤ 57343) := by
  intro c hc
  rw [List.eq_of_mem_replicate hc]
  omega

theorem spaces_count (n : Nat) : (List.replicate n 32).count 32 = n :=
  List.count_replicate_self _ _

/-- A title of 131072 spaces or more that no rule rewrites, logged by a new
emitter. -/
theorem long_title_summary (version s : JSString)
    (hp : ∀ c ∈ s, 32 ≤ c ∧ c ≠ 34 ∧ c ≠ 92 ∧ ¬ (55296 ≤ c ∧ c ≤ 57343))
    (hh : ∃ c t, s = c :: t ∧ asciiLower c ≠ 98 ∧ c ≠ 60) (hbig : 131072 ≤ s.count 32) :
    ∃ idv oi kept,
      log RequestLogger.constructor version (.str s)
        = .emitted (render (lit "  ") [] (summaryTree idv oi kept))
      ∧ jsonParse (render (lit "  ") [] (summaryTree idv oi kept))
        = some (summaryTree idv oi kept)
      ∧ getProp (lit "level") oi = .str (lit "INFO")
      ∧ getProp (lit "fields") oi
        = .arr [.str (lit "title"), .str (lit "level"), .str (lit "invocationId")]
      ∧ ∃ a b, render (lit "  ") [] (summaryTree idv oi kept) = a ++ 34 :: (s ++ 34 :: b) := by
  obtain ⟨c, t, rfl, h1, h2⟩ := hh
  obtain ⟨idv, oi, kept, g1, g2, -, g4, g5, a, b, g6⟩ := string_message_summary
    RequestLogger.constructor version (c :: t) (by decide) (List.cons_ne_nil _ _) hp
    (redacted_title_kept c t h1 h2) hbig
  refine ⟨idv, oi, kept, g1, g2, g4, g5, a, b, ?_⟩
  rw [g6, quote, quoteUnits_plain _ hp]
  simp

theorem token_spaces_summary (version : JSString) (n : Nat) (hn : 131072 ≤ n) :
    ∃ line a b,
      log RequestLogger.constructor version
          (.str (lit "eyJaaaaa.eyJbbbbb.sig" ++ List.replicate n 32)) = .emitted line
      ∧ line = a ++ lit "eyJaaaaa.eyJbbbbb.sig" ++ b := by
  have hp : ∀ c ∈ lit "eyJaaaaa.eyJbbbbb.sig" ++ List.replicate n 32,
      32 ≤ c ∧ c ≠ 34 ∧ c ≠ 92 ∧ ¬ (55296 ≤ c ∧ c ≤ 57343) := by
    intro c hc
    rcases List.mem_append.1 hc with hc | hc
    · have : ∀ d ∈ lit "eyJaaaaa.eyJbbbbb.sig",
          32 ≤ d ∧ d ≠ 34 ∧ d ≠ 92 ∧ ¬ (55296 ≤ d ∧ d ≤ 57343) := by decide
      exact this c hc
    · exact spaces_plain _ c hc
  obtain ⟨idv, oi, kept, h1, -, -, -, a, b, h6⟩ := long_title_summary version
    (lit "eyJaaaaa.eyJbbbbb.sig" ++ List.replicate n 32) hp
    ⟨101, lit "yJaaaaa.eyJbbbbb.sig" ++ List.replicate n 32,
      by rw [show lit "eyJaaaaa.eyJbbbbb.sig" = 101 :: lit "yJaaaaa.eyJbbbbb.sig" by decide]; rfl,
      by decide, by decide⟩
    (by rw [List.count_append, spaces_count]; omega)
  refine ⟨_, a ++ [34], List.replicate n 32 ++ 34 :: b, h1, ?_⟩
  rw [h6]
  simp

theorem spaces_summary (version : JSString) (n : Nat) (hn : 131072 ≤ n + 1) :
    ∃ idv oi kept,
      log RequestLogger.constructor version (.str (List.replicate (n + 1) 32))
        = .emitted (render (lit "  ") [] (summaryTree idv oi kept))
      ∧ jsonParse (render (lit "  ") [] (summaryTree idv oi kept))
        = some (summaryTree idv oi kept)
      ∧ getProp (lit "level") oi = .str (lit "INFO")
      ∧ getProp (lit "fields") oi
        = .arr [.str (lit "title"), .str (lit "level"), .str (lit "invocationId")]
      ∧ n + 1 ≤ (render (lit "  ") [] (summaryTree idv oi kept)).length := by
  obtain ⟨idv, oi, kept, h1, h2, h3, h4, a, b, h6⟩ := long_title_summary version
    (List.replicate (n + 1) 32) (spaces_plain _)
    ⟨32, List.replicate n 32, List.replicate_succ _ _, by decide, by decide⟩
    (by rw [spaces_count]; exact hn)
  refine ⟨idv, oi, kept, h1, h2, h3, h4, ?_⟩
  rw [h6]
  simp only [List.length_append, List.length_cons, List.length_replicate]
  omega

/-- C1, a fault of the code: the summary is serialized without the truncation, so
for the message that holds the token `eyJaaaaa.eyJbbbbb.sig` and 131072 spaces the
string handed to the sink contains the token with its signature `sig`. -/
theorem summary_keeps_signature (version : JSString) :
    ∃ line a b,
      log RequestLogger.constructor version
          (.str (lit "eyJaaaaa.eyJbbbbb.sig" ++ List.replicate 131072 32)) = .emitted line
      ∧ line = a ++ lit "eyJaaaaa.eyJbbbbb.sig" ++ b :=
  token_spaces_summary version 131072 (le_refl _)

/-- C5, a fault of the code: the summary holds the title of the message in full, so
for the message of 131072 spaces the string handed to the sink has 131072 code
units or more. -/
theorem summary_exceeds_limit (version : JSString) :
    ∃ line,
      log RequestLogger.constructor version (.str (List.replicate 131072 32)) = .emitted line
      ∧ 131072 ≤ line.length := by
  obtain ⟨idv, oi, kept, h1, -, -, -, h5⟩ := spaces_summary version 131071 (le_refl _)
  exact ⟨_, h1, h5⟩

/-! ## `startInvocation`, then `log` -/

theorem mem_updateProp_self {ps : Props} {k : JSString} (v : JSVal)
    (h : hasProp k ps = true) : (k, v) ∈ updateProp k v ps := by
  induction ps with
  | nil => simp [hasProp] at h
  | cons p ps ih =>
    obtain ⟨k', v'⟩ := p
    by_cases hk : k' = k
    · subst hk
      simp [updateProp]
    · have h' : hasProp k ps = true := by simpa [hasProp, hk] using h
      simp only [updateProp, hk, ↓reduceIte]
      exact List.mem_cons_of_mem _ (ih h')

theorem mem_updateProp_of_ne {ps : Props} {k k' : JSString} {v v' : JSVal}
    (h : (k', v') ∈ ps) (hk : k' ≠ k) : (k', v') ∈ updateProp k v ps := by
  induction ps with
  | nil => simp at h
  | cons p ps ih =>
    obtain ⟨k2, v2⟩ := p
    simp only [updateProp]
    split
    · rename_i e
      rcases List.mem_cons.1 h with e' | e'
      · simp only [Prod.mk.injEq] at e'
        exact absurd (e'.1.trans e) hk
      · exact List.mem_cons_of_mem _ e'
    · rcases List.mem_cons.1 h with e' | e'
      · rw [e']; exact List.mem_cons_self _ _
      · exact List.mem_cons_of_mem _ (ih e')

theorem mem_setProp_self (ps : Props) (k : JSString) (v : JSVal) : (k, v) ∈ setProp ps k v := by
  unfold setProp
  split
  · rename_i h
    exact mem_updateProp_self v h
  · exact mem_insertProp.2 (Or.inl rfl)

theorem mem_setProp_of_ne {ps : Props} {k k' : JSString} {v v' : JSVal}
    (h : (k', v') ∈ ps) (hk : k' ≠ k) : (k', v') ∈ setProp ps k v := by
  unfold setProp
  split
  · exact mem_updateProp_of_ne h hk
  · exact mem_insertProp.2 (Or.inr h)

theorem mem_objectAssign_target {source : Props} {k : JSString} {v : JSVal} (target : Props)
    (h : (k, v) ∈ target) (hs : ∀ kv ∈ source, kv.1 ≠ k) :
    (k, v) ∈ objectAssign target source := by
  unfold objectAssign
  induction source generalizing target with
  | nil => exact h
  | cons p ps ih =>
    rw [List.foldl_cons]
    exact ih _ (mem_setProp_of_ne h (fun e => hs p (List.mem_cons_self _ _) e.symm))
      (fun kv hkv => hs kv (List.mem_cons_of_mem _ hkv))

/-- The call `Object.assign` leaves every property of its source in the result. -/
theorem mem_objectAssign_source {source : Props} {k : JSString} {v : JSVal} (target : Props)
    (ho : keysOrdered (source.map (fun kv => kv.1)) = true) (h : (k, v) ∈ source) :
    (k, v) ∈ objectAssign target source := by
  induction source generalizing target with
  | nil => simp at h
  | cons p ps ih =>
    rw [List.map_cons, keysOrdered_iff, List.pairwise_cons, ← keysOrdered_iff] at ho
    have e : objectAssign target (p :: ps) = objectAssign (setProp target p.1 p.2) ps := rfl
    rw [e]
    rcases List.mem_cons.1 h with e' | e'
    · subst e'
      refine mem_objectAssign_target _ (mem_setProp_self _ _ _) (fun kv hkv => ?_)
      exact (keyBefore_ne (ho.1 kv.1 (List.mem_map.2 ⟨kv, hkv, rfl⟩))).symm
    · exact ih _ ho.2 e'

theorem hasJwt_false_truncateToken {s : JSString} (h : hasJwt s = false) :
    truncateToken s = s := by
  induction s with
  | nil => exact truncateToken_nil
  | cons c t ih =>
    simp only [hasJwt, Bool.or_eq_false_iff] at h
    have hn : matchJwt (c :: t) = none := by
      cases hm : matchJwt (c :: t) with
      | none => rfl
      | some r => rw [hm] at h; exact absurd h.1 (by simp)
    rw [truncateToken_skip hn, ih h.2]

theorem yearText_head (y : Int) : ∃ c t, yearText y = c :: t ∧ 43 ≤ c ∧ c ≤ 57 := by
  unfold yearText
  split
  · exact ⟨_, _, rfl, by omega, by omega⟩
  · split
    · exact ⟨_, _, rfl, by omega, by omega⟩
    · exact ⟨_, _, rfl, by omega, by omega⟩

/-- The text of `toISOString` starts with a digit or a sign. -/
theorem toISOString_head (t : Int) : ∃ c r, toISOString t = c :: r ∧ 43 ≤ c ∧ c ≤ 57 := by
  unfold toISOString
  obtain ⟨c, r, e, h1, h2⟩ := yearText_head (civilDate t).1
  rw [e]
  exact ⟨c, _, rfl, h1, h2⟩

/-- No rule fires on a string that starts neither with a `b` nor with `<`, under a
key that no rule names. -/
theorem redacted_str_head_kept {key : JSString} (hb : key ≠ lit "body")
    (ha : matchesAuthorization key = false) (hs : matchesSecret key = false)
    (hm : key ≠ lit "multiValueHeaders") (c : Nat) (t : JSString) (h1 : asciiLower c ≠ 98)
    (h2 : c ≠ 60) : redacted key (.str (c :: t)) = some (some (.str (c :: t))) := by
  have e : lit "bearer" = 98 :: lit "earer" := by decide
  have e2 : lit "<!DOCTYPE html>" = 60 :: lit "!DOCTYPE html>" := by decide
  have h1' : ¬ (98 = asciiLower c) := fun e => h1 e.symm
  have h2' : ¬ (60 = c) := fun e => h2 e.symm
  apply redacted_str_kept hb
  · simp [authorizationRule, ha, startsWithCI, e, List.isPrefixOf, h1']
  · simp [secretRule, hs]
  · exact hm
  · simp [doctypeRule, e2, List.isPrefixOf, h2']

/-- The entry `Start` of the tracking sequence is written as it is. -/
theorem redacted_tracking_start (now : Int) :
    redacted (lit "tracking") (.arr [.obj [(lit "Start", .str (toISOString now))]])
      = some (some (.arr [.obj [(lit "Start", .str (toISOString now))]])) := by
  obtain ⟨c, r, e, h1, h2⟩ := toISOString_head now
  have hc : asciiLower c ≠ 98 := by
    unfold asciiLower
    split <;> omega
  have hs := @redacted_str_head_kept (lit "Start") (by decide) (by decide) (by decide)
    (by decide) c r hc (by omega)
  rw [← e] at hs
  have ho := @redacted_obj_kept (lit "0") [(lit "Start", .str (toISOString now))]
    rfl (by decide) (by decide) (by decide) (by decide)
  have h0 : natToString 0 = lit "0" := by decide
  rw [@redacted_arr_kept (lit "tracking")
    [.obj [(lit "Start", .str (toISOString now))]] rfl (by decide) (by decide)
    (by decide)]
  simp only [descend, indexProps, List.map_cons, List.map_nil, h0, ho, hs, Option.map_some',
    allSome]
  rfl

/-- What `log` hands to the sink for a string message after `startInvocation` with a
metadata object, when the text of the payload holds no token and is short enough to
be written. -/
theorem startInvocation_log (self : RequestLogger) (version uuid s : JSString) (now : Int)
    (m : Props) (hm : wellFormed (.obj m) = true) (hplain : hasProp (lit "tracking") m = false)
    (hs : s ≠ []) (hk : redacted (lit "title") (.str s) = some (some (.str s)))
    (hid : redacted (lit "invocationId") (.str uuid) = some (some (.str uuid)))
    (hj : hasJwt (payloadText (self.startInvocation uuid now (.obj m)) version (.str s)) = false)
    (hl : (payloadText (self.startInvocation uuid now (.obj m)) version (.str s)).length < 131072) :
    ∃ line md,
      log (self.startInvocation uuid now (.obj m)) version (.str s) = .emitted line
      ∧ jsonParse line = some (.obj [
          (lit "message", .obj [(lit "title", .str s), (lit "level", .str (lit "INFO")),
            (lit "invocationId", .str uuid)]),
          (lit "metadata", .obj md)])
      ∧ (∀ k v t, (k, v) ∈ m → redacted k v = some (some t) → getProp k md = t)
      ∧ getProp (lit "tracking") md = .arr [.obj [(lit "Start", .str (toISOString now))]] := by
  have ha : accepted (.str s) = true := by
    cases s with
    | nil => exact absurd rfl hs
    | cons c t => rfl
  have hst : wellFormed (.obj (self.startInvocation uuid now (.obj m)).metadata) = true :=
    @objectAssign_wellFormed [(lit "tracking",
      .arr [.obj [(lit "Start", .str (toISOString now))]])] _ rfl hm
  obtain ⟨qs, idv, oi, h1, h2, h3, h4, -, -, -, h8⟩ :=
    log_cases (self.startInvocation uuid now (.obj m)) version (.str s) hst rfl ha rfl
  have ht : payloadText (self.startInvocation uuid now (.obj m)) version (.str s)
      = render (lit "  ") [] (.obj qs) := by
    unfold payloadText
    rw [h1]
  rw [ht] at hj hl
  rw [hasJwt_false_truncateToken hj, if_neg (by omega)] at h8
  have hparse := jsonParse_render (lit "  ") (by decide) _ h3 h4
  -- the members of the payload
  have hstamp : wellFormed (.obj (stampedMessage (self.startInvocation uuid now (.obj m))
      (namedProps (.str s)))) = true := stampedMessage_wellFormed _ rfl
  have hM : wellFormed (.obj (objectAssign [(lit "nodejs", .str version)]
      (self.startInvocation uuid now (.obj m)).metadata)) = true :=
    @objectAssign_wellFormed [(lit "nodejs", .str version)] _ rfl hst
  have hwf : wellFormed (logPayload (self.startInvocation uuid now (.obj m)) version (.str s))
      = true := buildPayload_wellFormed _ version hst hstamp
  obtain ⟨md, g1, -, g3, g4, -⟩ := @object_serialized _ (lit "metadata") _ hM
    (replacer_obj_kept 0 _ (by decide) (by decide) (by decide) (by decide))
  have hmsg : redacted (lit "message") (.obj (stampedMessage
      (self.startInvocation uuid now (.obj m)) (namedProps (.str s))))
      = some (some (.obj [(lit "title", .str s), (lit "level", .str (lit "INFO")),
          (lit "invocationId", .str uuid)])) := by
    rw [redacted_obj_kept hstamp (by decide) (by decide) (by decide) (by decide),
      stampedMessage_title]
    have hlv : redacted (lit "level") (.str (lit "INFO")) = some (some (.str (lit "INFO"))) :=
      rfl
    have hiv : (self.startInvocation uuid now (.obj m)).idValue = .str uuid := rfl
    simp only [descend, List.map_cons, List.map_nil, hk, hlv, hiv, hid, Option.map_some',
      allSome]
    rfl
  have hqs : qs = [(lit "message", .obj [(lit "title", .str s),
      (lit "level", .str (lit "INFO")), (lit "invocationId", .str uuid)]),
      (lit "metadata", .obj md)] := by
    unfold logPayload buildPayload at h2 hwf
    rw [redacted_step hwf (replacer_root 0 _)] at h2
    have hsh : shownMessage (.str s) (stampedMessage (self.startInvocation uuid now (.obj m))
        (namedProps (.str s)))
        = .obj (stampedMessage (self.startInvocation uuid now (.obj m))
          (namedProps (.str s))) := rfl
    simp only [descend, List.map_cons, List.map_nil, hsh, hmsg, g1, Option.map_some',
      allSome] at h2
    have := Option.some.inj (Option.some.inj h2)
    simp only [List.filterMap_cons, List.filterMap_nil, id] at this
    exact (JSVal.obj.inj this).symm
  subst hqs
  have hmo := (wellFormed_obj hm).1
  have hso := (wellFormed_obj hst).1
  refine ⟨_, md, h8, hparse, fun k v t hkv hr => ?_, ?_⟩
  · have m1 : (k, v) ∈ (self.startInvocation uuid now (.obj m)).metadata :=
      mem_objectAssign_source _ hmo hkv
    have m2 := mem_objectAssign_source [(lit "nodejs", JSVal.str version)] hso m1
    exact getProp_of_mem (wellFormed_obj g3).1 ((g4 _ _).2 ⟨v, m2, hr⟩)
  · have m1 : (lit "tracking", JSVal.arr [.obj [(lit "Start", .str (toISOString now))]])
        ∈ (self.startInvocation uuid now (.obj m)).metadata :=
      mem_objectAssign_target _ (List.mem_cons_self _ _)
        ((hasProp_eq_false_iff _ _).1 hplain)
    have m2 := mem_objectAssign_source [(lit "nodejs", JSVal.str version)] hso m1
    exact getProp_of_mem (wellFormed_obj g3).1
      ((g4 _ _).2 ⟨_, m2, redacted_tracking_start now⟩)

/-- C15, as stated, fails: a field of the metadata is written with the value that the
redaction rules leave of it. After `startInvocation` with the metadata `secret: "a"`
the line of `log("hi")` parses to an object whose `metadata.secret` is `{SECRET}`,
not `a`. -/
theorem metadata_field_redacted :
    ∃ line,
      log (RequestLogger.constructor.startInvocation (lit "id") 0
          (.obj [(lit "secret", .str (lit "a"))])) (lit "v20.1.0") (.str (lit "hi"))
        = .emitted line
      ∧ jsonParse line = some (.obj [
          (lit "message", .obj [(lit "title", .str (lit "hi")),
            (lit "level", .str (lit "INFO")), (lit "invocationId", .str (lit "id"))]),
          (lit "metadata", .obj [(lit "nodejs", .str (lit "v20.1.0")),
            (lit "tracking", .arr [.obj [(lit "Start", .str (lit "1970-01-01T00:00:00.000Z"))]]),
            (lit "secret", .str (lit "{SECRET}"))])]) :=
  ⟨_, rfl, rfl⟩

/-- C15, amended: after `startInvocation` with a metadata object that has no property
`tracking`, a call of `log` with a non-empty string that no rule rewrites, when the
generated identifier is not rewritten either and the text of the payload holds no
token and is shorter than 131072 code units, hands the sink a line that parses to
an object with the message `title`, `level` `INFO` and `invocationId` the generated
identifier, and with a metadata that holds every field of the given metadata with
the value that the redaction writes for it, and `tracking` with the one entry
`Start` that is the ISO-8601 string of the start time. -/
theorem startInvocation_then_log (self : RequestLogger) (version uuid s : JSString) (now : Int)
    (m : Props) (hm : wellFormed (.obj m) = true) (hplain : hasProp (lit "tracking") m = false)
    (hs : s ≠ []) (hk : redacted (lit "title") (.str s) = some (some (.str s)))
    (hid : redacted (lit "invocationId") (.str uuid) = some (some (.str uuid)))
    (hj : hasJwt (payloadText (self.startInvocation uuid now (.obj m)) version (.str s)) = false)
    (hl : (payloadText (self.startInvocation uuid now (.obj m)) version (.str s)).length < 131072) :
    ∃ line md,
      log (self.startInvocation uuid now (.obj m)) version (.str s) = .emitted line
      ∧ jsonParse line = some (.obj [
          (lit "message", .obj [(lit "title", .str s), (lit "level", .str (lit "INFO")),
            (lit "invocationId", .str uuid)]),
          (lit "metadata", .obj md)])
      ∧ (∀ k v t, (k, v) ∈ m → redacted k v = some (some t) → getProp k md = t)
      ∧ getProp (lit "tracking") md = .arr [.obj [(lit "Start", .str (toISOString now))]] :=
  startInvocation_log self version uuid s now m hm hplain hs hk hid hj hl

theorem startInvocation_then_log_witness :
    wellFormed (.obj [(lit "user", .str (lit "a"))]) = true
      ∧ hasProp (lit "tracking") [(lit "user", .str (lit "a"))] = false
      ∧ lit "hi" ≠ []
      ∧ redacted (lit "title") (.str (lit "hi")) = some (some (.str (lit "hi")))
      ∧ redacted (lit "invocationId") (.str (lit "id")) = some (some (.str (lit "id")))
      ∧ hasJwt (payloadText (RequestLogger.constructor.startInvocation (lit "id") 0
          (.obj [(lit "user", .str (lit "a"))])) (lit "v20.1.0") (.str (lit "hi"))) = false
      ∧ (payloadText (RequestLogger.constructor.startInvocation (lit "id") 0
          (.obj [(lit "user", .str (lit "a"))])) (lit "v20.1.0") (.str (lit "hi"))).length
          < 131072
      ∧ ∃ line md,
        log (RequestLogger.constructor.startInvocation (lit "id") 0
            (.obj [(lit "user", .str (lit "a"))])) (lit "v20.1.0") (.str (lit "hi"))
          = .emitted line
        ∧ jsonParse line = some (.obj [
            (lit "message", .obj [(lit "title", .str (lit "hi")),
              (lit "level", .str (lit "INFO")), (lit "invocationId", .str (lit "id"))]),
            (lit "metadata", .obj md)])
        ∧ (∀ k v t, (k, v) ∈ [(lit "user", JSVal.str (lit "a"))] →
            redacted k v = some (some t) → getProp k md = t)
        ∧ getProp (lit "tracking") md
          = .arr [.obj [(lit "Start", .str (toISOString 0))]] :=
  ⟨by decide, by decide, by decide, rfl, rfl, by decide, by decide,
    startInvocation_then_log RequestLogger.constructor (lit "v20.1.0") (lit "id") (lit "hi") 0
      [(lit "user", .str (lit "a"))] (by decide) (by decide) (by decide) rfl rfl (by decide)
      (by decide)⟩

/-! ## The truncation and the parser

The truncation rewrites the text of the payload after it was serialized. The
parser reads the rewritten text as it read the original one: a match lies inside
one string, where it leaves the escapes alone. -/

theorem truncateToken_noE_append (a r : JSString) (h : ∀ c ∈ a, asciiLower c ≠ 101) :
    truncateToken (a ++ r) = a ++ truncateToken r := by
  induction a with
  | nil => rfl
  | cons c t ih =>
    rw [List.cons_append, truncateToken_head (h c (List.mem_cons_self _ _)),
      ih (fun x hx => h x (List.mem_cons_of_mem _ hx))]
    rfl

theorem matchJwt_e_barrier (c : Nat) {r : JSString} (hb : Barrier r) :
    matchJwt (c :: r) = none := by
  have hs : matchSegment (c :: r) = none := by
    match r, hb with
    | [], _ => rfl
    | [_], _ => rfl
    | y :: j :: t, hb =>
      simp only [matchSegment]
      rw [if_neg]
      rintro ⟨-, hy, -⟩
      have hy' := hb y rfl
      unfold asciiLower at hy
      simp only [isTokenChar, Bool.or_eq_false_iff, Bool.and_eq_false_iff,
        decide_eq_false_iff_not, beq_eq_false_iff_ne] at hy'
      split at hy <;> omega
  simp only [matchJwt, hs]

theorem truncateToken_cons_barrier (c : Nat) {r : JSString} (hb : Barrier r) :
    truncateToken (c :: r) = c :: truncateToken r :=
  truncateToken_skip (matchJwt_e_barrier c hb)

theorem matchJwt_group_length {s p1 rest : JSString} (h : matchJwt s = some (p1, rest)) :
    9 ≤ p1.length := by
  obtain ⟨hd, pl, r1, r2, h1, h2, rfl, -⟩ := matchJwt_spec h
  have := (matchSegment_spec h1).2.2.1
  simp only [List.length_append, List.length_cons]
  omega

/-- The truncation keeps the first code units of a text. -/
theorem truncateToken_take : ∀ (k : Nat), k ≤ 9 → ∀ s : JSString,
    (truncateToken s).take k = s.take k := by
  intro k
  induction k with
  | zero => intro _ s; simp
  | succ k ih =>
    intro hk s
    cases s with
    | nil => rw [truncateToken_nil]
    | cons c t =>
      cases hm : matchJwt (c :: t) with
      | none =>
        rw [truncateToken_skip hm, List.take_succ_cons, List.take_succ_cons, ih (by omega)]
      | some r =>
        obtain ⟨p1, rest⟩ := r
        have hl := matchJwt_group_length hm
        obtain ⟨sig, e, -, -, -⟩ := matchJwt_parts hm
        rw [truncateToken_match hm, e, List.append_assoc,
          List.take_append_of_le_length (by omega), List.take_append_of_le_length (by omega)]

theorem truncateToken_cons_head (c : Nat) (t : JSString) :
    ∃ t', truncateToken (c :: t) = c :: t' := by
  have h := truncateToken_take 1 (by omega) (c :: t)
  cases hr : truncateToken (c :: t) with
  | nil => rw [hr] at h; simp at h
  | cons d t' =>
    rw [hr] at h
    simp only [List.take_succ_cons, List.take_zero, List.cons.injEq, and_true] at h
    exact ⟨t', by rw [h]⟩

/-- The truncation and the reading of a run of characters none of which is an `e`:
white space, digits. -/
theorem truncateToken_dropWhile (p : Nat → Bool) (hp : ∀ c, p c = true → asciiLower c ≠ 101)
    (s : JSString) :
    (truncateToken s).dropWhile p = truncateToken (s.dropWhile p)
      ∧ (truncateToken s).takeWhile p = s.takeWhile p := by
  induction s with
  | nil => rw [truncateToken_nil]; simp [truncateToken_nil]
  | cons c t ih =>
    cases hc : p c with
    | true =>
      rw [truncateToken_head (hp c hc)]
      simp only [List.dropWhile_cons, List.takeWhile_cons, hc, ↓reduceIte, ih.1, ih.2]
      exact ⟨trivial, trivial⟩
    | false =>
      obtain ⟨t', e⟩ := truncateToken_cons_head c t
      constructor
      · rw [e]
        simp only [List.dropWhile_cons, hc, Bool.false_eq_true, ↓reduceIte]
        exact e.symm
      · rw [e]
        simp only [List.takeWhile_cons, hc, Bool.false_eq_true, ↓reduceIte]

theorem ws_not_e (c : Nat) (h : isWs c = true) : asciiLower c ≠ 101 := by
  unfold asciiLower
  simp only [isWs, Bool.or_eq_true, beq_iff_eq] at h
  split <;> omega

theorem digit_not_e (c : Nat) (h : isDigit c = true) : asciiLower c ≠ 101 := by
  unfold asciiLower
  simp only [isDigit, Bool.and_eq_true, decide_eq_true_eq] at h
  split <;> omega

theorem skipWs_truncateToken (s : JSString) :
    skipWs (truncateToken s) = truncateToken (skipWs s) :=
  (truncateToken_dropWhile isWs ws_not_e s).1

theorem bodyEnd_cons (st c : Nat) (t : JSString) : bodyEnd st (c :: t) =
    if st = 0 ∧ c = 34 then some t
    else
      match bodyStep st c with
      | some st' => bodyEnd st' t
      | none => none :=
  rfl

theorem bodyEnd_nil (st : Nat) : bodyEnd st [] = none := by
  rw [bodyEnd]

theorem bodyEnd_step {st st' c : Nat} (t : JSString) (hc : ¬ (st = 0 ∧ c = 34))
    (h : bodyStep st c = some st') : bodyEnd st (c :: t) = bodyEnd st' t := by
  rw [bodyEnd_cons, if_neg hc, h]

theorem bodyEnd_reject {st c : Nat} (t : JSString) (hc : ¬ (st = 0 ∧ c = 34))
    (h : bodyStep st c = none) : bodyEnd st (c :: t) = none := by
  rw [bodyEnd_cons, if_neg hc, h]

/-- The machine reads a string as the parser does. -/
theorem bodyEnd_eq_parse : ∀ (n : Nat) (s : JSString), s.length ≤ n →
    bodyEnd 0 s = (parseStringBody s).map (fun r => r.2) := by
  intro n
  induction n with
  | zero =>
    intro s hs
    have : s = [] := List.length_eq_zero.1 (by omega)
    subst this
    rfl
  | succ n ih =>
    intro s hs
    cases s with
    | nil => rfl
    | cons c t =>
      simp only [List.length_cons] at hs
      rw [parseStringBody_cons]
      by_cases h34 : c = 34
      · subst h34
        rw [bodyEnd_cons, if_pos ⟨rfl, rfl⟩, if_pos rfl]
        rfl
      · rw [if_neg h34]
        by_cases h92 : c = 92
        · subst h92
          rw [if_pos rfl, bodyEnd_step t (by omega) (show bodyStep 0 92 = some 1 from rfl)]
          cases t with
          | nil => rfl
          | cons e t1 =>
            simp only [List.length_cons] at hs
            dsimp only
            by_cases h117 : e = 117
            · subst h117
              rw [if_pos rfl, bodyEnd_step t1 (by omega) (show bodyStep 1 117 = some 5 from rfl)]
              match t1, hs with
              | [], _ => rfl
              | [a], _ =>
                cases ha : hexValue a with
                | none => rw [bodyEnd_reject _ (by omega) (by simp [bodyStep, ha])]; rfl
                | some x =>
                  rw [@bodyEnd_step _ 4 _ _ (by omega) (by simp [bodyStep, ha]), bodyEnd_nil]
                  rfl
              | [a, b], _ =>
                cases ha : hexValue a with
                | none => rw [bodyEnd_reject _ (by omega) (by simp [bodyStep, ha])]; rfl
                | some x =>
                  rw [@bodyEnd_step _ 4 _ _ (by omega) (by simp [bodyStep, ha])]
                  cases hb : hexValue b with
                  | none => rw [bodyEnd_reject _ (by omega) (by simp [bodyStep, hb])]; rfl
                  | some y =>
                    rw [@bodyEnd_step _ 3 _ _ (by omega) (by simp [bodyStep, hb]),
                      bodyEnd_nil]
                    rfl
              | [a, b, c1], _ =>
                cases ha : hexValue a with
                | none => rw [bodyEnd_reject _ (by omega) (by simp [bodyStep, ha])]; rfl
                | some x =>
                  rw [@bodyEnd_step _ 4 _ _ (by omega) (by simp [bodyStep, ha])]
                  cases hb : hexValue b with
                  | none => rw [bodyEnd_reject _ (by omega) (by simp [bodyStep, hb])]; rfl
                  | some y =>
                    rw [@bodyEnd_step _ 3 _ _ (by omega) (by simp [bodyStep, hb])]
                    cases hc1 : hexValue c1 with
                    | none => rw [bodyEnd_reject _ (by omega) (by simp [bodyStep, hc1])]; rfl
                    | some z =>
                      rw [@bodyEnd_step _ 2 _ _ (by omega) (by simp [bodyStep, hc1]),
                        bodyEnd_nil]
                      rfl
              | a :: b :: c1 :: d :: t2, hs =>
                simp only [List.length_cons] at hs
                dsimp only
                cases ha : hexValue a with
                | none => rw [bodyEnd_reject _ (by omega) (by simp [bodyStep, ha])]; rfl
                | some x =>
                  rw [@bodyEnd_step _ 4 _ _ (by omega) (by simp [bodyStep, ha])]
                  cases hb : hexValue b with
                  | none => rw [bodyEnd_reject _ (by omega) (by simp [bodyStep, hb])]; rfl
                  | some y =>
                    rw [@bodyEnd_step _ 3 _ _ (by omega) (by simp [bodyStep, hb])]
                    cases hc1 : hexValue c1 with
                    | none => rw [bodyEnd_reject _ (by omega) (by simp [bodyStep, hc1])]; rfl
                    | some z =>
                      rw [@bodyEnd_step _ 2 _ _ (by omega) (by simp [bodyStep, hc1])]
                      cases hd : hexValue d with
                      | none => rw [bodyEnd_reject _ (by omega) (by simp [bodyStep, hd])]; rfl
                      | some w =>
                        rw [@bodyEnd_step _ 0 _ _ (by omega) (by simp [bodyStep, hd]),
                          ih t2 (by omega)]
                        simp only [Option.map_map]
                        rfl
            · rw [if_neg h117]
              cases hse : simpleEscape e with
              | none =>
                rw [bodyEnd_reject _ (by omega) (by simp [bodyStep, h117, hse])]
                rfl
              | some u =>
                rw [@bodyEnd_step _ 0 _ _ (by omega) (by simp [bodyStep, h117, hse]),
                  ih t1 (by omega)]
                simp only [Option.map_map]
                rfl
        · rw [if_neg h92]
          by_cases h32 : c < 32
          · rw [if_pos h32, bodyEnd_reject _ (by omega) (by simp [bodyStep, h92, h32])]
            rfl
          · rw [if_neg h32, @bodyEnd_step _ 0 _ _ (by omega) (by simp [bodyStep, h92, h32]),
              ih t (by omega)]
            simp only [Option.map_map]
            rfl

theorem bodyEnd_of_parse {s d r : JSString} (h : parseStringBody s = some (d, r)) :
    bodyEnd 0 s = some r := by
  rw [bodyEnd_eq_parse s.length s (le_refl _), h]
  rfl

theorem parse_of_bodyEnd {s r : JSString} (h : bodyEnd 0 s = some r) :
    ∃ d, parseStringBody s = some (d, r) := by
  rw [bodyEnd_eq_parse s.length s (le_refl _)] at h
  cases hp : parseStringBody s with
  | none => rw [hp] at h; simp at h
  | some x =>
    rw [hp] at h
    simp only [Option.map_some', Option.some.injEq] at h
    exact ⟨x.1, by rw [← h]⟩

theorem bodyRun_cons (st c : Nat) (t : JSString) : bodyRun st (c :: t) =
    if st = 0 ∧ c = 34 then none
    else
      match bodyStep st c with
      | some st' => bodyRun st' t
      | none => none :=
  rfl

theorem bodyEnd_append {st st' : Nat} {a : JSString} (h : bodyRun st a = some st')
    (x : JSString) : bodyEnd st (a ++ x) = bodyEnd st' x := by
  induction a generalizing st with
  | nil =>
    rw [bodyRun] at h
    rw [Option.some.inj h]
    rfl
  | cons c t ih =>
    rw [bodyRun_cons] at h
    split at h
    · exact absurd h (by simp)
    · rename_i hc
      cases hs : bodyStep st c with
      | none => rw [hs] at h; exact absurd h (by simp)
      | some st1 =>
        rw [hs] at h
        rw [List.cons_append, bodyEnd_step _ hc hs]
        exact ih h

/-- The machine reads through a run without a quote when it reads the text at
all. -/
theorem bodyRun_of_bodyEnd {a x r : JSString} (ha : ∀ c ∈ a, c ≠ 34) :
    ∀ {st : Nat}, bodyEnd st (a ++ x) = some r →
      ∃ st', bodyRun st a = some st' ∧ bodyEnd st' x = some r := by
  induction a with
  | nil => intro st h; exact ⟨st, by rw [bodyRun], h⟩
  | cons c t ih =>
    intro st h
    have hc : ¬ (st = 0 ∧ c = 34) := fun e => ha c (List.mem_cons_self _ _) e.2
    rw [List.cons_append, bodyEnd_cons, if_neg hc] at h
    cases hs : bodyStep st c with
    | none => rw [hs] at h; exact absurd h (by simp)
    | some st1 =>
      rw [hs] at h
      obtain ⟨st', h1, h2⟩ := ih (fun d hd => ha d (List.mem_cons_of_mem _ hd)) h
      exact ⟨st', by rw [bodyRun_cons, if_neg hc, hs]; exact h1, h2⟩

theorem bodyStep_plain {c : Nat} (h : isTokenChar c = true ∨ c = 46) : bodyStep 0 c = some 0 := by
  have hp := tokenChar_plain (c := c) (h.elim Or.inl (fun e => Or.inr (Or.inl e)))
  simp only [bodyStep]
  rw [if_neg hp.2.2.1, if_neg (by omega)]

theorem bodyRun_tokens {a : JSString} (ha : ∀ c ∈ a, isTokenChar c = true) :
    bodyRun 0 a = some 0 := by
  induction a with
  | nil => rw [bodyRun]
  | cons c t ih =>
    have hc := ha c (List.mem_cons_self _ _)
    have hp := tokenChar_plain (c := c) (Or.inl hc)
    rw [bodyRun_cons, if_neg (fun e => hp.2.1 e.2), bodyStep_plain (Or.inl hc)]
    exact ih (fun d hd => ha d (List.mem_cons_of_mem _ hd))

/-- A dot is read between the characters of a string only. -/
theorem bodyEnd_dot {st : Nat} {y r : JSString} (h : bodyEnd st (46 :: y) = some r) :
    st = 0 ∧ bodyEnd 0 y = some r := by
  rw [bodyEnd_cons, if_neg (by omega)] at h
  match st, h with
  | 0, h => exact ⟨rfl, h⟩
  | 1, h => exact absurd h (by simp [bodyStep, simpleEscape])
  | k + 2, h => exact absurd h (by simp [bodyStep, hexValue])

/-- The parser reads a string of the truncated text where it read one of the text,
and up to the same place. -/
theorem bodyEnd_truncateToken : ∀ (n : Nat) (s : JSString) (st : Nat) (r : JSString),
    s.length ≤ n → bodyEnd st s = some r →
      bodyEnd st (truncateToken s) = some (truncateToken r) := by
  intro n
  induction n with
  | zero =>
    intro s st r hs h
    have : s = [] := List.length_eq_zero.1 (by omega)
    subst this
    rw [bodyEnd_nil] at h
    exact absurd h (by simp)
  | succ n ih =>
    intro s st r hs h
    cases s with
    | nil =>
      rw [bodyEnd_nil] at h
      exact absurd h (by simp)
    | cons c t =>
      simp only [List.length_cons] at hs
      cases hm : matchJwt (c :: t) with
      | none =>
        rw [truncateToken_skip hm]
        rw [bodyEnd_cons] at h ⊢
        by_cases hc : st = 0 ∧ c = 34
        · rw [if_pos hc] at h ⊢
          rw [Option.some.inj h]
        · rw [if_neg hc] at h ⊢
          cases hs1 : bodyStep st c with
          | none => rw [hs1] at h; exact absurd h (by simp)
          | some st1 =>
            rw [hs1] at h
            exact ih t st1 r (by omega) h
      | some m =>
        obtain ⟨p1, rest⟩ := m
        have hl := matchJwt_rest_length hm
        obtain ⟨sig, e, hsig, hp1, -⟩ := matchJwt_parts hm
        rw [truncateToken_match hm]
        rw [e] at h
        have hq : ∀ d ∈ p1, d ≠ 34 := by
          intro d hd
          rcases hp1 d hd with h1 | h1
          · exact (tokenChar_plain (Or.inl h1)).2.1
          · omega
        obtain ⟨st1, h1, h2⟩ := bodyRun_of_bodyEnd hq h
        obtain ⟨rfl, h3⟩ := bodyEnd_dot h2
        rw [bodyEnd_append (bodyRun_tokens hsig)] at h3
        have h4 := ih rest 0 r (by omega) h3
        rw [List.append_assoc, bodyEnd_append h1,
          bodyEnd_append (show bodyRun 0 (lit ".<sig>") = some 0 by decide)]
        exact h4

/-- The parser reads a string of the truncated text where it read one of the
text. -/
theorem parseStringBody_truncateToken {s d r : JSString} (h : parseStringBody s = some (d, r)) :
    ∃ d', parseStringBody (truncateToken s) = some (d', truncateToken r) :=
  parse_of_bodyEnd (bodyEnd_truncateToken s.length s 0 r (le_refl _) (bodyEnd_of_parse h))

theorem parseIntegerPart_truncateToken {s ds r : JSString}
    (h : parseIntegerPart s = some (ds, r)) :
    parseIntegerPart (truncateToken s) = some (ds, truncateToken r) := by
  cases s with
  | nil => simp [parseIntegerPart] at h
  | cons c t =>
    simp only [parseIntegerPart] at h
    by_cases h48 : c = 48
    · rw [if_pos h48] at h
      simp only [Option.some.injEq, Prod.mk.injEq] at h
      obtain ⟨rfl, rfl⟩ := h
      subst h48
      rw [truncateToken_head (by decide)]
      simp [parseIntegerPart]
    · rw [if_neg h48] at h
      by_cases hd : 49 ≤ c ∧ c ≤ 57
      · rw [if_pos hd] at h
        have hc : asciiLower c ≠ 101 := by
          unfold asciiLower
          split <;> omega
        obtain ⟨e1, e2⟩ := truncateToken_dropWhile isDigit digit_not_e t
        rw [truncateToken_head hc]
        simp only [parseIntegerPart]
        rw [if_neg h48, if_pos hd, e2, e1]
        simp only [Option.some.injEq, Prod.mk.injEq] at h
        obtain ⟨rfl, rfl⟩ := h
        rfl
      · rw [if_neg hd] at h
        exact absurd h (by simp)

theorem parseFraction_truncateToken {s fs r : JSString}
    (h : parseFraction s = some (fs, r)) :
    parseFraction (truncateToken s) = some (fs, truncateToken r) := by
  cases s with
  | nil =>
    simp only [parseFraction, Option.some.injEq, Prod.mk.injEq] at h
    obtain ⟨rfl, rfl⟩ := h
    rw [truncateToken_nil]
    rfl
  | cons c t =>
    simp only [parseFraction] at h
    by_cases h46 : c = 46
    · rw [if_pos h46] at h
      subst h46
      obtain ⟨e1, e2⟩ := truncateToken_dropWhile isDigit digit_not_e t
      rw [truncateToken_head (by decide)]
      simp only [parseFraction]
      rw [if_pos trivial, e2, e1]
      split at h
      · exact absurd h (by simp)
      · rename_i hne
        rw [if_neg hne]
        simp only [Option.some.injEq, Prod.mk.injEq] at h
        obtain ⟨rfl, rfl⟩ := h
        rfl
    · rw [if_neg h46] at h
      simp only [Option.some.injEq, Prod.mk.injEq] at h
      obtain ⟨rfl, rfl⟩ := h
      obtain ⟨t', e⟩ := truncateToken_cons_head c t
      rw [e]
      simp only [parseFraction]
      rw [if_neg h46]

theorem parseExponentDigits_truncateToken {neg : Bool} {s r : JSString} {z : Int}
    (h : parseExponentDigits neg s = some (z, r)) :
    parseExponentDigits neg (truncateToken s) = some (z, truncateToken r) := by
  obtain ⟨e1, e2⟩ := truncateToken_dropWhile isDigit digit_not_e s
  unfold parseExponentDigits at h ⊢
  rw [e2, e1]
  split at h
  · exact absurd h (by simp)
  · rename_i hne
    rw [if_neg hne]
    split at h
    · simp only [Option.some.injEq, Prod.mk.injEq] at h
      obtain ⟨rfl, rfl⟩ := h
      rfl
    · exact absurd h (by simp)

theorem parseExponentDigits_head {neg : Bool} {d : Nat} {u r : JSString} {z : Int}
    (h : parseExponentDigits neg (d :: u) = some (z, r)) : isDigit d = true := by
  unfold parseExponentDigits at h
  split at h
  · exact absurd h (by simp)
  · rename_i hne
    cases hd : isDigit d with
    | true => rfl
    | false => simp [List.takeWhile, hd] at hne

/-- No match of the pattern begins at a code unit that no `y` follows. -/
theorem matchJwt_second (c : Nat) {d : Nat} (h : asciiLower d ≠ 121) (t : JSString) :
    matchJwt (c :: d :: t) = none := by
  have hs : matchSegment (c :: d :: t) = none := by
    match t with
    | [] => rfl
    | j :: t' =>
      simp only [matchSegment]
      rw [if_neg (fun hc => h hc.2.1)]
  simp only [matchJwt, hs]

theorem parseExponent_truncateToken {s r : JSString} {z : Int}
    (h : parseExponent s = some (z, r)) :
    parseExponent (truncateToken s) = some (z, truncateToken r) := by
  cases s with
  | nil =>
    simp only [parseExponent, Option.some.injEq, Prod.mk.injEq] at h
    obtain ⟨rfl, rfl⟩ := h
    rw [truncateToken_nil]
    rfl
  | cons c t =>
    simp only [parseExponent] at h
    by_cases hc : c = 101 ∨ c = 69
    · rw [if_pos hc] at h
      cases t with
      | nil => exact absurd h (by simp)
      | cons d u =>
        simp only at h
        by_cases h43 : d = 43
        · rw [if_pos h43] at h
          subst h43
          rw [truncateToken_skip (matchJwt_second c (by decide) u),
            truncateToken_head (by decide)]
          simp only [parseExponent]
          rw [if_pos hc, if_pos trivial]
          exact parseExponentDigits_truncateToken h
        · rw [if_neg h43] at h
          by_cases h45 : d = 45
          · rw [if_pos h45] at h
            subst h45
            rw [truncateToken_skip (matchJwt_second c (by decide) u),
              truncateToken_head (by decide)]
            simp only [parseExponent]
            rw [if_pos hc, if_neg (by decide), if_pos trivial]
            exact parseExponentDigits_truncateToken h
          · rw [if_neg h45] at h
            have hd := parseExponentDigits_head h
            have hne := digit_not_e d hd
            have hy : asciiLower d ≠ 121 := by
              unfold asciiLower
              simp only [isDigit, Bool.and_eq_true, decide_eq_true_eq] at hd
              split <;> omega
            have key := parseExponentDigits_truncateToken h
            rw [truncateToken_head hne] at key
            rw [truncateToken_skip (matchJwt_second c hy u), truncateToken_head hne]
            simp only [parseExponent]
            rw [if_pos hc, if_neg h43, if_neg h45]
            exact key
    · rw [if_neg hc] at h
      simp only [Option.some.injEq, Prod.mk.injEq] at h
      obtain ⟨rfl, rfl⟩ := h
      obtain ⟨t', e⟩ := truncateToken_cons_head c t
      rw [e]
      simp only [parseExponent]
      rw [if_neg hc]

theorem parseUnsigned_truncateToken {neg : Bool} {s r : JSString} {x : JSNum}
    (h : parseUnsigned neg s = some (x, r)) :
    parseUnsigned neg (truncateToken s) = some (x, truncateToken r) := by
  unfold parseUnsigned at h ⊢
  cases h1 : parseIntegerPart s with
  | none => rw [h1] at h; exact absurd h (by simp)
  | some q1 =>
    obtain ⟨ds, r1⟩ := q1
    rw [h1] at h
    rw [parseIntegerPart_truncateToken h1]
    simp only at h ⊢
    cases h2 : parseFraction r1 with
    | none => rw [h2] at h; exact absurd h (by simp)
    | some q2 =>
      obtain ⟨fs, r2⟩ := q2
      rw [h2] at h
      rw [parseFraction_truncateToken h2]
      simp only at h ⊢
      cases h3 : parseExponent r2 with
      | none => rw [h3] at h; exact absurd h (by simp)
      | some q3 =>
        obtain ⟨z, r3⟩ := q3
        rw [h3] at h
        rw [parseExponent_truncateToken h3]
        simp only at h ⊢
        cases h4 : digitsValue 0 (ds ++ fs) with
        | none => rw [h4] at h; exact absurd h (by simp)
        | some v =>
          rw [h4] at h
          simp only [Option.some.injEq, Prod.mk.injEq] at h ⊢
          obtain ⟨rfl, rfl⟩ := h
          exact ⟨rfl, rfl⟩

theorem parseNumber_truncateToken {s r : JSString} {x : JSNum}
    (h : parseNumber s = some (x, r)) :
    parseNumber (truncateToken s) = some (x, truncateToken r) := by
  cases s with
  | nil => simp [parseNumber] at h
  | cons c t =>
    simp only [parseNumber] at h
    by_cases h45 : c = 45
    · rw [if_pos h45] at h
      subst h45
      rw [truncateToken_head (by decide)]
      simp only [parseNumber]
      rw [if_pos trivial]
      exact parseUnsigned_truncateToken h
    · rw [if_neg h45] at h
      have key := parseUnsigned_truncateToken h
      obtain ⟨t', e⟩ := truncateToken_cons_head c t
      rw [e] at key ⊢
      simp only [parseNumber]
      rw [if_neg h45]
      exact key

theorem isPrefixOf_take (p : JSString) : ∀ (x : JSString),
    p.isPrefixOf x = p.isPrefixOf (x.take p.length) := by
  induction p with
  | nil => intro x; simp
  | cons a p ih =>
    intro x
    cases x with
    | nil => simp
    | cons b x =>
      simp only [List.isPrefixOf, List.length_cons, List.take_succ_cons]
      rw [ih x]

/-- The truncation neither makes nor breaks a literal at the head of the text. -/
theorem isPrefixOf_truncateToken (p : JSString) (hp : p.length ≤ 9) (x : JSString) :
    p.isPrefixOf (truncateToken x) = p.isPrefixOf x := by
  rw [isPrefixOf_take p (truncateToken x), isPrefixOf_take p x, truncateToken_take _ hp]

theorem eq_append_of_isPrefixOf {p : JSString} : ∀ {x : JSString},
    p.isPrefixOf x = true → x = p ++ x.drop p.length := by
  induction p with
  | nil => intro x _; rfl
  | cons a p ih =>
    intro x h
    cases x with
    | nil => simp at h
    | cons b x =>
      simp only [List.isPrefixOf, Bool.and_eq_true, beq_iff_eq] at h
      obtain ⟨rfl, h2⟩ := h
      simp only [List.length_cons, List.drop_succ_cons, List.cons_append, List.cons.injEq,
        true_and]
      exact ih h2

/-- A literal before a text that does not go on with a character of the class is
left as it is. -/
theorem literal_truncateToken {p : JSString} (hp : ∃ a b, p = a ++ [b]
    ∧ ∀ c ∈ a, asciiLower c ≠ 101) {x : JSString} (h : p.isPrefixOf x = true)
    (hb : Barrier (x.drop p.length)) :
    (truncateToken x).drop p.length = truncateToken (x.drop p.length) := by
  obtain ⟨a, b, rfl, ha⟩ := hp
  have e := eq_append_of_isPrefixOf h
  have e2 : truncateToken x
      = (a ++ [b]) ++ truncateToken (x.drop (a ++ [b]).length) := by
    conv_lhs => rw [e]
    rw [List.append_assoc, truncateToken_noE_append _ _ ha]
    simp only [List.singleton_append, List.append_assoc]
    rw [truncateToken_cons_barrier b hb]
  rw [e2, List.drop_left]

theorem barrier_of_skipWs {r : JSString} {c : Nat} {t : JSString} (h : skipWs r = c :: t)
    (hc : isTokenChar c = false) : Barrier r := by
  intro d hd
  cases r with
  | nil => simp at hd
  | cons x r' =>
    simp only [List.head?_cons, Option.some.injEq] at hd
    subst hd
    by_cases hx : isWs x = true
    · simp only [isWs, Bool.or_eq_true, beq_iff_eq] at hx
      rcases hx with ((rfl | rfl) | rfl) | rfl <;> decide
    · simp only [skipWs, List.dropWhile_cons, hx, Bool.false_eq_true, ↓reduceIte,
        List.cons.injEq] at h
      rw [h.1]
      exact hc

theorem barrier_of_skipWs_nil {r : JSString} (h : skipWs r = []) : Barrier r := by
  intro d hd
  cases r with
  | nil => simp at hd
  | cons x r' =>
    simp only [List.head?_cons, Option.some.injEq] at hd
    subst hd
    by_cases hx : isWs x = true
    · simp only [isWs, Bool.or_eq_true, beq_iff_eq] at hx
      rcases hx with ((rfl | rfl) | rfl) | rfl <;> decide
    · simp [skipWs, List.dropWhile_cons, hx] at h

theorem skipWs_truncateToken_cons {s : JSString} {c : Nat} {t : JSString}
    (h : skipWs s = c :: t) (hc : asciiLower c ≠ 101) :
    skipWs (truncateToken s) = c :: truncateToken t := by
  rw [skipWs_truncateToken, h, truncateToken_head hc]

theorem skipWs_truncateToken_head (s : JSString) :
    (skipWs (truncateToken s)).head? = (skipWs s).head? := by
  rw [skipWs_truncateToken]
  cases skipWs s with
  | nil => rw [truncateToken_nil]
  | cons c t =>
    obtain ⟨t', e⟩ := truncateToken_cons_head c t
    rw [e]
    rfl

/-- The parser reads the truncated text as it reads the text: a value, the
elements of an array and the members of an object end at the same place. -/
theorem parse_truncateToken : ∀ (f : Nat),
    (∀ s v r, parseValue f s = some (v, r) → Barrier r →
      ∃ v', parseValue f (truncateToken s) = some (v', truncateToken r))
    ∧ (∀ s vs r, parseElements f s = some (vs, r) →
      ∃ vs', parseElements f (truncateToken s) = some (vs', truncateToken r))
    ∧ (∀ s ms r, parseMembers f s = some (ms, r) →
      ∃ ms', parseMembers f (truncateToken s) = some (ms', truncateToken r)) := by
  intro f
  induction f with
  | zero =>
    refine ⟨?_, ?_, ?_⟩
    · intro s v r h; simp [parseValue] at h
    · intro s v r h; simp [parseElements] at h
    · intro s v r h; simp [parseMembers] at h
  | succ f ih =>
    obtain ⟨ihv, ihe, ihm⟩ := ih
    refine ⟨?_, ?_, ?_⟩
    · intro s v r h hb
      rw [parseValue] at h ⊢
      cases hs : skipWs s with
      | nil => rw [hs] at h; exact absurd h (by simp)
      | cons c t =>
        rw [hs] at h
        obtain ⟨t', ht'⟩ := truncateToken_cons_head c t
        have hsT : skipWs (truncateToken s) = c :: t' := by
          rw [skipWs_truncateToken, hs, ht']
        rw [hsT]
        simp only at h ⊢
        by_cases h34 : c = 34
        · rw [if_pos h34] at h ⊢
          subst h34
          have e : t' = truncateToken t := by
            rw [truncateToken_head (by decide)] at ht'
            exact (List.cons.inj ht').2.symm
          subst e
          cases hp : parseStringBody t with
          | none => rw [hp] at h; exact absurd h (by simp)
          | some q =>
            obtain ⟨d, r1⟩ := q
            rw [hp] at h
            simp only [Option.map_some', Option.some.injEq, Prod.mk.injEq] at h
            obtain ⟨-, rfl⟩ := h
            obtain ⟨d', hd'⟩ := parseStringBody_truncateToken hp
            exact ⟨.str d', by rw [hd']; rfl⟩
        rw [if_neg h34] at h ⊢
        by_cases h91 : c = 91
        · rw [if_pos h91] at h ⊢
          subst h91
          have e : t' = truncateToken t := by
            rw [truncateToken_head (by decide)] at ht'
            exact (List.cons.inj ht').2.symm
          subst e
          rw [skipWs_truncateToken_head]
          split at h
          · rename_i hh
            rw [if_pos hh]
            simp only [Option.some.injEq, Prod.mk.injEq] at h
            obtain ⟨-, rfl⟩ := h
            refine ⟨.arr [], ?_⟩
            cases hst : skipWs t with
            | nil => rw [hst] at hh; simp at hh
            | cons x y =>
              rw [hst] at hh
              simp only [List.head?_cons, Option.some.injEq] at hh
              subst hh
              rw [skipWs_truncateToken_cons hst (by decide)]
              rfl
          · rename_i hh
            rw [if_neg hh]
            cases he : parseElements f t with
            | none => rw [he] at h; exact absurd h (by simp)
            | some q =>
              obtain ⟨vs, r1⟩ := q
              rw [he] at h
              simp only [Option.map_some', Option.some.injEq, Prod.mk.injEq] at h
              obtain ⟨-, rfl⟩ := h
              obtain ⟨vs', hv'⟩ := ihe t vs r1 he
              exact ⟨.arr vs', by rw [hv']; rfl⟩
        rw [if_neg h91] at h ⊢
        by_cases h123 : c = 123
        · rw [if_pos h123] at h ⊢
          subst h123
          have e : t' = truncateToken t := by
            rw [truncateToken_head (by decide)] at ht'
            exact (List.cons.inj ht').2.symm
          subst e
          rw [skipWs_truncateToken_head]
          split at h
          · rename_i hh
            rw [if_pos hh]
            simp only [Option.some.injEq, Prod.mk.injEq] at h
            obtain ⟨-, rfl⟩ := h
            refine ⟨.obj [], ?_⟩
            cases hst : skipWs t with
            | nil => rw [hst] at hh; simp at hh
            | cons x y =>
              rw [hst] at hh
              simp only [List.head?_cons, Option.some.injEq] at hh
              subst hh
              rw [skipWs_truncateToken_cons hst (by decide)]
              rfl
          · rename_i hh
            rw [if_neg hh]
            cases he : parseMembers f t with
            | none => rw [he] at h; exact absurd h (by simp)
            | some q =>
              obtain ⟨ms, r1⟩ := q
              rw [he] at h
              simp only [Option.map_some', Option.some.injEq, Prod.mk.injEq] at h
              obtain ⟨-, rfl⟩ := h
              obtain ⟨ms', hm'⟩ := ihm t ms r1 he
              exact ⟨.obj (objectOfMembers ms'), by rw [hm']; rfl⟩
        rw [if_neg h123] at h ⊢
        have p1 := isPrefixOf_truncateToken (lit "true") (by decide) (c :: t)
        have p2 := isPrefixOf_truncateToken (lit "false") (by decide) (c :: t)
        have p3 := isPrefixOf_truncateToken (lit "null") (by decide) (c :: t)
        rw [ht'] at p1 p2 p3
        rw [p1, p2, p3]
        by_cases ht : (lit "true").isPrefixOf (c :: t) = true
        · rw [if_pos ht] at h ⊢
          simp only [Option.some.injEq, Prod.mk.injEq] at h
          obtain ⟨-, rfl⟩ := h
          refine ⟨.bool true, ?_⟩
          have := literal_truncateToken (p := lit "true")
            ⟨lit "tru", 101, by decide, by decide⟩ ht hb
          rw [ht'] at this
          exact congrArg some (congrArg (Prod.mk _) this)
        rw [if_neg ht] at h ⊢
        by_cases hf : (lit "false").isPrefixOf (c :: t) = true
        · rw [if_pos hf] at h ⊢
          simp only [Option.some.injEq, Prod.mk.injEq] at h
          obtain ⟨-, rfl⟩ := h
          refine ⟨.bool false, ?_⟩
          have := literal_truncateToken (p := lit "false")
            ⟨lit "fals", 101, by decide, by decide⟩ hf hb
          rw [ht'] at this
          exact congrArg some (congrArg (Prod.mk _) this)
        rw [if_neg hf] at h ⊢
        by_cases hn : (lit "null").isPrefixOf (c :: t) = true
        · rw [if_pos hn] at h ⊢
          simp only [Option.some.injEq, Prod.mk.injEq] at h
          obtain ⟨-, rfl⟩ := h
          refine ⟨.null, ?_⟩
          have := literal_truncateToken (p := lit "null")
            ⟨lit "nul", 108, by decide, by decide⟩ hn hb
          rw [ht'] at this
          exact congrArg some (congrArg (Prod.mk _) this)
        rw [if_neg hn] at h ⊢
        cases hp : parseNumber (c :: t) with
        | none => rw [hp] at h; exact absurd h (by simp)
        | some q =>
          obtain ⟨n, r1⟩ := q
          rw [hp] at h
          simp only [Option.map_some', Option.some.injEq, Prod.mk.injEq] at h
          obtain ⟨-, rfl⟩ := h
          have := parseNumber_truncateToken hp
          rw [ht'] at this
          rw [this]
          exact ⟨_, rfl⟩
    · intro s vs r h
      rw [parseElements] at h ⊢
      cases hv : parseValue f s with
      | none => rw [hv] at h; exact absurd h (by simp)
      | some q =>
        obtain ⟨v, r1⟩ := q
        rw [hv] at h
        simp only at h
        cases hs : skipWs r1 with
        | nil => rw [hs] at h; exact absurd h (by simp)
        | cons c t =>
          rw [hs] at h
          simp only at h
          by_cases h44 : c = 44
          · subst h44
            rw [if_pos rfl] at h
            obtain ⟨v', hv'⟩ := ihv s v r1 hv (barrier_of_skipWs hs (by decide))
            rw [hv']
            simp only
            rw [skipWs_truncateToken_cons hs (by decide)]
            simp only
            rw [if_pos trivial]
            cases he : parseElements f t with
            | none => rw [he] at h; exact absurd h (by simp)
            | some q =>
              obtain ⟨ws, r2⟩ := q
              rw [he] at h
              simp only [Option.map_some', Option.some.injEq, Prod.mk.injEq] at h
              obtain ⟨-, rfl⟩ := h
              obtain ⟨ws', hw'⟩ := ihe t ws r2 he
              exact ⟨v' :: ws', by rw [hw']; rfl⟩
          · rw [if_neg h44] at h
            by_cases h93 : c = 93
            · subst h93
              rw [if_pos rfl] at h
              simp only [Option.some.injEq, Prod.mk.injEq] at h
              obtain ⟨-, rfl⟩ := h
              obtain ⟨v', hv'⟩ := ihv s v r1 hv (barrier_of_skipWs hs (by decide))
              rw [hv']
              simp only
              rw [skipWs_truncateToken_cons hs (by decide)]
              simp only
              rw [if_pos trivial]
              exact ⟨_, rfl⟩
            · rw [if_neg h93] at h
              exact absurd h (by simp)
    · intro s ms r h
      rw [parseMembers] at h ⊢
      cases hs : skipWs s with
      | nil => rw [hs] at h; exact absurd h (by simp)
      | cons c t =>
        rw [hs] at h
        simp only at h
        by_cases h34 : c = 34
        · subst h34
          rw [if_pos rfl] at h
          rw [skipWs_truncateToken_cons hs (by decide)]
          simp only
          rw [if_pos trivial]
          cases hk : parseStringBody t with
          | none => rw [hk] at h; exact absurd h (by simp)
          | some kr =>
            obtain ⟨k, r1⟩ := kr
            rw [hk] at h
            simp only at h
            obtain ⟨k', hk'⟩ := parseStringBody_truncateToken hk
            rw [hk']
            simp only
            cases hs2 : skipWs r1 with
            | nil => rw [hs2] at h; exact absurd h (by simp)
            | cons c2 t2 =>
              rw [hs2] at h
              simp only at h
              by_cases h58 : c2 = 58
              · subst h58
                rw [if_pos rfl] at h
                rw [skipWs_truncateToken_cons hs2 (by decide)]
                simp only
                rw [if_pos trivial]
                cases hv : parseValue f t2 with
                | none => rw [hv] at h; exact absurd h (by simp)
                | some q =>
                  obtain ⟨v, r2⟩ := q
                  rw [hv] at h
                  simp only at h
                  cases hs3 : skipWs r2 with
                  | nil => rw [hs3] at h; exact absurd h (by simp)
                  | cons c3 t3 =>
                    rw [hs3] at h
                    simp only at h
                    by_cases h44 : c3 = 44
                    · subst h44
                      rw [if_pos rfl] at h
                      obtain ⟨v', hv'⟩ := ihv t2 v r2 hv (barrier_of_skipWs hs3 (by decide))
                      rw [hv']
                      simp only
                      rw [skipWs_truncateToken_cons hs3 (by decide)]
                      simp only
                      rw [if_pos trivial]
                      cases he : parseMembers f t3 with
                      | none => rw [he] at h; exact absurd h (by simp)
                      | some q =>
                        obtain ⟨ws, r3⟩ := q
                        rw [he] at h
                        simp only [Option.map_some', Option.some.injEq, Prod.mk.injEq] at h
                        obtain ⟨-, rfl⟩ := h
                        obtain ⟨ws', hw'⟩ := ihm t3 ws r3 he
                        exact ⟨(k', v') :: ws', by rw [hw']; rfl⟩
                    · rw [if_neg h44] at h
                      by_cases h125 : c3 = 125
                      · subst h125
                        rw [if_pos rfl] at h
                        simp only [Option.some.injEq, Prod.mk.injEq] at h
                        obtain ⟨-, rfl⟩ := h
                        obtain ⟨v', hv'⟩ := ihv t2 v r2 hv (barrier_of_skipWs hs3 (by decide))
                        rw [hv']
                        simp only
                        rw [skipWs_truncateToken_cons hs3 (by decide)]
                        simp only
                        rw [if_pos trivial]
                        exact ⟨_, rfl⟩
                      · rw [if_neg h125] at h
                        exact absurd h (by simp)
              · rw [if_neg h58] at h
                exact absurd h (by simp)
        · rw [if_neg h34] at h
          exact absurd h (by simp)

theorem marks_append (a b : JSString) : marks (a ++ b) = marks a + marks b := by
  simp only [marks, List.count_append]
  omega

theorem marks_cons (c : Nat) (a : JSString) : marks (c :: a) = marks [c] + marks a :=
  marks_append [c] a

theorem marks_le_length (s : JSString) : marks s ≤ s.length := by
  induction s with
  | nil => simp [marks]
  | cons c t ih =>
    rw [marks_cons]
    have : marks [c] ≤ 1 := by
      by_cases h1 : c = 44
      · subst h1; decide
      · by_cases h2 : c = 91
        · subst h2; decide
        · by_cases h3 : c = 123
          · subst h3; decide
          · simp [marks, List.count_cons, h1, h2, h3]
    simp only [List.length_cons]
    omega

theorem marks_truncateToken (s : JSString) : marks (truncateToken s) = marks s := by
  simp only [marks]
  rw [truncateToken_count 44 (by decide) (by decide) (by decide) (by decide) s.length s
      (le_refl _),
    truncateToken_count 91 (by decide) (by decide) (by decide) (by decide) s.length s
      (le_refl _),
    truncateToken_count 123 (by decide) (by decide) (by decide) (by decide) s.length s
      (le_refl _)]

theorem joinWith_marks (sep : JSString) (hs : 1 ≤ marks sep) (ms : List JSString) :
    (ms.map (fun m => marks m + 1)).sum ≤ marks (joinWith sep ms) + 1 := by
  induction ms with
  | nil => simp
  | cons x ms ih =>
    cases ms with
    | nil => simp [joinWith]
    | cons y t =>
      simp only [joinWith, List.map_cons, List.sum_cons, marks_append] at ih ⊢
      omega

theorem wrapMembers_marks (gap stepback : JSString) (opening closing : Nat)
    (ho : marks [opening] = 1) (ms : List JSString) :
    (ms.map (fun m => marks m + 1)).sum ≤ marks (wrapMembers gap stepback opening closing ms) := by
  cases ms with
  | nil => simp
  | cons x t =>
    simp only [wrapMembers]
    split
    · have := joinWith_marks [44] (by decide) (x :: t)
      rw [marks_append, marks_cons, ho]
      omega
    · have := joinWith_marks (44 :: 10 :: (stepback ++ gap))
        (by rw [marks_cons]; have : marks [44] = 1 := by decide
            omega) (x :: t)
      rw [marks_append, marks_append, marks_append, marks_cons, ho]
      omega

mutual
theorem parseDepth_le_marks (gap : JSString) :
    ∀ (indent : JSString) (t : JSVal), parseDepth t ≤ 2 * marks (render gap indent t) + 1
  | indent, .undefined => by simp only [parseDepth]; omega
  | indent, .null => by simp only [parseDepth]; omega
  | indent, .bool b => by simp only [parseDepth]; omega
  | indent, .num n => by simp only [parseDepth]; omega
  | indent, .str s => by simp only [parseDepth]; omega
  | indent, .arr xs => by
    have h1 := parseDepthList_le_marks gap (indent ++ gap) xs
    have h2 := wrapMembers_marks gap indent 91 93 (by decide)
      (renderList gap (indent ++ gap) xs)
    simp only [parseDepth, render]
    omega
  | indent, .obj ps => by
    have h1 := parseDepthProps_le_marks gap (indent ++ gap) ps
    have h2 := wrapMembers_marks gap indent 123 125 (by decide)
      (renderProps gap (indent ++ gap) ps)
    simp only [parseDepth, render]
    omega
theorem parseDepthList_le_marks (gap : JSString) :
    ∀ (indent : JSString) (xs : List JSVal),
      parseDepthList xs ≤ 2 * ((renderList gap indent xs).map (fun m => marks m + 1)).sum
  | _, [] => by simp [parseDepthList]
  | indent, x :: xs => by
    have h1 := parseDepth_le_marks gap indent x
    have h2 := parseDepthList_le_marks gap indent xs
    simp only [parseDepthList, renderList, List.map_cons, List.sum_cons]
    omega
theorem parseDepthProps_le_marks (gap : JSString) :
    ∀ (indent : JSString) (ps : Props),
      parseDepthProps ps ≤ 2 * ((renderProps gap indent ps).map (fun m => marks m + 1)).sum
  | _, [] => by simp [parseDepthProps]
  | indent, kv :: ps => by
    have h1 := parseDepth_le_marks gap indent kv.2
    have h2 := parseDepthProps_le_marks gap indent ps
    simp only [parseDepthProps, renderProps, List.map_cons, List.sum_cons, marks_append]
    omega
end

/-- The truncated text of a tree parses. -/
theorem jsonParse_truncateToken_render (gap : JSString) (hg : allWs gap = true) (t : JSVal)
    (hdef : defined t = true) (hwf : wellFormed t = true) :
    ∃ t', jsonParse (truncateToken (render gap [] t)) = some t' := by
  have h := (roundTrip gap hg (parseDepth t)).1 t (le_refl _) hdef hwf [] [] [] rfl rfl
    (by intro c hc; simp at hc)
  simp only [List.nil_append, List.append_nil] at h
  obtain ⟨t', ht'⟩ := (parse_truncateToken (parseDepth t)).1 _ _ _ h
    (by intro c hc; simp at hc)
  rw [truncateToken_nil] at ht'
  have h1 := parseDepth_le_marks gap [] t
  have h2 := marks_truncateToken (render gap [] t)
  have h3 := marks_le_length (truncateToken (render gap [] t))
  have := parseValue_mono (g := 2 * (truncateToken (render gap [] t)).length + 2) (by omega) ht'
  exact ⟨t', by simp [jsonParse, this, skipWs]⟩

/-- C14: the string that `log` hands to the sink for a message that is neither
rejected nor suppressed parses as JSON, both when it is the truncated text of the
payload and when it is the text of the summary. -/
theorem emitted_line_parses (self : RequestLogger) (version : JSString) (message : JSVal)
    (hm : wellFormed (.obj self.metadata) = true) (hw : wellFormed message = true)
    (ha : accepted message = true)
    (hd : (isDebug (getProp (lit "level") (namedProps message)) && !self.logDebug) = false) :
    ∃ line tree, log self version message = .emitted line ∧ jsonParse line = some tree := by
  obtain ⟨qs, idv, oi, -, -, h3, h4, -, -, h7, h8⟩ := log_cases self version message hm hw ha hd
  by_cases hl : 131072 ≤ (truncateToken (render (lit "  ") [] (.obj qs))).length
  · rw [if_pos hl] at h8
    exact ⟨_, _, h8, h7⟩
  · rw [if_neg hl] at h8
    obtain ⟨t', ht'⟩ := jsonParse_truncateToken_render (lit "  ") (by decide) _ h3 h4
    exact ⟨_, t', h8, ht'⟩

theorem emitted_line_parses_witness :
    wellFormed (.obj RequestLogger.constructor.metadata) = true
      ∧ wellFormed (.obj [(lit "token", .str (lit "eyJabcde.eyJfghij.s1g"))]) = true
      ∧ accepted (.obj [(lit "token", .str (lit "eyJabcde.eyJfghij.s1g"))]) = true
      ∧ (isDebug (getProp (lit "level")
            (namedProps (.obj [(lit "token", .str (lit "eyJabcde.eyJfghij.s1g"))])))
          && !RequestLogger.constructor.logDebug) = false
      ∧ ∃ line tree,
        log RequestLogger.constructor (lit "v20.1.0")
            (.obj [(lit "token", .str (lit "eyJabcde.eyJfghij.s1g"))]) = .emitted line
        ∧ jsonParse line = some tree :=
  ⟨by decide, by decide, by decide, by decide,
    emitted_line_parses RequestLogger.constructor (lit "v20.1.0")
      (.obj [(lit "token", .str (lit "eyJabcde.eyJfghij.s1g"))]) (by decide) (by decide)
      (by decide) (by decide)⟩

/-! ## A token after any text -/

theorem clearBefore_suffix (keep rest : JSString) : ∀ (a b : JSString),
    clearBefore keep rest (a ++ b) = true → clearBefore keep rest b = true
  | [], _, h => h
  | c :: a, b, h => by
    rw [List.cons_append, clearBefore, Bool.and_eq_true] at h
    exact clearBefore_suffix keep rest a b h.2

theorem split_of_length_le {α : Type} {a b m r : List α} (h : a ++ b = m ++ r)
    (hl : b.length ≤ r.length) : ∃ t, r = t ++ b ∧ a = m ++ t := by
  rcases List.append_eq_append_iff.1 h with ⟨x, rfl, rfl⟩ | ⟨x, rfl, rfl⟩
  · have : x = [] := by
      simp only [List.length_append] at hl
      exact List.length_eq_zero.1 (by omega)
    subst this
    exact ⟨[], by simp, by simp⟩
  · exact ⟨x, rfl, rfl⟩

theorem truncateToken_after_text (h p sig post : JSString) (hh : IsSegment h)
    (hp : IsSegment p) (hs : ∀ c ∈ sig, isTokenChar c = true) :
    ∀ (n : Nat) (pre : JSString), pre.length ≤ n →
      clearBefore (h ++ 46 :: p) (h ++ 46 :: (p ++ 46 :: (sig ++ post))) pre = true →
      ∃ out, truncateToken (pre ++ (h ++ 46 :: (p ++ 46 :: (sig ++ post))))
        = out ++ (h ++ 46 :: p) ++ lit ".<sig>" ++ truncateToken (post.dropWhile isTokenChar) := by
  intro n
  induction n with
  | zero =>
    intro pre hl _
    have : pre = [] := List.length_eq_zero.1 (by omega)
    subst this
    exact ⟨[], truncateToken_embedded [] h p sig post (by simp) hh hp hs⟩
  | succ n ih =>
    intro pre hl hc
    cases pre with
    | nil => exact ⟨[], truncateToken_embedded [] h p sig post (by simp) hh hp hs⟩
    | cons c t =>
      have hc0 := hc
      rw [clearBefore, Bool.and_eq_true] at hc
      obtain ⟨hc1, hc2⟩ := hc
      have hlt : t.length ≤ n := by simp only [List.length_cons] at hl; omega
      cases hm : matchJwt (c :: t ++ (h ++ 46 :: (p ++ 46 :: (sig ++ post)))) with
      | none =>
        obtain ⟨out, ho⟩ := ih t hlt hc2
        refine ⟨c :: out, ?_⟩
        rw [List.cons_append, truncateToken_skip (by simpa using hm), ho]
        simp
      | some pr =>
        obtain ⟨p1, r⟩ := pr
        rw [hm] at hc1
        obtain ⟨sg, e, hsg, -, hr⟩ := matchJwt_parts hm
        rw [truncateToken_match hm]
        rcases Bool.or_eq_true_iff.1 hc1 with hlen | hkeep
        · have hlen := of_decide_eq_true hlen
          have e2 : (c :: t) ++ (h ++ 46 :: (p ++ 46 :: (sig ++ post)))
              = (p1 ++ 46 :: sg) ++ r := by
            rw [e]; simp
          obtain ⟨t2, rfl, e3⟩ := split_of_length_le e2 hlen
          have hl2 : t2.length ≤ n := by
            have := congrArg List.length e3
            simp only [List.length_cons, List.length_append] at this hl
            omega
          have hc3 : clearBefore (h ++ 46 :: p) (h ++ 46 :: (p ++ 46 :: (sig ++ post))) t2
              = true := by
            rw [e3] at hc0
            exact clearBefore_suffix _ _ _ _ hc0
          obtain ⟨out, ho⟩ := ih t2 hl2 hc3
          refine ⟨p1 ++ lit ".<sig>" ++ out, ?_⟩
          rw [ho]
          simp
        · have hkeep : p1 = c :: t ++ (h ++ 46 :: p) := by simpa using hkeep
          subst hkeep
          have e2 : sig ++ post = sg ++ r := by
            have e3 : (c :: t ++ (h ++ 46 :: p)) ++ (46 :: (sig ++ post))
                = (c :: t ++ (h ++ 46 :: p)) ++ (46 :: (sg ++ r)) := by
              rw [← e]; simp
            exact List.cons.inj (List.append_cancel_left e3) |>.2
          have d1 : (sig ++ post).dropWhile isTokenChar = post.dropWhile isTokenChar :=
            List.dropWhile_append_of_pos hs
          have d2 : (sg ++ r).dropWhile isTokenChar = r := (takeWhile_append_stop hsg hr).2
          have e4 : r = post.dropWhile isTokenChar := by rw [← d2, ← e2, d1]
          exact ⟨c :: t, by rw [e4]⟩

/-- C2, as stated, fails: the truncation of the token `eyJabcde.eyJfghij.sig` still
contains the signature segment `sig`, inside the literal `.<sig>` that replaces
it; and a token that stands after a text is not always truncated: in
`eyJaaaaa.eyJbbbbb.eyJccccc.sig` a match that begins before the token
`eyJbbbbb.eyJccccc.sig` takes its header as payload and its payload as
signature, and the output holds neither `eyJbbbbb.eyJccccc.<sig>` nor any
replacement of `sig`. -/
theorem truncateToken_keeps_sig_letters :
    truncateToken (lit "eyJabcde.eyJfghij.sig") = lit "eyJabcde.eyJfghij.<sig>"
      ∧ containsSub (lit "sig") (truncateToken (lit "eyJabcde.eyJfghij.sig")) = true
      ∧ truncateToken (lit "eyJaaaaa." ++ lit "eyJbbbbb.eyJccccc.sig")
          = lit "eyJaaaaa.eyJbbbbb.<sig>.sig"
      ∧ containsSub (lit "eyJbbbbb.eyJccccc.<sig>")
          (truncateToken (lit "eyJaaaaa." ++ lit "eyJbbbbb.eyJccccc.sig")) = false
      ∧ clearBefore (lit "eyJbbbbb.eyJccccc") (lit "eyJbbbbb.eyJccccc.sig")
          (lit "eyJaaaaa.") = false := by
  decide

/-- C2, amended: let a token `H.P.S` stand after a text, dots or not, such that
every match of the pattern that begins in the text ends in the text or keeps
the text from there through `H.P`. Then the truncation writes `H.P.<sig>` for
the token: `H.P` is kept, `.<sig>` stands in place of the dot, the signature and
all characters of the class that follow, and the truncation goes on after them. -/
theorem truncateToken_replaces_signature (pre h p sig post : JSString)
    (hh : IsSegment h) (hp : IsSegment p) (hs : ∀ c ∈ sig, isTokenChar c = true)
    (hpre : clearBefore (h ++ 46 :: p) (h ++ 46 :: (p ++ 46 :: (sig ++ post))) pre = true) :
    ∃ out, truncateToken (pre ++ (h ++ 46 :: (p ++ 46 :: (sig ++ post))))
      = out ++ (h ++ 46 :: p) ++ lit ".<sig>" ++ truncateToken (post.dropWhile isTokenChar) :=
  truncateToken_after_text h p sig post hh hp hs pre.length pre (Nat.le_refl _) hpre

theorem truncateToken_replaces_signature_witness :
    IsSegment (lit "eyJabcde") ∧ IsSegment (lit "eyJfghij")
      ∧ (∀ c ∈ lit "s1g", isTokenChar c = true)
      ∧ clearBefore (lit "eyJabcde" ++ 46 :: lit "eyJfghij")
          (lit "eyJabcde" ++ 46 :: (lit "eyJfghij" ++ 46 :: (lit "s1g" ++ lit "&v=1.2")))
          (lit "https://a.example.org/v1.2/?t=") = true
      ∧ ∃ out, truncateToken (lit "https://a.example.org/v1.2/?t=" ++ (lit "eyJabcde" ++ 46 ::
            (lit "eyJfghij" ++ 46 :: (lit "s1g" ++ lit "&v=1.2"))))
          = out ++ (lit "eyJabcde" ++ 46 :: lit "eyJfghij") ++ lit ".<sig>"
              ++ truncateToken ((lit "&v=1.2").dropWhile isTokenChar) :=
  ⟨⟨lit "abcde", by decide, by decide, by decide⟩,
    ⟨lit "fghij", by decide, by decide, by decide⟩, by decide, by decide,
    truncateToken_replaces_signature (lit "https://a.example.org/v1.2/?t=") (lit "eyJabcde")
      (lit "eyJfghij") (lit "s1g") (lit "&v=1.2") ⟨lit "abcde", by decide, by decide, by decide⟩
      ⟨lit "fghij", by decide, by decide, by decide⟩ (by decide) (by decide)⟩

/-! ## The summary branch at a message of 131072 spaces -/

/-- The two-space text of the payload of a string message with 131072 spaces or more
that no rule rewrites is too long after the truncation too. -/
theorem string_payload_long (self : RequestLogger) (version s : JSString)
    (hm : wellFormed (.obj self.metadata) = true) (hs : s ≠ [])
    (hp : ∀ c ∈ s, 32 ≤ c ∧ c ≠ 34 ∧ c ≠ 92 ∧ ¬ (55296 ≤ c ∧ c ≤ 57343))
    (hk : redacted (lit "title") (.str s) = some (some (.str s)))
    (hbig : 131072 ≤ s.count 32) {text : JSString}
    (ht : stringify (logPayload self version (.str s)) (lit "  ") = some (some text)) :
    131072 ≤ (truncateToken text).length := by
  have ha : accepted (.str s) = true := by
    cases s with
    | nil => exact absurd rfl hs
    | cons c t => rfl
  obtain ⟨qs, idv, oi, h1, h2, -, -, -, -, -, -⟩ :=
    log_cases self version (.str s) hm rfl ha rfl
  have e : text = render (lit "  ") [] (.obj qs) := by
    have := (h1 (lit "  ")).symm.trans ht
    exact (Option.some.inj (Option.some.inj this)).symm
  subst e
  have hw := title_within_payload self version s hm hk h2 (lit "  ")
  have a1 := List.count_le_length 32 (truncateToken (render (lit "  ") [] (.obj qs)))
  have a2 := truncateToken_count_space (render (lit "  ") [] (.obj qs))
  have a3 := hw.count_le 32
  have a4 := count_le_quote s hp 32
  omega

theorem spaces_payload_long (version : JSString) (n : Nat) (hn : 131072 ≤ n + 1)
    {text : JSString}
    (ht : stringify (logPayload RequestLogger.constructor version
      (.str (List.replicate (n + 1) 32))) (lit "  ") = some (some text)) :
    131072 ≤ (truncateToken text).length :=
  string_payload_long RequestLogger.constructor version (List.replicate (n + 1) 32)
    (by decide) (by rw [List.replicate_succ]; exact List.cons_ne_nil _ _) (spaces_plain _)
    (by rw [List.replicate_succ]; exact redacted_title_kept 32 _ (by decide) (by decide))
    (by rw [spaces_count]; exact hn) ht

theorem oversized_payload_replaced_witness :
    wellFormed (.obj RequestLogger.constructor.metadata) = true
      ∧ wellFormed (.str (List.replicate (131071 + 1) 32)) = true
      ∧ accepted (.str (List.replicate (131071 + 1) 32)) = true
      ∧ (isDebug (getProp (lit "level") (namedProps (.str (List.replicate (131071 + 1) 32))))
          && !RequestLogger.constructor.logDebug) = false
      ∧ ∃ text compact line idv oi kept rest,
        stringify (logPayload RequestLogger.constructor (lit "v20.1.0")
            (.str (List.replicate (131071 + 1) 32))) (lit "  ") = some (some text)
        ∧ stringify (logPayload RequestLogger.constructor (lit "v20.1.0")
            (.str (List.replicate (131071 + 1) 32))) [] = some (some compact)
        ∧ 131072 ≤ (truncateToken text).length
        ∧ log RequestLogger.constructor (lit "v20.1.0")
            (.str (List.replicate (131071 + 1) 32)) = .emitted line
        ∧ jsonParse line = some (.obj [(lit "invocationId", idv),
            (lit "message", .obj [(lit "title", .str (lit "Payload too large")),
              (lit "level", .str (lit "ERROR")),
              (lit "originalInfo", .obj oi),
              (lit "truncatedPayload", .str kept)])])
        ∧ kept.length ≤ 40000 ∧ truncateToken compact = kept ++ rest := by
  obtain ⟨text, compact, h1, h2, h3, -⟩ :=
    oversized_payload_replaced RequestLogger.constructor (lit "v20.1.0")
      (.str (List.replicate (131071 + 1) 32)) (by decide) rfl rfl rfl
  have hl := spaces_payload_long (lit "v20.1.0") 131071 (le_refl _) h1
  obtain ⟨line, idv, oi, kept, rest, g1, g2, g3, g4⟩ := h3 hl
  exact ⟨by decide, rfl, rfl, rfl, text, compact, line, idv, oi, kept, rest, h1, h2, hl, g1, g2,
    g3, g4⟩

/-! ## The original information of the summary -/

theorem wellFormed_arr_strs (ks : List JSString) :
    wellFormed (.arr (ks.map .str)) = true := by
  have : ∀ l : List JSString, wellFormedList (l.map .str) = true := by
    intro l
    induction l with
    | nil => rfl
    | cons k l ih => simp only [List.map_cons, wellFormedList, wellFormed, ih, Bool.and_self]
  simp only [wellFormed, this]

theorem allSome_indexProps_fixed {go : JSString → JSVal → Option (Option JSVal)} :
    ∀ (xs : List JSVal) (i : Nat),
      (∀ kv ∈ indexProps i xs, go kv.1 kv.2 = some (some kv.2)) →
      allSome ((indexProps i xs).map (fun kv => go kv.1 kv.2)) = some (xs.map some)
  | [], _, _ => rfl
  | x :: xs, i, h => by
    have h1 := h (natToString i, x) (List.mem_cons_self _ _)
    have h2 := allSome_indexProps_fixed xs (i + 1)
      (fun kv hkv => h kv (List.mem_cons_of_mem _ hkv))
    simp only [indexProps, List.map_cons, h1, allSome, h2, Option.map_some']

theorem mem_indexProps_strs {kv : JSString × JSVal} : ∀ {ks : List JSString} {i : Nat},
    kv ∈ indexProps i (ks.map .str) → ∃ j k, k ∈ ks ∧ kv = (natToString j, .str k)
  | [], _, h => by simp [indexProps] at h
  | k :: ks, i, h => by
    simp only [List.map_cons, indexProps, List.mem_cons] at h
    rcases h with rfl | h
    · exact ⟨i, k, List.mem_cons_self _ _, rfl⟩
    · obtain ⟨j, k2, hk, e⟩ := mem_indexProps_strs h
      exact ⟨j, k2, List.mem_cons_of_mem _ hk, e⟩

/-- The level of the message after the default of lines 84-86 is a value. -/
theorem stamped_level_ne_undefined (self : RequestLogger) (ps : Props) :
    getProp (lit "level") (stampedMessage self ps) ≠ .undefined := by
  unfold stampedMessage
  rw [getProp_setProp_ne _ _ (by decide)]
  unfold withLevel
  split
  · rename_i h
    intro e
    rw [e] at h
    exact absurd h (by decide)
  · rw [getProp_setProp_self]
    intro e
    exact JSVal.noConfusion e

/-- C19, as stated, fails: for the string message of 131072 spaces the summary has
`originalInfo.fields` equal to `title`, `level`, `invocationId` and
`originalInfo.level` equal to `INFO`, although the caller passed a string, with
no field `level` or `invocationId`. -/
theorem summary_fields_after_defaults :
    ∃ line idv oi kept,
      log RequestLogger.constructor (lit "v20.1.0") (.str (List.replicate 131072 32))
        = .emitted line
      ∧ jsonParse line = some (summaryTree idv oi kept)
      ∧ getProp (lit "fields") oi
        = .arr [.str (lit "title"), .str (lit "level"), .str (lit "invocationId")]
      ∧ getProp (lit "level") oi = .str (lit "INFO") := by
  obtain ⟨idv, oi, kept, h1, h2, h3, h4, -⟩ := spaces_summary (lit "v20.1.0") 131071 (le_refl _)
  exact ⟨_, idv, oi, kept, h1, h2, h4, h3⟩

/-- C19, amended: when the truncated two-space text of the payload has 131072 code
units or more, the sink receives a text that parses to the summary, and in its
`originalInfo` the field `fields` is what the redaction writes for the list
`Object.keys(messageAsObject)` read after `log` has set `level` and `invocationId`
on the message: the list itself when no rule rewrites one of its names; `level` is
what the redaction writes for the level of the message after the default `INFO`
was set; and `title` is what the redaction writes for the title of the message,
absent when the message has none. -/
theorem summary_original_info (self : RequestLogger) (version : JSString) (message : JSVal)
    (text : JSString) (hm : wellFormed (.obj self.metadata) = true)
    (hw : wellFormed message = true) (ha : accepted message = true)
    (hd : (isDebug (getProp (lit "level") (namedProps message)) && !self.logDebug) = false)
    (ht : stringify (logPayload self version message) (lit "  ") = some (some text))
    (hbig : 131072 ≤ (truncateToken text).length) :
    ∃ line idv oi kept fs lv,
      log self version message = .emitted line
      ∧ jsonParse line = some (summaryTree idv oi kept)
      ∧ redacted (lit "fields") (.arr ((messageKeys self message).map .str)) = some (some fs)
      ∧ getProp (lit "fields") oi = fs
      ∧ ((∀ (i : Nat) (k : JSString), k ∈ messageKeys self message →
            redacted (natToString i) (.str k) = some (some (.str k))) →
          fs = .arr ((messageKeys self message).map .str))
      ∧ redacted (lit "level") (getProp (lit "level") (stampedMessage self (namedProps message)))
          = some (some lv)
      ∧ getProp (lit "level") oi = lv
      ∧ (∀ t, redacted (lit "title")
            (getProp (lit "title") (stampedMessage self (namedProps message))) = some (some t) →
          getProp (lit "title") oi = t)
      ∧ (redacted (lit "title")
            (getProp (lit "title") (stampedMessage self (namedProps message))) = some none →
          hasProp (lit "title") oi = false) := by
  obtain ⟨qs, idv, oi, h1, -, -, -, h5, h6, h7, h8⟩ := log_cases self version message hm hw ha hd
  have e : text = render (lit "  ") [] (.obj qs) := by
    have := (h1 (lit "  ")).symm.trans ht
    exact (Option.some.inj (Option.some.inj this)).symm
  subst e
  rw [if_pos hbig] at h8
  have hst : wellFormed (.obj (stampedMessage self (namedProps message))) = true :=
    stampedMessage_wellFormed self (namedProps_wellFormed hw)
  have hwa := wellFormed_arr_strs (messageKeys self message)
  obtain ⟨fs, hf, -, -⟩ := @redacted_isSome (lit "fields") _ hwa (by decide)
    (fun e => JSVal.noConfusion e)
  obtain ⟨lv, hl, -, -⟩ := @redacted_isSome (lit "level") _
    (getProp_wellFormed hst (lit "level")) (by decide)
    (stamped_level_ne_undefined self (namedProps message))
  have mf : (lit "fields", fs) ∈ oi :=
    (h5 _ _).2 ⟨_, List.mem_cons_of_mem _ (List.mem_cons_of_mem _ (List.mem_cons_self _ _)), hf⟩
  have ml : (lit "level", lv) ∈ oi := (h5 _ _).2 ⟨_, List.mem_cons_self _ _, hl⟩
  refine ⟨_, idv, oi, _, fs, lv, h8, h7, hf, getProp_of_mem h6 mf, ?_, hl, getProp_of_mem h6 ml,
    ?_, ?_⟩
  · intro hp
    rw [redacted_arr_kept hwa (by decide) (by decide) (by decide)] at hf
    simp only [descend] at hf
    rw [allSome_indexProps_fixed _ 0 (fun kv hkv => by
      obtain ⟨j, k, hk, rfl⟩ := mem_indexProps_strs hkv
      exact hp j k hk)] at hf
    simp only [Option.map_some', Option.some.injEq, List.map_map] at hf
    rw [← hf]
    exact congrArg JSVal.arr (List.map_congr_left (fun k _ => rfl))
  · intro t htl
    exact getProp_of_mem h6
      ((h5 _ _).2 ⟨_, List.mem_cons_of_mem _ (List.mem_cons_self _ _), htl⟩)
  · intro htl
    cases hh : hasProp (lit "title") oi with
    | false => rfl
    | true =>
      obtain ⟨t, hmem⟩ := (hasProp_iff_mem _ _).1 hh
      obtain ⟨v, hv, hr⟩ := (h5 _ _).1 hmem
      simp only [List.mem_cons, Prod.mk.injEq, List.mem_singleton, List.not_mem_nil,
        or_false] at hv
      rcases hv with ⟨h0, -⟩ | ⟨-, rfl⟩ | ⟨h0, -⟩
      · exact absurd h0 (by decide)
      · rw [htl] at hr
        exact absurd hr (by simp)
      · exact absurd h0 (by decide)

theorem payloadText_spaces (version : JSString) (n : Nat) :
    stringify (logPayload RequestLogger.constructor version (.str (List.replicate (n + 1) 32)))
        (lit "  ")
      = some (some (payloadText RequestLogger.constructor version
          (.str (List.replicate (n + 1) 32)))) := by
  obtain ⟨qs, -, -, h1, -⟩ := log_cases RequestLogger.constructor version
    (.str (List.replicate (n + 1) 32)) (by decide) rfl rfl rfl
  unfold payloadText
  rw [h1]

theorem summary_original_info_witness :
    wellFormed (.obj RequestLogger.constructor.metadata) = true
      ∧ wellFormed (.str (List.replicate (131071 + 1) 32)) = true
      ∧ accepted (.str (List.replicate (131071 + 1) 32)) = true
      ∧ (isDebug (getProp (lit "level") (namedProps (.str (List.replicate (131071 + 1) 32))))
          && !RequestLogger.constructor.logDebug) = false
      ∧ stringify (logPayload RequestLogger.constructor (lit "v20.1.0")
            (.str (List.replicate (131071 + 1) 32))) (lit "  ")
          = some (some (payloadText RequestLogger.constructor (lit "v20.1.0")
              (.str (List.replicate (131071 + 1) 32))))
      ∧ 131072 ≤ (truncateToken (payloadText RequestLogger.constructor (lit "v20.1.0")
          (.str (List.replicate (131071 + 1) 32)))).length
      ∧ ∃ line idv oi kept fs lv,
        log RequestLogger.constructor (lit "v20.1.0") (.str (List.replicate (131071 + 1) 32))
          = .emitted line
        ∧ jsonParse line = some (summaryTree idv oi kept)
        ∧ redacted (lit "fields") (.arr ((messageKeys RequestLogger.constructor
            (.str (List.replicate (131071 + 1) 32))).map .str)) = some (some fs)
        ∧ getProp (lit "fields") oi = fs
        ∧ ((∀ (i : Nat) (k : JSString),
              k ∈ messageKeys RequestLogger.constructor (.str (List.replicate (131071 + 1) 32)) →
              redacted (natToString i) (.str k) = some (some (.str k))) →
            fs = .arr ((messageKeys RequestLogger.constructor
              (.str (List.replicate (131071 + 1) 32))).map .str))
        ∧ redacted (lit "level") (getProp (lit "level") (stampedMessage RequestLogger.constructor
            (namedProps (.str (List.replicate (131071 + 1) 32))))) = some (some lv)
        ∧ getProp (lit "level") oi = lv
        ∧ (∀ t, redacted (lit "title") (getProp (lit "title")
              (stampedMessage RequestLogger.constructor
                (namedProps (.str (List.replicate (131071 + 1) 32))))) = some (some t) →
            getProp (lit "title") oi = t)
        ∧ (redacted (lit "title") (getProp (lit "title")
              (stampedMessage RequestLogger.constructor
                (namedProps (.str (List.replicate (131071 + 1) 32))))) = some none →
            hasProp (lit "title") oi = false) :=
  ⟨by decide, rfl, rfl, rfl, payloadText_spaces _ _,
    spaces_payload_long (lit "v20.1.0") 131071 (le_refl _) (payloadText_spaces _ _),
    summary_original_info RequestLogger.constructor (lit "v20.1.0")
      (.str (List.replicate (131071 + 1) 32)) _ (by decide) rfl rfl rfl (payloadText_spaces _ _)
      (spaces_payload_long (lit "v20.1.0") 131071 (le_refl _) (payloadText_spaces _ _))⟩

/-! ## Headers that the table does not name -/

/-- C7, a fault of the code: the headers `constructor` and `__proto__` are none of
the eight names of the table, yet the read `uselessHeaders[h.toLowerCase()]` finds
them on `Object.prototype` and the filter drops them, in any letter case: of the
headers `constructor`, `__PROTO__` and `x-id` only `x-id` is written, and the
table of eight names alone would keep all three. -/
theorem headers_constructor_dropped :
    stringify (.obj [(lit "headers", .obj [(lit "constructor", .str (lit "x"))])]) []
        = some (some (lit "\x7b\"headers\":\x7b\x7d\x7d"))
      ∧ stringify (.obj [(lit "headers", .obj [(lit "constructor", .str (lit "x")),
            (lit "__PROTO__", .str (lit "y")), (lit "x-id", .str (lit "z"))])]) []
        = some (some (lit "\x7b\"headers\":\x7b\"x-id\":\"z\"\x7d\x7d"))
      ∧ (∀ k ∈ [lit "constructor", lit "__PROTO__", lit "x-id"],
          k.map asciiLower ∉ [lit "accept-language", lit "content-length",
            lit "content-type", lit "x-forwarded-for", lit "x-forwarded-port",
            lit "x-forwarded-proto", lit "accept", lit "accept-encoding"]) := by
  decide

/-! ## The truncation on the two sides of a code unit outside the pattern -/

theorem takeWhile_append_cons_stop (p : Nat → Bool) {c : Nat} (hc : p c = false)
    (t r : JSString) :
    (t ++ c :: r).takeWhile p = t.takeWhile p
      ∧ (t ++ c :: r).dropWhile p = t.dropWhile p ++ c :: r := by
  induction t with
  | nil => simp [List.takeWhile, List.dropWhile, hc]
  | cons x t ih =>
    cases hx : p x with
    | true => simp [List.takeWhile, List.dropWhile, hx, ih.1, ih.2]
    | false => simp [List.takeWhile, List.dropWhile, hx]

theorem not_token_lower {c : Nat} (hc : isTokenChar c = false) (x : Nat)
    (hx : 97 ≤ x ∧ x ≤ 122) : asciiLower c ≠ x := by
  unfold asciiLower
  simp only [isTokenChar, Bool.or_eq_false_iff, Bool.and_eq_false_iff,
    decide_eq_false_iff_not, beq_eq_false_iff_ne] at hc
  split <;> omega

theorem matchSegment_append_stop {c : Nat} (hc : isTokenChar c = false) (a r : JSString) :
    matchSegment (a ++ c :: r)
      = (matchSegment a).map (fun pr => (pr.1, pr.2 ++ c :: r)) := by
  match a with
  | [] =>
    simp only [List.nil_append]
    rw [matchSegment_head (not_token_lower hc 101 (by omega))]
    rfl
  | [e] =>
    show matchSegment (e :: c :: r) = _
    match r with
    | [] => rfl
    | j :: t =>
      simp only [matchSegment]
      rw [if_neg (fun h => not_token_lower hc 121 (by omega) h.2.1)]
      rfl
  | [e, y] =>
    show matchSegment (e :: y :: c :: r) = _
    simp only [matchSegment]
    rw [if_neg (fun h => not_token_lower hc 106 (by omega) h.2.2.1)]
    rfl
  | e :: y :: j :: t =>
    show matchSegment (e :: y :: j :: (t ++ c :: r)) = _
    obtain ⟨tw, dw⟩ := takeWhile_append_cons_stop isTokenChar hc t r
    simp only [matchSegment, tw, dw]
    split <;> rfl

theorem matchJwt_append_stop {c : Nat} (hc : isTokenChar c = false) (h46 : c ≠ 46)
    (a r : JSString) :
    matchJwt (a ++ c :: r) = (matchJwt a).map (fun pr => (pr.1, pr.2 ++ c :: r)) := by
  unfold matchJwt
  rw [matchSegment_append_stop hc]
  cases h1 : matchSegment a with
  | none => rfl
  | some q1 =>
    obtain ⟨hd, x1⟩ := q1
    simp only [Option.map_some']
    cases x1 with
    | nil =>
      simp only [List.nil_append]
      split
      · rename_i heq
        simp only [Option.some.injEq, Prod.mk.injEq, List.cons.injEq] at heq
        exact absurd heq.2.1 h46
      · rfl
    | cons d r1 =>
      by_cases hd46 : d = 46
      · subst hd46
        simp only [List.cons_append]
        rw [matchSegment_append_stop hc]
        cases h2 : matchSegment r1 with
        | none => rfl
        | some q2 =>
          obtain ⟨pl, x2⟩ := q2
          simp only [Option.map_some']
          cases x2 with
          | nil =>
            simp only [List.nil_append]
            split
            · rename_i heq
              simp only [Option.some.injEq, Prod.mk.injEq, List.cons.injEq] at heq
              exact absurd heq.2.1 h46
            · rfl
          | cons d2 r2 =>
            by_cases hd2 : d2 = 46
            · subst hd2
              simp only [List.cons_append, Option.map_some', Option.some.injEq, Prod.mk.injEq,
                true_and]
              exact (takeWhile_append_cons_stop isTokenChar hc r2 r).2
            · simp only [List.cons_append]
              split
              · rename_i heq
                simp only [Option.some.injEq, Prod.mk.injEq, List.cons.injEq] at heq
                exact absurd heq.2.1 hd2
              · split
                · rename_i heq
                  simp only [Option.some.injEq, Prod.mk.injEq, List.cons.injEq] at heq
                  exact absurd heq.2.1 hd2
                · rfl
      · simp only [List.cons_append]
        split
        · rename_i heq
          simp only [Option.some.injEq, Prod.mk.injEq, List.cons.injEq] at heq
          exact absurd heq.2.1 hd46
        · split
          · rename_i heq
            simp only [Option.some.injEq, Prod.mk.injEq, List.cons.injEq] at heq
            exact absurd heq.2.1 hd46
          · rfl

/-- The truncation works on the two sides of a code unit that is neither of the
class nor a dot: no match of the pattern holds it. -/
theorem truncateToken_split {c : Nat} (hc : isTokenChar c = false) (h46 : c ≠ 46)
    (r : JSString) : ∀ (n : Nat) (a : JSString), a.length ≤ n →
      truncateToken (a ++ c :: r) = truncateToken a ++ c :: truncateToken r := by
  intro n
  induction n with
  | zero =>
    intro a ha
    have : a = [] := List.length_eq_zero.1 (by omega)
    subst this
    rw [truncateToken_nil]
    exact truncateToken_head (not_token_lower hc 101 (by omega)) r
  | succ n ih =>
    intro a ha
    cases a with
    | nil =>
      rw [truncateToken_nil]
      exact truncateToken_head (not_token_lower hc 101 (by omega)) r
    | cons x t =>
      have hm := matchJwt_append_stop hc h46 (x :: t) r
      cases h : matchJwt (x :: t) with
      | none =>
        rw [h] at hm
        rw [List.cons_append] at hm ⊢
        rw [truncateToken_skip hm, truncateToken_skip h,
          ih t (by simp only [List.length_cons] at ha; omega)]
        rfl
      | some pr =>
        obtain ⟨p1, rest⟩ := pr
        rw [h] at hm
        have hl := matchJwt_rest_length h
        rw [truncateToken_match hm, truncateToken_match h]
        simp only
        rw [ih rest (by simp only [List.length_cons] at ha; omega)]
        simp

theorem truncateToken_append_stop {c : Nat} (hc : isTokenChar c = false) (h46 : c ≠ 46)
    (a r : JSString) :
    truncateToken (a ++ c :: r) = truncateToken a ++ c :: truncateToken r :=
  truncateToken_split hc h46 r a.length a (le_refl _)

/-! ## The string that a truncated string text denotes -/

theorem hexValue_ne_quote {a : Nat} {x : Nat} (h : hexValue a = some x) : a ≠ 34 ∧ a ≠ 60 := by
  unfold hexValue at h
  split at h
  · omega
  · split at h
    · omega
    · split at h
      · omega
      · exact absurd h (by simp)

theorem simpleEscape_ne {e u : Nat} (h : simpleEscape e = some u) : e ≠ 60 ∧ u ≠ 60 := by
  unfold simpleEscape at h
  repeat' split at h
  all_goals first
    | (simp only [Option.some.injEq] at h; omega)
    | (exact Option.noConfusion h)

theorem parseStringBody_unicode_inv {t1 d r : JSString}
    (h : parseStringBody (92 :: 117 :: t1) = some (d, r)) :
    ∃ a b c e t2 x3 x2 x1 x0 d2, t1 = a :: b :: c :: e :: t2 ∧ hexValue a = some x3
      ∧ hexValue b = some x2 ∧ hexValue c = some x1 ∧ hexValue e = some x0
      ∧ parseStringBody t2 = some (d2, r)
      ∧ d = (x3 * 4096 + x2 * 256 + x1 * 16 + x0) :: d2 := by
  rw [parseStringBody_cons, if_neg (by decide), if_pos rfl] at h
  simp only [↓reduceIte] at h
  match t1, h with
  | [], h => exact absurd h (by simp)
  | [_], h => exact absurd h (by simp)
  | [_, _], h => exact absurd h (by simp)
  | [_, _, _], h => exact absurd h (by simp)
  | a :: b :: c :: e :: t2, h =>
    simp only at h
    cases g3 : hexValue a with
    | none => rw [g3] at h; exact absurd h (by simp)
    | some x3 =>
    cases g2 : hexValue b with
    | none => rw [g3, g2] at h; exact absurd h (by simp)
    | some x2 =>
    cases g1 : hexValue c with
    | none => rw [g3, g2, g1] at h; exact absurd h (by simp)
    | some x1 =>
    cases g0 : hexValue e with
    | none => rw [g3, g2, g1, g0] at h; exact absurd h (by simp)
    | some x0 =>
      rw [g3, g2, g1, g0] at h
      simp only at h
      cases hp : parseStringBody t2 with
      | none => rw [hp] at h; exact absurd h (by simp)
      | some q =>
        obtain ⟨d2, r'⟩ := q
        rw [hp] at h
        simp only [Option.map_some', Option.some.injEq, Prod.mk.injEq] at h
        obtain ⟨rfl, rfl⟩ := h
        exact ⟨a, b, c, e, t2, x3, x2, x1, x0, d2, rfl, g3, g2, g1, g0, hp, rfl⟩

theorem parseStringBody_unicode {a b c e : Nat} {t2 d2 r : JSString} {x3 x2 x1 x0 : Nat}
    (g3 : hexValue a = some x3) (g2 : hexValue b = some x2) (g1 : hexValue c = some x1)
    (g0 : hexValue e = some x0) (hp : parseStringBody t2 = some (d2, r)) :
    parseStringBody (92 :: 117 :: a :: b :: c :: e :: t2)
      = some ((x3 * 4096 + x2 * 256 + x1 * 16 + x0) :: d2, r) := by
  rw [parseStringBody_cons, if_neg (by decide), if_pos rfl]
  simp only [↓reduceIte, g3, g2, g1, g0, hp, Option.map_some']

/-- The reading of a string up to a quote that closes it does not depend on the
text after the quote, and it keeps every `<` of the text. -/
theorem parseStringBody_body : ∀ (n : Nat) (b d r1 : JSString), b.length ≤ n →
    parseStringBody (b ++ 34 :: r1) = some (d, r1) →
    (∀ r2, parseStringBody (b ++ 34 :: r2) = some (d, r2)) ∧ b.count 60 ≤ d.count 60 := by
  intro n
  induction n using Nat.strong_induction_on with
  | _ n ih =>
    intro b d r1 hn h
    cases b with
    | nil =>
      simp only [List.nil_append] at h ⊢
      rw [parseStringBody_cons, if_pos rfl] at h
      simp only [Option.some.injEq, Prod.mk.injEq, and_true] at h
      subst h
      refine ⟨fun r2 => ?_, by simp⟩
      rw [parseStringBody_cons, if_pos rfl]
    | cons c b1 =>
      simp only [List.cons_append, List.length_cons] at h hn ⊢
      rw [parseStringBody_cons] at h
      by_cases h34 : c = 34
      · rw [if_pos h34] at h
        simp only [Option.some.injEq, Prod.mk.injEq] at h
        have := congrArg List.length h.2
        simp only [List.length_append, List.length_cons] at this
        omega
      rw [if_neg h34] at h
      by_cases h92 : c = 92
      · rw [if_pos h92] at h
        subst h92
        cases b1 with
        | nil =>
          simp only [List.nil_append] at h
          rw [if_neg (by decide)] at h
          have e1 : simpleEscape 34 = some 34 := rfl
          rw [e1] at h
          simp only at h
          cases hp : parseStringBody r1 with
          | none => rw [hp] at h; exact absurd h (by simp)
          | some q =>
            rw [hp] at h
            simp only [Option.map_some', Option.some.injEq, Prod.mk.injEq] at h
            have := parseStringBody_length r1.length r1 q.1 q.2 (le_refl _) (by rw [hp])
            rw [h.2] at this
            omega
        | cons e b2 =>
          simp only [List.cons_append, List.length_cons] at h hn
          by_cases h117 : e = 117
          · subst h117
            have h0 : parseStringBody (92 :: 117 :: (b2 ++ 34 :: r1)) = some (d, r1) := by
              rw [parseStringBody_cons, if_neg (by decide), if_pos rfl]
              exact h
            obtain ⟨a, b, c, e, t2, x3, x2, x1, x0, d2, et, g3, g2, g1, g0, hp, rfl⟩ :=
              parseStringBody_unicode_inv h0
            cases b2 with
            | nil =>
              simp only [List.nil_append, List.cons.injEq] at et
              exact absurd et.1.symm (hexValue_ne_quote g3).1
            | cons a0 b3 =>
            cases b3 with
            | nil =>
              simp only [List.cons_append, List.nil_append, List.cons.injEq] at et
              exact absurd et.2.1.symm (hexValue_ne_quote g2).1
            | cons a1 b4 =>
            cases b4 with
            | nil =>
              simp only [List.cons_append, List.nil_append, List.cons.injEq] at et
              exact absurd et.2.2.1.symm (hexValue_ne_quote g1).1
            | cons a2 b5 =>
            cases b5 with
            | nil =>
              simp only [List.cons_append, List.nil_append, List.cons.injEq] at et
              exact absurd et.2.2.2.1.symm (hexValue_ne_quote g0).1
            | cons a3 b3 =>
              simp only [List.cons_append, List.cons.injEq] at et
              obtain ⟨rfl, rfl, rfl, rfl, rfl⟩ := et
              simp only [List.length_cons] at hn
              obtain ⟨i1, i2⟩ := ih (n - 6) (by omega) b3 d2 r1 (by omega) hp
              refine ⟨fun r2 => ?_, ?_⟩
              · exact parseStringBody_unicode g3 g2 g1 g0 (i1 r2)
              · have c0 := (hexValue_ne_quote g3).2
                have c1 := (hexValue_ne_quote g2).2
                have c2 := (hexValue_ne_quote g1).2
                have c3 := (hexValue_ne_quote g0).2
                rw [List.count_cons_of_ne (by decide), List.count_cons_of_ne (by decide),
                  List.count_cons_of_ne (Ne.symm c0), List.count_cons_of_ne (Ne.symm c1),
                  List.count_cons_of_ne (Ne.symm c2), List.count_cons_of_ne (Ne.symm c3)]
                exact le_trans i2 (List.count_le_count_cons _ _ _)
          · rw [if_neg h117] at h
            cases he : simpleEscape e with
            | none => rw [he] at h; exact absurd h (by simp)
            | some u =>
              rw [he] at h
              simp only at h
              cases hp : parseStringBody (b2 ++ 34 :: r1) with
              | none => rw [hp] at h; exact absurd h (by simp)
              | some q =>
                obtain ⟨d2, r'⟩ := q
                rw [hp] at h
                simp only [Option.map_some', Option.some.injEq, Prod.mk.injEq] at h
                obtain ⟨rfl, rfl⟩ := h
                obtain ⟨i1, i2⟩ := ih (n - 2) (by omega) b2 d2 r' (by omega) hp
                refine ⟨fun r2 => ?_, ?_⟩
                · rw [parseStringBody_cons, if_neg (by decide), if_pos rfl]
                  simp only [List.cons_append, if_neg h117, he, i1 r2, Option.map_some']
                · rw [List.count_cons_of_ne (by decide),
                    List.count_cons_of_ne (Ne.symm (simpleEscape_ne he).1)]
                  exact le_trans i2 (List.count_le_count_cons _ _ _)
      rw [if_neg h92] at h
      by_cases h32 : c < 32
      · rw [if_pos h32] at h
        exact absurd h (by simp)
      rw [if_neg h32] at h
      cases hp : parseStringBody (b1 ++ 34 :: r1) with
      | none => rw [hp] at h; exact absurd h (by simp)
      | some q =>
        obtain ⟨d2, r'⟩ := q
        rw [hp] at h
        simp only [Option.map_some', Option.some.injEq, Prod.mk.injEq] at h
        obtain ⟨rfl, rfl⟩ := h
        obtain ⟨i1, i2⟩ := ih (n - 1) (by omega) b1 d2 r' (by omega) hp
        refine ⟨fun r2 => ?_, ?_⟩
        · rw [parseStringBody_cons, if_neg h34, if_neg h92, if_neg h32, i1 r2]
          rfl
        · simp only [List.count_cons]
          omega

/-- The truncated text of a string reads as the truncated string, whatever
follows the closing quote. -/
theorem parseStringBody_truncated (s rest : JSString) :
    parseStringBody (truncateToken (quoteUnits s) ++ 34 :: rest)
      = some (truncatedString s, rest) := by
  obtain ⟨d, hd⟩ := parseStringBody_truncateToken (parseStringBody_quote s [])
  rw [truncateToken_append_stop (by decide) (by decide), truncateToken_nil] at hd
  have e : truncatedString s = d := by
    unfold truncatedString
    rw [hd]
  rw [e]
  exact (parseStringBody_body _ _ _ _ (le_refl _) hd).1 rest

/-- The truncation either leaves a text as it is or writes a `<`. -/
theorem truncateToken_eq_or_mark : ∀ (n : Nat) (a : JSString), a.length ≤ n →
    truncateToken a = a ∨ 60 ∈ truncateToken a := by
  intro n
  induction n with
  | zero =>
    intro a ha
    have : a = [] := List.length_eq_zero.1 (by omega)
    subst this
    exact Or.inl truncateToken_nil
  | succ n ih =>
    intro a ha
    cases a with
    | nil => exact Or.inl truncateToken_nil
    | cons x t =>
      cases h : matchJwt (x :: t) with
      | none =>
        rw [truncateToken_skip h]
        rcases ih t (by simp only [List.length_cons] at ha; omega) with e | e
        · exact Or.inl (by rw [e])
        · exact Or.inr (List.mem_cons_of_mem _ e)
      | some pr =>
        obtain ⟨p1, rest⟩ := pr
        rw [truncateToken_match h]
        refine Or.inr ?_
        have : (60 : Nat) ∈ lit ".<sig>" := by decide
        simp only [List.mem_append]
        exact Or.inl (Or.inr this)

/-- A string without `<` that is the truncated string of `s` is `s`. -/
theorem truncatedString_eq {s k : JSString} (h : truncatedString s = k) (hk : 60 ∉ k) :
    s = k := by
  have hp := parseStringBody_truncated s []
  rw [h] at hp
  rcases truncateToken_eq_or_mark _ (quoteUnits s) (le_refl _) with e | e
  · rw [e, parseStringBody_quote] at hp
    simp only [Option.some.injEq, Prod.mk.injEq, and_true] at hp
    exact hp
  · exfalso
    have c1 := (parseStringBody_body _ _ _ _ (le_refl _) hp).2
    have c2 : 0 < (truncateToken (quoteUnits s)).count 60 := List.count_pos_iff.2 e
    have c3 : k.count 60 = 0 := List.count_eq_zero.2 hk
    omega

/-- The truncated string of a string that needs no escape is its truncation. -/
theorem truncatedString_plain {s : JSString}
    (hs : ∀ c ∈ s, 32 ≤ c ∧ c ≠ 34 ∧ c ≠ 92 ∧ ¬ (55296 ≤ c ∧ c ≤ 57343)) :
    truncatedString s = truncateToken s := by
  have hp := parseStringBody_truncated s []
  rw [quoteUnits_plain s hs] at hp
  have hplain : ∀ c ∈ truncateToken s,
      32 ≤ c ∧ c ≠ 34 ∧ c ≠ 92 ∧ ¬ (55296 ≤ c ∧ c ≤ 57343) := by
    intro c hc
    by_cases h1 : isTokenChar c = true
    · exact tokenChar_plain (Or.inl h1)
    by_cases h2 : c = 46
    · exact tokenChar_plain (Or.inr (Or.inl h2))
    by_cases h3 : c = 60
    · omega
    by_cases h4 : c = 62
    · omega
    have hcount := truncateToken_count c (by simpa using h1) h2 h3 h4 _ s (le_refl _)
    have : 0 < s.count c := by
      rw [← hcount]
      exact List.count_pos_iff.2 hc
    exact hs c (List.count_pos_iff.1 this)
  have hq := parseStringBody_quote (truncateToken s) []
  rw [quoteUnits_plain _ hplain, hp] at hq
  simp only [Option.some.injEq, Prod.mk.injEq, and_true] at hq
  exact hq

/-! ## The tree that the truncated text of a tree denotes -/

theorem Stopped.barrier {r : JSString} (h : Stopped r) : Barrier r :=
  fun c hc => (h c hc).1

theorem Stopped.numberEnds_truncateToken {r : JSString} (h : Stopped r) :
    numberEnds (truncateToken r) := by
  intro c hc
  cases r with
  | nil => rw [truncateToken_nil] at hc; simp at hc
  | cons x t =>
    obtain ⟨t', e⟩ := truncateToken_cons_head x t
    rw [e] at hc
    simp only [List.head?_cons, Option.some.injEq] at hc
    subst hc
    have := h x rfl
    have h1 := this.1
    simp only [isTokenChar, Bool.or_eq_false_iff, Bool.and_eq_false_iff,
      decide_eq_false_iff_not, beq_eq_false_iff_ne] at h1
    refine ⟨?_, this.2, ?_, ?_⟩
    · simp only [isDigit, Bool.and_eq_false_iff, decide_eq_false_iff_not]
      omega
    · omega
    · omega

theorem stopped_cons {c : Nat} (hc : isTokenChar c = false ∧ c ≠ 46) (t : JSString) :
    Stopped (c :: t) := by
  intro x hx
  simp only [List.head?_cons, Option.some.injEq] at hx
  subst hx; exact hc

theorem ws_not_token {c : Nat} (h : isWs c = true) : isTokenChar c = false ∧ c ≠ 46 := by
  simp only [isWs, Bool.or_eq_true, beq_iff_eq] at h
  rcases h with ((h | h) | h) | h <;> subst h <;> decide

theorem stopped_ws {w : JSString} (hw : allWs w = true) {c : Nat}
    (hc : isTokenChar c = false ∧ c ≠ 46) (rest : JSString) : Stopped (w ++ c :: rest) := by
  cases w with
  | nil => exact stopped_cons hc rest
  | cons x t =>
    simp only [allWs, List.all_cons, Bool.and_eq_true] at hw
    exact stopped_cons (ws_not_token hw.1) _

theorem allWs_not_e {w : JSString} (hw : allWs w = true) : ∀ c ∈ w, asciiLower c ≠ 101 := by
  intro c hc
  simp only [allWs, List.all_eq_true] at hw
  exact ws_not_e c (hw c hc)

theorem truncateToken_ws_append {w : JSString} (hw : allWs w = true) (r : JSString) :
    truncateToken (w ++ r) = w ++ truncateToken r :=
  truncateToken_noE_append w r (allWs_not_e hw)

theorem truncateToken_append_stopped (a : JSString) {rest : JSString} (h : Stopped rest) :
    truncateToken (a ++ rest) = truncateToken a ++ truncateToken rest := by
  cases rest with
  | nil => rw [List.append_nil, truncateToken_nil, List.append_nil]
  | cons c r =>
    have := h c rfl
    rw [truncateToken_append_stop this.1 this.2, truncateToken_head (c := c)]
    intro hc
    have h1 := this.1
    simp only [isTokenChar, Bool.or_eq_false_iff, Bool.and_eq_false_iff,
      decide_eq_false_iff_not, beq_eq_false_iff_ne] at h1
    unfold asciiLower at hc
    split at hc <;> omega

/-- The truncated text of a quoted string followed by a text. -/
theorem truncateToken_quote (s rest : JSString) :
    truncateToken (quote s ++ rest)
      = 34 :: (truncateToken (quoteUnits s) ++ 34 :: truncateToken rest) := by
  simp only [quote, List.cons_append, List.append_assoc, List.singleton_append]
  rw [truncateToken_head (by decide), truncateToken_append_stop (by decide) (by decide)]
  rfl

/-- The truncation leaves the value that the parser reads where that value is a
literal or a number. -/
theorem parseValue_leaf_truncateToken {f : Nat} {s r : JSString} {v : JSVal}
    (h : parseValue f s = some (v, r)) (hb : Barrier r)
    (hl : (∀ x, v ≠ .str x) ∧ (∀ x, v ≠ .arr x) ∧ (∀ x, v ≠ .obj x)) :
    parseValue f (truncateToken s) = some (v, truncateToken r) := by
  cases f with
  | zero => simp [parseValue] at h
  | succ f =>
  rw [parseValue] at h ⊢
  cases hs : skipWs s with
  | nil => rw [hs] at h; exact absurd h (by simp)
  | cons c t =>
    rw [hs] at h
    obtain ⟨t', ht'⟩ := truncateToken_cons_head c t
    have hsT : skipWs (truncateToken s) = c :: t' := by
      rw [skipWs_truncateToken, hs, ht']
    rw [hsT]
    simp only at h ⊢
    by_cases h34 : c = 34
    · rw [if_pos h34] at h
      cases hp : parseStringBody t with
      | none => rw [hp] at h; exact absurd h (by simp)
      | some q =>
        rw [hp] at h
        simp only [Option.map_some', Option.some.injEq, Prod.mk.injEq] at h
        exact absurd h.1.symm (hl.1 _)
    rw [if_neg h34] at h ⊢
    by_cases h91 : c = 91
    · rw [if_pos h91] at h
      split at h
      · simp only [Option.some.injEq, Prod.mk.injEq] at h
        exact absurd h.1.symm (hl.2.1 _)
      · cases he : parseElements f t with
        | none => rw [he] at h; exact absurd h (by simp)
        | some q =>
          rw [he] at h
          simp only [Option.map_some', Option.some.injEq, Prod.mk.injEq] at h
          exact absurd h.1.symm (hl.2.1 _)
    rw [if_neg h91] at h ⊢
    by_cases h123 : c = 123
    · rw [if_pos h123] at h
      split at h
      · simp only [Option.some.injEq, Prod.mk.injEq] at h
        exact absurd h.1.symm (hl.2.2 _)
      · cases he : parseMembers f t with
        | none => rw [he] at h; exact absurd h (by simp)
        | some q =>
          rw [he] at h
          simp only [Option.map_some', Option.some.injEq, Prod.mk.injEq] at h
          exact absurd h.1.symm (hl.2.2 _)
    rw [if_neg h123] at h ⊢
    have p1 := isPrefixOf_truncateToken (lit "true") (by decide) (c :: t)
    have p2 := isPrefixOf_truncateToken (lit "false") (by decide) (c :: t)
    have p3 := isPrefixOf_truncateToken (lit "null") (by decide) (c :: t)
    rw [ht'] at p1 p2 p3
    rw [p1, p2, p3]
    by_cases ht : (lit "true").isPrefixOf (c :: t) = true
    · rw [if_pos ht] at h ⊢
      simp only [Option.some.injEq, Prod.mk.injEq] at h
      obtain ⟨rfl, rfl⟩ := h
      have := literal_truncateToken (p := lit "true")
        ⟨lit "tru", 101, by decide, by decide⟩ ht hb
      rw [ht'] at this
      exact congrArg some (congrArg (Prod.mk _) this)
    rw [if_neg ht] at h ⊢
    by_cases hf : (lit "false").isPrefixOf (c :: t) = true
    · rw [if_pos hf] at h ⊢
      simp only [Option.some.injEq, Prod.mk.injEq] at h
      obtain ⟨rfl, rfl⟩ := h
      have := literal_truncateToken (p := lit "false")
        ⟨lit "fals", 101, by decide, by decide⟩ hf hb
      rw [ht'] at this
      exact congrArg some (congrArg (Prod.mk _) this)
    rw [if_neg hf] at h ⊢
    by_cases hn : (lit "null").isPrefixOf (c :: t) = true
    · rw [if_pos hn] at h ⊢
      simp only [Option.some.injEq, Prod.mk.injEq] at h
      obtain ⟨rfl, rfl⟩ := h
      have := literal_truncateToken (p := lit "null")
        ⟨lit "nul", 108, by decide, by decide⟩ hn hb
      rw [ht'] at this
      exact congrArg some (congrArg (Prod.mk _) this)
    rw [if_neg hn] at h ⊢
    cases hp : parseNumber (c :: t) with
    | none => rw [hp] at h; exact absurd h (by simp)
    | some q =>
      obtain ⟨n, r1⟩ := q
      rw [hp] at h
      simp only [Option.map_some', Option.some.injEq, Prod.mk.injEq] at h
      obtain ⟨rfl, rfl⟩ := h
      have := parseNumber_truncateToken hp
      rw [ht'] at this
      rw [this]
      rfl

theorem truncTrip_zero (gap : JSString) : TruncTripAt gap 0 := by
  refine ⟨?_, ?_, ?_⟩
  · intro t h
    cases t <;> simp [parseDepth] at h
  · intro xs hx h
    cases xs with
    | nil => exact absurd rfl hx
    | cons x t => simp [parseDepthList] at h
  · intro ps hx h
    cases ps with
    | nil => exact absurd rfl hx
    | cons x t => simp [parseDepthProps] at h

/-- A literal or a number: the round trip of the text, then the truncation. -/
theorem truncTrip_leaf (gap : JSString) (hg : allWs gap = true) (f : Nat) (t : JSVal)
    (hd : parseDepth t ≤ f) (hdef : defined t = true)
    (hwf : wellFormed t = true) (indent pre rest : JSString) (hi : allWs indent = true)
    (hpre : allWs pre = true) (hr : Stopped rest)
    (hl : (∀ x, t ≠ .str x) ∧ (∀ x, t ≠ .arr x) ∧ (∀ x, t ≠ .obj x)) :
    parseValue f (pre ++ truncateToken (render gap indent t ++ rest))
      = some (t, truncateToken rest) := by
  have hn : numberEnds rest := by
    intro c hc
    have := hr c hc
    have h1 := this.1
    simp only [isTokenChar, Bool.or_eq_false_iff, Bool.and_eq_false_iff,
      decide_eq_false_iff_not, beq_eq_false_iff_ne] at h1
    refine ⟨?_, this.2, ?_, ?_⟩
    · simp only [isDigit, Bool.and_eq_false_iff, decide_eq_false_iff_not]
      omega
    · omega
    · omega
  have h := (roundTrip gap hg f).1 t hd hdef hwf indent pre rest hi hpre hn
  have := parseValue_leaf_truncateToken h hr.barrier hl
  rw [truncateToken_ws_append hpre] at this
  exact this

theorem truncTrip_value (gap : JSString) (hg : allWs gap = true) (f : Nat)
    (ih : TruncTripAt gap f) (t : JSVal) (hd : parseDepth t ≤ f + 1) (hdef : defined t = true)
    (hwf : wellFormed t = true) (indent pre rest : JSString) (hi : allWs indent = true)
    (hpre : allWs pre = true) (hr : Stopped rest) :
    parseValue (f + 1) (pre ++ truncateToken (render gap indent t ++ rest))
      = some (truncated t, truncateToken rest) := by
  cases t with
  | undefined => simp [defined] at hdef
  | null =>
    exact truncTrip_leaf gap hg _ _ hd hdef hwf indent pre rest hi hpre hr
      ⟨fun _ => JSVal.noConfusion, fun _ => JSVal.noConfusion, fun _ => JSVal.noConfusion⟩
  | bool b =>
    exact truncTrip_leaf gap hg _ _ hd hdef hwf indent pre rest hi hpre hr
      ⟨fun _ => JSVal.noConfusion, fun _ => JSVal.noConfusion, fun _ => JSVal.noConfusion⟩
  | num n =>
    exact truncTrip_leaf gap hg _ _ hd hdef hwf indent pre rest hi hpre hr
      ⟨fun _ => JSVal.noConfusion, fun _ => JSVal.noConfusion, fun _ => JSVal.noConfusion⟩
  | str s =>
    rw [render, truncateToken_quote, parseValue,
      skipWs_append hpre (head_notWs_cons (by decide) _)]
    simp only [↓reduceIte]
    rw [parseStringBody_truncated]
    rfl
  | arr xs =>
    simp only [defined, wellFormed, Bool.and_eq_true, parseDepth] at hdef hwf hd
    rw [render]
    cases hx : xs with
    | nil =>
      simp only [renderList, wrapMembers, List.cons_append, List.nil_append]
      rw [truncateToken_head (by decide), truncateToken_head (by decide), parseValue,
        skipWs_append hpre (head_notWs_cons (by decide) _)]
      simp [skipWs, isWs, truncated, truncatedList]
    | cons x xs' =>
      rw [← hx]
      have hne : xs ≠ [] := by rw [hx]; simp
      rw [wrapMembers_append _ _ _ _ _ _ (renderList_ne_nil gap _ hne),
        truncateToken_head (by decide), parseValue,
        skipWs_append hpre (head_notWs_cons (by decide) _)]
      simp only [Nat.reduceEqDiff, ↓reduceIte]
      have hm := ih.2.1 xs hne (by omega) hdef hwf (indent ++ gap)
        (gapBefore gap indent) (gapAfter gap indent) rest (allWs_append hi hg)
        (allWs_gapBefore hg hi) (allWs_gapAfter hi)
      have hhead : (skipWs (truncateToken (membersText (gapBefore gap indent)
          (gapAfter gap indent) 93 (renderList gap (indent ++ gap) xs) rest))).head?
          ≠ some 93 := by
        rw [skipWs_truncateToken_head, hx]
        obtain ⟨c, r, e, ho⟩ := render_head gap (indent ++ gap) x
        cases xs' with
        | nil =>
          simp only [renderList, membersText, List.append_assoc]
          rw [skipWs_append (allWs_gapBefore hg hi)]
          · rw [e]; simp only [List.cons_append, List.head?_cons, ne_eq, Option.some.injEq]
            unfold opensValue at ho; omega
          · intro c' hc'
            rw [e] at hc'
            simp only [List.cons_append, List.head?_cons, Option.some.injEq] at hc'
            subst hc'; exact opensValue_notWs ho
        | cons y t =>
          simp only [renderList, membersText, List.append_assoc]
          rw [skipWs_append (allWs_gapBefore hg hi)]
          · rw [e]; simp only [List.cons_append, List.head?_cons, ne_eq, Option.some.injEq]
            unfold opensValue at ho; omega
          · intro c' hc'
            rw [e] at hc'
            simp only [List.cons_append, List.head?_cons, Option.some.injEq] at hc'
            subst hc'; exact opensValue_notWs ho
      rw [if_neg hhead, hm]
      simp only [Option.map_some', truncated]
  | obj ps =>
    simp only [defined, wellFormed, Bool.and_eq_true, parseDepth] at hdef hwf hd
    rw [render]
    cases hx : ps with
    | nil =>
      simp only [renderProps, wrapMembers, List.cons_append, List.nil_append]
      rw [truncateToken_head (by decide), truncateToken_head (by decide), parseValue,
        skipWs_append hpre (head_notWs_cons (by decide) _)]
      simp [skipWs, isWs, truncated, truncatedProps, objectOfMembers]
    | cons x ps' =>
      rw [← hx]
      have hne : ps ≠ [] := by rw [hx]; simp
      rw [wrapMembers_append _ _ _ _ _ _ (renderProps_ne_nil gap _ hne),
        truncateToken_head (by decide), parseValue,
        skipWs_append hpre (head_notWs_cons (by decide) _)]
      simp only [Nat.reduceEqDiff, ↓reduceIte]
      have hm := ih.2.2 ps hne (by omega) hdef hwf.2 (indent ++ gap)
        (gapBefore gap indent) (gapAfter gap indent) rest (allWs_append hi hg)
        (allWs_gapBefore hg hi) (allWs_gapAfter hi)
      have hhead : (skipWs (truncateToken (membersText (gapBefore gap indent)
          (gapAfter gap indent) 125 (renderProps gap (indent ++ gap) ps) rest))).head?
          ≠ some 125 := by
        rw [skipWs_truncateToken_head, hx]
        cases ps' with
        | nil =>
          simp only [renderProps, membersText, List.append_assoc, quote, List.cons_append]
          rw [skipWs_append (allWs_gapBefore hg hi)]
          · simp
          · intro c' hc'
            simp only [List.head?_cons, Option.some.injEq] at hc'
            subst hc'; decide
        | cons y t =>
          simp only [renderProps, membersText, List.append_assoc, quote, List.cons_append]
          rw [skipWs_append (allWs_gapBefore hg hi)]
          · simp
          · intro c' hc'
            simp only [List.head?_cons, Option.some.injEq] at hc'
            subst hc'; decide
      rw [if_neg hhead, hm]
      simp only [Option.map_some', truncated]

theorem truncTrip_elements (gap : JSString) (f : Nat)
    (ih : TruncTripAt gap f) (xs : List JSVal) (hne : xs ≠ []) (hd : parseDepthList xs ≤ f + 1)
    (hdef : definedList xs = true) (hwf : wellFormedList xs = true)
    (indent w1 w2 rest : JSString) (hi : allWs indent = true) (h1 : allWs w1 = true)
    (h2 : allWs w2 = true) :
    parseElements (f + 1) (truncateToken (membersText w1 w2 93 (renderList gap indent xs) rest))
      = some (truncatedList xs, truncateToken rest) := by
  rw [parseElements]
  match xs, hne with
  | [x], _ =>
    simp only [parseDepthList, definedList, wellFormedList, Bool.and_eq_true] at hd hdef hwf
    simp only [renderList, membersText]
    rw [List.append_assoc, truncateToken_ws_append h1,
      ih.1 x (by omega) hdef.1 hwf.1 indent w1 _ hi h1 (stopped_ws h2 (by decide) rest)]
    simp only
    rw [truncateToken_ws_append h2, truncateToken_head (by decide),
      skipWs_append h2 (head_notWs_cons (by decide) _)]
    simp [truncatedList]
  | x :: y :: t, _ =>
    simp only [parseDepthList, definedList, wellFormedList, Bool.and_eq_true] at hd hdef hwf
    simp only [renderList, membersText]
    rw [List.append_assoc, truncateToken_ws_append h1,
      ih.1 x (by omega) hdef.1 hwf.1 indent w1 _ hi h1 (stopped_cons (by decide) _)]
    simp only
    rw [truncateToken_head (by decide), skipWs_cons _ (by decide)]
    simp only [↓reduceIte]
    have := ih.2.1 (y :: t) (by simp) (by simp only [parseDepthList]; omega)
      (by simp only [definedList, Bool.and_eq_true]; exact hdef.2)
      (by simp only [wellFormedList, Bool.and_eq_true]; exact hwf.2) indent w1 w2 rest hi h1 h2
    simp only [renderList] at this
    rw [this]
    rfl

theorem truncTrip_members (gap : JSString) (f : Nat)
    (ih : TruncTripAt gap f) (ps : Props) (hne : ps ≠ []) (hd : parseDepthProps ps ≤ f + 1)
    (hdef : definedProps ps = true) (hwf : wellFormedProps ps = true)
    (indent w1 w2 rest : JSString) (hi : allWs indent = true) (h1 : allWs w1 = true)
    (h2 : allWs w2 = true) :
    parseMembers (f + 1) (truncateToken (membersText w1 w2 125 (renderProps gap indent ps) rest))
      = some (truncatedProps ps, truncateToken rest) := by
  rw [parseMembers]
  obtain ⟨w, ew, hw⟩ := allWs_colon_tail gap
  match ps, hne with
  | [kv], _ =>
    simp only [parseDepthProps, definedProps, wellFormedProps, Bool.and_eq_true] at hd hdef hwf
    simp only [renderProps, membersText, List.append_assoc, ew, List.cons_append]
    rw [truncateToken_ws_append h1, truncateToken_quote, truncateToken_head (by decide),
      truncateToken_ws_append hw,
      skipWs_append h1 (head_notWs_cons (by decide) _)]
    simp only [↓reduceIte]
    rw [parseStringBody_truncated]
    simp only
    rw [skipWs_cons _ (by decide)]
    simp only [↓reduceIte]
    rw [ih.1 kv.2 (by omega) hdef.1 hwf.1 indent w _ hi hw (stopped_ws h2 (by decide) rest)]
    simp only
    rw [truncateToken_ws_append h2, truncateToken_head (by decide),
      skipWs_append h2 (head_notWs_cons (by decide) _)]
    simp [truncatedProps]
  | kv :: y :: t, _ =>
    simp only [parseDepthProps, definedProps, wellFormedProps, Bool.and_eq_true] at hd hdef hwf
    simp only [renderProps, membersText, List.append_assoc, ew, List.cons_append]
    rw [truncateToken_ws_append h1, truncateToken_quote, truncateToken_head (by decide),
      truncateToken_ws_append hw,
      skipWs_append h1 (head_notWs_cons (by decide) _)]
    simp only [↓reduceIte]
    rw [parseStringBody_truncated]
    simp only
    rw [skipWs_cons _ (by decide)]
    simp only [↓reduceIte]
    rw [ih.1 kv.2 (by omega) hdef.1 hwf.1 indent w _ hi hw (stopped_cons (by decide) _)]
    simp only
    rw [truncateToken_head (by decide), skipWs_cons _ (by decide)]
    simp only [↓reduceIte]
    have := ih.2.2 (y :: t) (by simp) (by simp only [parseDepthProps]; omega)
      (by simp only [definedProps, Bool.and_eq_true]; exact hdef.2)
      (by simp only [wellFormedProps, Bool.and_eq_true]; exact hwf.2) indent w1 w2 rest hi h1 h2
    simp only [renderProps, List.append_assoc, ew, List.cons_append] at this
    rw [this]
    rfl

theorem truncTrip (gap : JSString) (hg : allWs gap = true) : ∀ f, TruncTripAt gap f := by
  intro f
  induction f with
  | zero => exact truncTrip_zero gap
  | succ f ih =>
    exact ⟨fun t hd hdef hwf indent pre rest hi hpre hr =>
        truncTrip_value gap hg f ih t hd hdef hwf indent pre rest hi hpre hr,
      fun xs hne hd hdef hwf indent w1 w2 rest hi h1 h2 =>
        truncTrip_elements gap f ih xs hne hd hdef hwf indent w1 w2 rest hi h1 h2,
      fun ps hne hd hdef hwf indent w1 w2 rest hi h1 h2 =>
        truncTrip_members gap f ih ps hne hd hdef hwf indent w1 w2 rest hi h1 h2⟩

/-- The truncated text of a tree parses to the truncated tree. -/
theorem jsonParse_truncated (gap : JSString) (hg : allWs gap = true) (t : JSVal)
    (hdef : defined t = true) (hwf : wellFormed t = true) :
    jsonParse (truncateToken (render gap [] t)) = some (truncated t) := by
  have h := (truncTrip gap hg (parseDepth t)).1 t (le_refl _) hdef hwf [] [] [] rfl rfl
    (by intro c hc; simp at hc)
  simp only [List.nil_append, List.append_nil] at h
  rw [truncateToken_nil] at h
  have h1 := parseDepth_le_marks gap [] t
  have h2 := marks_truncateToken (render gap [] t)
  have h3 := marks_le_length (truncateToken (render gap [] t))
  have := parseValue_mono (g := 2 * (truncateToken (render gap [] t)).length + 2) (by omega) h
  simp [jsonParse, this, skipWs]

/-! ## The properties of the object that the truncated text denotes -/

theorem truncatedProps_eq_map (ps : Props) :
    truncatedProps ps = ps.map (fun kv => (truncatedString kv.1, truncated kv.2)) := by
  induction ps with
  | nil => rfl
  | cons kv ps ih => rw [truncatedProps, ih]; rfl

theorem getProp_foldl_setProp_absent {k : JSString} (ms acc : Props)
    (h : ∀ kv ∈ ms, kv.1 ≠ k) :
    getProp k (ms.foldl (fun a kv => setProp a kv.1 kv.2) acc) = getProp k acc := by
  induction ms generalizing acc with
  | nil => rfl
  | cons m ms ih =>
    rw [List.foldl_cons, ih _ (fun kv hkv => h kv (List.mem_cons_of_mem _ hkv))]
    exact getProp_setProp_ne _ _ (fun e => h m (List.mem_cons_self _ _) e.symm)

theorem hasProp_setProp (ps : Props) (k k' : JSString) (v : JSVal) :
    hasProp k (setProp ps k' v) = true ↔ k = k' ∨ hasProp k ps = true := by
  unfold setProp
  split
  · rename_i hh
    rw [hasProp_iff, updateProp_keys, ← hasProp_iff]
    constructor
    · exact Or.inr
    · rintro (rfl | e)
      · exact hh
      · exact e
  · rw [hasProp_iff, mem_insertProp_keys, ← hasProp_iff]

theorem hasProp_foldl_setProp {k : JSString} (ms acc : Props)
    (h : hasProp k (ms.foldl (fun a kv => setProp a kv.1 kv.2) acc) = true) :
    hasProp k acc = true ∨ ∃ kv ∈ ms, kv.1 = k := by
  induction ms generalizing acc with
  | nil => exact Or.inl h
  | cons m ms ih =>
    rw [List.foldl_cons] at h
    rcases ih _ h with e | ⟨kv, hkv, e⟩
    · rcases (hasProp_setProp _ _ _ _).1 e with e1 | e1
      · exact Or.inr ⟨m, List.mem_cons_self _ _, e1.symm⟩
      · exact Or.inl e1
    · exact Or.inr ⟨kv, List.mem_cons_of_mem _ hkv, e⟩

theorem keysOrdered_head_absent {k : JSString} {ks : List JSString}
    (h : keysOrdered (k :: ks) = true) : k ∉ ks := by
  simp only [keysOrdered, Bool.and_eq_true, List.all_eq_true] at h
  intro hk
  have := h.1 k hk
  simp [keyBefore] at this

theorem keysOrdered_tail {k : JSString} {ks : List JSString}
    (h : keysOrdered (k :: ks) = true) : keysOrdered ks = true := by
  simp only [keysOrdered, Bool.and_eq_true] at h
  exact h.2

/-- A property whose name the truncation leaves alone: the object read from the
truncated text has it, with the truncated value. -/
theorem getProp_truncatedProps {k : JSString} {t : JSVal} (hk : truncatedString k = k)
    (h60 : 60 ∉ k) : ∀ (qs acc : Props), keysOrdered (qs.map (fun kv => kv.1)) = true →
      (k, t) ∈ qs →
      getProp k ((truncatedProps qs).foldl (fun a kv => setProp a kv.1 kv.2) acc)
        = truncated t := by
  intro qs
  induction qs with
  | nil => intro acc _ hm; simp at hm
  | cons q qs ih =>
    intro acc ho hm
    rw [truncatedProps, List.foldl_cons]
    rcases List.mem_cons.1 hm with e | e
    · subst e
      simp only [List.map_cons] at ho
      have habs := keysOrdered_head_absent ho
      rw [getProp_foldl_setProp_absent, hk]
      · exact getProp_setProp_self _ _ _
      · intro kv hkv e
        rw [truncatedProps_eq_map] at hkv
        obtain ⟨kv0, hkv0, rfl⟩ := List.mem_map.1 hkv
        simp only at e
        have := truncatedString_eq e h60
        exact habs (List.mem_map.2 ⟨kv0, hkv0, this⟩)
    · simp only [List.map_cons] at ho
      exact ih _ (keysOrdered_tail ho) e

/-- A name without `<` that the object read from the truncated text has is a name
of the object. -/
theorem hasProp_truncatedProps {k : JSString} (h60 : 60 ∉ k) {qs : Props}
    (h : hasProp k (objectOfMembers (truncatedProps qs)) = true) : hasProp k qs = true := by
  rcases hasProp_foldl_setProp _ _ h with e | ⟨kv, hkv, e⟩
  · simp [hasProp] at e
  · rw [truncatedProps_eq_map] at hkv
    obtain ⟨kv0, hkv0, rfl⟩ := List.mem_map.1 hkv
    simp only at e
    have := truncatedString_eq e h60
    rw [hasProp_iff]
    exact List.mem_map.2 ⟨kv0, hkv0, this⟩

theorem hasJwt_point : ∀ {s : JSString}, hasJwt s = true → 46 ∈ s := by
  intro s
  induction s with
  | nil => intro h; simp [hasJwt] at h
  | cons c t ih =>
    intro h
    simp only [hasJwt, Bool.or_eq_true] at h
    rcases h with h | h
    · cases hm : matchJwt (c :: t) with
      | none => rw [hm] at h; simp at h
      | some pr =>
        obtain ⟨p1, rest⟩ := pr
        obtain ⟨hd, pl, r1, r2, h1, -, -, -⟩ := matchJwt_spec hm
        have := (matchSegment_spec h1).1
        rw [this]
        simp
    · exact List.mem_cons_of_mem _ (ih h)

/-- A name in which every code unit is a letter reads back unchanged from its
truncated text. -/
theorem truncatedString_letters {k : JSString}
    (h : ∀ c ∈ k, (65 ≤ c ∧ c ≤ 90) ∨ (97 ≤ c ∧ c ≤ 122)) : truncatedString k = k := by
  rw [truncatedString_plain (fun c hc => by have := h c hc; omega)]
  apply hasJwt_false_truncateToken
  cases hj : hasJwt k with
  | false => rfl
  | true =>
    have := h 46 (hasJwt_point hj)
    omega

theorem letters_of_lower {k target : JSString} (hk : k.map asciiLower = target)
    (ht : ∀ x ∈ target, 97 ≤ x ∧ x ≤ 122) :
    ∀ c ∈ k, (65 ≤ c ∧ c ≤ 90) ∨ (97 ≤ c ∧ c ≤ 122) := by
  intro c hc
  have : asciiLower c ∈ target := by
    rw [← hk]
    exact List.mem_map_of_mem _ hc
  have := ht _ this
  unfold asciiLower at this
  split at this <;> omega

theorem truncateToken_bearer (h p sig : JSString) (hh : IsSegment h) (hp : IsSegment p)
    (hs : ∀ c ∈ sig, isTokenChar c = true) :
    truncatedString (lit "Bearer " ++ (h ++ 46 :: (p ++ 46 :: sig)))
      = lit "Bearer " ++ (h ++ 46 :: p) ++ lit ".<sig>" := by
  rw [truncatedString_plain]
  · have := truncateToken_embedded (lit "Bearer ") h p sig [] (by decide) hh hp hs
    rw [List.append_nil] at this
    rw [this]
    simp [truncateToken_nil]
  · intro c hc
    simp only [List.mem_append, List.mem_cons] at hc
    rcases hc with hc | hc | hc | hc | hc | hc
    · have : ∀ x ∈ lit "Bearer ", 32 ≤ x ∧ x ≠ 34 ∧ x ≠ 92 ∧ ¬ (55296 ≤ x ∧ x ≤ 57343) := by
        decide
      exact this c hc
    · exact tokenChar_plain (Or.inl (hh.tokenChars c hc))
    · exact tokenChar_plain (Or.inr (Or.inl hc))
    · exact tokenChar_plain (Or.inl (hp.tokenChars c hc))
    · exact tokenChar_plain (Or.inr (Or.inl hc))
    · exact tokenChar_plain (Or.inl (hs c hc))

theorem bearer_token_redacted (k h p sig : JSString)
    (hk : k.map asciiLower = lit "authorization") (hh : IsSegment h) (hp : IsSegment p)
    (hs : ∀ c ∈ sig, isTokenChar c = true) :
    redacted k (.str (lit "Bearer " ++ (h ++ 46 :: (p ++ 46 :: sig))))
      = some (some (.str (lit "Bearer " ++ (h ++ 46 :: (p ++ 46 :: sig))))) := by
  have hj : hasJwt (lit "Bearer " ++ (h ++ 46 :: (p ++ 46 :: sig))) = true := by
    apply hasJwt_append_left
    have := @matchJwt_token h p sig [] hh hp hs
    rw [List.append_nil] at this
    exact hasJwt_of_match this
  have e : lit "Bearer " = 66 :: lit "earer " := by decide
  have e2 : lit "<!DOCTYPE html>" = 60 :: lit "!DOCTYPE html>" := by decide
  apply redacted_str_kept
  · rintro rfl
    exact absurd hk (by decide)
  · simp [authorizationRule, hj]
  · have : matchesSecret k = false := by
      simp only [matchesSecret, containsCI, hk]
      decide
    simp [secretRule, this]
  · rintro rfl
    exact absurd hk (by decide)
  · simp [doctypeRule, e, e2, List.isPrefixOf]

/-- C10, amended: take an object with a `headers` object that has a property named
`authorization`, in any letter case, whose value is `Bearer ` followed by a token
`H.P.S` (`H` and `P` are `eyJ` and at least five characters of the class, `S` is
characters of the class). The serialized and truncated output is JSON text of an
object whose `headers` object keeps that property with the value
`Bearer H.P.<sig>`, the word `Bearer` included, and has no property named `accept`
in any letter case. -/
theorem headers_bearer_token (ps hs : Props) (k h p sig gap : JSString)
    (hwf : wellFormed (.obj ps) = true) (hhs : (lit "headers", .obj hs) ∈ ps)
    (hk : k.map asciiLower = lit "authorization")
    (hmem : (k, .str (lit "Bearer " ++ (h ++ 46 :: (p ++ 46 :: sig)))) ∈ hs)
    (hh : IsSegment h) (hp : IsSegment p) (hsig : ∀ c ∈ sig, isTokenChar c = true)
    (hg : allWs gap = true) :
    ∃ text qs zs, stringify (.obj ps) gap = some (some text)
      ∧ jsonParse (truncateToken text) = some (.obj qs)
      ∧ getProp (lit "headers") qs = .obj zs
      ∧ getProp k zs = .str (lit "Bearer " ++ (h ++ 46 :: p) ++ lit ".<sig>")
      ∧ ∀ name, name.map asciiLower = lit "accept" → hasProp name zs = false := by
  obtain ⟨qs0, h1, d1, d2, hm, -⟩ := object_serialized hwf (replacer_root 0 ps)
  have hwfh : wellFormed (.obj hs) = true := (wellFormed_obj hwf).2 _ hhs
  obtain ⟨zs0, hz1, hz2⟩ := headers_redacted hwfh
  have hin : (lit "headers", JSVal.obj zs0) ∈ qs0 := (hm _ _).2 ⟨_, hhs, hz1⟩
  have hwz : wellFormed (.obj zs0) = true := (wellFormed_obj d2).2 _ hin
  have hrB := bearer_token_redacted k h p sig hk hh hp hsig
  have hinB : (k, JSVal.str (lit "Bearer " ++ (h ++ 46 :: (p ++ 46 :: sig)))) ∈ zs0 :=
    (hz2 _ _).2 ⟨_, _, hmem, by rw [hk]; decide, hrB, hrB⟩
  have hkl := letters_of_lower hk (by decide)
  refine ⟨render gap [] (.obj qs0), objectOfMembers (truncatedProps qs0),
    objectOfMembers (truncatedProps zs0), ?_, ?_, ?_, ?_, ?_⟩
  · rw [stringify_eq, h1]; rfl
  · rw [jsonParse_truncated gap hg _ d1 d2, truncated]
  · have := getProp_truncatedProps (t := .obj zs0)
      (truncatedString_letters (k := lit "headers") (by decide)) (by decide) qs0 []
      (wellFormed_obj d2).1 hin
    rw [truncated] at this
    exact this
  · have := getProp_truncatedProps (t := .str (lit "Bearer " ++ (h ++ 46 :: (p ++ 46 :: sig))))
      (truncatedString_letters hkl) (fun h60 => by have := hkl 60 h60; omega) zs0 []
      (wellFormed_obj hwz).1 hinB
    rw [truncated, truncateToken_bearer h p sig hh hp hsig] at this
    exact this
  · intro name hn
    have hnl := letters_of_lower hn (by decide)
    cases hc : hasProp name (objectOfMembers (truncatedProps zs0)) with
    | false => rfl
    | true =>
      exfalso
      have := hasProp_truncatedProps (fun h60 => by have := hnl 60 h60; omega) hc
      obtain ⟨t2, ht2⟩ := (hasProp_iff_mem _ _).1 this
      obtain ⟨v, t1, -, hu, -, -⟩ := (hz2 _ _).1 ht2
      rw [hn] at hu
      exact absurd hu (by decide)

theorem headers_bearer_token_witness :
    wellFormed (.obj [(lit "headers", .obj
        [(lit "Authorization", .str (lit "Bearer " ++ (lit "eyJhbGciOi" ++ 46 ::
            (lit "eyJzdWIiOi" ++ 46 :: lit "c2ln")))),
          (lit "Accept", .str (lit "text/html")), (lit "x-id", .str (lit "7"))])]) = true
      ∧ (lit "headers", JSVal.obj
          [(lit "Authorization", .str (lit "Bearer " ++ (lit "eyJhbGciOi" ++ 46 ::
              (lit "eyJzdWIiOi" ++ 46 :: lit "c2ln")))),
            (lit "Accept", .str (lit "text/html")), (lit "x-id", .str (lit "7"))])
          ∈ [(lit "headers", JSVal.obj
            [(lit "Authorization", .str (lit "Bearer " ++ (lit "eyJhbGciOi" ++ 46 ::
                (lit "eyJzdWIiOi" ++ 46 :: lit "c2ln")))),
              (lit "Accept", .str (lit "text/html")), (lit "x-id", .str (lit "7"))])]
      ∧ (lit "Authorization").map asciiLower = lit "authorization"
      ∧ (lit "Authorization", JSVal.str (lit "Bearer " ++ (lit "eyJhbGciOi" ++ 46 ::
            (lit "eyJzdWIiOi" ++ 46 :: lit "c2ln"))))
          ∈ [(lit "Authorization", JSVal.str (lit "Bearer " ++ (lit "eyJhbGciOi" ++ 46 ::
              (lit "eyJzdWIiOi" ++ 46 :: lit "c2ln")))),
            (lit "Accept", .str (lit "text/html")), (lit "x-id", .str (lit "7"))]
      ∧ IsSegment (lit "eyJhbGciOi") ∧ IsSegment (lit "eyJzdWIiOi")
      ∧ (∀ c ∈ lit "c2ln", isTokenChar c = true)
      ∧ allWs (lit "  ") = true
      ∧ (∃ text qs zs, stringify (.obj [(lit "headers", .obj
            [(lit "Authorization", .str (lit "Bearer " ++ (lit "eyJhbGciOi" ++ 46 ::
                (lit "eyJzdWIiOi" ++ 46 :: lit "c2ln")))),
              (lit "Accept", .str (lit "text/html")), (lit "x-id", .str (lit "7"))])])
            (lit "  ") = some (some text)
          ∧ jsonParse (truncateToken text) = some (.obj qs)
          ∧ getProp (lit "headers") qs = .obj zs
          ∧ getProp (lit "Authorization") zs
            = .str (lit "Bearer " ++ (lit "eyJhbGciOi" ++ 46 :: lit "eyJzdWIiOi") ++ lit ".<sig>")
          ∧ ∀ name, name.map asciiLower = lit "accept" → hasProp name zs = false)
      ∧ (stringify (.obj [(lit "headers", .obj
            [(lit "Authorization", .str (lit "Bearer " ++ (lit "eyJhbGciOi" ++ 46 ::
                (lit "eyJzdWIiOi" ++ 46 :: lit "c2ln")))),
              (lit "Accept", .str (lit "text/html")), (lit "x-id", .str (lit "7"))])])
            (lit "  ")).map (Option.map truncateToken)
          = some (some (lit ("\x7b\n  \"headers\": \x7b\n    \"Authorization\": "
              ++ "\"Bearer eyJhbGciOi.eyJzdWIiOi.<sig>\",\n    \"x-id\": \"7\"\n  \x7d\n\x7d"))) :=
  ⟨by decide, List.mem_singleton.2 rfl, by decide, List.mem_cons_self _ _,
    ⟨lit "hbGciOi", by decide, by decide, by decide⟩,
    ⟨lit "zdWIiOi", by decide, by decide, by decide⟩, by decide, by decide,
    headers_bearer_token _ _ _ _ _ _ _ (by decide) (List.mem_singleton.2 rfl) (by decide)
      (List.mem_cons_self _ _) ⟨lit "hbGciOi", by decide, by decide, by decide⟩
      ⟨lit "zdWIiOi", by decide, by decide, by decide⟩ (by decide) (by decide),
    by decide⟩

end SecureLogger
